import Mathlib

/-! Multiset lazy shortest-path planner: a shallow embedding.

The development follows `ompl_multiset/src/family_planner.cpp` and
`pr_bgl/include/pr_bgl/lazysp_incsp_dijkstra.h`.

Conventions of the embedding.

* A C++ `double` is an exact rational; a weight that may be `+infinity`
  is a `WithTop ℚ` with `⊤` for `std::numeric_limits<double>::infinity()`.
* A configuration (`ompl::base::State` of a real vector space) is the list
  of its coordinates.
* A tag (`size_t`) is a natural number.
* Vertex descriptors are positions in the vertex list; an edge descriptor
  carries the two end points in the orientation it was obtained with and
  the position of the stored edge.
* Reading a property through a descriptor that is not in the graph is
  undefined in the source; the embedding reads a default value and drops
  the write.
* Bundled properties of a new vertex or edge are value-initialised, as the
  graph library does.
* `FamilyEffortModel`, the roadmap generator, the space and the bisection
  table are collaborators declared outside these files; they enter as
  parameters.  `pr_bgl::overlay_manager`, the edge-indexed graph and
  `pr_bgl::lazy_shortest_path` are modelled from the specification, and
  `boost::dijkstra_shortest_paths` from the library's documentation; each
  such definition says so.
* A loop that need not end takes a bound on its number of rounds; a call
  reports whether it returned, threw, or reached the bound, together with
  the planner as it then stands.
-/

namespace MultisetPlanning

/-! ## Data model -/

/-- A configuration point: the coordinates of a real-vector state. -/
abbrev State := List ℚ

/-- A family-effort tag. -/
abbrev Tag := Nat

/-- The part of `ompl::base::StateSpace` the planner uses. -/
structure Space where
  distance : State → State → ℚ
  interpolate : State → State → ℚ → State
  longest_valid_segment_length : ℚ

/-- The interface of `FamilyEffortModel` as the planner calls it.  The class
itself is declared in `family_effort_model.h`; its four queries are taken as
they are used: `eval_partial tag state` gives the result of the check and the
tag after it (the source mutates the tag in place).  Modelled from the spec:
`si_target` is the space information the model is set for, `none` as long as
no target has been set (the state Idle, "no problem set"). -/
structure FamilyEffortModel where
  si_target : Option Nat
  is_evaled : Tag → Bool
  p_hat : Tag → ℚ
  x_hat : Tag → WithTop ℚ
  eval_partial : Tag → State → Bool × Tag

/-- Bundled vertex properties `VProps`. -/
structure VProps where
  state : State
  subgraph : Int
  is_shadow : Bool
  tag : Tag
deriving DecidableEq, Repr

/-- Bundled edge properties `EProps`. -/
structure EProps where
  index : Nat
  distance : ℚ
  subgraph : Int
  w_lazy : WithTop ℚ
  edge_states : List State
  edge_tags : List Tag
deriving DecidableEq

/-- A value-initialised `VProps`. -/
def VProps.init : VProps := ⟨[], 0, false, 0⟩

/-- A value-initialised `EProps`. -/
def EProps.init : EProps := ⟨0, 0, 0, 0, [], []⟩

instance : Inhabited VProps := ⟨VProps.init⟩

instance : Inhabited EProps := ⟨EProps.init⟩

/-- An edge as the graph stores it. -/
structure StoredEdge where
  src : Nat
  tgt : Nat
  props : EProps
deriving DecidableEq

instance : Inhabited StoredEdge := ⟨⟨0, 0, EProps.init⟩⟩

/-- An edge descriptor: end points as oriented by the call that produced
it, and the position of the stored edge. -/
structure Edge where
  src : Nat
  tgt : Nat
  id : Nat
deriving DecidableEq, Repr

/-- The core roadmap graph `g` (undirected). -/
structure Graph where
  vertices : List VProps
  edges : List StoredEdge
deriving DecidableEq

/-- The bundled properties `g[v]`. -/
def Graph.vprop (g : Graph) (v : Nat) : VProps := g.vertices.getD v VProps.init

/-- The bundled properties `g[e]`. -/
def Graph.eprop (g : Graph) (e : Edge) : EProps :=
  (g.edges.getD e.id ⟨0, 0, EProps.init⟩).props

/-- Assignment to `g[v]`. -/
def Graph.set_vprop (g : Graph) (v : Nat) (p : VProps) : Graph :=
  { g with vertices := g.vertices.set v p }

/-- Assignment to `g[e]`. -/
def Graph.set_eprop (g : Graph) (e : Edge) (p : EProps) : Graph :=
  { g with edges := g.edges.modify (fun se => { se with props := p }) e.id }

/-- The descriptors `edges(g)` in storage order. -/
def Graph.edge_list (g : Graph) : List Edge :=
  (List.range g.edges.length).map (fun i =>
    let se := g.edges.getD i ⟨0, 0, EProps.init⟩
    ⟨se.src, se.tgt, i⟩)

/-- The descriptors `out_edges(v, g)` of the undirected graph: every stored
edge with an end at `v`, oriented away from `v`. -/
def Graph.out_edges (g : Graph) (v : Nat) : List Edge :=
  (List.range g.edges.length).flatMap (fun i =>
    let se := g.edges.getD i ⟨0, 0, EProps.init⟩
    (if se.src = v then [(⟨v, se.tgt, i⟩ : Edge)] else []) ++
    (if se.tgt = v then [(⟨v, se.src, i⟩ : Edge)] else []))

/-- A descriptor that denotes an edge of `g`: both ends are vertices, and
the stored edge at its position joins them, in either orientation. -/
def Graph.has_edge (g : Graph) (e : Edge) : Bool :=
  decide (e.src < g.vertices.length) && decide (e.tgt < g.vertices.length) &&
  match g.edges[e.id]? with
  | some se => (se.src == e.src && se.tgt == e.tgt) || (se.src == e.tgt && se.tgt == e.src)
  | none => false

/-- The descriptor `boost::graph_traits<Graph>::null_vertex()` of a graph
with vector storage: the largest `size_t`. -/
def null_vertex : Nat := 2 ^ 64 - 1

/-- Bundled overlay vertex properties `OverVProps`. -/
structure OverVProps where
  core_vertex : Nat
  state : State
  subgraph : Int
  is_shadow : Bool
  tag : Tag
deriving DecidableEq

/-- Bundled overlay edge properties `OverEProps`; `core_edge = none` is an
empty slot. -/
structure OverEProps where
  core_edge : Option Edge
  distance : ℚ
  subgraph : Int
  w_lazy : WithTop ℚ
  edge_states : List State
  edge_tags : List Tag
deriving DecidableEq

/-- A value-initialised `OverVProps`. -/
def OverVProps.init : OverVProps := ⟨0, [], 0, false, 0⟩

/-- A value-initialised `OverEProps`. -/
def OverEProps.init : OverEProps := ⟨none, 0, 0, 0, [], []⟩

/-- An overlay edge as the overlay graph stores it. -/
structure OverStoredEdge where
  src : Nat
  tgt : Nat
  props : OverEProps
deriving DecidableEq

/-- The overlay graph `og`. -/
structure OverGraph where
  vertices : List OverVProps
  edges : List OverStoredEdge
deriving DecidableEq

/-- The bundled properties `og[v]`. -/
def OverGraph.vprop (og : OverGraph) (v : Nat) : OverVProps :=
  og.vertices.getD v OverVProps.init

/-- The bundled properties `og[e]`, `e` the position of the overlay edge. -/
def OverGraph.eprop (og : OverGraph) (e : Nat) : OverEProps :=
  (og.edges.getD e ⟨0, 0, OverEProps.init⟩).props

/-- Assignment to `og[v]`. -/
def OverGraph.set_vprop (og : OverGraph) (v : Nat) (p : OverVProps) : OverGraph :=
  { og with vertices := og.vertices.set v p }

/-- Assignment to `og[e]`. -/
def OverGraph.set_eprop (og : OverGraph) (e : Nat) (p : OverEProps) : OverGraph :=
  { og with edges := og.edges.modify (fun se => { se with props := p }) e }

/-- The state of `pr_bgl::overlay_manager`. -/
structure OverlayManager where
  is_applied : Bool
  applied_vertices : List Nat
  applied_edges : List Nat
deriving DecidableEq

/-- What a roadmap generator can do to the graph it is handed: insert
through the edge-indexed graph and write through the five property maps
that `generate` receives. -/
inductive GenOp where
  | add_vertex
  | add_edge (u v : Nat)
  | put_state (v : Nat) (s : State)
  | put_distance (e : Edge) (d : ℚ)
  | put_vertex_subgraph (v : Nat) (k : Int)
  | put_edge_subgraph (e : Edge) (k : Int)
  | put_is_shadow (v : Nat) (b : Bool)

/-- The interface `RoadmapGen` as the planner calls it: the batch cap
`num_subgraphs` (0 for no cap) and `generate`, which from the generator's
own progress state, the graph and the number of batches wanted gives the
operations it performs and its next state, or `none` when it throws. -/
structure RoadmapGen (σ : Type) where
  num_subgraphs : Nat
  generate : σ → Graph → Nat → Option (List GenOp × σ)

/-- A problem definition: one start state, a goal state, and the space
information it is posed in. -/
structure ProblemDefinition where
  si : Nat
  start : State
  goal : State

/-- The members of `FamilyPlanner`.  `set_target` is the effort model's
method of that name; `roadmap_gen_state` is the progress the generator
object keeps between calls; `bisect_perm n` is `bisect_perm.get(n)`. -/
structure FamilyPlanner (σ : Type) where
  family_effort_model : FamilyEffortModel
  set_target : FamilyEffortModel → Nat → FamilyEffortModel
  roadmap_gen : RoadmapGen σ
  roadmap_gen_state : σ
  space : Space
  check_radius : ℚ
  bisect_perm : Nat → List (Int × Int)
  g : Graph
  og : OverGraph
  overlay_manager : OverlayManager
  ov_start : Nat
  ov_goal : Nat
  num_subgraphs : Nat
  coeff_checkcost : ℚ
  coeff_distance : ℚ
  coeff_subgraph : ℚ

/-! ## Edge weights -/

variable {σ : Type}

/-- The value of `ui` after the first loop of `calculate_w_lazy`: the first
position of `edge_tags` whose `x_hat` is infinite, or the length. -/
def first_inf (fem : FamilyEffortModel) (edge_tags : List Tag) : Nat :=
  edge_tags.findIdx (fun t => decide (fem.x_hat t = ⊤))

/-- The finite branch of `calculate_w_lazy`: the accumulation in source
order. -/
def w_lazy_sum (p : FamilyPlanner σ) (e : Edge) : ℚ :=
  let w0 : ℚ := 0
  let w1 := w0 + p.coeff_distance * (p.g.eprop e).distance
  let w2 := w1 + p.coeff_subgraph * (p.g.eprop e).distance * (p.g.eprop e).subgraph
  let w3 := (p.g.eprop e).edge_tags.foldl
    (fun w t => w + p.coeff_checkcost * p.family_effort_model.p_hat t) w2
  let w4 := w3 + (1/2) * p.coeff_checkcost * p.family_effort_model.p_hat (p.g.vprop e.src).tag
  w4 + (1/2) * p.coeff_checkcost * p.family_effort_model.p_hat (p.g.vprop e.tgt).tag

/-- The value `calculate_w_lazy` stores in `g[e].w_lazy`. -/
def w_lazy_value (p : FamilyPlanner σ) (e : Edge) : WithTop ℚ :=
  if first_inf p.family_effort_model (p.g.eprop e).edge_tags < (p.g.eprop e).edge_states.length
      ∨ p.family_effort_model.x_hat (p.g.vprop e.src).tag = ⊤
      ∨ p.family_effort_model.x_hat (p.g.vprop e.tgt).tag = ⊤ then
    ⊤
  else
    ((w_lazy_sum p e : ℚ) : WithTop ℚ)

/-- `FamilyPlanner::calculate_w_lazy`. -/
def calculate_w_lazy (p : FamilyPlanner σ) (e : Edge) : FamilyPlanner σ :=
  { p with g := p.g.set_eprop e { p.g.eprop e with w_lazy := w_lazy_value p e } }

/-- `FamilyPlanner::isevaledmap_get`. -/
def isevaledmap_get (p : FamilyPlanner σ) (e : Edge) : Bool :=
  (p.g.eprop e).edge_tags.all (fun t => p.family_effort_model.is_evaled t)

/-! ## What the weight of an edge is computed from -/

/-- The graph with every `w_lazy` zeroed: what `calculate_w_lazy` reads of
the graph and never writes. -/
def Graph.forget_w (g : Graph) : Graph :=
  { g with edges := g.edges.map (fun se => { se with props := { se.props with w_lazy := 0 } }) }

/-- The planner with every `w_lazy` of the core graph zeroed. -/
def unweighted (p : FamilyPlanner σ) : FamilyPlanner σ :=
  { p with g := p.g.forget_w }

/-! ## The evaluator `wmap_get` -/

/-- One call of `eval_partial` as `wmap_get` makes it: the tag value it is
called on, the state, and what it returned. -/
structure EvalCall where
  tag : Tag
  state : State
  result : Bool
deriving DecidableEq

/-- One guarded check
`if (!is_evaled(tag)) { success = eval_partial(tag, state); if (!success) break; }`:
the tag afterwards, the calls made, and whether control goes on (no
`break`). -/
def check_tag (fem : FamilyEffortModel) (tag : Tag) (st : State) :
    Tag × List EvalCall × Bool :=
  if fem.is_evaled tag then (tag, [], true)
  else (( fem.eval_partial tag st).2, [⟨tag, st, ( fem.eval_partial tag st).1⟩],
    ( fem.eval_partial tag st).1)

/-- The loop of `wmap_get` over the interior tags, from position `ui` on:
the tags afterwards, the calls made, and whether the loop ran to its end. -/
def check_edge_tags (fem : FamilyEffortModel) (edge_states : List State) :
    Nat → List Tag → List Tag × List EvalCall × Bool
  | _, [] => ([], [], true)
  | ui, t :: ts =>
    let r := check_tag fem t (edge_states.getD ui [])
    if r.2.2 then
      let rest := check_edge_tags fem edge_states (ui + 1) ts
      (r.1 :: rest.1, r.2.1 ++ rest.2.1, rest.2.2)
    else
      (r.1 :: ts, r.2.1, false)

/-- The guarded check of the tag of vertex `v`, by reference into `g[v]`:
the graph afterwards, the calls made, and whether control goes on. -/
def check_vertex (fem : FamilyEffortModel) (g : Graph) (v : Nat) :
    Graph × List EvalCall × Bool :=
  let r := check_tag fem (g.vprop v).tag (g.vprop v).state
  (g.set_vprop v { g.vprop v with tag := r.1 }, r.2.1, r.2.2)

/-- The loop over the interior tags of `e`, by reference into
`g[e].edge_tags`: the graph afterwards, the calls made, and whether the
loop ran to its end. -/
def check_interior (fem : FamilyEffortModel) (g : Graph) (e : Edge) :
    Graph × List EvalCall × Bool :=
  let r := check_edge_tags fem (g.eprop e).edge_states 0 (g.eprop e).edge_tags
  (g.set_eprop e { g.eprop e with edge_tags := r.1 }, r.2.1, r.2.2)

/-- The `do { ... } while (0)` block of `wmap_get` on the graph: source,
then target, then the interior points; a failed check leaves the block. -/
def check_edge (fem : FamilyEffortModel) (g : Graph) (e : Edge) : Graph × List EvalCall :=
  let a := check_vertex fem g e.src
  if a.2.2 = false then (a.1, a.2.1)
  else
    let b := check_vertex fem a.1 e.tgt
    if b.2.2 = false then (b.1, a.2.1 ++ b.2.1)
    else
      let c := check_interior fem b.1 e
      (c.1, a.2.1 ++ b.2.1 ++ c.2.1)

/-- The `do { ... } while (0)` block of `wmap_get`: the planner afterwards
and the calls of `eval_partial` in the order made. -/
def wmap_get_checks (p : FamilyPlanner σ) (e : Edge) : FamilyPlanner σ × List EvalCall :=
  ({ p with g := (check_edge p.family_effort_model p.g e).1 },
    (check_edge p.family_effort_model p.g e).2)

/-- The tail of `wmap_get`: `calculate_w_lazy` on the edge, then on the
out-edges of its source, then on the out-edges of its target. -/
def wmap_get_recalc (p : FamilyPlanner σ) (e : Edge) : FamilyPlanner σ :=
  let p1 := calculate_w_lazy p e
  let p2 := (p1.g.out_edges e.src).foldl calculate_w_lazy p1
  (p2.g.out_edges e.tgt).foldl calculate_w_lazy p2

/-- `FamilyPlanner::wmap_get`: the returned weight, the planner afterwards,
and the calls of `eval_partial` it made. -/
def wmap_get (p : FamilyPlanner σ) (e : Edge) : WithTop ℚ × FamilyPlanner σ × List EvalCall :=
  let c := wmap_get_checks p e
  let q := wmap_get_recalc c.1 e
  ((q.g.eprop e).w_lazy, q, c.2)

/-! ## Interior points of an edge -/

/-! ### Double arithmetic

A `double` is taken as the rational it stands for.  Where the source floors
a quotient the rounding of the division matters, so the quotient is rounded
as the machine rounds it: to the nearest double, a tie going to the even
significand (IEEE 754 binary64; overflow to infinity is not represented). -/

/-- The power `2^k` for an integer exponent. -/
def pow2 (k : ℤ) : ℚ :=
  if 0 ≤ k then (2 : ℚ) ^ k.toNat else 1 / (2 : ℚ) ^ (-k).toNat

/-- The position of the leading binary digit of `n`, by halving at most
`fuel` times. -/
def leading_bit : Nat → Nat → Nat
  | 0, _ => 0
  | fuel + 1, n => if n < 2 then 0 else leading_bit fuel (n / 2) + 1

/-- The binary exponent of a rational `x ≠ 0`: the `e` with
`2^e ≤ |x| < 2^(e+1)`. -/
def binade (x : ℚ) : ℤ :=
  if pow2 ((leading_bit x.num.natAbs x.num.natAbs : ℤ) - (leading_bit x.den x.den : ℤ)) ≤ |x| then
    (leading_bit x.num.natAbs x.num.natAbs : ℤ) - (leading_bit x.den x.den : ℤ)
  else (leading_bit x.num.natAbs x.num.natAbs : ℤ) - (leading_bit x.den x.den : ℤ) - 1

/-- Rounding to the nearest integer, a tie going to the even one. -/
def round_half_even (y : ℚ) : ℤ :=
  if y - ⌊y⌋ < 1/2 then ⌊y⌋
  else if 1/2 < y - ⌊y⌋ then ⌊y⌋ + 1
  else if ⌊y⌋ % 2 = 0 then ⌊y⌋ else ⌊y⌋ + 1

/-- The spacing of the doubles around `x`: `2^(e-52)` in the binade `e` of
`x`, and `2^(-1074)` below the normal range. -/
def ulp (x : ℚ) : ℚ := pow2 (max (binade x) (-1022) - 52)

/-- The double nearest to the real `x`, a tie going to the even
significand: the result of a double operation whose exact result is `x`. -/
def round_double (x : ℚ) : ℚ := (round_half_even (x / ulp x) : ℚ) * ulp x

/-- The rational `x` is the value of a double: a multiple of the spacing
of the doubles around it. -/
def is_double (x : ℚ) : Prop := (x / ulp x).den = 1

instance is_double_decidable (x : ℚ) : Decidable (is_double x) :=
  inferInstanceAs (Decidable ((x / ulp x).den = 1))

/-- The number of interior points:
`unsigned int n = floor(e_distance/(2.0*check_radius))`.  The product by 2.0
is exact; the quotient is the exact quotient rounded to a double; the
conversion of the floor to `unsigned int`, which the language defines only
for a value below `2^32`, is taken modulo `2^32`. -/
def num_interior (p : FamilyPlanner σ) (e_distance : ℚ) : Nat :=
  Int.toNat ⌊round_double (e_distance / (2 * p.check_radius))⌋ % 2 ^ 32

/-- The interpolation parameter of interior state `ui`:
`1.0*(1+order[ui].first)/(n+1)`. -/
def interior_param (order : List (Int × Int)) (n ui : Nat) : ℚ :=
  1 * (((1 + (order.getD ui (0, 0)).1 : Int) : ℚ)) / (((n + 1 : Nat)) : ℚ)

/-- `FamilyPlanner::edge_init_points`: the contents of `edge_states`
afterwards. -/
def edge_init_points (p : FamilyPlanner σ) (va_state vb_state : State) (e_distance : ℚ) :
    List State :=
  let n := num_interior p e_distance
  let order := p.bisect_perm n
  (List.range n).map (fun ui =>
    p.space.interpolate va_state vb_state (interior_param order n ui))

/-! ## Insertion and removal -/

/-- `add_vertex(g)`: a vertex with value-initialised properties at the end
of the vertex list; its descriptor is its position. -/
def Graph.add_vertex (g : Graph) : Graph × Nat :=
  ({ g with vertices := g.vertices ++ [VProps.init] }, g.vertices.length)

/-- Modelled from the spec: `add_edge(u, v, eig)` of the edge-indexed graph
(`pr_bgl/edge_indexed_graph.h`), which inserts an edge with value-initialised
properties and gives it a fresh index, the insertion id: the number of
edges before it. -/
def Graph.add_edge (g : Graph) (u v : Nat) : Graph × Edge :=
  ({ g with edges := g.edges ++ [⟨u, v, { EProps.init with index := g.edges.length }⟩] },
    ⟨u, v, g.edges.length⟩)

/-- `remove_edge(e, g)`. -/
def Graph.remove_edge (g : Graph) (e : Edge) : Graph :=
  { g with edges := g.edges.eraseIdx e.id }

/-- `remove_vertex(v, g)`. -/
def Graph.remove_vertex (g : Graph) (v : Nat) : Graph :=
  { g with vertices := g.vertices.eraseIdx v }

/-- `add_vertex(og)` where the bundled properties of a new overlay vertex
start out as `fresh`. -/
def OverGraph.add_vertex_from (fresh : OverVProps) (og : OverGraph) : OverGraph × Nat :=
  ({ og with vertices := og.vertices ++ [fresh] }, og.vertices.length)

/-- `add_vertex(og)`: the new vertex is value-initialised. -/
def OverGraph.add_vertex (og : OverGraph) : OverGraph × Nat :=
  OverGraph.add_vertex_from OverVProps.init og

/-- `add_edge(u, v, og)`; the descriptor is the position of the edge. -/
def OverGraph.add_edge (og : OverGraph) (u v : Nat) : OverGraph × Nat :=
  ({ og with edges := og.edges ++ [⟨u, v, OverEProps.init⟩] }, og.edges.length)

/-- `std::vector::resize(n, v)`. -/
def resize (l : List Tag) (n : Nat) (v : Tag) : List Tag :=
  l.take n ++ List.replicate (n - l.length) v

/-! ## Roadmap generation -/

/-- One operation of a generator on the core graph. -/
def apply_gen_op (g : Graph) : GenOp → Graph
  | .add_vertex => g.add_vertex.1
  | .add_edge u v => (g.add_edge u v).1
  | .put_state v s => g.set_vprop v { g.vprop v with state := s }
  | .put_distance e d => g.set_eprop e { g.eprop e with distance := d }
  | .put_vertex_subgraph v k => g.set_vprop v { g.vprop v with subgraph := k }
  | .put_edge_subgraph e k => g.set_eprop e { g.eprop e with subgraph := k }
  | .put_is_shadow v b => g.set_vprop v { g.vprop v with is_shadow := b }

/-- The body of the loops `for (ei in edges(g))` that initialise an edge:
`edge_init_points` between the states of its two ends, then
`edge_tags.resize(edge_states.size(), 0)`. -/
def init_edge (p : FamilyPlanner σ) (e : Edge) : FamilyPlanner σ :=
  { p with
    g := p.g.set_eprop e
      { p.g.eprop e with
        edge_states := edge_init_points p (p.g.vprop e.src).state (p.g.vprop e.tgt).state
          (p.g.eprop e).distance
        edge_tags := resize (p.g.eprop e).edge_tags
          (edge_init_points p (p.g.vprop e.src).state (p.g.vprop e.tgt).state
            (p.g.eprop e).distance).length 0 } }

/-- The arguments of the constructor of `FamilyPlanner`, with the
collaborators the planner object keeps. -/
structure Config (σ : Type) where
  family_effort_model : FamilyEffortModel
  set_target : FamilyEffortModel → Nat → FamilyEffortModel
  roadmap_gen : RoadmapGen σ
  roadmap_gen_state : σ
  space : Space
  bisect_perm : Nat → List (Int × Int)
  num_subgraphs : Nat

/-- The planner at the end of the member initialiser list: empty graphs,
`check_radius = 0.5 * longest valid segment length`, coefficients 0, 1, 0.
The effort model is built from the family there and has no target yet. -/
def FamilyPlanner.blank (c : Config σ) : FamilyPlanner σ where
  family_effort_model := { c.family_effort_model with si_target := none }
  set_target := c.set_target
  roadmap_gen := c.roadmap_gen
  roadmap_gen_state := c.roadmap_gen_state
  space := c.space
  check_radius := (1/2) * c.space.longest_valid_segment_length
  bisect_perm := c.bisect_perm
  g := ⟨[], []⟩
  og := ⟨[], []⟩
  overlay_manager := ⟨false, [], []⟩
  ov_start := 0
  ov_goal := 0
  num_subgraphs := c.num_subgraphs
  coeff_checkcost := 0
  coeff_distance := 1
  coeff_subgraph := 0

/-- `FamilyPlanner::FamilyPlanner`: generate `num_subgraphs` batches into
the core graph, then initialise every edge; `none` when `generate` throws. -/
def FamilyPlanner.construct (c : Config σ) : Option (FamilyPlanner σ) :=
  match c.roadmap_gen.generate c.roadmap_gen_state (FamilyPlanner.blank c).g c.num_subgraphs with
  | none => none
  | some (ops, st) =>
    let p : FamilyPlanner σ :=
      { FamilyPlanner.blank c with
        g := ops.foldl apply_gen_op (FamilyPlanner.blank c).g
        roadmap_gen_state := st }
    some (p.g.edge_list.foldl init_edge p)

/-! ## The overlay -/

/-- Modelled from the spec: the first loop of `overlay_manager::apply()`
(`pr_bgl/overlay_manager.h`) at overlay vertex `vo`: when its `core_vertex`
is null, insert a new core vertex, store its id into `core_vertex` and
record `vo` as applied. -/
def apply_vertex (s : Graph × OverGraph × OverlayManager) (vo : Nat) :
    Graph × OverGraph × OverlayManager :=
  if (s.2.1.vprop vo).core_vertex = null_vertex then
    (s.1.add_vertex.1,
      s.2.1.set_vprop vo { s.2.1.vprop vo with core_vertex := s.1.add_vertex.2 },
      { s.2.2 with applied_vertices := s.2.2.applied_vertices ++ [vo] })
  else s

/-- Modelled from the spec: the second loop of `overlay_manager::apply()`
at overlay edge `eo`: insert a core edge between the core vertices of its
two ends (an anchor resolves to its pre-existing `core_vertex`), with a
fresh edge index, store it into `core_edge` and record `eo` as applied. -/
def apply_edge (s : Graph × OverGraph × OverlayManager) (eo : Nat) :
    Graph × OverGraph × OverlayManager :=
  let se := s.2.1.edges.getD eo ⟨0, 0, OverEProps.init⟩
  let r := s.1.add_edge (s.2.1.vprop se.src).core_vertex (s.2.1.vprop se.tgt).core_vertex
  (r.1, s.2.1.set_eprop eo { s.2.1.eprop eo with core_edge := some r.2 },
    { s.2.2 with applied_edges := s.2.2.applied_edges ++ [eo] })

/-- Modelled from the spec: `overlay_manager::apply()`, the structural part
of applying the overlay (the properties are copied by
`FamilyPlanner::overlay_apply`); it flips `is_applied`. -/
def OverlayManager.apply (g : Graph) (og : OverGraph) (m : OverlayManager) :
    Graph × OverGraph × OverlayManager :=
  let s1 := (List.range og.vertices.length).foldl apply_vertex (g, og, m)
  let s2 := (List.range og.edges.length).foldl apply_edge s1
  (s2.1, s2.2.1, { s2.2.2 with is_applied := true })

/-- Modelled from the spec: removal of the core edge of applied overlay
edge `eo` in `overlay_manager::unapply()`, clearing its `core_edge` slot. -/
def unapply_edge (s : Graph × OverGraph) (eo : Nat) : Graph × OverGraph :=
  (s.1.remove_edge ((s.2.eprop eo).core_edge.getD ⟨0, 0, 0⟩),
    s.2.set_eprop eo { s.2.eprop eo with core_edge := none })

/-- Modelled from the spec: removal of the core vertex of applied overlay
vertex `vo` in `overlay_manager::unapply()`, clearing its `core_vertex`
slot. -/
def unapply_vertex (s : Graph × OverGraph) (vo : Nat) : Graph × OverGraph :=
  (s.1.remove_vertex (s.2.vprop vo).core_vertex,
    s.2.set_vprop vo { s.2.vprop vo with core_vertex := null_vertex })

/-- Modelled from the spec: `overlay_manager::unapply()`: remove the
inserted core edges, then the inserted core vertices, each in the reverse of
the order of insertion; it flips `is_applied`. -/
def OverlayManager.unapply (g : Graph) (og : OverGraph) (m : OverlayManager) :
    Graph × OverGraph × OverlayManager :=
  let s1 := m.applied_edges.reverse.foldl unapply_edge (g, og)
  let s2 := m.applied_vertices.reverse.foldl unapply_vertex s1
  (s2.1, s2.2, ⟨false, [], []⟩)

/-- The body of the first loop of `overlay_apply`: copy state, subgraph,
is_shadow and tag of applied overlay vertex `vover` to its core vertex. -/
def copy_vertex_to_core (p : FamilyPlanner σ) (vover : Nat) : FamilyPlanner σ :=
  { p with
    g := p.g.set_vprop (p.og.vprop vover).core_vertex
      ⟨(p.og.vprop vover).state, (p.og.vprop vover).subgraph, (p.og.vprop vover).is_shadow,
        (p.og.vprop vover).tag⟩ }

/-- The body of the second loop of `overlay_apply`: copy distance, subgraph,
edge_states and edge_tags of applied overlay edge `eover` to its core edge,
then `calculate_w_lazy` on it. -/
def copy_edge_to_core (p : FamilyPlanner σ) (eover : Nat) : FamilyPlanner σ :=
  let ecore := (p.og.eprop eover).core_edge.getD ⟨0, 0, 0⟩
  calculate_w_lazy
    { p with
      g := p.g.set_eprop ecore
        { p.g.eprop ecore with
          distance := (p.og.eprop eover).distance
          subgraph := (p.og.eprop eover).subgraph
          edge_states := (p.og.eprop eover).edge_states
          edge_tags := (p.og.eprop eover).edge_tags } }
    ecore

/-- `FamilyPlanner::overlay_apply`. -/
def overlay_apply (p : FamilyPlanner σ) : FamilyPlanner σ :=
  if p.overlay_manager.is_applied then p
  else
    let s := p.overlay_manager.apply p.g p.og
    let p1 : FamilyPlanner σ := { p with g := s.1, og := s.2.1, overlay_manager := s.2.2 }
    let p2 := p1.overlay_manager.applied_vertices.foldl copy_vertex_to_core p1
    p2.overlay_manager.applied_edges.foldl copy_edge_to_core p2

/-- The body of the first loop of `overlay_unapply`: copy state, subgraph,
is_shadow and tag of the core vertex back to overlay vertex `vover`. -/
def copy_vertex_to_overlay (p : FamilyPlanner σ) (vover : Nat) : FamilyPlanner σ :=
  let vcore := (p.og.vprop vover).core_vertex
  { p with
    og := p.og.set_vprop vover
      { p.og.vprop vover with
        state := (p.g.vprop vcore).state
        subgraph := (p.g.vprop vcore).subgraph
        is_shadow := (p.g.vprop vcore).is_shadow
        tag := (p.g.vprop vcore).tag } }

/-- The body of the second loop of `overlay_unapply`: copy distance,
subgraph, edge_states and edge_tags of the core edge back to overlay edge
`eover`. -/
def copy_edge_to_overlay (p : FamilyPlanner σ) (eover : Nat) : FamilyPlanner σ :=
  let ecore := (p.og.eprop eover).core_edge.getD ⟨0, 0, 0⟩
  { p with
    og := p.og.set_eprop eover
      { p.og.eprop eover with
        distance := (p.g.eprop ecore).distance
        subgraph := (p.g.eprop ecore).subgraph
        edge_states := (p.g.eprop ecore).edge_states
        edge_tags := (p.g.eprop ecore).edge_tags } }

/-- `FamilyPlanner::overlay_unapply`. -/
def overlay_unapply (p : FamilyPlanner σ) : FamilyPlanner σ :=
  if p.overlay_manager.is_applied = false then p
  else
    let p1 := p.overlay_manager.applied_vertices.foldl copy_vertex_to_overlay p
    let p2 := p1.overlay_manager.applied_edges.foldl copy_edge_to_overlay p1
    let s := p2.overlay_manager.unapply p2.g p2.og
    { p2 with g := s.1, og := s.2.1, overlay_manager := s.2.2 }

/-! ## setProblemDefinition -/

/-- The anchor radius written into `setProblemDefinition`. -/
def anchor_radius : ℚ := 12 / 100

/-- The body of the inner loop of `setProblemDefinition` for root `root`
and core vertex `vi`: when the core vertex is within the anchor radius, add
an anchor overlay vertex for it and an overlay edge from the root to the
anchor with the distance, subgraph 0, the interior points and as many zero
tags.  A new overlay vertex starts out as `fresh`. -/
def connect_anchor_from (fresh : OverVProps) (root : Nat) (p : FamilyPlanner σ) (vi : Nat) :
    FamilyPlanner σ :=
  let dist := p.space.distance (p.og.vprop root).state (p.g.vprop vi).state
  if anchor_radius < dist then p
  else
    let a := OverGraph.add_vertex_from fresh p.og
    let og1 := a.1.set_vprop a.2 { a.1.vprop a.2 with core_vertex := vi }
    let b := og1.add_edge root a.2
    let states := edge_init_points p (og1.vprop root).state (p.g.vprop vi).state dist
    let og2 := b.1.set_eprop b.2
      { b.1.eprop b.2 with
        distance := dist
        subgraph := 0
        edge_states := states
        edge_tags := resize (b.1.eprop b.2).edge_tags states.length 0 }
    { p with og := og2 }

/-- The body of the inner loop of `setProblemDefinition`, a new overlay
vertex being value-initialised. -/
def connect_anchor (root : Nat) (p : FamilyPlanner σ) (vi : Nat) : FamilyPlanner σ :=
  connect_anchor_from OverVProps.init root p vi

/-- The loop of `setProblemDefinition` over the core vertices for one
root. -/
def connect_root_from (fresh : OverVProps) (p : FamilyPlanner σ) (root : Nat) :
    FamilyPlanner σ :=
  (List.range p.g.vertices.length).foldl (connect_anchor_from fresh root) p

/-- The loop of `setProblemDefinition` over the core vertices for one
root, a new overlay vertex being value-initialised. -/
def connect_root (p : FamilyPlanner σ) (root : Nat) : FamilyPlanner σ :=
  connect_root_from OverVProps.init p root

/-- The first step of `setProblemDefinition`: when the space information
of the problem is not the effort model's target, retarget the model and
recompute every `w_lazy`. -/
def retarget (p : FamilyPlanner σ) (pdef : ProblemDefinition) : FamilyPlanner σ :=
  if some pdef.si ≠ p.family_effort_model.si_target then
    let p1 := { p with family_effort_model := p.set_target p.family_effort_model pdef.si }
    p1.g.edge_list.foldl calculate_w_lazy p1
  else p

/-- The overlay graph after the two roots are added: `og.clear()`, the
start root, the goal root; the second root's tag is not assigned (the
source assigns `og[ov_start].tag` a second time).  A new overlay vertex
starts out as `fresh`. -/
def add_roots_from (fresh : OverVProps) (p : FamilyPlanner σ) (pdef : ProblemDefinition) :
    FamilyPlanner σ :=
  let og0 : OverGraph := ⟨[], []⟩
  let s := OverGraph.add_vertex_from fresh og0
  let og1 := s.1.set_vprop s.2
    { s.1.vprop s.2 with
      core_vertex := null_vertex
      state := pdef.start
      subgraph := 0
      is_shadow := false
      tag := 0 }
  let t := OverGraph.add_vertex_from fresh og1
  let og2 := t.1.set_vprop t.2
    { t.1.vprop t.2 with
      core_vertex := null_vertex
      state := pdef.goal
      subgraph := 0
      is_shadow := false }
  let og3 := og2.set_vprop s.2 { og2.vprop s.2 with tag := 0 }
  { p with og := og3, ov_start := s.2, ov_goal := t.2 }

/-- The overlay graph after the two roots are added, a new overlay vertex
being value-initialised. -/
def add_roots (p : FamilyPlanner σ) (pdef : ProblemDefinition) : FamilyPlanner σ :=
  add_roots_from OverVProps.init p pdef

/-- `FamilyPlanner::setProblemDefinition` up to the final `overlay_apply()`:
the planner at the moment the overlay is applied.  A new overlay vertex
starts out as `fresh`. -/
def populate_overlay_from (fresh : OverVProps) (p : FamilyPlanner σ)
    (pdef : ProblemDefinition) : FamilyPlanner σ :=
  let p1 := retarget p pdef
  let p2 := overlay_unapply p1
  let p3 := add_roots_from fresh p2 pdef
  [p3.ov_start, p3.ov_goal].foldl (connect_root_from fresh) p3

/-- `FamilyPlanner::setProblemDefinition` where a new overlay vertex starts
out as `fresh`. -/
def setProblemDefinition_from (fresh : OverVProps) (p : FamilyPlanner σ)
    (pdef : ProblemDefinition) : FamilyPlanner σ :=
  overlay_apply (populate_overlay_from fresh p pdef)

/-- `FamilyPlanner::setProblemDefinition`, a new overlay vertex being
value-initialised as the graph library does. -/
def setProblemDefinition (p : FamilyPlanner σ) (pdef : ProblemDefinition) : FamilyPlanner σ :=
  setProblemDefinition_from OverVProps.init p pdef

/-! ## The inner shortest-path search -/

/-- The working state of `boost::dijkstra_shortest_paths`: the two maps
that `lazysp_incsp_dijkstra` holds, and the colour of each vertex
(0 undiscovered, 1 in the queue, 2 finished). -/
structure DijkstraState where
  predecessor_map : List Nat
  distance_map : List (WithTop ℚ)
  color : List Nat
deriving DecidableEq

/-- The queued vertex of least distance, the lower vertex index first among
equals; `none` when the queue is empty. -/
def DijkstraState.top (s : DijkstraState) : Option Nat :=
  (List.range s.color.length).foldl
    (fun best v =>
      if s.color.getD v 0 = 1 then
        match best with
        | none => some v
        | some b => if s.distance_map.getD v ⊤ < s.distance_map.getD b ⊤ then some v else some b
      else best)
    none

/-- The library's treatment of one out-edge of the vertex being examined,
with weights read from `w_lazy`: a negative weight throws (`none`); a target
not yet finished is relaxed, and an undiscovered target is queued. -/
def relax_edge (g : Graph) (s : DijkstraState) (e : Edge) : Option DijkstraState :=
  if (g.eprop e).w_lazy < 0 then none
  else if s.color.getD e.tgt 0 = 2 then some s
  else
    let s1 : DijkstraState :=
      if s.distance_map.getD e.src ⊤ + (g.eprop e).w_lazy < s.distance_map.getD e.tgt ⊤ then
        { s with
          distance_map := s.distance_map.set e.tgt (s.distance_map.getD e.src ⊤ + (g.eprop e).w_lazy)
          predecessor_map := s.predecessor_map.set e.tgt e.src }
      else s
    some { s1 with color := s1.color.set e.tgt 1 }

/-- The main loop of the library search with the `throw_visitor`: take the
queued vertex of least distance; examining the goal throws and ends the
search; otherwise treat its out-edges and finish it. -/
def dijkstra_loop (g : Graph) (v_goal : Nat) : Nat → DijkstraState → Option DijkstraState
  | 0, s => some s
  | fuel + 1, s =>
    match s.top with
    | none => some s
    | some u =>
      if u = v_goal then some s
      else
        match (g.out_edges u).foldlM (relax_edge g) s with
        | none => none
        | some s1 => dijkstra_loop g v_goal fuel { s1 with color := s1.color.set u 2 }

/-- The call `boost::dijkstra_shortest_paths(g, v_start, ..., throw_visitor(v_goal))`
inside the `try` block of `lazysp_incsp_dijkstra::solve`, by the library's
documented behaviour: every distance starts at `inf` and every predecessor at
the vertex itself, the start has distance zero; `none` when the library
throws for a negative weight.  Each round finishes one vertex, so one round
per vertex is enough. -/
def dijkstra_shortest_paths (g : Graph) (v_start v_goal : Nat) : Option DijkstraState :=
  dijkstra_loop g v_goal g.vertices.length
    { predecessor_map := List.range g.vertices.length
      distance_map := (List.replicate g.vertices.length (⊤ : WithTop ℚ)).set v_start 0
      color := (List.replicate g.vertices.length 0).set v_start 1 }

/-- `edge(u, v, g)`: the first out-edge of `u` that ends at `v`. -/
def Graph.edge (g : Graph) (u v : Nat) : Option Edge :=
  (g.out_edges u).find? (fun e => decide (e.tgt = v))

/-- How a call ends. -/
inductive Outcome (α : Type) where
  | returned (a : α)
  | threw
  | out_of_fuel
deriving DecidableEq

/-- The loop `for (v_walk = v_goal; v_walk != v_start;)` of
`lazysp_incsp_dijkstra::solve`: the edges pushed, last pushed first in the
list; `threw` when `BOOST_ASSERT(ret.second)` fails. -/
def walk_predecessors (g : Graph) (predecessor_map : List Nat) (v_start : Nat) :
    Nat → Nat → List Edge → Outcome (List Edge)
  | 0, _, _ => .out_of_fuel
  | fuel + 1, v_walk, path =>
    if v_walk = v_start then .returned path
    else
      match g.edge (predecessor_map.getD v_walk 0) v_walk with
      | none => .threw
      | some e =>
        walk_predecessors g predecessor_map v_start fuel (predecessor_map.getD v_walk 0)
          (e :: path)

/-- `lazysp_incsp_dijkstra::solve`: the returned weight and the contents of
`path` afterwards.  When the goal's distance is `inf` the path is left as it
was passed in.  The walk gets one step per vertex and one more. -/
def lazysp_incsp_dijkstra.solve (g : Graph) (v_start v_goal : Nat) (path : List Edge) :
    Outcome (WithTop ℚ × List Edge) :=
  match dijkstra_shortest_paths g v_start v_goal with
  | none => .threw
  | some s =>
    if s.distance_map.getD v_goal ⊤ = ⊤ then .returned (⊤, path)
    else
      match walk_predecessors g s.predecessor_map v_start (g.vertices.length + 1) v_goal [] with
      | .returned rev_path => .returned (s.distance_map.getD v_goal ⊤, rev_path)
      | .threw => .threw
      | .out_of_fuel => .out_of_fuel

/-! ## Lazy shortest path -/

/-- Modelled from the spec: the selector policy `ALT` (`pr_bgl::LazySpEvalAlt`,
`pr_bgl/lazysp.h`): of the edges of the path that are not fully evaluated,
the one closest to the midpoint of the path, the smaller index from the
source winning a tie.  Position `i` of a path of `k` edges is at distance
`|2i + 1 - k|` from the midpoint. -/
def LazySpEvalAlt (is_evaled : Edge → Bool) (path : List Edge) : Option Edge :=
  ((List.range path.length).foldl
    (fun (best : Option Nat) i =>
      if is_evaled (path.getD i ⟨0, 0, 0⟩) then best
      else
        match best with
        | none => some i
        | some b =>
          if Int.natAbs (2 * (i : ℤ) + 1 - path.length) < Int.natAbs (2 * (b : ℤ) + 1 - path.length)
          then some i else some b)
    none).map (fun i => path.getD i ⟨0, 0, 0⟩)

/-- What `lazy_shortest_path` and `solve` leave behind: how the call ended,
the planner, and the edge path `epath`. -/
structure SearchResult (σ : Type) (α : Type) where
  outcome : Outcome α
  planner : FamilyPlanner σ
  epath : List Edge

/-- Modelled from the spec: `pr_bgl::lazy_shortest_path` (`pr_bgl/lazysp.h`)
as the planner calls it, with `lazysp_incsp_dijkstra` as inner search, `w_lazy`
as lazy weight map, `isevaledmap_get` as the fully-evaluated predicate and
`wmap_get` as the evaluator.  Repeat: run the inner search and fail when the
goal's distance is infinite; take the candidate path; return it when all its
edges are fully evaluated; otherwise select one edge that is not, evaluate
it, and go on.  `fuel` bounds the number of rounds. -/
def lazy_shortest_path (v_start v_goal : Nat) :
    Nat → FamilyPlanner σ → List Edge → SearchResult σ Bool
  | 0, p, epath => ⟨.out_of_fuel, p, epath⟩
  | fuel + 1, p, epath =>
    match lazysp_incsp_dijkstra.solve p.g v_start v_goal epath with
    | .threw => ⟨.threw, p, epath⟩
    | .out_of_fuel => ⟨.out_of_fuel, p, epath⟩
    | .returned (w, path) =>
      if w = ⊤ then ⟨.returned false, p, path⟩
      else if path.all (isevaledmap_get p) then ⟨.returned true, p, path⟩
      else
        match LazySpEvalAlt (isevaledmap_get p) path with
        | none => ⟨.threw, p, path⟩
        | some e => lazy_shortest_path v_start v_goal fuel (wmap_get p e).2.1 path

/-! ## solve -/

/-- `ompl::base::PlannerStatus`, the two values `solve` returns. -/
inductive PlannerStatus where
  | EXACT_SOLUTION
  | TIMEOUT
deriving DecidableEq

/-- The loop `initialize NEW edges` of `solve`: an edge whose index is at
least `num_edges_before` gets its interior points, as many zero tags, and
its weight. -/
def init_new_edge (num_edges_before : Nat) (p : FamilyPlanner σ) (e : Edge) :
    FamilyPlanner σ :=
  if (p.g.eprop e).index < num_edges_before then p
  else calculate_w_lazy (init_edge p e) e

/-- The densification step of `solve`: unapply the overlay, count one more
subgraph, generate, initialise the new edges, re-apply the overlay.  The
flag is false when `generate` throws; the planner is then as the exception
leaves it. -/
def densify (p : FamilyPlanner σ) : Bool × FamilyPlanner σ :=
  let p1 := overlay_unapply p
  let p2 := { p1 with num_subgraphs := p1.num_subgraphs + 1 }
  match p2.roadmap_gen.generate p2.roadmap_gen_state p2.g p2.num_subgraphs with
  | none => (false, p2)
  | some (ops, st) =>
    let p3 : FamilyPlanner σ :=
      { p2 with
        g := ops.foldl apply_gen_op p2.g
        roadmap_gen_state := st }
    let p4 := p3.g.edge_list.foldl (init_new_edge p2.g.edges.length) p3
    (true, overlay_apply p4)

/-- The states of the solution path: the state of the start's core vertex,
then the state of the target of each edge of `epath` in order. -/
def solution_path (p : FamilyPlanner σ) (epath : List Edge) : List State :=
  (p.g.vprop (p.og.vprop p.ov_start).core_vertex).state
    :: epath.map (fun e => (p.g.vprop e.tgt).state)

/-- The loop `while (!success)` of `FamilyPlanner::solve` and the return
after it; the termination condition `ptc` is not read by the source.  On
return: the status and the solution path added to the problem definition, if
any.  `fuel` bounds the rounds of this loop and of each lazy search. -/
def solve_loop : Nat → FamilyPlanner σ → List Edge →
    SearchResult σ (PlannerStatus × Option (List State))
  | 0, p, epath => ⟨.out_of_fuel, p, epath⟩
  | fuel + 1, p, epath =>
    let r := lazy_shortest_path (p.og.vprop p.ov_start).core_vertex
      (p.og.vprop p.ov_goal).core_vertex (fuel + 1) p epath
    match r.outcome with
    | .threw => ⟨.threw, r.planner, r.epath⟩
    | .out_of_fuel => ⟨.out_of_fuel, r.planner, r.epath⟩
    | .returned true =>
      ⟨.returned (.EXACT_SOLUTION, some (solution_path r.planner r.epath)), r.planner, r.epath⟩
    | .returned false =>
      if r.planner.roadmap_gen.num_subgraphs ≠ 0
          ∧ r.planner.roadmap_gen.num_subgraphs < r.planner.num_subgraphs + 1 then
        ⟨.returned (.TIMEOUT, none), r.planner, r.epath⟩
      else
        if (densify r.planner).1 then solve_loop fuel (densify r.planner).2 r.epath
        else ⟨.threw, (densify r.planner).2, r.epath⟩

/-- `ompl::base::PlannerTerminationCondition`: asked for the `k`-th time,
whether the planner should stop. -/
structure PlannerTerminationCondition where
  call : Nat → Bool

/-- `FamilyPlanner::solve(ptc)`, started with an empty `epath`.  The body
never reads `ptc`. -/
def solve (ptc : PlannerTerminationCondition) (fuel : Nat) (p : FamilyPlanner σ) :
    SearchResult σ (PlannerStatus × Option (List State)) :=
  solve_loop fuel p []

/-! ## The bookkeeping invariant -/

/-- Every edge of the core graph has as many interior states as interior
tags. -/
def Graph.balanced (g : Graph) : Prop :=
  ∀ se ∈ g.edges, se.props.edge_states.length = se.props.edge_tags.length

/-- Every edge of the overlay graph has as many interior states as interior
tags. -/
def OverGraph.balanced (og : OverGraph) : Prop :=
  ∀ se ∈ og.edges, se.props.edge_states.length = se.props.edge_tags.length

/-- Edge bookkeeping: `|edge_states| = |edge_tags|` for every core edge and
every overlay edge. -/
def bookkeeping (p : FamilyPlanner σ) : Prop :=
  p.g.balanced ∧ p.og.balanced

/-! ## The shape of the roadmap -/

/-- The vertices and edges of a graph without their properties: the number
of vertices and the end points of each stored edge, in storage order. -/
def Graph.skeleton (g : Graph) : Nat × List (Nat × Nat) :=
  (g.vertices.length, g.edges.map (fun se => (se.src, se.tgt)))

/-- The planner `q` is the planner `p` except for property values of the
core graph: the core graph has the same vertices and edges, and every other
member (the overlay graph, the overlay manager, `num_subgraphs`, the
generator and its progress) is as in `p`. -/
def only_properties_differ (p q : FamilyPlanner σ) : Prop :=
  q = { p with g := q.g } ∧ q.g.skeleton = p.g.skeleton

/-! ## Terms for speaking about the overlay -/

/-- `source(e, og)`. -/
def OverGraph.source (og : OverGraph) (e : Nat) : Nat :=
  (og.edges.getD e ⟨0, 0, OverEProps.init⟩).src

/-- `target(e, og)`. -/
def OverGraph.target (og : OverGraph) (e : Nat) : Nat :=
  (og.edges.getD e ⟨0, 0, OverEProps.init⟩).tgt

/-- The stored core edge that `overlay_manager::apply()` inserts for overlay
edge `eo` when it gets the index `k`. -/
def applied_edge (og : OverGraph) (k eo : Nat) : StoredEdge :=
  ⟨(og.vprop (og.source eo)).core_vertex, (og.vprop (og.target eo)).core_vertex,
    { EProps.init with index := k }⟩

/-- The overlay vertices whose `core_vertex` slot is empty: the roots that
`overlay_manager::apply()` will insert into the core graph, in its order. -/
def OverGraph.unapplied_vertices (og : OverGraph) : List Nat :=
  (List.range og.vertices.length).filter
    (fun vo => decide ((og.vprop vo).core_vertex = null_vertex))

/-- The properties an overlay vertex has in common with a core vertex:
state, subgraph, is_shadow and tag. -/
def OverVProps.shared (o : OverVProps) : VProps :=
  ⟨o.state, o.subgraph, o.is_shadow, o.tag⟩

/-- The properties of a core edge that `overlay_apply` and `overlay_unapply`
copy: distance, subgraph, edge_states and edge_tags. -/
def EProps.shared (e : EProps) : ℚ × Int × List State × List Tag :=
  (e.distance, e.subgraph, e.edge_states, e.edge_tags)

/-- The properties of an overlay edge that `overlay_apply` and
`overlay_unapply` copy: distance, subgraph, edge_states and edge_tags. -/
def OverEProps.shared (e : OverEProps) : ℚ × Int × List State × List Tag :=
  (e.distance, e.subgraph, e.edge_states, e.edge_tags)

/-- The core edge of an overlay edge: `og[eover].core_edge`. -/
def core_edge_of (og : OverGraph) (eover : Nat) : Edge :=
  (og.eprop eover).core_edge.getD ⟨0, 0, 0⟩

/-- Whether core vertex `vi` is within the anchor radius of state `s`: the
negation of the test `0.12 < dist` of `setProblemDefinition`. -/
def within_anchor_radius (p : FamilyPlanner σ) (s : State) (vi : Nat) : Bool :=
  decide (¬ anchor_radius < p.space.distance s (p.g.vprop vi).state)

/-- The core vertices within the anchor radius of state `s`, in the order
of the scan. -/
def anchored_vertices (p : FamilyPlanner σ) (s : State) : List Nat :=
  (List.range p.g.vertices.length).filter (within_anchor_radius p s)

/-- The properties `setProblemDefinition` gives the overlay edge from a root
in state `s` to the anchor of core vertex `vi`. -/
def anchor_edge_props (p : FamilyPlanner σ) (s : State) (vi : Nat) : OverEProps :=
  { OverEProps.init with
    distance := p.space.distance s (p.g.vprop vi).state
    subgraph := 0
    edge_states := edge_init_points p s (p.g.vprop vi).state
      (p.space.distance s (p.g.vprop vi).state)
    edge_tags := resize OverEProps.init.edge_tags
      (edge_init_points p s (p.g.vprop vi).state
        (p.space.distance s (p.g.vprop vi).state)).length 0 }

/-- The start root as `setProblemDefinition` leaves it, a new overlay vertex
starting out as `fresh`. -/
def start_root (fresh : OverVProps) (pdef : ProblemDefinition) : OverVProps :=
  { fresh with
    core_vertex := null_vertex
    state := pdef.start
    subgraph := 0
    is_shadow := false
    tag := 0 }

/-- The goal root as `setProblemDefinition` leaves it, a new overlay vertex
starting out as `fresh`: its tag is never assigned. -/
def goal_root (fresh : OverVProps) (pdef : ProblemDefinition) : OverVProps :=
  { fresh with
    core_vertex := null_vertex
    state := pdef.goal
    subgraph := 0
    is_shadow := false }

/-- The overlay graph at the moment `setProblemDefinition` applies it, over
the planner `q` whose overlay has just been unapplied: the two roots, an
anchor for every core vertex near the start and then for every core vertex
near the goal, and an edge from the root to each anchor. -/
def populated_overlay (fresh : OverVProps) (q : FamilyPlanner σ) (pdef : ProblemDefinition) :
    OverGraph :=
  ⟨[start_root fresh pdef, goal_root fresh pdef]
      ++ (anchored_vertices q pdef.start).map (fun vi => { fresh with core_vertex := vi })
      ++ (anchored_vertices q pdef.goal).map (fun vi => { fresh with core_vertex := vi }),
    ((anchored_vertices q pdef.start).enumFrom 2).map
        (fun kv => ⟨0, kv.1, anchor_edge_props q pdef.start kv.2⟩)
      ++ ((anchored_vertices q pdef.goal).enumFrom
          (2 + (anchored_vertices q pdef.start).length)).map
        (fun kv => ⟨1, kv.1, anchor_edge_props q pdef.goal kv.2⟩)⟩

/-- The root, the root's state and the core vertex of every anchor that
`setProblemDefinition` creates, in the order of creation: first the core
vertices near the start (root 0), then those near the goal (root 1). -/
def anchor_triples (q : FamilyPlanner σ) (pdef : ProblemDefinition) :
    List (Nat × State × Nat) :=
  (anchored_vertices q pdef.start).map (fun vi => (0, pdef.start, vi))
    ++ (anchored_vertices q pdef.goal).map (fun vi => (1, pdef.goal, vi))

/-- The overlay is applied with exactly its two roots, overlay vertices 0
(start) and 1 (goal), inserted into the core graph at different core
vertices, every other overlay vertex being an anchor. -/
def roots_applied (p : FamilyPlanner σ) : Prop :=
  p.overlay_manager.is_applied = true
  ∧ p.overlay_manager.applied_vertices = [0, 1]
  ∧ p.ov_start = 0 ∧ p.ov_goal = 1
  ∧ 2 ≤ p.og.vertices.length
  ∧ (p.og.vprop 0).core_vertex ≠ (p.og.vprop 1).core_vertex
  ∧ ∀ vo, 2 ≤ vo → vo < p.og.vertices.length → (p.og.vprop vo).core_vertex ≠ null_vertex

/-- The overlay is not applied and ready to be: the manager records
nothing, overlay vertices 0 and 1 are the roots with empty slots, every
other overlay vertex is an anchor. -/
def roots_ready (p : FamilyPlanner σ) : Prop :=
  p.overlay_manager = ⟨false, [], []⟩
  ∧ p.ov_start = 0 ∧ p.ov_goal = 1
  ∧ 2 ≤ p.og.vertices.length
  ∧ (p.og.vprop 0).core_vertex = null_vertex
  ∧ (p.og.vprop 1).core_vertex = null_vertex
  ∧ ∀ vo, 2 ≤ vo → vo < p.og.vertices.length → (p.og.vprop vo).core_vertex ≠ null_vertex

/-! ## RoadmapGenRGG -/

/-- The members of `RoadmapGenRGG` that `generate` uses: the base class's
space and batch cap `num_subgraphs` (the constructor passes 1), the
parameters `n` and `radius`, the progress counters, and the sampler as the
stream of states it draws together with the number of draws made. -/
structure RoadmapGenRGG where
  space : Space
  num_subgraphs : Nat
  n : Nat
  radius : ℚ
  num_subgraphs_generated : Nat
  vertices_generated : Nat
  edges_generated : Nat
  sampler : Nat → State
  samples_drawn : Nat

/-- `boost::add_edge(u, v, g)` on the graph itself: an edge with
value-initialised properties at the end of the edge list. -/
def Graph.add_edge_plain (g : Graph) (u v : Nat) : Graph × Edge :=
  ({ g with edges := g.edges ++ [⟨u, v, EProps.init⟩] }, ⟨u, v, g.edges.length⟩)

/-- The body of the loop `for (ui = 0; ui < num_vertices(g) - 1; ui++)` of
`RoadmapGenRGG::generate` for the new vertex `v_new`, on the graph and the
counter `edges_generated`: when the other vertex is within the radius, add
the edge and put its index, distance and subgraph.  The write to
`edge_vector_map` is not represented. -/
def RoadmapGenRGG.connect (gen : RoadmapGenRGG) (v_new : Nat) (s : Graph × Nat) (ui : Nat) :
    Graph × Nat :=
  let dist := gen.space.distance (s.1.vprop v_new).state (s.1.vprop ui).state
  if gen.radius < dist then s
  else
    let r := s.1.add_edge_plain v_new ui
    let g1 := r.1.set_eprop r.2 { r.1.eprop r.2 with index := s.2 }
    let g2 := g1.set_eprop r.2 { g1.eprop r.2 with distance := dist }
    let g3 := g2.set_eprop r.2 { g2.eprop r.2 with subgraph := 0 }
    (g3, s.2 + 1)

/-- The body of the loop `while (num_vertices(g) < n)` of
`RoadmapGenRGG::generate`: a new vertex of subgraph 0, not a shadow, with
the next sampled state, joined to the earlier vertices within the radius. -/
def RoadmapGenRGG.add_sample (s : Graph × RoadmapGenRGG) : Graph × RoadmapGenRGG :=
  let a := s.1.add_vertex
  let g1 := a.1.set_vprop a.2 { a.1.vprop a.2 with subgraph := 0 }
  let g2 := g1.set_vprop a.2 { g1.vprop a.2 with is_shadow := false }
  let g3 := g2.set_vprop a.2 { g2.vprop a.2 with state := s.2.sampler s.2.samples_drawn }
  let c := (List.range (g3.vertices.length - 1)).foldl (s.2.connect a.2)
    (g3, s.2.edges_generated)
  (c.1, { s.2 with
    samples_drawn := s.2.samples_drawn + 1
    edges_generated := c.2
    vertices_generated := s.2.vertices_generated + 1 })

/-- The loop `while (num_vertices(g) < n)` with a bound on its rounds. -/
def RoadmapGenRGG.generate_loop : Nat → Graph × RoadmapGenRGG → Graph × RoadmapGenRGG
  | 0, s => s
  | fuel + 1, s =>
    if s.1.vertices.length < s.2.n then
      RoadmapGenRGG.generate_loop fuel (RoadmapGenRGG.add_sample s)
    else s

/-- `RoadmapGenRGG::generate`: the graph and the generator afterwards, or
`none` when it throws.  Every round of the loop adds a vertex, so `n` rounds
are enough. -/
def RoadmapGenRGG.generate (gen : RoadmapGenRGG) (g : Graph) (num_subgraphs_desired : Nat) :
    Option (Graph × RoadmapGenRGG) :=
  if gen.num_subgraphs < num_subgraphs_desired then none
  else if gen.num_subgraphs_generated ≠ 0 ∨ num_subgraphs_desired ≠ 1 then some (g, gen)
  else some (RoadmapGenRGG.generate_loop gen.n (g, gen))

/-- The pairs `(j, i)`, `i < j < n`, that pass the test `near j i`, in the
order in which `RoadmapGenRGG::generate` meets them. -/
def rgg_pairs (near : Nat → Nat → Bool) : Nat → List (Nat × Nat)
  | 0 => []
  | k + 1 => rgg_pairs near k ++ ((List.range k).filter (near k)).map (fun i => (k, i))

/-- The test of `RoadmapGenRGG::generate` that joins two states: the
negation of `radius < dist`. -/
def RoadmapGenRGG.near (gen : RoadmapGenRGG) (a b : State) : Bool :=
  decide (¬ gen.radius < gen.space.distance a b)

/-- The stored edge `RoadmapGenRGG::generate` creates from `v_new` to `ui`
when `k` edges were generated before. -/
def RoadmapGenRGG.new_edge (gen : RoadmapGenRGG) (st : Nat → State) (k : Nat) (ji : Nat × Nat) :
    StoredEdge :=
  ⟨ji.1, ji.2, ⟨k, gen.space.distance (st ji.1) (st ji.2), 0, 0, [], []⟩⟩

/-- The state the `i`-th vertex of this call gets: the sampler's draw number
`samples_drawn + i`. -/
def RoadmapGenRGG.drawn (gen : RoadmapGenRGG) (i : Nat) : State :=
  gen.sampler (gen.samples_drawn + i)

/-- The graph and the generator after `k` rounds of the loop of `generate`
started on the empty graph, in closed form. -/
def RoadmapGenRGG.after_rounds (gen : RoadmapGenRGG) (k : Nat) : Graph × RoadmapGenRGG :=
  (⟨(List.range k).map (fun i => ⟨gen.drawn i, 0, false, 0⟩),
      ((rgg_pairs (fun j i => gen.near (gen.drawn j) (gen.drawn i)) k).enumFrom
        gen.edges_generated).map (fun kp => gen.new_edge gen.drawn kp.1 kp.2)⟩,
    { gen with
      samples_drawn := gen.samples_drawn + k
      edges_generated := gen.edges_generated
        + (rgg_pairs (fun j i => gen.near (gen.drawn j) (gen.drawn i)) k).length
      vertices_generated := gen.vertices_generated + k })

/-! ## A start without anchors -/

/-- Every stored edge joins two vertices of the graph. -/
def Graph.closed (g : Graph) : Bool :=
  g.edges.all (fun se =>
    decide (se.src < g.vertices.length) && decide (se.tgt < g.vertices.length))

/-- The overlay is ready to be applied and the start root will then be alone:
the core graph is closed, every anchor names a core vertex, and every overlay
edge joins the goal root or anchors, never the start root. -/
def start_isolated (q : FamilyPlanner σ) : Prop :=
  roots_ready q ∧ q.g.closed = true
  ∧ (∀ vo, 2 ≤ vo → vo < q.og.vertices.length →
      (q.og.vprop vo).core_vertex < q.g.vertices.length)
  ∧ ∀ eo, eo < q.og.edges.length →
      q.og.source eo ≠ 0 ∧ q.og.target eo ≠ 0
      ∧ q.og.source eo < q.og.vertices.length ∧ q.og.target eo < q.og.vertices.length

/-- Asked for `n` batches on a closed graph the generator does not throw, and
the graph is closed afterwards. -/
def RoadmapGen.reliable (gen : RoadmapGen σ) (n : Nat) : Prop :=
  ∀ (st : σ) (g : Graph), g.closed = true →
    ∃ ops st2, gen.generate st g n = some (ops, st2)
      ∧ (ops.foldl apply_gen_op g).closed = true

/-! ## Sequences of calls of RoadmapGenRGG::generate -/

/-- `RoadmapGenRGG::get_num_subgraphs_generated`. -/
def RoadmapGenRGG.get_num_subgraphs_generated (gen : RoadmapGenRGG) : Nat :=
  gen.num_subgraphs_generated

/-- One call of `generate` in a sequence of calls: a call that throws leaves
the graph and the generator as they were. -/
def RoadmapGenRGG.call (s : Graph × RoadmapGenRGG) (num_subgraphs_desired : Nat) :
    Graph × RoadmapGenRGG :=
  (s.2.generate s.1 num_subgraphs_desired).getD s

/-! ## The path of lazysp_incsp_dijkstra::solve -/

/-- The chain of predecessors from `v` reaches `v_start` in `k` steps, each
step through an existing edge from the predecessor: the walk of
`lazysp_incsp_dijkstra::solve` ends after `k` pushes and no assertion
fails. -/
def pred_chain (g : Graph) (predecessor_map : List Nat) (v_start : Nat) : Nat → Nat → Bool
  | 0, v => decide (v = v_start)
  | k + 1, v =>
    decide (v ≠ v_start) && (g.edge (predecessor_map.getD v 0) v).isSome
      && pred_chain g predecessor_map v_start k (predecessor_map.getD v 0)

/-- A list of edge descriptors that leads from `a` to `b`: the first edge
starts at `a`, every edge starts where the one before it ends, the last edge
ends at `b`; the empty list leads from `a` to `a`. -/
def oriented_from (a : Nat) : List Edge → Nat → Prop
  | [], b => a = b
  | e :: r, b => e.src = a ∧ oriented_from e.tgt r b

/-! ## RoadmapGenHaltonDens -/

/-- The radical inverse with a bound on the number of digits. -/
def halton_digits (prime : Nat) : Nat → Nat → ℚ
  | 0, _ => 0
  | fuel + 1, i =>
    if i = 0 then 0
    else ((i % prime : Nat) : ℚ) / prime + halton_digits prime fuel (i / prime) / prime

/-- Modelled from the spec: `util::halton(prime, i)`, the radical inverse of
`i` in base `prime`; `i` has at most `i` digits. -/
def halton (prime i : Nat) : ℚ := halton_digits prime i i

/-- Modelled from the spec: `util::get_prime(k)`, the `(k+1)`-th entry of a
hardcoded table of primes, 0 beyond the table; the table is a parameter. -/
def get_prime (table : List Nat) (k : Nat) : Nat := table.getD k 0

/-- The test `radius < dist` of `RoadmapGenHaltonDens::generate` in batch
`k`, where `radius = radius_firstbatch * pow(1./(k+1.), 1./dim)`, decided
over exact reals with rational arithmetic: for `dim >= 1` both sides are
compared through their `dim`-th powers, by sign; for `dim = 0` the exponent
is infinite and `pow` gives 1 for the base 1 and 0 for a smaller base. -/
def beyond_radius (radius_firstbatch : ℚ) (dim k : Nat) (dist : ℚ) : Bool :=
  if dim = 0 then
    if k = 0 then decide (radius_firstbatch < dist) else decide (0 < dist)
  else if 0 ≤ radius_firstbatch then
    decide (0 ≤ dist) && decide (radius_firstbatch ^ dim < dist ^ dim * ((k : ℚ) + 1))
  else
    decide (0 ≤ dist) || decide ((-dist) ^ dim * ((k : ℚ) + 1) < (-radius_firstbatch) ^ dim)

/-- The members of `RoadmapGenHaltonDens` that `generate` uses: the space,
its dimension and bounds, the parameters `n_perbatch` and
`radius_firstbatch`, the progress counters, and the table behind
`get_prime`.  The batch cap of the base class is 0 (no cap) and `generate`
does not read it. -/
structure RoadmapGenHaltonDens where
  space : Space
  dim : Nat
  low : List ℚ
  high : List ℚ
  primes : List Nat
  n_perbatch : Nat
  radius_firstbatch : ℚ
  num_subgraphs_generated : Nat
  vertices_generated : Nat
  edges_generated : Nat

/-- `RoadmapGenHaltonDens::get_num_subgraphs_generated`. -/
def RoadmapGenHaltonDens.get_num_subgraphs_generated (gen : RoadmapGenHaltonDens) : Nat :=
  gen.num_subgraphs_generated

/-- The state written for the vertex placed when the global counter
`vertices_generated` is `i`: coordinate `ui` is
`low[ui] + (high[ui] - low[ui]) * halton(get_prime(ui), i)`. -/
def RoadmapGenHaltonDens.halton_state (gen : RoadmapGenHaltonDens) (i : Nat) : State :=
  (List.range gen.dim).map (fun ui =>
    gen.low.getD ui 0
      + (gen.high.getD ui 0 - gen.low.getD ui 0) * halton (get_prime gen.primes ui) i)

/-- The body of the loop `for (ui = 0; ui < num_vertices(g) - 1; ui++)` of
`RoadmapGenHaltonDens::generate` for the new vertex `v_new`, on the graph and
the counter `edges_generated`: when the other vertex is not beyond the
radius of the current batch, add the edge through the edge-indexed graph and
put its distance and subgraph. -/
def RoadmapGenHaltonDens.connect (gen : RoadmapGenHaltonDens) (v_new : Nat) (s : Graph × Nat)
    (ui : Nat) : Graph × Nat :=
  let dist := gen.space.distance (s.1.vprop v_new).state (s.1.vprop ui).state
  if beyond_radius gen.radius_firstbatch gen.dim gen.num_subgraphs_generated dist then s
  else
    let r := s.1.add_edge v_new ui
    let g1 := r.1.set_eprop r.2 { r.1.eprop r.2 with distance := dist }
    let g2 := g1.set_eprop r.2
      { g1.eprop r.2 with subgraph := (gen.num_subgraphs_generated : ℤ) }
    (g2, s.2 + 1)

/-- The body of the loop `while (num_vertices(g) < (num_subgraphs_generated+1) * n_perbatch)`:
a new vertex of the current batch, not a shadow, with the Halton state of the
global counter, joined to the earlier vertices within the radius. -/
def RoadmapGenHaltonDens.add_vertex (s : Graph × RoadmapGenHaltonDens) :
    Graph × RoadmapGenHaltonDens :=
  let a := s.1.add_vertex
  let g1 := a.1.set_vprop a.2
    { a.1.vprop a.2 with subgraph := (s.2.num_subgraphs_generated : ℤ) }
  let g2 := g1.set_vprop a.2 { g1.vprop a.2 with is_shadow := false }
  let g3 := g2.set_vprop a.2 { g2.vprop a.2 with state := s.2.halton_state s.2.vertices_generated }
  let c := (List.range (g3.vertices.length - 1)).foldl (s.2.connect a.2)
    (g3, s.2.edges_generated)
  (c.1, { s.2 with
    edges_generated := c.2
    vertices_generated := s.2.vertices_generated + 1 })

/-- The inner loop `while (num_vertices(g) < (num_subgraphs_generated+1) * n_perbatch)`
with a bound on its rounds. -/
def RoadmapGenHaltonDens.batch_loop :
    Nat → Graph × RoadmapGenHaltonDens → Graph × RoadmapGenHaltonDens
  | 0, s => s
  | fuel + 1, s =>
    if s.1.vertices.length < (s.2.num_subgraphs_generated + 1) * s.2.n_perbatch then
      RoadmapGenHaltonDens.batch_loop fuel (RoadmapGenHaltonDens.add_vertex s)
    else s

/-- The outer loop `while (num_subgraphs_generated < num_subgraphs_desired)`
with a bound on its rounds: one batch, then the counter goes up.  Every
round of the inner loop adds a vertex, so the target count bounds it. -/
def RoadmapGenHaltonDens.generate_loop (num_subgraphs_desired : Nat) :
    Nat → Graph × RoadmapGenHaltonDens → Graph × RoadmapGenHaltonDens
  | 0, s => s
  | fuel + 1, s =>
    if s.2.num_subgraphs_generated < num_subgraphs_desired then
      let s1 := RoadmapGenHaltonDens.batch_loop
        ((s.2.num_subgraphs_generated + 1) * s.2.n_perbatch) s
      RoadmapGenHaltonDens.generate_loop num_subgraphs_desired fuel
        (s1.1, { s1.2 with num_subgraphs_generated := s1.2.num_subgraphs_generated + 1 })
    else s

/-- `RoadmapGenHaltonDens::generate`: the graph and the generator
afterwards.  Every round of the outer loop advances the counter, so
`num_subgraphs_desired` rounds are enough. -/
def RoadmapGenHaltonDens.generate (gen : RoadmapGenHaltonDens) (g : Graph)
    (num_subgraphs_desired : Nat) : Graph × RoadmapGenHaltonDens :=
  RoadmapGenHaltonDens.generate_loop num_subgraphs_desired num_subgraphs_desired (g, gen)

/-- The batch of the `i`-th vertex of a run from the empty graph. -/
def RoadmapGenHaltonDens.batch_of (gen : RoadmapGenHaltonDens) (i : Nat) : Nat :=
  i / gen.n_perbatch

/-- The state of the `i`-th vertex of this run: the Halton state of the
global counter `vertices_generated + i`. -/
def RoadmapGenHaltonDens.placed (gen : RoadmapGenHaltonDens) (i : Nat) : State :=
  gen.halton_state (gen.vertices_generated + i)

/-- Whether the later vertex `j` is joined to the earlier vertex `i`: the
distance, new vertex first, is not beyond the radius of the batch of `j`. -/
def RoadmapGenHaltonDens.near (gen : RoadmapGenHaltonDens) (j i : Nat) : Bool :=
  !beyond_radius gen.radius_firstbatch gen.dim (gen.batch_of j)
    (gen.space.distance (gen.placed j) (gen.placed i))

/-- The stored edge created from the later vertex to the earlier one as the
`k`-th edge of the graph. -/
def RoadmapGenHaltonDens.new_edge (gen : RoadmapGenHaltonDens) (k : Nat) (ji : Nat × Nat) :
    StoredEdge :=
  ⟨ji.1, ji.2, ⟨k, gen.space.distance (gen.placed ji.1) (gen.placed ji.2),
    (gen.batch_of ji.1 : ℤ), 0, [], []⟩⟩

/-- The graph after `v` vertices of a run from the empty graph and the
generator when `b` batches are counted, in closed form. -/
def RoadmapGenHaltonDens.after (gen : RoadmapGenHaltonDens) (v b : Nat) :
    Graph × RoadmapGenHaltonDens :=
  (⟨(List.range v).map (fun i => ⟨gen.placed i, (gen.batch_of i : ℤ), false, 0⟩),
      ((rgg_pairs gen.near v).enumFrom 0).map (fun kp => gen.new_edge kp.1 kp.2)⟩,
    { gen with
      num_subgraphs_generated := b
      vertices_generated := gen.vertices_generated + v
      edges_generated := gen.edges_generated + (rgg_pairs gen.near v).length })

/-! ## The argument strings of the generators -/

/-- The white-space characters of `isspace`: blank, tab, line feed, vertical
tab, form feed, carriage return. -/
def is_space (c : Char) : Bool :=
  decide (c.toNat = 32) || (decide (9 ≤ c.toNat) && decide (c.toNat ≤ 13))

/-- A decimal digit. -/
def is_digit (c : Char) : Bool :=
  decide (48 ≤ c.toNat) && decide (c.toNat ≤ 57)

/-- What `sscanf` does for white space in the format and before a
conversion: it skips all leading white space of the input. -/
def skip_space : List Char → List Char
  | [] => []
  | c :: cs => if is_space c then skip_space cs else c :: cs

/-- What `sscanf` does for ordinary characters of the format: each must be
the next character of the input; `none` when the input differs or ends. -/
def scan_literal : List Char → List Char → Option (List Char)
  | [], s => some s
  | _ :: _, [] => none
  | l :: ls, c :: cs => if l = c then scan_literal ls cs else none

/-- The longest run of digits at the start of the input read as a decimal
number on top of `acc`, and the rest of the input. -/
def scan_digits (acc : Nat) : List Char → Nat × List Char
  | [] => (acc, [])
  | c :: cs =>
    if is_digit c then scan_digits (acc * 10 + (c.toNat - 48)) cs else (acc, c :: cs)

/-- The conversion `%u` of `sscanf`: leading white space is skipped, a sign
may come first, at least one digit must follow; the value is stored in an
`unsigned int`, here modulo `2^32`, negated modulo `2^32` after a minus
sign.  `none` when no digit is there. -/
def scan_unsigned (s : List Char) : Option (Nat × List Char) :=
  let signed : Bool × List Char :=
    match skip_space s with
    | c :: r => if c.toNat = 45 then (true, r) else if c.toNat = 43 then (false, r)
      else (false, c :: r)
    | [] => (false, [])
  match signed.2 with
  | [] => none
  | c :: r =>
    if is_digit c then
      some ((if signed.1 then (2 ^ 32 - (scan_digits 0 (c :: r)).1 % 2 ^ 32) % 2 ^ 32
              else (scan_digits 0 (c :: r)).1 % 2 ^ 32),
            (scan_digits 0 (c :: r)).2)
    else none

/-- The conversion `%u` of the formatter: the decimal digits of the value. -/
def format_unsigned (n : Nat) : List Char := Nat.toDigits 10 n

/-- The two conversions between doubles and text that the constructors use
and that are not part of this repository's sources: the conversion `%lf` of
`sscanf` after its white space is skipped (the value and the rest of the
input, `none` when no number starts there), and `util::double_to_text`. -/
structure DoubleText where
  scan_double : List Char → Option (ℚ × List Char)
  double_to_text : ℚ → List Char

/-- How a constructor ends: with the object, or with one of its
`std::runtime_error`s. -/
inductive Constructed (α : Type) where
  | ok (a : α)
  | bad_args
  | not_canonical
  | unsupported_space
  | not_enough_primes

/-- Which way a constructor ended, without the object. -/
def Constructed.ending {α : Type} : Constructed α → Nat
  | .ok _ => 0
  | .bad_args => 1
  | .not_canonical => 2
  | .unsupported_space => 3
  | .not_enough_primes => 4

/-- `sscanf(args, "n=%u radius=%lf seed=%u", &n, &radius, &seed)`: the three
values when all three are assigned (`ret == 3`), else `none`.  What follows
the last number in the input is not looked at. -/
def RoadmapGenRGG.scan_args (lib : DoubleText) (args : List Char) : Option (Nat × ℚ × Nat) :=
  match scan_literal "n=".toList args with
  | none => none
  | some s1 =>
    match scan_unsigned s1 with
    | none => none
    | some (n, s2) =>
      match scan_literal "radius=".toList (skip_space s2) with
      | none => none
      | some s3 =>
        match lib.scan_double (skip_space s3) with
        | none => none
        | some (radius, s4) =>
          match scan_literal "seed=".toList (skip_space s4) with
          | none => none
          | some s5 =>
            match scan_unsigned s5 with
            | none => none
            | some (seed, _) => some (n, radius, seed)

/-- Modelled from the spec: the canonical text
`util::sf("n=%u radius=%s seed=%u", n, double_to_text(radius), seed)`. -/
def RoadmapGenRGG.canonical_args (lib : DoubleText) (n : Nat) (radius : ℚ) (seed : Nat) :
    List Char :=
  "n=".toList ++ format_unsigned n ++ " radius=".toList ++ lib.double_to_text radius
    ++ " seed=".toList ++ format_unsigned seed

/-- The constructor `RoadmapGenRGG::RoadmapGenRGG(space, args)`: the batch
cap 1, the counters at zero, the parameters scanned from `args`, which must
be their canonical text, and the sampler seeded with `seed`
(`sampler_of_seed seed` is the stream of states it then draws). -/
def RoadmapGenRGG.construct (lib : DoubleText) (space : Space)
    (sampler_of_seed : Nat → Nat → State) (args : List Char) : Constructed RoadmapGenRGG :=
  match RoadmapGenRGG.scan_args lib args with
  | none => .bad_args
  | some (n, radius, seed) =>
    if args ≠ RoadmapGenRGG.canonical_args lib n radius seed then .not_canonical
    else .ok
      { space := space
        num_subgraphs := 1
        n := n
        radius := radius
        num_subgraphs_generated := 0
        vertices_generated := 0
        edges_generated := 0
        sampler := sampler_of_seed seed
        samples_drawn := 0 }

/-- `sscanf(args, "n_perbatch=%u radius_firstbatch=%lf", ...)`: the two
values when both are assigned (`ret == 2`), else `none`. -/
def RoadmapGenHaltonDens.scan_args (lib : DoubleText) (args : List Char) : Option (Nat × ℚ) :=
  match scan_literal "n_perbatch=".toList args with
  | none => none
  | some s1 =>
    match scan_unsigned s1 with
    | none => none
    | some (n_perbatch, s2) =>
      match scan_literal "radius_firstbatch=".toList (skip_space s2) with
      | none => none
      | some s3 =>
        match lib.scan_double (skip_space s3) with
        | none => none
        | some (radius_firstbatch, _) => some (n_perbatch, radius_firstbatch)

/-- Modelled from the spec: the canonical text
`util::sf("n_perbatch=%u radius_firstbatch=%s", n_perbatch, double_to_text(radius_firstbatch))`. -/
def RoadmapGenHaltonDens.canonical_args (lib : DoubleText) (n_perbatch : Nat)
    (radius_firstbatch : ℚ) : List Char :=
  "n_perbatch=".toList ++ format_unsigned n_perbatch ++ " radius_firstbatch=".toList
    ++ lib.double_to_text radius_firstbatch

/-- The constructor `RoadmapGenHaltonDens::RoadmapGenHaltonDens(space, args)`:
the space must be a real vector space (`real_vector`), with dimension `dim`
and bounds `low`, `high`; `get_prime(dim-1)`, the subtraction being one of
`unsigned int`, must not be 0; then the parameters are scanned from `args`,
which must be their canonical text; the counters start at zero. -/
def RoadmapGenHaltonDens.construct (lib : DoubleText) (space : Space) (real_vector : Bool)
    (dim : Nat) (low high : List ℚ) (primes : List Nat) (args : List Char) :
    Constructed RoadmapGenHaltonDens :=
  if real_vector = false then .unsupported_space
  else if get_prime primes ((dim + (2 ^ 32 - 1)) % 2 ^ 32) = 0 then .not_enough_primes
  else
    match RoadmapGenHaltonDens.scan_args lib args with
    | none => .bad_args
    | some (n_perbatch, radius_firstbatch) =>
      if args ≠ RoadmapGenHaltonDens.canonical_args lib n_perbatch radius_firstbatch then
        .not_canonical
      else .ok
        { space := space
          dim := dim
          low := low
          high := high
          primes := primes
          n_perbatch := n_perbatch
          radius_firstbatch := radius_firstbatch
          num_subgraphs_generated := 0
          vertices_generated := 0
          edges_generated := 0 }


/-! ## The prepared planner -/

/-- The overlay is ready to be applied on a sound core graph: the manager
records nothing, overlay vertices 0 and 1 are the roots with empty slots,
every other overlay vertex is an anchor of a core vertex, every overlay edge
joins overlay vertices, and the core graph is closed. -/
def overlay_ready (q : FamilyPlanner σ) : Prop :=
  roots_ready q ∧ q.g.closed = true
  ∧ (∀ vo, 2 ≤ vo → vo < q.og.vertices.length →
      (q.og.vprop vo).core_vertex < q.g.vertices.length)
  ∧ ∀ eo, eo < q.og.edges.length →
      q.og.source eo < q.og.vertices.length ∧ q.og.target eo < q.og.vertices.length

/-- Planner `p` has the overlay, the manager and the shape of the core graph
of planner `a`: only property values of the core graph and members outside
the overlay can differ. -/
def applied_like (a p : FamilyPlanner σ) : Prop :=
  p.og = a.og ∧ p.overlay_manager = a.overlay_manager
  ∧ p.ov_start = a.ov_start ∧ p.ov_goal = a.ov_goal
  ∧ p.g.skeleton = a.g.skeleton

/-- The state Prepared as far as structure goes: the planner is what
`overlay_apply` leaves on a ready overlay, up to property values of the core
graph and members outside the overlay. -/
def prepared (p : FamilyPlanner σ) : Prop :=
  ∃ q : FamilyPlanner σ, overlay_ready q ∧ applied_like (overlay_apply q) p

/-- Two overlay graphs with the same structure: as many vertices and edges,
every edge between the same overlay vertices, every anchor on the same core
vertex. -/
def same_overlay (og og2 : OverGraph) : Prop :=
  og2.vertices.length = og.vertices.length
  ∧ og2.edges.length = og.edges.length
  ∧ (∀ eo, og2.source eo = og.source eo ∧ og2.target eo = og.target eo)
  ∧ ∀ vo, 2 ≤ vo → (og2.vprop vo).core_vertex = (og.vprop vo).core_vertex

/-- Every edge of the core graph holds in `w_lazy` the value that
`calculate_w_lazy` computes for it now. -/
def w_lazy_current (p : FamilyPlanner σ) : Prop :=
  ∀ e ∈ p.g.edge_list, (p.g.eprop e).w_lazy = w_lazy_value p e

/-- Graph `g2` is `g` with vertices and edges added at the end: what was
there is unchanged, and every edge joins two vertices. -/
def Graph.extended_by (g g2 : Graph) : Prop :=
  g2.closed = true
  ∧ g2.vertices.take g.vertices.length = g.vertices
  ∧ g2.edges.take g.edges.length = g.edges

/-- Whenever the generator returns on a closed graph, the graph is closed
afterwards. -/
def RoadmapGen.keeps_closed (gen : RoadmapGen σ) : Prop :=
  ∀ (st : σ) (g : Graph) (n : Nat) (ops : List GenOp) (st2 : σ), g.closed = true →
    gen.generate st g n = some (ops, st2) → (ops.foldl apply_gen_op g).closed = true

/-- Whenever the generator returns on a closed graph, it has only added
vertices and edges at the end. -/
def RoadmapGen.extends_only (gen : RoadmapGen σ) : Prop :=
  ∀ (st : σ) (g : Graph) (n : Nat) (ops : List GenOp) (st2 : σ), g.closed = true →
    gen.generate st g n = some (ops, st2) → g.extended_by (ops.foldl apply_gen_op g)

/-! ## One pass over the points of an edge -/

/-- The calls of `eval_partial` that one pass over a list of points makes
when each point is checked at most once: a point whose tag is decided is
passed over, any other point gets one call on its tag and state, and the pass
ends with the first call that returns false. -/
def single_pass (fem : FamilyEffortModel) : List (Tag × State) → List EvalCall
  | [] => []
  | (t, s) :: rest =>
    if fem.is_evaled t then single_pass fem rest
    else if ( fem.eval_partial t s).1 then ⟨t, s, true⟩ :: single_pass fem rest
    else [⟨t, s, false⟩]

/-- The points of edge `e` in the order `wmap_get` visits them, each with
the tag it has when it is visited: the source, the target (read after the
source was checked), then the interior points in stored order. -/
def edge_points (fem : FamilyEffortModel) (g : Graph) (e : Edge) : List (Tag × State) :=
  ((g.vprop e.src).tag, (g.vprop e.src).state)
    :: (((check_vertex fem g e.src).1.vprop e.tgt).tag,
        ((check_vertex fem g e.src).1.vprop e.tgt).state)
    :: (List.range (g.eprop e).edge_tags.length).map (fun ui =>
        ((g.eprop e).edge_tags.getD ui 0, (g.eprop e).edge_states.getD ui []))

/-! ## Concrete planners used as inputs -/

/-- A one-dimensional space: distance is the absolute difference of the
first coordinates, interpolation is linear. -/
def ex_space : Space where
  distance := fun a b => |a.headD 0 - b.headD 0|
  interpolate := fun a b t => [a.headD 0 + t * (b.headD 0 - a.headD 0)]
  longest_valid_segment_length := 1

/-- A generator with a cap of one batch that adds nothing. -/
def ex_gen : RoadmapGen Unit where
  num_subgraphs := 1
  generate := fun _ _ _ => some ([], ())

/-- An effort model with one check per point that always passes: tag 0 is
undecided, tag 1 is valid. -/
def fem_pass : FamilyEffortModel where
  si_target := none
  is_evaled := fun t => decide (t ≠ 0)
  p_hat := fun t => if t = 0 then 1 else 0
  x_hat := fun _ => 0
  eval_partial := fun _ _ => (true, 1)

/-- An effort model in which a point needs two passing checks: tags 0 and 1
are undecided, tag 2 is valid. -/
def fem_two : FamilyEffortModel where
  si_target := none
  is_evaled := fun t => decide (2 ≤ t)
  p_hat := fun t => 2 - t
  x_hat := fun _ => 0
  eval_partial := fun t _ => (true, t + 1)

/-- A planner around a given effort model and core graph, with the
constructor's coefficients and nothing in the overlay. -/
def ex_planner (fem : FamilyEffortModel) (g : Graph) : FamilyPlanner Unit where
  family_effort_model := fem
  set_target := fun m _ => m
  roadmap_gen := ex_gen
  roadmap_gen_state := ()
  space := ex_space
  check_radius := 1/2
  bisect_perm := fun _ => []
  g := g
  og := ⟨[], []⟩
  overlay_manager := ⟨false, [], []⟩
  ov_start := 0
  ov_goal := 0
  num_subgraphs := 1
  coeff_checkcost := 0
  coeff_distance := 1
  coeff_subgraph := 0

/-- Two vertices at 0 and 1/2 joined by one edge without interior points. -/
def g_short : Graph :=
  ⟨[⟨[0], 0, false, 0⟩, ⟨[1/2], 0, false, 0⟩], [⟨0, 1, ⟨0, 1/2, 0, ((1/2 : ℚ) : WithTop ℚ), [], []⟩⟩]⟩

/-- An effort model with one check per point that passes exactly for the
states whose first coordinate is below 1: tag 0 is undecided, tag 1 is
valid, tag 2 is invalid. -/
def fem_wall : FamilyEffortModel where
  si_target := none
  is_evaled := fun t => decide (t ≠ 0)
  p_hat := fun t => if t = 0 then 1 else 0
  x_hat := fun t => if t = 2 then ⊤ else 0
  eval_partial := fun _ s => if s.headD 0 < 1 then (true, 1) else (false, 2)

/-- Two vertices at 0 and 1 joined by one edge with one interior point;
the vertex at 1 is known invalid (tag 2). -/
def g_blocked : Graph :=
  ⟨[⟨[0], 0, false, 0⟩, ⟨[1], 0, false, 2⟩], [⟨0, 1, ⟨0, 1, 0, 1, [[1/2]], [0]⟩⟩]⟩

/-- Two vertices at 0 and 1 joined by one edge with one interior point,
nothing checked yet. -/
def g_long : Graph :=
  ⟨[⟨[0], 0, false, 0⟩, ⟨[1], 0, false, 0⟩], [⟨0, 1, ⟨0, 1, 0, 1, [[1/2]], [0]⟩⟩]⟩

/-- A planner like `ex_planner` whose bisection table is the one of three
interior points, middle first. -/
def ex_planner_bisect (g : Graph) : FamilyPlanner Unit :=
  { ex_planner fem_pass g with bisect_perm := fun _ => [(1, 0), (0, 1), (2, 1)] }

/-- A planner like `ex_planner` over a space whose longest valid segment
length is the double nearest to 0.1, with the check radius the constructor
computes from it. -/
def ex_planner_tenth : FamilyPlanner Unit :=
  { ex_planner fem_pass g_long with
    space := { ex_space with longest_valid_segment_length := 3602879701896397 / 2 ^ 55 }
    check_radius := (1/2) * (3602879701896397 / 2 ^ 55) }
/-- A generator with a cap of one batch whose only batch is one vertex at
1/20; its state is the number of batches generated. -/
def gen_one : RoadmapGen Nat where
  num_subgraphs := 1
  generate := fun st _ n =>
    if st < n then
      some ([.add_vertex, .put_state 0 [1/20], .put_vertex_subgraph 0 0, .put_is_shadow 0 false], n)
    else some ([], st)

/-- An effort model with one check per point that never passes: tag 0 is
undecided, tag 2 is invalid. -/
def fem_never : FamilyEffortModel where
  si_target := none
  is_evaled := fun t => decide (t ≠ 0)
  p_hat := fun t => if t = 0 then 1 else 0
  x_hat := fun t => if t = 2 then ⊤ else 0
  eval_partial := fun _ _ => (false, 2)

/-- The planner constructed over `ex_space` with `gen_one`, one batch asked
for, and a given effort model. -/
def cfg_one (fem : FamilyEffortModel) : Config Nat where
  family_effort_model := fem
  set_target := fun m _ => m
  roadmap_gen := gen_one
  roadmap_gen_state := 0
  space := ex_space
  bisect_perm := fun _ => []
  num_subgraphs := 1

/-- The planner of `cfg_one`, prepared for the problem from 0 to 1/10 (a
blank planner if construction fails, which it does not). -/
def prepared_one (fem : FamilyEffortModel) : FamilyPlanner Nat :=
  setProblemDefinition ((FamilyPlanner.construct (cfg_one fem)).getD (FamilyPlanner.blank (cfg_one fem)))
    ⟨0, [0], [1/10]⟩


/-- A termination condition that never asks to stop. -/
def ptc_never : PlannerTerminationCondition := ⟨fun _ => false⟩

/-- A termination condition that is tripped from the first time it is
asked. -/
def ptc_tripped : PlannerTerminationCondition := ⟨fun _ => true⟩

/-- The planner of `cfg_one`, prepared for the problem from 0 to 1: the only
roadmap vertex, at 1/20, is within the anchor radius of the start and not of
the goal. -/
def prepared_far (fem : FamilyEffortModel) : FamilyPlanner Nat :=
  setProblemDefinition ((FamilyPlanner.construct (cfg_one fem)).getD (FamilyPlanner.blank (cfg_one fem)))
    ⟨0, [0], [1]⟩

/-- A generator with a cap of two batches: batch `k` is one vertex, at 1/20
for the first batch and at 19/20 for the second; its state is the number of
batches generated.  Asked for more than two batches it throws. -/
def gen_two : RoadmapGen Nat where
  num_subgraphs := 2
  generate := fun st _ n =>
    if 2 < n then none
    else
      some (((List.range n).drop st).flatMap (fun k =>
        [.add_vertex, .put_state k [(1 + 18 * (k : ℚ)) / 20],
          .put_vertex_subgraph k (k : ℤ), .put_is_shadow k false]), max st n)

/-- The arguments of a planner over `ex_space` with `gen_two`, one batch
asked for. -/
def cfg_two (fem : FamilyEffortModel) : Config Nat where
  family_effort_model := fem
  set_target := fun m _ => m
  roadmap_gen := gen_two
  roadmap_gen_state := 0
  space := ex_space
  bisect_perm := fun _ => []
  num_subgraphs := 1

/-- The planner of `cfg_two`, prepared for the problem from 0 to 1 (a blank
planner if construction fails, which it does not). -/
def prepared_two (fem : FamilyEffortModel) : FamilyPlanner Nat :=
  setProblemDefinition ((FamilyPlanner.construct (cfg_two fem)).getD (FamilyPlanner.blank (cfg_two fem)))
    ⟨0, [0], [1]⟩

/-- The planner after `g[e].w_lazy = w` is assigned from outside. -/
def with_w_lazy (p : FamilyPlanner σ) (e : Edge) (w : WithTop ℚ) : FamilyPlanner σ :=
  { p with g := p.g.set_eprop e { p.g.eprop e with w_lazy := w } }

/-- A fresh generator as the constructor leaves it, over `ex_space`: three
vertices to sample, radius 1/4, samples 0, 1/5, 1, ... -/
def ex_rgg : RoadmapGenRGG where
  space := ex_space
  num_subgraphs := 1
  n := 3
  radius := 1/4
  num_subgraphs_generated := 0
  vertices_generated := 0
  edges_generated := 0
  sampler := fun k => [[0], [1/5], [1]].getD k [0]
  samples_drawn := 0

/-- An uncapped generator: batch `k` is one vertex at state `k + 2`; its
state is the number of batches generated.  It never throws. -/
def gen_free : RoadmapGen Nat where
  num_subgraphs := 0
  generate := fun st _ n =>
    some (((List.range n).drop st).flatMap (fun k =>
      [.add_vertex, .put_state k [(k : ℚ) + 2],
        .put_vertex_subgraph k (k : ℤ), .put_is_shadow k false]), max st n)

/-- The arguments of a planner over `ex_space` with `gen_free`, one batch
asked for. -/
def cfg_free (fem : FamilyEffortModel) : Config Nat where
  family_effort_model := fem
  set_target := fun m _ => m
  roadmap_gen := gen_free
  roadmap_gen_state := 0
  space := ex_space
  bisect_perm := fun _ => []
  num_subgraphs := 1

/-- Three vertices in a row; the first edge is stored from vertex 1 to
vertex 0, the second from vertex 1 to vertex 2, both of weight 1. -/
def g_row : Graph :=
  ⟨[⟨[0], 0, false, 0⟩, ⟨[1], 0, false, 0⟩, ⟨[2], 0, false, 0⟩],
    [⟨1, 0, ⟨0, 1, 0, 1, [], []⟩⟩, ⟨1, 2, ⟨1, 1, 0, 1, [], []⟩⟩]⟩

/-- Two vertices and no edge. -/
def g_apart : Graph :=
  ⟨[⟨[0], 0, false, 0⟩, ⟨[1], 0, false, 0⟩], []⟩

/-- A fresh generator over `ex_space` (one dimension, bounds 0 and 1): two
vertices per batch, first radius 1/2. -/
def ex_halton : RoadmapGenHaltonDens where
  space := ex_space
  dim := 1
  low := [0]
  high := [1]
  primes := [2, 3, 5, 7]
  n_perbatch := 2
  radius_firstbatch := 1/2
  num_subgraphs_generated := 0
  vertices_generated := 0
  edges_generated := 0

/-- A generator like `ex_halton` with a negative first radius. -/
def ex_halton_negative : RoadmapGenHaltonDens :=
  { ex_halton with radius_firstbatch := -1 }

/-- A conversion between doubles and text for whole numbers and halves:
digits, then `.5` or nothing; the text of any other value is `nan`. -/
def ex_double_text : DoubleText where
  scan_double := fun s =>
    match s with
    | [] => none
    | c :: r =>
      if is_digit c then
        match (scan_digits 0 (c :: r)).2 with
        | d :: e :: rest =>
          if d.toNat = 46 ∧ e.toNat = 53 then
            some (((scan_digits 0 (c :: r)).1 : ℚ) + 1 / 2, rest)
          else some (((scan_digits 0 (c :: r)).1 : ℚ), d :: e :: rest)
        | rest => some (((scan_digits 0 (c :: r)).1 : ℚ), rest)
      else none
  double_to_text := fun q =>
    if q.den = 1 then format_unsigned q.num.toNat
    else if q.den = 2 then format_unsigned (q.num.toNat / 2) ++ ".5".toList
    else "nan".toList

/-- The sampler streams of the examples: seed `k` draws `k`, `k + 1`, ... -/
def ex_sampler_of_seed (seed i : Nat) : State := [((seed + i : Nat) : ℚ)]


/-- A generator with a cap of three batches: a batch is two new vertices,
at `k/10` and `(k+1)/10` for `k` the number of vertices before, joined by an
edge of length 1/10; its state is the number of batches asked for so far.
Asked for more than three batches it throws. -/
def gen_chain : RoadmapGen Nat where
  num_subgraphs := 3
  generate := fun st g n =>
    if 3 < n then none
    else if st < n then
      some ([.add_vertex, .put_state g.vertices.length [(g.vertices.length : ℚ) / 10],
        .add_vertex, .put_state (g.vertices.length + 1) [((g.vertices.length : ℚ) + 1) / 10],
        .add_edge g.vertices.length (g.vertices.length + 1),
        .put_distance ⟨g.vertices.length, g.vertices.length + 1, g.edges.length⟩ (1/10)], n)
    else some ([], st)

/-- The arguments of a planner over `ex_space` with `gen_chain`, one batch
asked for; `set_target` records the target. -/
def cfg_chain (fem : FamilyEffortModel) : Config Nat where
  family_effort_model := fem
  set_target := fun m si => { m with si_target := some si }
  roadmap_gen := gen_chain
  roadmap_gen_state := 0
  space := ex_space
  bisect_perm := fun _ => []
  num_subgraphs := 1

/-- A space like `ex_space` with longest valid segment length 1/25: an edge
of length 1/10 gets two interior points. -/
def ex_space_fine : Space := { ex_space with longest_valid_segment_length := 1/25 }

/-- The arguments of a planner over `ex_space_fine` with `gen_chain`, one
batch asked for; the bisection table lists the interior points in order. -/
def cfg_fine (fem : FamilyEffortModel) : Config Nat :=
  { cfg_chain fem with
    space := ex_space_fine
    bisect_perm := fun n => (List.range n).map (fun k : ℕ => ((k : ℤ), (0 : ℤ))) }

/-- The planner of `cfg_fine`, prepared for the problem from 0 to 1/10 (a
blank planner if construction fails, which it does not). -/
def prepared_fine (fem : FamilyEffortModel) : FamilyPlanner Nat :=
  setProblemDefinition
    ((FamilyPlanner.construct (cfg_fine fem)).getD (FamilyPlanner.blank (cfg_fine fem)))
    ⟨1, [0], [1/10]⟩

/-! # Theorems -/

/-! ## Reading and writing properties -/

theorem eprop_set_eprop_same (g : Graph) (e e' : Edge) (q : EProps)
    (hid : e'.id = e.id) (h : e.id < g.edges.length) :
    (g.set_eprop e q).eprop e' = q := by
  simp [Graph.eprop, Graph.set_eprop, hid, List.getElem?_modify_eq, List.getElem?_eq_getElem h]

theorem eprop_set_eprop_other (g : Graph) (e e' : Edge) (q : EProps)
    (hid : e'.id ≠ e.id) :
    (g.set_eprop e q).eprop e' = g.eprop e' := by
  simp [Graph.eprop, Graph.set_eprop, List.getElem?_modify_ne _ _ (Ne.symm hid)]

theorem vprop_set_vprop_same (g : Graph) (v : Nat) (q : VProps) (h : v < g.vertices.length) :
    (g.set_vprop v q).vprop v = q := by
  simp [Graph.vprop, Graph.set_vprop, h]

theorem vprop_set_vprop_other (g : Graph) (v w : Nat) (q : VProps) (h : w ≠ v) :
    (g.set_vprop v q).vprop w = g.vprop w := by
  simp [Graph.vprop, Graph.set_vprop, List.getElem?_set_ne (Ne.symm h)]

theorem has_edge_id (g : Graph) (e : Edge) (h : g.has_edge e = true) :
    e.id < g.edges.length := by
  unfold Graph.has_edge at h
  by_contra hlt
  have : g.edges[e.id]? = none := List.getElem?_eq_none (Nat.le_of_not_lt hlt)
  simp [this] at h

theorem has_edge_src (g : Graph) (e : Edge) (h : g.has_edge e = true) :
    e.src < g.vertices.length := by
  unfold Graph.has_edge at h
  simp only [Bool.and_eq_true, decide_eq_true_eq] at h
  exact h.1.1

theorem has_edge_tgt (g : Graph) (e : Edge) (h : g.has_edge e = true) :
    e.tgt < g.vertices.length := by
  unfold Graph.has_edge at h
  simp only [Bool.and_eq_true, decide_eq_true_eq] at h
  exact h.1.2

/-! ## calculate_w_lazy -/

theorem first_inf_lt_iff (fem : FamilyEffortModel) (tags : List Tag) :
    first_inf fem tags < tags.length ↔ ∃ t ∈ tags, fem.x_hat t = ⊤ := by
  unfold first_inf
  rw [List.findIdx_lt_length]
  simp

theorem w_lazy_after_calculate (p : FamilyPlanner σ) (e : Edge) (h : e.id < p.g.edges.length) :
    ((calculate_w_lazy p e).g.eprop e).w_lazy = w_lazy_value p e := by
  simp [calculate_w_lazy, eprop_set_eprop_same _ _ _ _ rfl h]

theorem foldl_add_mul (c : ℚ) (f : Tag → ℚ) (tags : List Tag) (w : ℚ) :
    tags.foldl (fun w t => w + c * f t) w = w + c * (tags.map f).sum := by
  induction tags generalizing w with
  | nil => simp
  | cons t ts ih => simp [ih]; ring

theorem w_lazy_sum_eq (p : FamilyPlanner σ) (e : Edge) :
    w_lazy_sum p e =
      p.coeff_distance * (p.g.eprop e).distance
      + p.coeff_subgraph * (p.g.eprop e).distance * (p.g.eprop e).subgraph
      + p.coeff_checkcost *
          (((p.g.eprop e).edge_tags.map p.family_effort_model.p_hat).sum
            + (1/2) * p.family_effort_model.p_hat (p.g.vprop e.src).tag
            + (1/2) * p.family_effort_model.p_hat (p.g.vprop e.tgt).tag) := by
  simp only [w_lazy_sum, foldl_add_mul]
  ring

/-! ## The frame of calculate_w_lazy -/

theorem forget_w_set_eprop_w (g : Graph) (e : Edge) (w : WithTop ℚ) :
    (g.set_eprop e { g.eprop e with w_lazy := w }).forget_w = g.forget_w := by
  unfold Graph.forget_w Graph.set_eprop Graph.eprop
  simp only [Graph.mk.injEq, true_and]
  apply List.ext_getElem?
  intro i
  by_cases hi : e.id = i
  · subst hi
    simp only [List.getElem?_map, List.getElem?_modify_eq, List.getD_eq_getElem?_getD]
    cases h : g.edges[e.id]? <;> simp
  · simp only [List.getElem?_map, List.getElem?_modify_ne _ _ hi]

theorem unweighted_calculate_w_lazy (p : FamilyPlanner σ) (e : Edge) :
    unweighted (calculate_w_lazy p e) = unweighted p := by
  unfold unweighted calculate_w_lazy
  simp [forget_w_set_eprop_w]

theorem eprop_forget_w (g : Graph) (e : Edge) :
    g.forget_w.eprop e = { g.eprop e with w_lazy := 0 } := by
  unfold Graph.forget_w Graph.eprop
  simp only [List.getD_eq_getElem?_getD, List.getElem?_map]
  cases h : g.edges[e.id]? <;> simp [EProps.init]

theorem vprop_forget_w (g : Graph) (v : Nat) : g.forget_w.vprop v = g.vprop v := rfl

theorem w_lazy_value_unweighted (p : FamilyPlanner σ) (e : Edge) :
    w_lazy_value (unweighted p) e = w_lazy_value p e := by
  have hg : (unweighted p).g = p.g.forget_w := rfl
  have hf : (unweighted p).family_effort_model = p.family_effort_model := rfl
  have h1 : (unweighted p).coeff_checkcost = p.coeff_checkcost := rfl
  have h2 : (unweighted p).coeff_distance = p.coeff_distance := rfl
  have h3 : (unweighted p).coeff_subgraph = p.coeff_subgraph := rfl
  unfold w_lazy_value w_lazy_sum
  simp only [hg, hf, h1, h2, h3, eprop_forget_w, vprop_forget_w]

theorem w_lazy_value_congr (p q : FamilyPlanner σ) (e : Edge) (h : unweighted q = unweighted p) :
    w_lazy_value q e = w_lazy_value p e := by
  rw [← w_lazy_value_unweighted q, h, w_lazy_value_unweighted]

theorem w_lazy_value_flip (p : FamilyPlanner σ) (e : Edge) :
    w_lazy_value p ⟨e.tgt, e.src, e.id⟩ = w_lazy_value p e := by
  have hs : w_lazy_sum p ⟨e.tgt, e.src, e.id⟩ = w_lazy_sum p e := by
    rw [w_lazy_sum_eq, w_lazy_sum_eq]
    simp only [Graph.eprop]
    ring
  unfold w_lazy_value
  rw [hs]
  simp only [Graph.eprop]
  congr 1
  apply propext
  tauto

theorem edges_unweighted (p q : FamilyPlanner σ) (h : unweighted q = unweighted p) (i : Nat) :
    (q.g.edges[i]?).map (fun se => (se.src, se.tgt)) =
      (p.g.edges[i]?).map (fun se => (se.src, se.tgt)) := by
  have h1 : (unweighted q).g.edges[i]? = (unweighted p).g.edges[i]? := by rw [h]
  simp only [unweighted, Graph.forget_w, List.getElem?_map] at h1
  cases hq : q.g.edges[i]? <;> cases hp : p.g.edges[i]? <;> simp [hq, hp] at h1 ⊢
  exact ⟨h1.1, h1.2.1⟩

theorem ends_of_has_edge (g : Graph) (e : Edge) (h : g.has_edge e = true) :
    ∃ se, g.edges[e.id]? = some se ∧
      ((se.src = e.src ∧ se.tgt = e.tgt) ∨ (se.src = e.tgt ∧ se.tgt = e.src)) := by
  unfold Graph.has_edge at h
  cases hse : g.edges[e.id]? with
  | none => simp [hse] at h
  | some se =>
    refine ⟨se, rfl, ?_⟩
    simp [hse] at h
    tauto

theorem ends_of_mem_out_edges (g : Graph) (v : Nat) (e : Edge) (h : e ∈ g.out_edges v) :
    ∃ se, g.edges[e.id]? = some se ∧
      ((se.src = e.src ∧ se.tgt = e.tgt) ∨ (se.src = e.tgt ∧ se.tgt = e.src)) := by
  unfold Graph.out_edges at h
  simp only [List.mem_flatMap, List.mem_range, List.mem_append] at h
  obtain ⟨i, hi, hmem⟩ := h
  have hget : g.edges[i]? = some (g.edges.getD i ⟨0, 0, EProps.init⟩) := by
    simp [List.getElem?_eq_getElem hi]
  rcases hmem with hmem | hmem
  · split at hmem
    · simp at hmem
      subst hmem
      exact ⟨_, hget, Or.inl ⟨by assumption, by simp⟩⟩
    · simp at hmem
  · split at hmem
    · simp at hmem
      subst hmem
      exact ⟨_, hget, Or.inr ⟨by simp, by assumption⟩⟩
    · simp at hmem

/-- Recomputing the weights of a list of edges of the graph leaves the
weight of `e` at the value computed from the planner the loop started
from, once it has that value. -/
theorem foldl_calculate_w_lazy (p : FamilyPlanner σ) (e : Edge) (he : p.g.has_edge e = true)
    (es : List Edge) :
    ∀ q : FamilyPlanner σ, unweighted q = unweighted p →
      (∀ e' ∈ es, ∃ se, q.g.edges[e'.id]? = some se ∧
        ((se.src = e'.src ∧ se.tgt = e'.tgt) ∨ (se.src = e'.tgt ∧ se.tgt = e'.src))) →
      (q.g.eprop e).w_lazy = w_lazy_value p e →
      unweighted (es.foldl calculate_w_lazy q) = unweighted p ∧
        ((es.foldl calculate_w_lazy q).g.eprop e).w_lazy = w_lazy_value p e := by
  induction es with
  | nil => intro q hq _ hw; exact ⟨hq, hw⟩
  | cons e' es ih =>
    intro q hq hes hw
    simp only [List.foldl_cons]
    have hq' : unweighted (calculate_w_lazy q e') = unweighted p := by
      rw [unweighted_calculate_w_lazy, hq]
    apply ih _ hq'
    · intro e'' he''
      obtain ⟨se, hse, hends⟩ := hes e'' (List.mem_cons_of_mem _ he'')
      have h1 := edges_unweighted q (calculate_w_lazy q e') (by rw [unweighted_calculate_w_lazy]) e''.id
      rw [hse] at h1
      cases hc : (calculate_w_lazy q e').g.edges[e''.id]? with
      | none => simp [hc] at h1
      | some se' =>
        simp [hc] at h1
        exact ⟨se', rfl, by rw [h1.1, h1.2]; exact hends⟩
    · by_cases hid : e'.id = e.id
      · have hlen : e'.id < q.g.edges.length := by
          obtain ⟨se, hse, _⟩ := hes e' (List.mem_cons_self _ _)
          by_contra hlt
          rw [List.getElem?_eq_none (Nat.le_of_not_lt hlt)] at hse
          exact Option.noConfusion hse
        have : ((calculate_w_lazy q e').g.eprop e).w_lazy = w_lazy_value q e' := by
          simp [calculate_w_lazy, eprop_set_eprop_same _ e' e _ hid.symm hlen]
        rw [this, w_lazy_value_congr p q e' hq]
        -- the two descriptors name the same stored edge
        obtain ⟨se, hse, hends⟩ := hes e' (List.mem_cons_self _ _)
        obtain ⟨se0, hse0, hends0⟩ := ends_of_has_edge _ _ he
        have h1 := edges_unweighted p q hq e.id
        rw [← hid, hse, hid, hse0] at h1
        simp at h1
        have hcases : e' = e ∨ e' = ⟨e.tgt, e.src, e.id⟩ := by
          cases e' with
          | mk s t i =>
            simp only at hid hends
            subst hid
            rcases hends with ⟨a, b⟩ | ⟨a, b⟩ <;> rcases hends0 with ⟨c, d⟩ | ⟨c, d⟩
            · left; cases e; simp_all
            · right; simp_all
            · right; simp_all
            · left; cases e; simp_all
        rcases hcases with h | h
        · rw [h]
        · rw [h, w_lazy_value_flip]
      · have : ((calculate_w_lazy q e').g.eprop e).w_lazy = (q.g.eprop e).w_lazy := by
          simp [calculate_w_lazy, eprop_set_eprop_other _ e' e _ (Ne.symm hid)]
        rw [this, hw]

theorem has_edge_unweighted (p q : FamilyPlanner σ) (h : unweighted q = unweighted p) (e : Edge)
    (he : p.g.has_edge e = true) : q.g.has_edge e = true := by
  have hv : q.g.vertices = p.g.vertices := by
    have : (unweighted q).g.vertices = (unweighted p).g.vertices := by rw [h]
    exact this
  obtain ⟨se, hse, hends⟩ := ends_of_has_edge _ _ he
  have h1 := edges_unweighted p q h e.id
  rw [hse] at h1
  have hs := has_edge_src _ _ he
  have ht := has_edge_tgt _ _ he
  unfold Graph.has_edge
  cases hc : q.g.edges[e.id]? with
  | none => simp [hc] at h1
  | some se' =>
    simp [hc] at h1
    simp only [hv, hs, ht, decide_True, Bool.and_self, Bool.true_and, h1.1, h1.2]
    rcases hends with ⟨a, b⟩ | ⟨a, b⟩ <;> simp [a, b]

theorem eprop_unweighted (p q : FamilyPlanner σ) (h : unweighted q = unweighted p) (e : Edge) :
    (q.g.eprop e).edge_tags = (p.g.eprop e).edge_tags
    ∧ (q.g.eprop e).edge_states = (p.g.eprop e).edge_states
    ∧ (q.g.eprop e).distance = (p.g.eprop e).distance
    ∧ (q.g.eprop e).subgraph = (p.g.eprop e).subgraph
    ∧ (q.g.eprop e).index = (p.g.eprop e).index := by
  have h1 : (unweighted q).g.eprop e = (unweighted p).g.eprop e := by rw [h]
  have hq : (unweighted q).g = q.g.forget_w := rfl
  have hp : (unweighted p).g = p.g.forget_w := rfl
  rw [hq, hp, eprop_forget_w, eprop_forget_w] at h1
  simp only [EProps.mk.injEq] at h1
  tauto

theorem vprop_unweighted (p q : FamilyPlanner σ) (h : unweighted q = unweighted p) (v : Nat) :
    q.g.vprop v = p.g.vprop v := by
  have h1 : (unweighted q).g.vprop v = (unweighted p).g.vprop v := by rw [h]
  exact h1

theorem fem_unweighted (p q : FamilyPlanner σ) (h : unweighted q = unweighted p) :
    q.family_effort_model = p.family_effort_model := by
  have h1 : (unweighted q).family_effort_model = (unweighted p).family_effort_model := by rw [h]
  exact h1

/-- The tail of `wmap_get` changes nothing but weights and leaves the
weight of the edge at the value computed from the planner it started
from. -/
theorem wmap_get_recalc_spec (q : FamilyPlanner σ) (e : Edge) (he : q.g.has_edge e = true) :
    unweighted (wmap_get_recalc q e) = unweighted q
    ∧ ((wmap_get_recalc q e).g.eprop e).w_lazy = w_lazy_value q e := by
  unfold wmap_get_recalc
  have h1 : unweighted (calculate_w_lazy q e) = unweighted q := unweighted_calculate_w_lazy q e
  have w1 := w_lazy_after_calculate q e (has_edge_id _ _ he)
  obtain ⟨h2, w2⟩ := foldl_calculate_w_lazy q e he ((calculate_w_lazy q e).g.out_edges e.src)
    (calculate_w_lazy q e) h1 (fun e' he' => ends_of_mem_out_edges _ _ _ he') w1
  exact foldl_calculate_w_lazy q e he _ _ h2 (fun e' he' => ends_of_mem_out_edges _ _ _ he') w2

/-! ## The checks of wmap_get -/

theorem check_tag_calls (fem : FamilyEffortModel) (t : Tag) (s : State) :
    ∀ c ∈ (check_tag fem t s).2.1, fem.is_evaled c.tag = false := by
  unfold check_tag
  split
  · simp
  · rename_i hne
    simp only [List.mem_singleton, forall_eq]
    simpa using hne

theorem check_tag_calls_length (fem : FamilyEffortModel) (t : Tag) (s : State) :
    (check_tag fem t s).2.1.length ≤ 1 := by
  unfold check_tag
  split <;> simp

theorem check_tag_stop (fem : FamilyEffortModel) (t : Tag) (s : State)
    (h : (check_tag fem t s).2.2 = false) :
    (∃ c ∈ (check_tag fem t s).2.1, c.result = false)
    ∧ ( fem.eval_partial t s).1 = false
    ∧ (check_tag fem t s).1 = ( fem.eval_partial t s).2 := by
  unfold check_tag at h ⊢
  split at h
  · simp at h
  · rename_i hne
    simp only [hne] at h ⊢
    simp [h]

theorem check_tag_go (fem : FamilyEffortModel) (t : Tag) (s : State)
    (h : (check_tag fem t s).2.2 = true) :
    (∀ c ∈ (check_tag fem t s).2.1, c.result = true)
    ∧ ((fem.is_evaled t = true ∧ (check_tag fem t s).1 = t)
      ∨ (fem.is_evaled t = false ∧ ( fem.eval_partial t s).1 = true
          ∧ (check_tag fem t s).1 = ( fem.eval_partial t s).2)) := by
  unfold check_tag at h ⊢
  split at h
  · rename_i hev
    simp [hev]
  · rename_i hne
    simp only [hne] at h ⊢
    simp [h]

theorem check_tag_go_evaled (fem : FamilyEffortModel) (t : Tag) (s : State)
    (hone : ∀ t s, fem.is_evaled t = false → ( fem.eval_partial t s).1 = true →
      fem.is_evaled ( fem.eval_partial t s).2 = true)
    (h : (check_tag fem t s).2.2 = true) :
    fem.is_evaled (check_tag fem t s).1 = true := by
  rcases (check_tag_go fem t s h).2 with ⟨a, b⟩ | ⟨a, b, c⟩
  · rw [b]; exact a
  · rw [c]; exact hone t s a b

theorem check_tag_stop_inf (fem : FamilyEffortModel) (t : Tag) (s : State)
    (hfalse : ∀ t s, ( fem.eval_partial t s).1 = false → fem.x_hat ( fem.eval_partial t s).2 = ⊤)
    (h : (check_tag fem t s).2.2 = false) :
    fem.x_hat (check_tag fem t s).1 = ⊤ := by
  obtain ⟨_, a, b⟩ := check_tag_stop fem t s h
  rw [b]; exact hfalse t s a

theorem check_edge_tags_length (fem : FamilyEffortModel) (states : List State) (tags : List Tag) :
    ∀ ui, (check_edge_tags fem states ui tags).1.length = tags.length := by
  induction tags with
  | nil => intro ui; simp [check_edge_tags]
  | cons t ts ih =>
    intro ui
    simp only [check_edge_tags]
    split
    · simp [ih]
    · simp

theorem check_edge_tags_calls (fem : FamilyEffortModel) (states : List State) (tags : List Tag) :
    ∀ ui, ∀ c ∈ (check_edge_tags fem states ui tags).2.1, fem.is_evaled c.tag = false := by
  induction tags with
  | nil => intro ui; simp [check_edge_tags]
  | cons t ts ih =>
    intro ui
    simp only [check_edge_tags]
    split
    · intro c hc
      simp only [List.mem_append] at hc
      rcases hc with hc | hc
      · exact check_tag_calls _ _ _ c hc
      · exact ih _ c hc
    · exact check_tag_calls _ _ _

theorem check_edge_tags_calls_length (fem : FamilyEffortModel) (states : List State)
    (tags : List Tag) :
    ∀ ui, (check_edge_tags fem states ui tags).2.1.length ≤ tags.length := by
  induction tags with
  | nil => intro ui; simp [check_edge_tags]
  | cons t ts ih =>
    intro ui
    simp only [check_edge_tags]
    have h1 := check_tag_calls_length fem t (states.getD ui [])
    split
    · have h2 := ih (ui + 1)
      simp only [List.length_append, List.length_cons]
      omega
    · simp only [List.length_cons]
      omega

theorem check_edge_tags_stop (fem : FamilyEffortModel) (states : List State) (tags : List Tag)
    (hfalse : ∀ t s, ( fem.eval_partial t s).1 = false → fem.x_hat ( fem.eval_partial t s).2 = ⊤) :
    ∀ ui, (check_edge_tags fem states ui tags).2.2 = false →
      ∃ t ∈ (check_edge_tags fem states ui tags).1, fem.x_hat t = ⊤ := by
  induction tags with
  | nil => intro ui h; simp [check_edge_tags] at h
  | cons t ts ih =>
    intro ui
    simp only [check_edge_tags]
    split
    · intro h
      obtain ⟨t', ht', hx⟩ := ih _ h
      exact ⟨t', List.mem_cons_of_mem _ ht', hx⟩
    · rename_i hstop
      intro _
      refine ⟨_, List.mem_cons_self _ _, ?_⟩
      exact check_tag_stop_inf fem _ _ hfalse (by simpa using hstop)

theorem check_edge_tags_go (fem : FamilyEffortModel) (states : List State) (tags : List Tag) :
    ∀ ui, (check_edge_tags fem states ui tags).2.2 = true →
      ∀ c ∈ (check_edge_tags fem states ui tags).2.1, c.result = true := by
  induction tags with
  | nil => intro ui; simp [check_edge_tags]
  | cons t ts ih =>
    intro ui
    simp only [check_edge_tags]
    split
    · rename_i hgo
      intro h c hc
      simp only [List.mem_append] at hc
      rcases hc with hc | hc
      · exact (check_tag_go fem _ _ hgo).1 c hc
      · exact ih _ h c hc
    · simp

theorem check_edge_tags_go_evaled (fem : FamilyEffortModel) (states : List State)
    (tags : List Tag)
    (hone : ∀ t s, fem.is_evaled t = false → ( fem.eval_partial t s).1 = true →
      fem.is_evaled ( fem.eval_partial t s).2 = true) :
    ∀ ui, (check_edge_tags fem states ui tags).2.2 = true →
      ∀ t ∈ (check_edge_tags fem states ui tags).1, fem.is_evaled t = true := by
  induction tags with
  | nil => intro ui; simp [check_edge_tags]
  | cons t ts ih =>
    intro ui
    simp only [check_edge_tags]
    split
    · rename_i hgo
      intro h t' ht'
      simp only [List.mem_cons] at ht'
      rcases ht' with ht' | ht'
      · rw [ht']; exact check_tag_go_evaled fem _ _ hone hgo
      · exact ih _ h t' ht'
    · simp

theorem check_edge_tags_stop_call (fem : FamilyEffortModel) (states : List State)
    (tags : List Tag) :
    ∀ ui, (check_edge_tags fem states ui tags).2.2 = false →
      ∃ c ∈ (check_edge_tags fem states ui tags).2.1, c.result = false := by
  induction tags with
  | nil => intro ui h; simp [check_edge_tags] at h
  | cons t ts ih =>
    intro ui
    simp only [check_edge_tags]
    split
    · intro h
      obtain ⟨c, hc, hr⟩ := ih _ h
      exact ⟨c, List.mem_append_right _ hc, hr⟩
    · rename_i hstop
      intro _
      exact (check_tag_stop fem _ _ (by simpa using hstop)).1

theorem has_edge_set_vprop (g : Graph) (v : Nat) (q : VProps) (e : Edge) :
    (g.set_vprop v q).has_edge e = g.has_edge e := by
  simp [Graph.has_edge, Graph.set_vprop]

theorem eprop_set_vprop (g : Graph) (v : Nat) (q : VProps) (e : Edge) :
    (g.set_vprop v q).eprop e = g.eprop e := rfl

theorem vprop_set_eprop (g : Graph) (e : Edge) (q : EProps) (v : Nat) :
    (g.set_eprop e q).vprop v = g.vprop v := rfl

theorem has_edge_set_eprop (g : Graph) (e' : Edge) (q : EProps) (e : Edge) :
    (g.set_eprop e' q).has_edge e = g.has_edge e := by
  unfold Graph.has_edge Graph.set_eprop
  by_cases hid : e'.id = e.id
  · simp only [hid, List.getElem?_modify_eq]
    cases g.edges[e.id]? <;> simp
  · simp only [List.getElem?_modify_ne _ _ hid]

/-! ### One vertex -/

theorem check_vertex_has_edge (fem : FamilyEffortModel) (g : Graph) (v : Nat) (e : Edge) :
    (check_vertex fem g v).1.has_edge e = g.has_edge e := by
  simp [check_vertex, has_edge_set_vprop]

theorem check_vertex_eprop (fem : FamilyEffortModel) (g : Graph) (v : Nat) (e : Edge) :
    (check_vertex fem g v).1.eprop e = g.eprop e := rfl

theorem check_vertex_other (fem : FamilyEffortModel) (g : Graph) (v w : Nat) (h : w ≠ v) :
    (check_vertex fem g v).1.vprop w = g.vprop w := by
  simp [check_vertex, vprop_set_vprop_other _ _ _ _ h]

theorem check_vertex_calls (fem : FamilyEffortModel) (g : Graph) (v : Nat) :
    ∀ c ∈ (check_vertex fem g v).2.1, fem.is_evaled c.tag = false :=
  check_tag_calls fem _ _

theorem check_vertex_calls_length (fem : FamilyEffortModel) (g : Graph) (v : Nat) :
    (check_vertex fem g v).2.1.length ≤ 1 :=
  check_tag_calls_length fem _ _

theorem check_vertex_stop (fem : FamilyEffortModel) (g : Graph) (v : Nat)
    (h : (check_vertex fem g v).2.2 = false) :
    ∃ c ∈ (check_vertex fem g v).2.1, c.result = false :=
  (check_tag_stop fem _ _ h).1

theorem check_vertex_stop_inf (fem : FamilyEffortModel) (g : Graph) (v : Nat)
    (hv : v < g.vertices.length)
    (hfalse : ∀ t s, ( fem.eval_partial t s).1 = false → fem.x_hat ( fem.eval_partial t s).2 = ⊤)
    (h : (check_vertex fem g v).2.2 = false) :
    fem.x_hat ((check_vertex fem g v).1.vprop v).tag = ⊤ := by
  have := check_tag_stop_inf fem (g.vprop v).tag (g.vprop v).state hfalse h
  simpa [check_vertex, vprop_set_vprop_same _ _ _ hv] using this

theorem check_vertex_go (fem : FamilyEffortModel) (g : Graph) (v : Nat)
    (h : (check_vertex fem g v).2.2 = true) :
    ∀ c ∈ (check_vertex fem g v).2.1, c.result = true :=
  (check_tag_go fem _ _ h).1

theorem check_vertex_go_evaled (fem : FamilyEffortModel) (g : Graph) (v : Nat)
    (hv : v < g.vertices.length)
    (hone : ∀ t s, fem.is_evaled t = false → ( fem.eval_partial t s).1 = true →
      fem.is_evaled ( fem.eval_partial t s).2 = true)
    (h : (check_vertex fem g v).2.2 = true) :
    fem.is_evaled ((check_vertex fem g v).1.vprop v).tag = true := by
  have := check_tag_go_evaled fem (g.vprop v).tag (g.vprop v).state hone h
  simpa [check_vertex, vprop_set_vprop_same _ _ _ hv] using this

/-- A decided tag is left alone by a further check of its vertex. -/
theorem check_vertex_keeps_evaled (fem : FamilyEffortModel) (g : Graph) (v w : Nat)
    (h : fem.is_evaled (g.vprop w).tag = true) :
    fem.is_evaled ((check_vertex fem g v).1.vprop w).tag = true := by
  by_cases hw : w = v
  · subst hw
    by_cases hlen : w < g.vertices.length
    · simp [check_vertex, vprop_set_vprop_same _ _ _ hlen, check_tag, h]
    · have : (check_vertex fem g w).1 = g := by
        simp [check_vertex, Graph.set_vprop, List.set_eq_of_length_le (Nat.le_of_not_lt hlen)]
      rw [this]; exact h
  · rw [check_vertex_other _ _ _ _ hw]; exact h

/-! ### The interior points -/

theorem check_interior_has_edge (fem : FamilyEffortModel) (g : Graph) (e' e : Edge) :
    (check_interior fem g e').1.has_edge e = g.has_edge e := by
  simp [check_interior, has_edge_set_eprop]

theorem check_interior_vprop (fem : FamilyEffortModel) (g : Graph) (e : Edge) (v : Nat) :
    (check_interior fem g e).1.vprop v = g.vprop v := rfl

theorem check_interior_tags (fem : FamilyEffortModel) (g : Graph) (e : Edge)
    (hid : e.id < g.edges.length) :
    ((check_interior fem g e).1.eprop e).edge_tags =
      (check_edge_tags fem (g.eprop e).edge_states 0 (g.eprop e).edge_tags).1 := by
  simp [check_interior, eprop_set_eprop_same _ _ _ _ rfl hid]

theorem check_interior_states (fem : FamilyEffortModel) (g : Graph) (e : Edge)
    (hid : e.id < g.edges.length) :
    ((check_interior fem g e).1.eprop e).edge_states = (g.eprop e).edge_states := by
  simp [check_interior, eprop_set_eprop_same _ _ _ _ rfl hid]

/-! ### The whole block -/

theorem check_edge_frame (fem : FamilyEffortModel) (g : Graph) (e : Edge)
    (he : g.has_edge e = true) :
    (check_edge fem g e).1.has_edge e = true
    ∧ ((check_edge fem g e).1.eprop e).edge_states = (g.eprop e).edge_states
    ∧ ((check_edge fem g e).1.eprop e).edge_tags.length = (g.eprop e).edge_tags.length := by
  have hid := has_edge_id _ _ he
  have ha : (check_vertex fem g e.src).1.has_edge e = true := by
    rw [check_vertex_has_edge]; exact he
  have hb : (check_vertex fem (check_vertex fem g e.src).1 e.tgt).1.has_edge e = true := by
    rw [check_vertex_has_edge]; exact ha
  unfold check_edge
  simp only
  split
  · exact ⟨ha, rfl, rfl⟩
  · split
    · exact ⟨hb, rfl, rfl⟩
    · refine ⟨by rw [check_interior_has_edge]; exact hb, ?_, ?_⟩
      · rw [check_interior_states _ _ _ (has_edge_id _ _ hb)]; rfl
      · rw [check_interior_tags _ _ _ (has_edge_id _ _ hb), check_edge_tags_length]; rfl

theorem check_edge_calls (fem : FamilyEffortModel) (g : Graph) (e : Edge) :
    ∀ c ∈ (check_edge fem g e).2, fem.is_evaled c.tag = false := by
  unfold check_edge
  simp only
  split
  · exact check_vertex_calls _ _ _
  · split
    · intro c hc
      simp only [List.mem_append] at hc
      rcases hc with hc | hc
      · exact check_vertex_calls _ _ _ c hc
      · exact check_vertex_calls _ _ _ c hc
    · intro c hc
      simp only [List.mem_append] at hc
      rcases hc with (hc | hc) | hc
      · exact check_vertex_calls _ _ _ c hc
      · exact check_vertex_calls _ _ _ c hc
      · exact check_edge_tags_calls _ _ _ _ c hc

theorem check_edge_calls_length (fem : FamilyEffortModel) (g : Graph) (e : Edge) :
    (check_edge fem g e).2.length ≤ 2 + (g.eprop e).edge_tags.length := by
  have ha := check_vertex_calls_length fem g e.src
  have hb := check_vertex_calls_length fem (check_vertex fem g e.src).1 e.tgt
  have hc := check_edge_tags_calls_length fem (g.eprop e).edge_states (g.eprop e).edge_tags 0
  unfold check_edge
  simp only
  split
  · dsimp only; omega
  · split
    · simp only [List.length_append]; omega
    · simp only [List.length_append]
      have : (check_interior fem (check_vertex fem (check_vertex fem g e.src).1 e.tgt).1 e).2.1
          = (check_edge_tags fem (g.eprop e).edge_states 0 (g.eprop e).edge_tags).2.1 := rfl
      rw [this]
      omega

theorem check_edge_false (fem : FamilyEffortModel) (g : Graph) (e : Edge)
    (he : g.has_edge e = true)
    (hfalse : ∀ t s, ( fem.eval_partial t s).1 = false → fem.x_hat ( fem.eval_partial t s).2 = ⊤)
    (hcall : ∃ c ∈ (check_edge fem g e).2, c.result = false) :
    fem.x_hat ((check_edge fem g e).1.vprop e.src).tag = ⊤
    ∨ fem.x_hat ((check_edge fem g e).1.vprop e.tgt).tag = ⊤
    ∨ ∃ t ∈ ((check_edge fem g e).1.eprop e).edge_tags, fem.x_hat t = ⊤ := by
  have hs := has_edge_src _ _ he
  have ha : (check_vertex fem g e.src).1.has_edge e = true := by
    rw [check_vertex_has_edge]; exact he
  have hb : (check_vertex fem (check_vertex fem g e.src).1 e.tgt).1.has_edge e = true := by
    rw [check_vertex_has_edge]; exact ha
  unfold check_edge at hcall ⊢
  simp only at hcall ⊢
  split
  · rename_i hstop
    exact Or.inl (check_vertex_stop_inf _ _ _ hs hfalse hstop)
  · rename_i hgo
    have hgo1 := Bool.eq_true_of_not_eq_false hgo
    split
    · rename_i hstop
      exact Or.inr (Or.inl (check_vertex_stop_inf _ _ _ (has_edge_tgt _ _ ha) hfalse hstop))
    · rename_i hgo'
      have hgo2 := Bool.eq_true_of_not_eq_false hgo'
      right; right
      rw [check_interior_tags _ _ _ (has_edge_id _ _ hb)]
      apply check_edge_tags_stop _ _ _ hfalse
      by_contra hne
      have hgo3 := Bool.eq_true_of_not_eq_false hne
      rw [if_neg hgo, if_neg hgo'] at hcall
      obtain ⟨c, hc, hr⟩ := hcall
      simp only [List.mem_append] at hc
      rcases hc with (hc | hc) | hc
      · rw [check_vertex_go _ _ _ hgo1 c hc] at hr; exact Bool.noConfusion hr
      · rw [check_vertex_go _ _ _ hgo2 c hc] at hr; exact Bool.noConfusion hr
      · rw [check_edge_tags_go _ _ _ _ hgo3 c hc] at hr; exact Bool.noConfusion hr

theorem check_edge_true (fem : FamilyEffortModel) (g : Graph) (e : Edge)
    (he : g.has_edge e = true)
    (hone : ∀ t s, fem.is_evaled t = false → ( fem.eval_partial t s).1 = true →
      fem.is_evaled ( fem.eval_partial t s).2 = true)
    (hcall : ∀ c ∈ (check_edge fem g e).2, c.result = true) :
    fem.is_evaled ((check_edge fem g e).1.vprop e.src).tag = true
    ∧ fem.is_evaled ((check_edge fem g e).1.vprop e.tgt).tag = true
    ∧ ∀ t ∈ ((check_edge fem g e).1.eprop e).edge_tags, fem.is_evaled t = true := by
  have hs := has_edge_src _ _ he
  have ha : (check_vertex fem g e.src).1.has_edge e = true := by
    rw [check_vertex_has_edge]; exact he
  have hb : (check_vertex fem (check_vertex fem g e.src).1 e.tgt).1.has_edge e = true := by
    rw [check_vertex_has_edge]; exact ha
  unfold check_edge at hcall ⊢
  simp only at hcall ⊢
  split
  · rename_i hstop
    exfalso
    simp only [hstop, if_true] at hcall
    obtain ⟨c, hc, hr⟩ := check_vertex_stop _ _ _ hstop
    rw [hcall c hc] at hr; exact Bool.noConfusion hr
  · rename_i hgo
    have hgo1 := Bool.eq_true_of_not_eq_false hgo
    split
    · rename_i hstop
      exfalso
      simp only [hgo, hstop, if_true, if_false] at hcall
      obtain ⟨c, hc, hr⟩ := check_vertex_stop _ _ _ hstop
      rw [hcall c (List.mem_append_right _ hc)] at hr; exact Bool.noConfusion hr
    · rename_i hgo'
      have hgo2 := Bool.eq_true_of_not_eq_false hgo'
      simp only [hgo, hgo', if_false] at hcall
      have hgo3 : (check_interior fem
          (check_vertex fem (check_vertex fem g e.src).1 e.tgt).1 e).2.2 = true := by
        by_contra hne
        obtain ⟨c, hc, hr⟩ := check_edge_tags_stop_call _ _ _ _
          (show (check_edge_tags fem _ 0 _).2.2 = false by simpa using hne)
        rw [hcall c (List.mem_append_right _ hc)] at hr; exact Bool.noConfusion hr
      have ea := check_vertex_go_evaled _ _ _ hs hone hgo1
      have eb := check_vertex_go_evaled _ _ _ (has_edge_tgt _ _ ha) hone hgo2
      refine ⟨?_, ?_, ?_⟩
      · rw [check_interior_vprop]
        exact check_vertex_keeps_evaled _ _ _ _ ea
      · rw [check_interior_vprop]; exact eb
      · rw [check_interior_tags _ _ _ (has_edge_id _ _ hb)]
        exact check_edge_tags_go_evaled _ _ _ hone _ hgo3


theorem w_lazy_value_top (p : FamilyPlanner σ) (e : Edge)
    (hlen : (p.g.eprop e).edge_states.length = (p.g.eprop e).edge_tags.length)
    (hinf : p.family_effort_model.x_hat (p.g.vprop e.src).tag = ⊤
      ∨ p.family_effort_model.x_hat (p.g.vprop e.tgt).tag = ⊤
      ∨ ∃ t ∈ (p.g.eprop e).edge_tags, p.family_effort_model.x_hat t = ⊤) :
    w_lazy_value p e = ⊤ := by
  unfold w_lazy_value
  rw [if_pos]
  rcases hinf with h | h | h
  · exact Or.inr (Or.inl h)
  · exact Or.inr (Or.inr h)
  · left
    rw [hlen]
    exact (first_inf_lt_iff _ _).2 h

theorem wmap_get_fst (p : FamilyPlanner σ) (e : Edge) (he : p.g.has_edge e = true) :
    (wmap_get p e).1 = w_lazy_value (wmap_get_checks p e).1 e := by
  have hf := (check_edge_frame p.family_effort_model p.g e he).1
  exact (wmap_get_recalc_spec (wmap_get_checks p e).1 e hf).2

theorem wmap_get_unweighted (p : FamilyPlanner σ) (e : Edge) (he : p.g.has_edge e = true) :
    unweighted (wmap_get p e).2.1 = unweighted (wmap_get_checks p e).1 := by
  have hf := (check_edge_frame p.family_effort_model p.g e he).1
  exact (wmap_get_recalc_spec (wmap_get_checks p e).1 e hf).1


theorem isevaledmap_get_iff (p : FamilyPlanner σ) (e : Edge) :
    isevaledmap_get p e = true ↔
      ∀ t ∈ (p.g.eprop e).edge_tags, p.family_effort_model.is_evaled t = true := by
  simp [isevaledmap_get, List.all_eq_true]

/-! ## Interior points -/

theorem num_interior_eq (p : FamilyPlanner σ) (L : ℚ) :
    num_interior p L
      = Int.toNat ⌊round_double (L / (2 * p.check_radius))⌋ % 2 ^ 32 := rfl

theorem edge_init_points_length_eq (p : FamilyPlanner σ) (a b : State) (L : ℚ) :
    (edge_init_points p a b L).length = num_interior p L := by
  simp [edge_init_points]

theorem map_getD_range {α β : Type} (l : List α) (d : α) (f : α → β) :
    (List.range l.length).map (fun i => f (l.getD i d)) = l.map f := by
  apply List.ext_getElem
  · simp
  · intro i h1 h2
    simp only [List.length_map, List.length_range] at h1
    simp [List.getElem?_eq_getElem h1]

theorem interior_params_eq (order : List (Int × Int)) (n : Nat) (hlen : order.length = n) :
    (List.range n).map (interior_param order n)
      = (order.map Prod.fst).map (fun z : ℤ => ((1 + z : ℤ) : ℚ) / ((n : ℚ) + 1)) := by
  subst hlen
  rw [List.map_map]
  rw [← map_getD_range order (0, 0)]
  apply List.map_congr_left
  intro i _
  simp [interior_param]


theorem interior_param_eq (order : List (Int × Int)) (n ui : Nat) :
    interior_param order n ui
      = ((1 + (order.getD ui (0, 0)).1 : ℤ) : ℚ) / ((n : ℚ) + 1) := by
  simp [interior_param]

/-! ## Edge bookkeeping -/

theorem mem_modify {α : Type} (f : α → α) (n : Nat) (l : List α) (x : α)
    (h : x ∈ l.modify f n) : x ∈ l ∨ ∃ y, l[n]? = some y ∧ x = f y := by
  obtain ⟨i, h1⟩ := List.mem_iff_getElem?.1 h
  by_cases hn : n = i
  · subst hn
    rw [List.getElem?_modify_eq] at h1
    cases hl : l[n]? with
    | none => rw [hl] at h1; exact Option.noConfusion h1
    | some y =>
      rw [hl] at h1
      exact Or.inr ⟨y, rfl, (Option.some.inj h1).symm⟩
  · rw [List.getElem?_modify_ne _ _ hn] at h1
    exact Or.inl (List.getElem?_mem h1)

theorem balanced_set_vprop (g : Graph) (v : Nat) (q : VProps) (h : g.balanced) :
    (g.set_vprop v q).balanced := h

theorem balanced_set_eprop (g : Graph) (e : Edge) (q : EProps) (h : g.balanced)
    (hq : q.edge_states.length = q.edge_tags.length) : (g.set_eprop e q).balanced := by
  intro se hse
  rcases mem_modify _ _ _ _ hse with h1 | ⟨y, _, h1⟩
  · exact h se h1
  · rw [h1]; exact hq

theorem balanced_eprop (g : Graph) (e : Edge) (h : g.balanced) :
    (g.eprop e).edge_states.length = (g.eprop e).edge_tags.length := by
  unfold Graph.eprop
  rw [List.getD_eq_getElem?_getD]
  cases hl : g.edges[e.id]? with
  | none => rfl
  | some se => exact h se (List.getElem?_mem hl)

theorem balanced_add_vertex (g : Graph) (h : g.balanced) : g.add_vertex.1.balanced := h

theorem balanced_add_edge (g : Graph) (u v : Nat) (h : g.balanced) :
    (g.add_edge u v).1.balanced := by
  intro se hse
  simp only [Graph.add_edge, List.mem_append, List.mem_singleton] at hse
  rcases hse with h1 | h1
  · exact h se h1
  · rw [h1]; rfl

theorem balanced_remove_edge (g : Graph) (e : Edge) (h : g.balanced) :
    (g.remove_edge e).balanced := by
  intro se hse
  exact h se ((List.eraseIdx_sublist _ _).subset hse)

theorem balanced_remove_vertex (g : Graph) (v : Nat) (h : g.balanced) :
    (g.remove_vertex v).balanced := h

theorem over_balanced_set_vprop (og : OverGraph) (v : Nat) (q : OverVProps) (h : og.balanced) :
    (og.set_vprop v q).balanced := h

theorem over_balanced_set_eprop (og : OverGraph) (e : Nat) (q : OverEProps) (h : og.balanced)
    (hq : q.edge_states.length = q.edge_tags.length) : (og.set_eprop e q).balanced := by
  intro se hse
  rcases mem_modify _ _ _ _ hse with h1 | ⟨y, _, h1⟩
  · exact h se h1
  · rw [h1]; exact hq

theorem over_balanced_eprop (og : OverGraph) (e : Nat) (h : og.balanced) :
    (og.eprop e).edge_states.length = (og.eprop e).edge_tags.length := by
  unfold OverGraph.eprop
  rw [List.getD_eq_getElem?_getD]
  cases hl : og.edges[e]? with
  | none => rfl
  | some se => exact h se (List.getElem?_mem hl)

theorem over_balanced_add_vertex (og : OverGraph) (h : og.balanced) :
    og.add_vertex.1.balanced := h

theorem over_balanced_add_edge (og : OverGraph) (u v : Nat) (h : og.balanced) :
    (og.add_edge u v).1.balanced := by
  intro se hse
  simp only [OverGraph.add_edge, List.mem_append, List.mem_singleton] at hse
  rcases hse with h1 | h1
  · exact h se h1
  · rw [h1]; rfl

theorem resize_length (l : List Tag) (n : Nat) (v : Tag) : (resize l n v).length = n := by
  simp only [resize, List.length_append, List.length_take, List.length_replicate]
  omega

theorem foldl_preserves {α β : Type} (P : α → Prop) (f : α → β → α)
    (hf : ∀ a b, P a → P (f a b)) (l : List β) : ∀ a, P a → P (l.foldl f a) := by
  induction l with
  | nil => intro a ha; exact ha
  | cons b l ih => intro a ha; exact ih _ (hf a b ha)

theorem balanced_apply_gen_op (g : Graph) (op : GenOp) (h : g.balanced) :
    (apply_gen_op g op).balanced := by
  cases op with
  | add_vertex => exact balanced_add_vertex g h
  | add_edge u v => exact balanced_add_edge g u v h
  | put_state v s => exact balanced_set_vprop _ _ _ h
  | put_distance e d => exact balanced_set_eprop _ _ _ h (balanced_eprop g e h)
  | put_vertex_subgraph v k => exact balanced_set_vprop _ _ _ h
  | put_edge_subgraph e k => exact balanced_set_eprop _ _ _ h (balanced_eprop g e h)
  | put_is_shadow v b => exact balanced_set_vprop _ _ _ h

theorem bookkeeping_calculate_w_lazy (p : FamilyPlanner σ) (e : Edge) (h : bookkeeping p) :
    bookkeeping (calculate_w_lazy p e) :=
  ⟨balanced_set_eprop _ _ _ h.1 (balanced_eprop p.g e h.1), h.2⟩

theorem bookkeeping_init_edge (p : FamilyPlanner σ) (e : Edge) (h : bookkeeping p) :
    bookkeeping (init_edge p e) :=
  ⟨balanced_set_eprop _ _ _ h.1 (by simp [resize_length]), h.2⟩

theorem bookkeeping_init_new_edge (n : Nat) (p : FamilyPlanner σ) (e : Edge)
    (h : bookkeeping p) : bookkeeping (init_new_edge n p e) := by
  unfold init_new_edge
  split
  · exact h
  · exact bookkeeping_calculate_w_lazy _ _ (bookkeeping_init_edge _ _ h)


/-! ### The overlay -/

theorem balanced_apply_vertex (s : Graph × OverGraph × OverlayManager) (vo : Nat)
    (h : s.1.balanced ∧ s.2.1.balanced) :
    (apply_vertex s vo).1.balanced ∧ (apply_vertex s vo).2.1.balanced := by
  unfold apply_vertex
  split
  · exact ⟨balanced_add_vertex _ h.1, over_balanced_set_vprop _ _ _ h.2⟩
  · exact h

theorem balanced_apply_edge (s : Graph × OverGraph × OverlayManager) (eo : Nat)
    (h : s.1.balanced ∧ s.2.1.balanced) :
    (apply_edge s eo).1.balanced ∧ (apply_edge s eo).2.1.balanced :=
  ⟨balanced_add_edge _ _ _ h.1,
    over_balanced_set_eprop _ _ _ h.2 (over_balanced_eprop _ eo h.2)⟩

theorem balanced_manager_apply (g : Graph) (og : OverGraph) (m : OverlayManager)
    (h : g.balanced ∧ og.balanced) :
    (m.apply g og).1.balanced ∧ (m.apply g og).2.1.balanced := by
  unfold OverlayManager.apply
  have h1 := foldl_preserves (fun s : Graph × OverGraph × OverlayManager =>
    s.1.balanced ∧ s.2.1.balanced) apply_vertex balanced_apply_vertex
    (List.range og.vertices.length) (g, og, m) h
  exact foldl_preserves (fun s : Graph × OverGraph × OverlayManager =>
    s.1.balanced ∧ s.2.1.balanced) apply_edge balanced_apply_edge
    (List.range og.edges.length) _ h1

theorem balanced_unapply_edge (s : Graph × OverGraph) (eo : Nat)
    (h : s.1.balanced ∧ s.2.balanced) :
    (unapply_edge s eo).1.balanced ∧ (unapply_edge s eo).2.balanced :=
  ⟨balanced_remove_edge _ _ h.1,
    over_balanced_set_eprop _ _ _ h.2 (over_balanced_eprop _ eo h.2)⟩

theorem balanced_unapply_vertex (s : Graph × OverGraph) (vo : Nat)
    (h : s.1.balanced ∧ s.2.balanced) :
    (unapply_vertex s vo).1.balanced ∧ (unapply_vertex s vo).2.balanced :=
  ⟨balanced_remove_vertex _ _ h.1, over_balanced_set_vprop _ _ _ h.2⟩

theorem balanced_manager_unapply (g : Graph) (og : OverGraph) (m : OverlayManager)
    (h : g.balanced ∧ og.balanced) :
    (m.unapply g og).1.balanced ∧ (m.unapply g og).2.1.balanced := by
  unfold OverlayManager.unapply
  have h1 := foldl_preserves (fun s : Graph × OverGraph => s.1.balanced ∧ s.2.balanced)
    unapply_edge balanced_unapply_edge m.applied_edges.reverse (g, og) h
  exact foldl_preserves (fun s : Graph × OverGraph => s.1.balanced ∧ s.2.balanced)
    unapply_vertex balanced_unapply_vertex m.applied_vertices.reverse _ h1

theorem bookkeeping_copy_vertex_to_core (p : FamilyPlanner σ) (vover : Nat)
    (h : bookkeeping p) : bookkeeping (copy_vertex_to_core p vover) :=
  ⟨balanced_set_vprop _ _ _ h.1, h.2⟩

theorem bookkeeping_copy_edge_to_core (p : FamilyPlanner σ) (eover : Nat)
    (h : bookkeeping p) : bookkeeping (copy_edge_to_core p eover) := by
  unfold copy_edge_to_core
  apply bookkeeping_calculate_w_lazy
  exact ⟨balanced_set_eprop _ _ _ h.1 (over_balanced_eprop _ eover h.2), h.2⟩

theorem bookkeeping_overlay_apply (p : FamilyPlanner σ) (h : bookkeeping p) :
    bookkeeping (overlay_apply p) := by
  unfold overlay_apply
  split
  · exact h
  · have h0 := balanced_manager_apply p.g p.og p.overlay_manager h
    have h1 : bookkeeping ({ p with
        g := (p.overlay_manager.apply p.g p.og).1
        og := (p.overlay_manager.apply p.g p.og).2.1
        overlay_manager := (p.overlay_manager.apply p.g p.og).2.2 } : FamilyPlanner σ) := h0
    have h2 := foldl_preserves bookkeeping copy_vertex_to_core bookkeeping_copy_vertex_to_core
      (p.overlay_manager.apply p.g p.og).2.2.applied_vertices _ h1
    exact foldl_preserves bookkeeping copy_edge_to_core bookkeeping_copy_edge_to_core _ _ h2

theorem bookkeeping_copy_vertex_to_overlay (p : FamilyPlanner σ) (vover : Nat)
    (h : bookkeeping p) : bookkeeping (copy_vertex_to_overlay p vover) :=
  ⟨h.1, over_balanced_set_vprop _ _ _ h.2⟩

theorem bookkeeping_copy_edge_to_overlay (p : FamilyPlanner σ) (eover : Nat)
    (h : bookkeeping p) : bookkeeping (copy_edge_to_overlay p eover) :=
  ⟨h.1, over_balanced_set_eprop _ _ _ h.2 (balanced_eprop _ _ h.1)⟩

theorem bookkeeping_overlay_unapply (p : FamilyPlanner σ) (h : bookkeeping p) :
    bookkeeping (overlay_unapply p) := by
  unfold overlay_unapply
  split
  · exact h
  · have h1 := foldl_preserves bookkeeping copy_vertex_to_overlay
      bookkeeping_copy_vertex_to_overlay p.overlay_manager.applied_vertices p h
    have h2 := foldl_preserves bookkeeping copy_edge_to_overlay
      bookkeeping_copy_edge_to_overlay
      (p.overlay_manager.applied_vertices.foldl copy_vertex_to_overlay
        p).overlay_manager.applied_edges _ h1
    exact balanced_manager_unapply _ _ _ h2

/-! ### setProblemDefinition -/

theorem bookkeeping_retarget (p : FamilyPlanner σ) (pdef : ProblemDefinition)
    (h : bookkeeping p) : bookkeeping (retarget p pdef) := by
  unfold retarget
  split
  · exact foldl_preserves bookkeeping calculate_w_lazy bookkeeping_calculate_w_lazy _ _ h
  · exact h

theorem bookkeeping_add_roots_from (fresh : OverVProps) (p : FamilyPlanner σ)
    (pdef : ProblemDefinition) (h : bookkeeping p) :
    bookkeeping (add_roots_from fresh p pdef) := by
  refine ⟨h.1, ?_⟩
  intro se hse
  simp [add_roots_from, OverGraph.set_vprop, OverGraph.add_vertex_from] at hse

theorem bookkeeping_add_roots (p : FamilyPlanner σ) (pdef : ProblemDefinition)
    (h : bookkeeping p) : bookkeeping (add_roots p pdef) :=
  bookkeeping_add_roots_from _ p pdef h

theorem over_balanced_add_vertex_from (fresh : OverVProps) (og : OverGraph) (h : og.balanced) :
    (OverGraph.add_vertex_from fresh og).1.balanced := h

theorem bookkeeping_connect_anchor_from (fresh : OverVProps) (root : Nat)
    (p : FamilyPlanner σ) (vi : Nat) (h : bookkeeping p) :
    bookkeeping (connect_anchor_from fresh root p vi) := by
  unfold connect_anchor_from
  simp only
  split
  · exact h
  · refine ⟨h.1, ?_⟩
    apply over_balanced_set_eprop
    · apply over_balanced_add_edge
      apply over_balanced_set_vprop
      exact over_balanced_add_vertex_from _ _ h.2
    · simp [resize_length]

theorem bookkeeping_connect_anchor (root : Nat) (p : FamilyPlanner σ) (vi : Nat)
    (h : bookkeeping p) : bookkeeping (connect_anchor root p vi) :=
  bookkeeping_connect_anchor_from _ root p vi h

theorem bookkeeping_connect_root_from (fresh : OverVProps) (p : FamilyPlanner σ) (root : Nat)
    (h : bookkeeping p) : bookkeeping (connect_root_from fresh p root) :=
  foldl_preserves bookkeeping (connect_anchor_from fresh root)
    (bookkeeping_connect_anchor_from fresh root) _ _ h

theorem bookkeeping_connect_root (p : FamilyPlanner σ) (root : Nat) (h : bookkeeping p) :
    bookkeeping (connect_root p root) :=
  bookkeeping_connect_root_from _ p root h

theorem bookkeeping_setProblemDefinition_from (fresh : OverVProps) (p : FamilyPlanner σ)
    (pdef : ProblemDefinition) (h : bookkeeping p) :
    bookkeeping (setProblemDefinition_from fresh p pdef) := by
  unfold setProblemDefinition_from populate_overlay_from
  apply bookkeeping_overlay_apply
  apply foldl_preserves bookkeeping (connect_root_from fresh) (bookkeeping_connect_root_from fresh)
  apply bookkeeping_add_roots_from
  apply bookkeeping_overlay_unapply
  exact bookkeeping_retarget _ _ h

theorem bookkeeping_setProblemDefinition (p : FamilyPlanner σ) (pdef : ProblemDefinition)
    (h : bookkeeping p) : bookkeeping (setProblemDefinition p pdef) :=
  bookkeeping_setProblemDefinition_from _ p pdef h

/-! ### wmap_get and the searches -/

theorem balanced_check_vertex (fem : FamilyEffortModel) (g : Graph) (v : Nat)
    (h : g.balanced) : (check_vertex fem g v).1.balanced := h

theorem balanced_check_interior (fem : FamilyEffortModel) (g : Graph) (e : Edge)
    (h : g.balanced) : (check_interior fem g e).1.balanced := by
  unfold check_interior
  apply balanced_set_eprop _ _ _ h
  simp only [check_edge_tags_length]
  exact balanced_eprop g e h

theorem balanced_check_edge (fem : FamilyEffortModel) (g : Graph) (e : Edge)
    (h : g.balanced) : (check_edge fem g e).1.balanced := by
  unfold check_edge
  simp only
  split
  · exact h
  · split
    · exact h
    · exact balanced_check_interior _ _ _ h

theorem bookkeeping_wmap_get (p : FamilyPlanner σ) (e : Edge) (h : bookkeeping p) :
    bookkeeping (wmap_get p e).2.1 := by
  have h1 : bookkeeping (wmap_get_checks p e).1 := ⟨balanced_check_edge _ _ _ h.1, h.2⟩
  show bookkeeping (wmap_get_recalc (wmap_get_checks p e).1 e)
  unfold wmap_get_recalc
  apply foldl_preserves bookkeeping calculate_w_lazy bookkeeping_calculate_w_lazy
  apply foldl_preserves bookkeeping calculate_w_lazy bookkeeping_calculate_w_lazy
  exact bookkeeping_calculate_w_lazy _ _ h1

theorem bookkeeping_lazy_shortest_path (v_start v_goal : Nat) (fuel : Nat) :
    ∀ (p : FamilyPlanner σ) (epath : List Edge), bookkeeping p →
      bookkeeping (lazy_shortest_path v_start v_goal fuel p epath).planner := by
  induction fuel with
  | zero => intro p epath h; exact h
  | succ fuel ih =>
    intro p epath h
    unfold lazy_shortest_path
    split
    · exact h
    · exact h
    · split
      · exact h
      · split
        · exact h
        · split
          · exact h
          · exact ih _ _ (bookkeeping_wmap_get _ _ h)

theorem bookkeeping_densify (p : FamilyPlanner σ) (h : bookkeeping p) :
    bookkeeping (densify p).2 := by
  have h1 := bookkeeping_overlay_unapply p h
  unfold densify
  simp only
  split
  · exact h1
  · apply bookkeeping_overlay_apply
    apply foldl_preserves bookkeeping _ (bookkeeping_init_new_edge _)
    exact ⟨foldl_preserves Graph.balanced apply_gen_op balanced_apply_gen_op _ _ h1.1, h1.2⟩

theorem bookkeeping_solve_loop (fuel : Nat) :
    ∀ (p : FamilyPlanner σ) (epath : List Edge), bookkeeping p →
      bookkeeping (solve_loop fuel p epath).planner := by
  induction fuel with
  | zero => intro p epath h; exact h
  | succ fuel ih =>
    intro p epath h
    have hl := bookkeeping_lazy_shortest_path (p.og.vprop p.ov_start).core_vertex
      (p.og.vprop p.ov_goal).core_vertex (fuel + 1) p epath h
    unfold solve_loop
    simp only
    split
    · exact hl
    · exact hl
    · exact hl
    · split
      · exact hl
      · split
        · exact ih _ _ (bookkeeping_densify _ hl)
        · exact bookkeeping_densify _ hl

theorem bookkeeping_construct (c : Config σ) (p : FamilyPlanner σ)
    (h : FamilyPlanner.construct c = some p) : bookkeeping p := by
  unfold FamilyPlanner.construct at h
  split at h
  · exact Option.noConfusion h
  · rename_i ops st _
    simp only [Option.some.injEq] at h
    rw [← h]
    apply foldl_preserves bookkeeping init_edge bookkeeping_init_edge
    refine ⟨?_, ?_⟩
    · apply foldl_preserves Graph.balanced apply_gen_op balanced_apply_gen_op
      intro se hse
      simp [FamilyPlanner.blank] at hse
    · intro se hse
      simp [FamilyPlanner.blank] at hse

/-! ## The outer loop of solve -/

theorem skeleton_set_vprop (g : Graph) (v : Nat) (q : VProps) :
    (g.set_vprop v q).skeleton = g.skeleton := by
  simp [Graph.skeleton, Graph.set_vprop]

theorem map_modify_eq {α β : Type} (f : α → α) (k : α → β) (hk : ∀ a, k (f a) = k a)
    (n : Nat) (l : List α) : (l.modify f n).map k = l.map k := by
  apply List.ext_getElem?
  intro i
  by_cases hn : n = i
  · subst hn
    simp only [List.getElem?_map, List.getElem?_modify_eq]
    cases l[n]? <;> simp [hk]
  · simp only [List.getElem?_map, List.getElem?_modify_ne _ _ hn]

theorem skeleton_set_eprop (g : Graph) (e : Edge) (q : EProps) :
    (g.set_eprop e q).skeleton = g.skeleton := by
  simp only [Graph.skeleton, Graph.set_eprop]
  rw [map_modify_eq]
  intro a; rfl

theorem skeleton_check_edge (fem : FamilyEffortModel) (g : Graph) (e : Edge) :
    (check_edge fem g e).1.skeleton = g.skeleton := by
  unfold check_edge
  simp only
  split
  · exact skeleton_set_vprop _ _ _
  · split
    · exact (skeleton_set_vprop _ _ _).trans (skeleton_set_vprop _ _ _)
    · exact (skeleton_set_eprop _ _ _).trans
        ((skeleton_set_vprop _ _ _).trans (skeleton_set_vprop _ _ _))

theorem only_properties_differ_refl (p : FamilyPlanner σ) : only_properties_differ p p :=
  ⟨rfl, rfl⟩

theorem only_properties_differ_trans (p q r : FamilyPlanner σ)
    (h1 : only_properties_differ p q) (h2 : only_properties_differ q r) :
    only_properties_differ p r := by
  refine ⟨?_, h2.2.trans h1.2⟩
  rw [h2.1]
  conv => lhs; rw [h1.1]

theorem only_properties_differ_calculate_w_lazy (p q : FamilyPlanner σ) (e : Edge)
    (h : only_properties_differ p q) : only_properties_differ p (calculate_w_lazy q e) :=
  only_properties_differ_trans p q _ h ⟨rfl, skeleton_set_eprop _ _ _⟩

theorem only_properties_differ_wmap_get (p : FamilyPlanner σ) (e : Edge) :
    only_properties_differ p (wmap_get p e).2.1 := by
  have h1 : only_properties_differ p (wmap_get_checks p e).1 :=
    ⟨rfl, skeleton_check_edge _ _ _⟩
  show only_properties_differ p (wmap_get_recalc (wmap_get_checks p e).1 e)
  unfold wmap_get_recalc
  apply foldl_preserves (only_properties_differ p) calculate_w_lazy
    (only_properties_differ_calculate_w_lazy p)
  apply foldl_preserves (only_properties_differ p) calculate_w_lazy
    (only_properties_differ_calculate_w_lazy p)
  exact only_properties_differ_calculate_w_lazy p _ _ h1

theorem only_properties_differ_lazy_shortest_path (v_start v_goal : Nat) (fuel : Nat) :
    ∀ (p : FamilyPlanner σ) (epath : List Edge),
      only_properties_differ p (lazy_shortest_path v_start v_goal fuel p epath).planner := by
  induction fuel with
  | zero => intro p epath; exact only_properties_differ_refl p
  | succ fuel ih =>
    intro p epath
    unfold lazy_shortest_path
    split
    · exact only_properties_differ_refl p
    · exact only_properties_differ_refl p
    · split
      · exact only_properties_differ_refl p
      · split
        · exact only_properties_differ_refl p
        · split
          · exact only_properties_differ_refl p
          · exact only_properties_differ_trans _ _ _ (only_properties_differ_wmap_get p _)
              (ih _ _)

/-- What `solve` does when the lazy search fails with the cap reached. -/
theorem solve_loop_at_cap (fuel : Nat) (p : FamilyPlanner σ) (epath : List Edge)
    (hcap0 : p.roadmap_gen.num_subgraphs ≠ 0)
    (hcap : p.roadmap_gen.num_subgraphs ≤ p.num_subgraphs)
    (hfail : (lazy_shortest_path (p.og.vprop p.ov_start).core_vertex
      (p.og.vprop p.ov_goal).core_vertex (fuel + 1) p epath).outcome = .returned false) :
    (solve_loop (fuel + 1) p epath).outcome = .returned (.TIMEOUT, none)
    ∧ (solve_loop (fuel + 1) p epath).planner
      = (lazy_shortest_path (p.og.vprop p.ov_start).core_vertex
          (p.og.vprop p.ov_goal).core_vertex (fuel + 1) p epath).planner := by
  have hf := only_properties_differ_lazy_shortest_path (p.og.vprop p.ov_start).core_vertex
      (p.og.vprop p.ov_goal).core_vertex (fuel + 1) p epath
  have h1 : (lazy_shortest_path (p.og.vprop p.ov_start).core_vertex
      (p.og.vprop p.ov_goal).core_vertex (fuel + 1) p epath).planner.roadmap_gen
      = p.roadmap_gen := by rw [hf.1]
  have h2 : (lazy_shortest_path (p.og.vprop p.ov_start).core_vertex
      (p.og.vprop p.ov_goal).core_vertex (fuel + 1) p epath).planner.num_subgraphs
      = p.num_subgraphs := by rw [hf.1]
  unfold solve_loop
  simp only [hfail, h1, h2]
  rw [if_pos ⟨hcap0, by omega⟩]
  exact ⟨rfl, rfl⟩

theorem solve_loop_exact (fuel : Nat) :
    ∀ (p : FamilyPlanner σ) (epath : List Edge) (o : Option (List State)),
      (solve_loop fuel p epath).outcome = .returned (.EXACT_SOLUTION, o) →
      o = some (solution_path (solve_loop fuel p epath).planner (solve_loop fuel p epath).epath) := by
  induction fuel with
  | zero => intro p epath o h; simp [solve_loop] at h
  | succ fuel ih =>
    intro p epath o
    unfold solve_loop
    simp only
    split
    · intro h; simp at h
    · intro h; simp at h
    · intro h
      simp only [Outcome.returned.injEq, Prod.mk.injEq, true_and] at h
      exact h.symm
    · split
      · intro h; simp at h
      · split
        · exact ih _ _ o
        · intro h; simp at h

theorem solution_path_length (p : FamilyPlanner σ) (epath : List Edge) :
    (solution_path p epath).length = epath.length + 1 := by
  simp [solution_path]

theorem solution_path_head (p : FamilyPlanner σ) (epath : List Edge) :
    (solution_path p epath).head? = some (p.g.vprop (p.og.vprop p.ov_start).core_vertex).state := by
  simp [solution_path]

theorem solution_path_succ (p : FamilyPlanner σ) (epath : List Edge) (i : Nat)
    (h : i < epath.length) :
    (solution_path p epath)[i + 1]? = some (p.g.vprop (epath.getD i ⟨0, 0, 0⟩).tgt).state := by
  simp [solution_path, List.getD_eq_getElem?_getD, h]

theorem solution_path_last (p : FamilyPlanner σ) (epath : List Edge) (e : Edge)
    (h : epath.getLast? = some e) :
    (solution_path p epath).getLast? = some (p.g.vprop e.tgt).state := by
  unfold solution_path
  rw [List.getLast?_cons, List.getLast?_map, h]
  rfl

theorem solve_loop_timeout (fuel : Nat) :
    ∀ (p : FamilyPlanner σ) (epath : List Edge) (o : Option (List State)),
      (solve_loop fuel p epath).outcome = .returned (.TIMEOUT, o) →
      o = none ∧ (solve_loop fuel p epath).planner.roadmap_gen.num_subgraphs ≠ 0
        ∧ (solve_loop fuel p epath).planner.roadmap_gen.num_subgraphs
            ≤ (solve_loop fuel p epath).planner.num_subgraphs := by
  induction fuel with
  | zero => intro p epath o h; simp [solve_loop] at h
  | succ fuel ih =>
    intro p epath o
    unfold solve_loop
    simp only
    split
    · intro h; simp at h
    · intro h; simp at h
    · intro h; simp at h
    · split
      · rename_i hc
        intro h
        simp only [Outcome.returned.injEq, Prod.mk.injEq, true_and] at h
        exact ⟨h.symm, hc.1, Nat.lt_succ_iff.1 hc.2⟩
      · split
        · exact ih _ _ o
        · intro h; simp at h

/-! ## The overlay: apply and unapply -/

/-! ## Reading and writing overlay properties -/

theorem over_vprop_set_vprop_same (og : OverGraph) (v : Nat) (q : OverVProps)
    (h : v < og.vertices.length) : (og.set_vprop v q).vprop v = q := by
  simp [OverGraph.vprop, OverGraph.set_vprop, h]

theorem over_vprop_set_vprop_other (og : OverGraph) (v w : Nat) (q : OverVProps) (h : w ≠ v) :
    (og.set_vprop v q).vprop w = og.vprop w := by
  simp [OverGraph.vprop, OverGraph.set_vprop, List.getElem?_set_ne (Ne.symm h)]

theorem over_eprop_set_eprop_same (og : OverGraph) (e : Nat) (q : OverEProps)
    (h : e < og.edges.length) : (og.set_eprop e q).eprop e = q := by
  simp [OverGraph.eprop, OverGraph.set_eprop, List.getElem?_modify_eq, List.getElem?_eq_getElem h]

theorem over_eprop_set_eprop_other (og : OverGraph) (e e' : Nat) (q : OverEProps) (h : e' ≠ e) :
    (og.set_eprop e q).eprop e' = og.eprop e' := by
  simp [OverGraph.eprop, OverGraph.set_eprop, List.getElem?_modify_ne _ _ (Ne.symm h)]

/-- The end points of an overlay edge. -/
theorem over_ends_set_eprop (og : OverGraph) (e : Nat) (q : OverEProps) :
    (og.set_eprop e q).edges.map (fun se => (se.src, se.tgt))
      = og.edges.map (fun se => (se.src, se.tgt)) := by
  simp only [OverGraph.set_eprop]
  rw [map_modify_eq]
  intro a; rfl

/-! ## overlay_manager::apply, the vertices -/

theorem apply_vertex_fold (L : List Nat) :
    ∀ (s : Graph × OverGraph × OverlayManager), L.Nodup →
      (∀ vo ∈ L, vo < s.2.1.vertices.length) →
      (L.foldl apply_vertex s).1.edges = s.1.edges
      ∧ (L.foldl apply_vertex s).1.vertices = s.1.vertices ++ List.replicate
          (L.filter (fun vo => decide ((s.2.1.vprop vo).core_vertex = null_vertex))).length
          VProps.init
      ∧ (L.foldl apply_vertex s).2.1.edges = s.2.1.edges
      ∧ (L.foldl apply_vertex s).2.1.vertices.length = s.2.1.vertices.length
      ∧ (L.foldl apply_vertex s).2.2 = { s.2.2 with
          applied_vertices := s.2.2.applied_vertices
            ++ L.filter (fun vo => decide ((s.2.1.vprop vo).core_vertex = null_vertex)) }
      ∧ ∀ vo, (L.foldl apply_vertex s).2.1.vprop vo
          = if vo ∈ L.filter (fun vo => decide ((s.2.1.vprop vo).core_vertex = null_vertex)) then
              { s.2.1.vprop vo with
                core_vertex := s.1.vertices.length
                  + (L.filter (fun vo => decide ((s.2.1.vprop vo).core_vertex = null_vertex))).indexOf vo }
            else s.2.1.vprop vo := by
  induction L with
  | nil => intro s _ _; simp
  | cons v L ih =>
    intro s hnd hlt
    have hv : v < s.2.1.vertices.length := hlt v (List.mem_cons_self _ _)
    have hvL : v ∉ L := (List.nodup_cons.1 hnd).1
    have hndL : L.Nodup := (List.nodup_cons.1 hnd).2
    rw [List.foldl_cons]
    by_cases hnull : (s.2.1.vprop v).core_vertex = null_vertex
    · -- the vertex is a root: a core vertex is inserted
      have hs1 : apply_vertex s v
          = (s.1.add_vertex.1,
              s.2.1.set_vprop v { s.2.1.vprop v with core_vertex := s.1.add_vertex.2 },
              { s.2.2 with applied_vertices := s.2.2.applied_vertices ++ [v] }) := by
        unfold apply_vertex; rw [if_pos hnull]
      have hlen1 : (apply_vertex s v).2.1.vertices.length = s.2.1.vertices.length := by
        rw [hs1]; simp [OverGraph.set_vprop]
      have hsame : ∀ vo ∈ L, (apply_vertex s v).2.1.vprop vo = s.2.1.vprop vo := by
        intro vo hvo
        rw [hs1]
        exact over_vprop_set_vprop_other _ _ _ _ (fun h => hvL (h ▸ hvo))
      have hfilter : L.filter (fun vo => decide (((apply_vertex s v).2.1.vprop vo).core_vertex
            = null_vertex))
          = L.filter (fun vo => decide ((s.2.1.vprop vo).core_vertex = null_vertex)) := by
        apply List.filter_congr
        intro vo hvo
        rw [hsame vo hvo]
      obtain ⟨h1, h2, h3, h4, h5, h6⟩ := ih (apply_vertex s v) hndL
        (fun vo hvo => by rw [hlen1]; exact hlt vo (List.mem_cons_of_mem _ hvo))
      rw [hfilter] at h2 h5 h6
      have hfc : (v :: L).filter (fun vo => decide ((s.2.1.vprop vo).core_vertex = null_vertex))
          = v :: L.filter (fun vo => decide ((s.2.1.vprop vo).core_vertex = null_vertex)) := by
        rw [List.filter_cons_of_pos]; simpa using hnull
      rw [hfc]
      refine ⟨?_, ?_, ?_, ?_, ?_, ?_⟩
      · rw [h1, hs1]; rfl
      · rw [h2, hs1]
        simp [Graph.add_vertex, List.replicate_succ]
      · rw [h3, hs1]; rfl
      · rw [h4, hlen1]
      · rw [h5, hs1]; simp
      · intro vo
        rw [h6 vo]
        by_cases hvo : vo = v
        · subst hvo
          have hnot : vo ∉ L.filter
              (fun vo => decide ((s.2.1.vprop vo).core_vertex = null_vertex)) :=
            fun h => hvL (List.mem_filter.1 h).1
          rw [if_neg hnot, if_pos (List.mem_cons_self _ _), hs1]
          simp only [List.indexOf_cons_self, Nat.add_zero]
          rw [over_vprop_set_vprop_same _ _ _ hv]
          rfl
        · have hmem : vo ∈ v :: L.filter
              (fun vo => decide ((s.2.1.vprop vo).core_vertex = null_vertex))
              ↔ vo ∈ L.filter
              (fun vo => decide ((s.2.1.vprop vo).core_vertex = null_vertex)) := by
            simp [hvo]
          have hother : (apply_vertex s v).2.1.vprop vo = s.2.1.vprop vo := by
            rw [hs1]; exact over_vprop_set_vprop_other _ _ _ _ hvo
          have hgl : (apply_vertex s v).1.vertices.length = s.1.vertices.length + 1 := by
            rw [hs1]; simp [Graph.add_vertex]
          by_cases hin : vo ∈ L.filter
              (fun vo => decide ((s.2.1.vprop vo).core_vertex = null_vertex))
          · rw [if_pos hin, if_pos (hmem.2 hin), hother, hgl,
              List.indexOf_cons_ne _ (Ne.symm hvo)]
            rw [Nat.add_assoc, Nat.add_comm 1]
          · rw [if_neg hin, if_neg (fun h => hin (hmem.1 h)), hother]
    · -- the vertex is an anchor: nothing happens
      have hs1 : apply_vertex s v = s := by
        unfold apply_vertex; rw [if_neg hnull]
      have hfc : (v :: L).filter (fun vo => decide ((s.2.1.vprop vo).core_vertex = null_vertex))
          = L.filter (fun vo => decide ((s.2.1.vprop vo).core_vertex = null_vertex)) := by
        rw [List.filter_cons_of_neg]; simpa using hnull
      rw [hs1, hfc]
      exact ih s hndL (fun vo hvo => hlt vo (List.mem_cons_of_mem _ hvo))

theorem over_source_set_eprop (og : OverGraph) (e : Nat) (q : OverEProps) (eo : Nat) :
    (og.set_eprop e q).source eo = og.source eo := by
  unfold OverGraph.source OverGraph.set_eprop
  simp only [List.getD_eq_getElem?_getD]
  by_cases h : e = eo
  · subst h
    rw [List.getElem?_modify_eq]
    cases og.edges[e]? <;> rfl
  · rw [List.getElem?_modify_ne _ _ h]

theorem over_target_set_eprop (og : OverGraph) (e : Nat) (q : OverEProps) (eo : Nat) :
    (og.set_eprop e q).target eo = og.target eo := by
  unfold OverGraph.target OverGraph.set_eprop
  simp only [List.getD_eq_getElem?_getD]
  by_cases h : e = eo
  · subst h
    rw [List.getElem?_modify_eq]
    cases og.edges[e]? <;> rfl
  · rw [List.getElem?_modify_ne _ _ h]

theorem over_length_set_eprop (og : OverGraph) (e : Nat) (q : OverEProps) :
    (og.set_eprop e q).edges.length = og.edges.length := by
  simp [OverGraph.set_eprop]

theorem apply_edge_eq (s : Graph × OverGraph × OverlayManager) (eo : Nat) :
    apply_edge s eo
      = (⟨s.1.vertices, s.1.edges ++ [applied_edge s.2.1 s.1.edges.length eo]⟩,
          s.2.1.set_eprop eo { s.2.1.eprop eo with
            core_edge := some ⟨(s.2.1.vprop (s.2.1.source eo)).core_vertex,
              (s.2.1.vprop (s.2.1.target eo)).core_vertex, s.1.edges.length⟩ },
          { s.2.2 with applied_edges := s.2.2.applied_edges ++ [eo] }) := rfl

theorem apply_edge_fold (L : List Nat) :
    ∀ (s : Graph × OverGraph × OverlayManager), L.Nodup →
      (∀ eo ∈ L, eo < s.2.1.edges.length) →
      (L.foldl apply_edge s).1.vertices = s.1.vertices
      ∧ (L.foldl apply_edge s).1.edges = s.1.edges
          ++ (L.enumFrom s.1.edges.length).map (fun ke => applied_edge s.2.1 ke.1 ke.2)
      ∧ (L.foldl apply_edge s).2.1.vertices = s.2.1.vertices
      ∧ (L.foldl apply_edge s).2.1.edges.length = s.2.1.edges.length
      ∧ (∀ eo, (L.foldl apply_edge s).2.1.source eo = s.2.1.source eo)
      ∧ (∀ eo, (L.foldl apply_edge s).2.1.target eo = s.2.1.target eo)
      ∧ (L.foldl apply_edge s).2.2 = { s.2.2 with
          applied_edges := s.2.2.applied_edges ++ L }
      ∧ ∀ eo, (L.foldl apply_edge s).2.1.eprop eo
          = if eo ∈ L then
              { s.2.1.eprop eo with
                core_edge := some ⟨(s.2.1.vprop (s.2.1.source eo)).core_vertex,
                  (s.2.1.vprop (s.2.1.target eo)).core_vertex,
                  s.1.edges.length + L.indexOf eo⟩ }
            else s.2.1.eprop eo := by
  induction L with
  | nil => intro s _ _; simp
  | cons v L ih =>
    intro s hnd hlt
    have hv : v < s.2.1.edges.length := hlt v (List.mem_cons_self _ _)
    have hvL : v ∉ L := (List.nodup_cons.1 hnd).1
    have hndL : L.Nodup := (List.nodup_cons.1 hnd).2
    rw [List.foldl_cons]
    have hs1 := apply_edge_eq s v
    have hvert : (apply_edge s v).2.1.vertices = s.2.1.vertices := by rw [hs1]; rfl
    have hlen : (apply_edge s v).2.1.edges.length = s.2.1.edges.length := by
      rw [hs1]; exact over_length_set_eprop _ _ _
    have hsrc : ∀ eo, (apply_edge s v).2.1.source eo = s.2.1.source eo := by
      intro eo; rw [hs1]; exact over_source_set_eprop _ _ _ _
    have htgt : ∀ eo, (apply_edge s v).2.1.target eo = s.2.1.target eo := by
      intro eo; rw [hs1]; exact over_target_set_eprop _ _ _ _
    have hvp : ∀ w, (apply_edge s v).2.1.vprop w = s.2.1.vprop w := by
      intro w; unfold OverGraph.vprop; rw [hvert]
    have hae : ∀ k eo, applied_edge (apply_edge s v).2.1 k eo = applied_edge s.2.1 k eo := by
      intro k eo
      unfold applied_edge
      rw [hsrc, htgt, hvp, hvp]
    have hgl : (apply_edge s v).1.edges.length = s.1.edges.length + 1 := by
      rw [hs1]; simp
    obtain ⟨h1, h2, h3, h4, h5, h6, h7, h8⟩ := ih (apply_edge s v) hndL
      (fun eo heo => by rw [hlen]; exact hlt eo (List.mem_cons_of_mem _ heo))
    refine ⟨?_, ?_, ?_, ?_, ?_, ?_, ?_, ?_⟩
    · rw [h1, hs1]
    · rw [h2, hgl]
      simp only [hae]
      rw [hs1]
      simp
    · rw [h3, hvert]
    · rw [h4, hlen]
    · intro eo; rw [h5, hsrc]
    · intro eo; rw [h6, htgt]
    · rw [h7, hs1]; simp
    · intro eo
      rw [h8 eo]
      simp only [hsrc, htgt, hvp, hgl]
      by_cases heo : eo = v
      · subst heo
        rw [if_neg hvL, if_pos (List.mem_cons_self _ _), hs1]
        simp only [List.indexOf_cons_self, Nat.add_zero]
        rw [over_eprop_set_eprop_same _ _ _ hv]
      · have hother : (apply_edge s v).2.1.eprop eo = s.2.1.eprop eo := by
          rw [hs1]; exact over_eprop_set_eprop_other _ _ _ _ heo
        have hmem : eo ∈ v :: L ↔ eo ∈ L := by simp [heo]
        by_cases hin : eo ∈ L
        · rw [if_pos hin, if_pos (hmem.2 hin), hother, List.indexOf_cons_ne _ (Ne.symm heo),
            Nat.add_assoc, Nat.add_comm 1]
        · rw [if_neg hin, if_neg (fun h => hin (hmem.1 h)), hother]

theorem enumFrom_range_map {β : Type} (f : Nat → Nat → β) (b m : Nat) :
    ((List.range m).enumFrom b).map (fun ke => f ke.1 ke.2)
      = (List.range m).map (fun eo => f (b + eo) eo) := by
  apply List.ext_getElem?
  intro i
  simp only [List.getElem?_map, List.getElem?_enumFrom]
  by_cases h : i < m
  · simp [List.getElem?_range h]
  · simp [List.getElem?_eq_none (l := List.range m) (by simpa using h)]

theorem indexOf_range (m eo : Nat) (h : eo < m) : (List.range m).indexOf eo = eo := by
  have h1 := List.indexOf_getElem (List.nodup_range m) eo (by simpa using h)
  simpa using h1

theorem manager_apply_spec (g : Graph) (og : OverGraph) (m : OverlayManager) :
    (m.apply g og).1.vertices
        = g.vertices ++ List.replicate og.unapplied_vertices.length VProps.init
    ∧ (m.apply g og).1.edges = g.edges ++ (List.range og.edges.length).map
        (fun eo => applied_edge (m.apply g og).2.1 (g.edges.length + eo) eo)
    ∧ (m.apply g og).2.1.vertices.length = og.vertices.length
    ∧ (m.apply g og).2.1.edges.length = og.edges.length
    ∧ (∀ eo, (m.apply g og).2.1.source eo = og.source eo)
    ∧ (∀ eo, (m.apply g og).2.1.target eo = og.target eo)
    ∧ (m.apply g og).2.2 = ⟨true, m.applied_vertices ++ og.unapplied_vertices,
        m.applied_edges ++ List.range og.edges.length⟩
    ∧ (∀ vo, (m.apply g og).2.1.vprop vo
        = if vo ∈ og.unapplied_vertices then
            { og.vprop vo with
              core_vertex := g.vertices.length + og.unapplied_vertices.indexOf vo }
          else og.vprop vo)
    ∧ ∀ eo, (m.apply g og).2.1.eprop eo
        = if eo < og.edges.length then
            { og.eprop eo with
              core_edge := some ⟨((m.apply g og).2.1.vprop (og.source eo)).core_vertex,
                ((m.apply g og).2.1.vprop (og.target eo)).core_vertex, g.edges.length + eo⟩ }
          else og.eprop eo := by
  obtain ⟨a1, a2, a3, a4, a5, a6⟩ := apply_vertex_fold (List.range og.vertices.length)
    (g, og, m) (List.nodup_range _) (fun vo hvo => by simpa using hvo)
  obtain ⟨b1, b2, b3, b4, b5, b6, b7, b8⟩ := apply_edge_fold (List.range og.edges.length)
    ((List.range og.vertices.length).foldl apply_vertex (g, og, m)) (List.nodup_range _)
    (fun eo heo => by rw [a3]; simpa using heo)
  have hog : (m.apply g og).2.1
      = ((List.range og.edges.length).foldl apply_edge
          ((List.range og.vertices.length).foldl apply_vertex (g, og, m))).2.1 := rfl
  have hg : (m.apply g og).1
      = ((List.range og.edges.length).foldl apply_edge
          ((List.range og.vertices.length).foldl apply_vertex (g, og, m))).1 := rfl
  have hvp : ∀ w, (m.apply g og).2.1.vprop w
      = ((List.range og.vertices.length).foldl apply_vertex (g, og, m)).2.1.vprop w := by
    intro w; unfold OverGraph.vprop; rw [hog, b3]
  have hsrc : ∀ eo, ((List.range og.vertices.length).foldl apply_vertex (g, og, m)).2.1.source eo
      = og.source eo := by
    intro eo; unfold OverGraph.source; rw [a3]
  have htgt : ∀ eo, ((List.range og.vertices.length).foldl apply_vertex (g, og, m)).2.1.target eo
      = og.target eo := by
    intro eo; unfold OverGraph.target; rw [a3]
  have hae : ∀ k eo, applied_edge
      ((List.range og.vertices.length).foldl apply_vertex (g, og, m)).2.1 k eo
      = applied_edge (m.apply g og).2.1 k eo := by
    intro k eo
    unfold applied_edge
    rw [hvp, hvp, hog, b5, b6]
  have hep : ∀ eo, ((List.range og.vertices.length).foldl apply_vertex (g, og, m)).2.1.eprop eo
      = og.eprop eo := by
    intro eo; unfold OverGraph.eprop; rw [a3]
  refine ⟨?_, ?_, ?_, ?_, ?_, ?_, ?_, ?_, ?_⟩
  · rw [hg, b1, a2]; rfl
  · rw [hg, b2, a1]
    simp only [hae]
    rw [enumFrom_range_map (fun k eo => applied_edge (m.apply g og).2.1 k eo)]
  · rw [hog, b3, a4]
  · rw [hog, b4, a3]
  · intro eo; rw [hog, b5, hsrc]
  · intro eo; rw [hog, b6, htgt]
  · show ({ ((List.range og.edges.length).foldl apply_edge
          ((List.range og.vertices.length).foldl apply_vertex (g, og, m))).2.2 with
        is_applied := true } : OverlayManager) = _
    rw [b7, a5]
    rfl
  · intro vo
    rw [hvp, a6 vo]
    rfl
  · intro eo
    have key := b8 eo
    rw [hsrc, htgt, hep, a1, ← hvp, ← hvp, ← hog] at key
    rw [key]
    by_cases h : eo < og.edges.length
    · rw [if_pos (by simpa using h), if_pos h, indexOf_range _ _ h]
    · rw [if_neg (by simpa using h), if_neg h]

/-! ## The copy loops of overlay_apply -/

theorem copy_vertex_to_core_fold (L : List Nat) :
    ∀ p : FamilyPlanner σ,
      L.foldl copy_vertex_to_core p = { p with g := (L.foldl copy_vertex_to_core p).g }
      ∧ (L.foldl copy_vertex_to_core p).g.edges = p.g.edges
      ∧ (L.foldl copy_vertex_to_core p).g.vertices.length = p.g.vertices.length
      ∧ (∀ v, (∀ a ∈ L, (p.og.vprop a).core_vertex ≠ v) →
          (L.foldl copy_vertex_to_core p).g.vprop v = p.g.vprop v)
      ∧ ((L.map (fun a => (p.og.vprop a).core_vertex)).Nodup →
          ∀ a ∈ L, (p.og.vprop a).core_vertex < p.g.vertices.length →
            (L.foldl copy_vertex_to_core p).g.vprop (p.og.vprop a).core_vertex
              = (p.og.vprop a).shared) := by
  induction L with
  | nil =>
    intro p
    exact ⟨rfl, rfl, rfl, fun _ _ => rfl, fun _ a ha => absurd ha (List.not_mem_nil a)⟩
  | cons b L ih =>
    intro p
    rw [List.foldl_cons]
    obtain ⟨h1, h2, h3, h4, h5⟩ := ih (copy_vertex_to_core p b)
    have hog : (copy_vertex_to_core p b).og = p.og := rfl
    have hlen : (copy_vertex_to_core p b).g.vertices.length = p.g.vertices.length := by
      simp [copy_vertex_to_core, Graph.set_vprop]
    rw [hog] at h4 h5
    refine ⟨?_, ?_, ?_, ?_, ?_⟩
    · rw [h1]; rfl
    · rw [h2]; rfl
    · rw [h3, hlen]
    · intro v hv
      rw [h4 v (fun a ha => hv a (List.mem_cons_of_mem _ ha))]
      exact vprop_set_vprop_other _ _ _ _ (Ne.symm (hv b (List.mem_cons_self _ _)))
    · intro hnd a ha hlt
      rw [List.map_cons, List.nodup_cons] at hnd
      rcases List.mem_cons.1 ha with hab | haL
      · subst hab
        rw [h4 _ (fun c hc heq => hnd.1 (List.mem_map.2 ⟨c, hc, heq⟩))]
        exact vprop_set_vprop_same _ _ _ hlt
      · exact h5 hnd.2 a haL (by rw [hlen]; exact hlt)

theorem w_lazy_value_local (p q : FamilyPlanner σ) (e : Edge)
    (hf : q.family_effort_model = p.family_effort_model)
    (h1 : q.coeff_checkcost = p.coeff_checkcost) (h2 : q.coeff_distance = p.coeff_distance)
    (h3 : q.coeff_subgraph = p.coeff_subgraph)
    (hs : (q.g.vprop e.src).tag = (p.g.vprop e.src).tag)
    (ht : (q.g.vprop e.tgt).tag = (p.g.vprop e.tgt).tag)
    (he : (q.g.eprop e).shared = (p.g.eprop e).shared) :
    w_lazy_value q e = w_lazy_value p e := by
  simp only [EProps.shared, Prod.mk.injEq] at he
  obtain ⟨e1, e2, e3, e4⟩ := he
  unfold w_lazy_value w_lazy_sum
  simp only [hf, h1, h2, h3, hs, ht, e1, e2, e3, e4]

/-- The planner in the middle of one round of the second loop of
`overlay_apply`: the four properties are copied, the weight is not yet
recomputed. -/
theorem copy_edge_to_core_eq (p : FamilyPlanner σ) (a : Nat) :
    copy_edge_to_core p a
      = calculate_w_lazy
          { p with
            g := p.g.set_eprop (core_edge_of p.og a)
              { p.g.eprop (core_edge_of p.og a) with
                distance := (p.og.eprop a).distance
                subgraph := (p.og.eprop a).subgraph
                edge_states := (p.og.eprop a).edge_states
                edge_tags := (p.og.eprop a).edge_tags } }
          (core_edge_of p.og a) := rfl

/-- One round of the second loop of `overlay_apply`. -/
theorem copy_edge_to_core_step (p : FamilyPlanner σ) (a : Nat) :
    copy_edge_to_core p a = { p with g := (copy_edge_to_core p a).g }
    ∧ (copy_edge_to_core p a).g.vertices = p.g.vertices
    ∧ (copy_edge_to_core p a).g.skeleton = p.g.skeleton
    ∧ (∀ e : Edge, e.id ≠ (core_edge_of p.og a).id →
        (copy_edge_to_core p a).g.eprop e = p.g.eprop e)
    ∧ ((core_edge_of p.og a).id < p.g.edges.length →
        ((copy_edge_to_core p a).g.eprop (core_edge_of p.og a)).shared = (p.og.eprop a).shared
        ∧ ((copy_edge_to_core p a).g.eprop (core_edge_of p.og a)).index
            = (p.g.eprop (core_edge_of p.og a)).index
        ∧ ((copy_edge_to_core p a).g.eprop (core_edge_of p.og a)).w_lazy
            = w_lazy_value (copy_edge_to_core p a) (core_edge_of p.og a)) := by
  refine ⟨rfl, rfl, ?_, ?_, ?_⟩
  · exact (skeleton_set_eprop _ _ _).trans (skeleton_set_eprop _ _ _)
  · intro e he
    rw [copy_edge_to_core_eq]
    unfold calculate_w_lazy
    simp only
    rw [eprop_set_eprop_other _ _ _ _ he, eprop_set_eprop_other _ _ _ _ he]
  · intro hlt
    have hmid : (p.g.set_eprop (core_edge_of p.og a)
          { p.g.eprop (core_edge_of p.og a) with
            distance := (p.og.eprop a).distance
            subgraph := (p.og.eprop a).subgraph
            edge_states := (p.og.eprop a).edge_states
            edge_tags := (p.og.eprop a).edge_tags }).eprop (core_edge_of p.og a)
        = { p.g.eprop (core_edge_of p.og a) with
            distance := (p.og.eprop a).distance
            subgraph := (p.og.eprop a).subgraph
            edge_states := (p.og.eprop a).edge_states
            edge_tags := (p.og.eprop a).edge_tags } :=
      eprop_set_eprop_same _ _ _ _ rfl hlt
    have hlt2 : (core_edge_of p.og a).id < (p.g.set_eprop (core_edge_of p.og a)
        { p.g.eprop (core_edge_of p.og a) with
          distance := (p.og.eprop a).distance
          subgraph := (p.og.eprop a).subgraph
          edge_states := (p.og.eprop a).edge_states
          edge_tags := (p.og.eprop a).edge_tags }).edges.length := by
      simpa [Graph.set_eprop] using hlt
    have hw := w_lazy_after_calculate
      { p with
        g := p.g.set_eprop (core_edge_of p.og a)
          { p.g.eprop (core_edge_of p.og a) with
            distance := (p.og.eprop a).distance
            subgraph := (p.og.eprop a).subgraph
            edge_states := (p.og.eprop a).edge_states
            edge_tags := (p.og.eprop a).edge_tags } }
      (core_edge_of p.og a) hlt2
    rw [← copy_edge_to_core_eq] at hw
    have hval : (copy_edge_to_core p a).g.eprop (core_edge_of p.og a)
        = { ({ p.g.eprop (core_edge_of p.og a) with
              distance := (p.og.eprop a).distance
              subgraph := (p.og.eprop a).subgraph
              edge_states := (p.og.eprop a).edge_states
              edge_tags := (p.og.eprop a).edge_tags } : EProps) with
            w_lazy := ((copy_edge_to_core p a).g.eprop (core_edge_of p.og a)).w_lazy } := by
      rw [copy_edge_to_core_eq]
      unfold calculate_w_lazy
      simp only
      rw [eprop_set_eprop_same _ _ _ _ rfl hlt2, hmid]
    have hsh : ((copy_edge_to_core p a).g.eprop (core_edge_of p.og a)).shared
        = (p.og.eprop a).shared := by
      rw [hval]; rfl
    refine ⟨hsh, ?_, ?_⟩
    · rw [hval]
    · rw [hw]
      symm
      refine w_lazy_value_local _ _ _ rfl rfl rfl rfl rfl rfl ?_
      rw [hsh, hmid]
      rfl

theorem edges_length_of_skeleton (g h : Graph) (hs : h.skeleton = g.skeleton) :
    h.edges.length = g.edges.length := by
  have := congrArg (fun s => s.2.length) hs
  simpa [Graph.skeleton] using this

theorem vertices_length_of_skeleton (g h : Graph) (hs : h.skeleton = g.skeleton) :
    h.vertices.length = g.vertices.length := by
  have := congrArg (fun s => s.1) hs
  simpa [Graph.skeleton] using this

theorem copy_edge_to_core_fold (L : List Nat) :
    ∀ p : FamilyPlanner σ,
      L.foldl copy_edge_to_core p = { p with g := (L.foldl copy_edge_to_core p).g }
      ∧ (L.foldl copy_edge_to_core p).g.vertices = p.g.vertices
      ∧ (L.foldl copy_edge_to_core p).g.skeleton = p.g.skeleton
      ∧ (∀ e : Edge, (∀ a ∈ L, (core_edge_of p.og a).id ≠ e.id) →
          (L.foldl copy_edge_to_core p).g.eprop e = p.g.eprop e)
      ∧ ((L.map (fun a => (core_edge_of p.og a).id)).Nodup →
          ∀ a ∈ L, (core_edge_of p.og a).id < p.g.edges.length →
            ((L.foldl copy_edge_to_core p).g.eprop (core_edge_of p.og a)).shared
              = (p.og.eprop a).shared
            ∧ ((L.foldl copy_edge_to_core p).g.eprop (core_edge_of p.og a)).index
              = (p.g.eprop (core_edge_of p.og a)).index
            ∧ ((L.foldl copy_edge_to_core p).g.eprop (core_edge_of p.og a)).w_lazy
              = w_lazy_value (L.foldl copy_edge_to_core p) (core_edge_of p.og a)) := by
  induction L with
  | nil =>
    intro p
    exact ⟨rfl, rfl, rfl, fun _ _ => rfl, fun _ a ha => absurd ha (List.not_mem_nil a)⟩
  | cons b L ih =>
    intro p
    rw [List.foldl_cons]
    obtain ⟨h1, h2, h3, h4, h5⟩ := ih (copy_edge_to_core p b)
    obtain ⟨s1, s2, s3, s4, s5⟩ := copy_edge_to_core_step p b
    have hog : (copy_edge_to_core p b).og = p.og := rfl
    have hlen : (copy_edge_to_core p b).g.edges.length = p.g.edges.length :=
      edges_length_of_skeleton _ _ s3
    rw [hog] at h4 h5
    refine ⟨?_, ?_, ?_, ?_, ?_⟩
    · rw [h1]; rfl
    · rw [h2, s2]
    · rw [h3, s3]
    · intro e he
      rw [h4 e (fun a ha => he a (List.mem_cons_of_mem _ ha))]
      exact s4 e (Ne.symm (he b (List.mem_cons_self _ _)))
    · intro hnd a ha hlt
      rw [List.map_cons, List.nodup_cons] at hnd
      rcases List.mem_cons.1 ha with hab | haL
      · subst hab
        have hframe := h4 (core_edge_of p.og a)
          (fun c hc heq => hnd.1 (List.mem_map.2 ⟨c, hc, heq⟩))
        obtain ⟨t1, t2, t3⟩ := s5 hlt
        rw [hframe]
        refine ⟨t1, t2, ?_⟩
        rw [t3]
        symm
        have hfem : (L.foldl copy_edge_to_core (copy_edge_to_core p a))
            = { copy_edge_to_core p a with
                g := (L.foldl copy_edge_to_core (copy_edge_to_core p a)).g } := h1
        refine w_lazy_value_local _ _ _ ?_ ?_ ?_ ?_ ?_ ?_ ?_
        · rw [hfem]
        · rw [hfem]
        · rw [hfem]
        · rw [hfem]
        · unfold Graph.vprop; rw [h2]
        · unfold Graph.vprop; rw [h2]
        · rw [hframe]
      · obtain ⟨t1, t2, t3⟩ := h5 hnd.2 a haL (by rw [hlen]; exact hlt)
        refine ⟨t1, ?_, t3⟩
        rw [t2]
        apply congrArg
        exact s4 _ (fun heq => hnd.1 (List.mem_map.2 ⟨a, haL, heq⟩))

theorem nodup_unapplied_vertices (og : OverGraph) : og.unapplied_vertices.Nodup :=
  List.Nodup.filter _ (List.nodup_range _)

theorem mem_unapplied_vertices (og : OverGraph) (vo : Nat) :
    vo ∈ og.unapplied_vertices
      ↔ vo < og.vertices.length ∧ (og.vprop vo).core_vertex = null_vertex := by
  simp [OverGraph.unapplied_vertices]

theorem vprop_append_left (vs ws : List VProps) (es : List StoredEdge) (v : Nat)
    (h : v < vs.length) : (⟨vs ++ ws, es⟩ : Graph).vprop v = (⟨vs, es⟩ : Graph).vprop v := by
  simp [Graph.vprop, List.getD_eq_getElem?_getD, List.getElem?_append_left h]

theorem eprop_append_left (vs : List VProps) (es fs : List StoredEdge) (e : Edge)
    (h : e.id < es.length) : (⟨vs, es ++ fs⟩ : Graph).eprop e = (⟨vs, es⟩ : Graph).eprop e := by
  simp [Graph.eprop, List.getD_eq_getElem?_getD, List.getElem?_append_left h]

/-- What `overlay_apply` leaves behind when it starts from an overlay that
is not applied and a manager that records nothing. -/
theorem overlay_apply_spec (q : FamilyPlanner σ) (hm : q.overlay_manager = ⟨false, [], []⟩) :
    overlay_apply q = { q with
        g := (overlay_apply q).g
        og := (q.overlay_manager.apply q.g q.og).2.1
        overlay_manager := ⟨true, q.og.unapplied_vertices, List.range q.og.edges.length⟩ }
    ∧ (overlay_apply q).g.skeleton
        = (q.g.vertices.length + q.og.unapplied_vertices.length,
            q.g.edges.map (fun se => (se.src, se.tgt))
              ++ (List.range q.og.edges.length).map (fun eo =>
                (((overlay_apply q).og.vprop (q.og.source eo)).core_vertex,
                  ((overlay_apply q).og.vprop (q.og.target eo)).core_vertex)))
    ∧ (∀ v, v < q.g.vertices.length → (overlay_apply q).g.vprop v = q.g.vprop v)
    ∧ (∀ vo ∈ q.og.unapplied_vertices,
        (overlay_apply q).g.vprop ((overlay_apply q).og.vprop vo).core_vertex
          = (q.og.vprop vo).shared)
    ∧ (∀ e : Edge, e.id < q.g.edges.length → (overlay_apply q).g.eprop e = q.g.eprop e)
    ∧ ∀ eo, eo < q.og.edges.length →
        ((overlay_apply q).g.eprop (core_edge_of (overlay_apply q).og eo)).shared
          = (q.og.eprop eo).shared
        ∧ ((overlay_apply q).g.eprop (core_edge_of (overlay_apply q).og eo)).index
          = q.g.edges.length + eo
        ∧ ((overlay_apply q).g.eprop (core_edge_of (overlay_apply q).og eo)).w_lazy
          = w_lazy_value (overlay_apply q) (core_edge_of (overlay_apply q).og eo) := by
  obtain ⟨m1, m2, m3, m4, m5, m6, m7, m8, m9⟩ := manager_apply_spec q.g q.og q.overlay_manager
  have hm7 : (q.overlay_manager.apply q.g q.og).2.2
      = ⟨true, q.og.unapplied_vertices, List.range q.og.edges.length⟩ := by
    rw [m7, hm]; simp
  -- the planner after overlay_manager.apply()
  have hna : ¬ (q.overlay_manager.is_applied = true) := by rw [hm]; simp
  have hdef : overlay_apply q
      = (List.range q.og.edges.length).foldl copy_edge_to_core
          (q.og.unapplied_vertices.foldl copy_vertex_to_core
            { q with
              g := (q.overlay_manager.apply q.g q.og).1
              og := (q.overlay_manager.apply q.g q.og).2.1
              overlay_manager := (q.overlay_manager.apply q.g q.og).2.2 }) := by
    have hp2m : ∀ (L : List Nat) (p : FamilyPlanner σ),
        (L.foldl copy_vertex_to_core p).overlay_manager = p.overlay_manager :=
      fun L p => by rw [(copy_vertex_to_core_fold L p).1]
    unfold overlay_apply
    rw [if_neg hna]
    simp only [hp2m, hm7]
  obtain ⟨v1, v2, v3, v4, v5⟩ := copy_vertex_to_core_fold q.og.unapplied_vertices
    ({ q with
        g := (q.overlay_manager.apply q.g q.og).1
        og := (q.overlay_manager.apply q.g q.og).2.1
        overlay_manager := (q.overlay_manager.apply q.g q.og).2.2 } : FamilyPlanner σ)
  obtain ⟨e1, e2, e3, e4, e5⟩ := copy_edge_to_core_fold (List.range q.og.edges.length)
    (q.og.unapplied_vertices.foldl copy_vertex_to_core
      ({ q with
        g := (q.overlay_manager.apply q.g q.og).1
        og := (q.overlay_manager.apply q.g q.og).2.1
        overlay_manager := (q.overlay_manager.apply q.g q.og).2.2 } : FamilyPlanner σ))
  rw [← hdef] at e1 e2 e3 e4 e5
  have hv1og : (q.og.unapplied_vertices.foldl copy_vertex_to_core
      ({ q with
        g := (q.overlay_manager.apply q.g q.og).1
        og := (q.overlay_manager.apply q.g q.og).2.1
        overlay_manager := (q.overlay_manager.apply q.g q.og).2.2 } : FamilyPlanner σ)).og
      = (q.overlay_manager.apply q.g q.og).2.1 := by rw [v1]
  have hog : (overlay_apply q).og = (q.overlay_manager.apply q.g q.og).2.1 := by
    rw [e1, hv1og]
  have heq : overlay_apply q = { q with
        g := (overlay_apply q).g
        og := (q.overlay_manager.apply q.g q.og).2.1
        overlay_manager := ⟨true, q.og.unapplied_vertices, List.range q.og.edges.length⟩ } := by
    conv => lhs; rw [e1, v1]
    simp only [hm7]
  -- core vertices of the roots
  have hcv : ∀ vo ∈ q.og.unapplied_vertices,
      ((q.overlay_manager.apply q.g q.og).2.1.vprop vo).core_vertex
        = q.g.vertices.length + q.og.unapplied_vertices.indexOf vo := by
    intro vo hvo
    rw [m8 vo, if_pos hvo]
  have hshared : ∀ vo ∈ q.og.unapplied_vertices,
      ((q.overlay_manager.apply q.g q.og).2.1.vprop vo).shared = (q.og.vprop vo).shared := by
    intro vo hvo
    rw [m8 vo, if_pos hvo]
    rfl
  have hgl : (q.overlay_manager.apply q.g q.og).1.vertices.length
      = q.g.vertices.length + q.og.unapplied_vertices.length := by
    rw [m1]; simp
  have hel : (q.overlay_manager.apply q.g q.og).1.edges.length
      = q.g.edges.length + q.og.edges.length := by
    rw [m2]; simp
  have hndv : (q.og.unapplied_vertices.map (fun a =>
      ((q.overlay_manager.apply q.g q.og).2.1.vprop a).core_vertex)).Nodup := by
    apply List.Nodup.map_on _ (nodup_unapplied_vertices _)
    intro x hx y hy hxy
    rw [hcv x hx, hcv y hy] at hxy
    exact (List.indexOf_inj hx hy).1 (by omega)
  -- core edges of the overlay edges
  have hce : ∀ eo, eo < q.og.edges.length →
      (core_edge_of (q.overlay_manager.apply q.g q.og).2.1 eo).id = q.g.edges.length + eo := by
    intro eo heo
    unfold core_edge_of
    rw [m9 eo, if_pos heo]
    rfl
  have hnde : ((List.range q.og.edges.length).map (fun a =>
      (core_edge_of (q.overlay_manager.apply q.g q.og).2.1 a).id)).Nodup := by
    apply List.Nodup.map_on _ (List.nodup_range _)
    intro x hx y hy hxy
    rw [hce x (by simpa using hx), hce y (by simpa using hy)] at hxy
    omega
  refine ⟨heq, ?_, ?_, ?_, ?_, ?_⟩
  · -- skeleton
    rw [e3]
    unfold Graph.skeleton
    rw [v3, v2]
    simp only [hgl, m2, List.map_append, List.map_map]
    rw [hog]
    congr 2
    apply List.map_congr_left
    intro eo _
    simp only [Function.comp, applied_edge, m5, m6]
  · intro v hv
    have h1 : (overlay_apply q).g.vprop v
        = (q.og.unapplied_vertices.foldl copy_vertex_to_core
            ({ q with
              g := (q.overlay_manager.apply q.g q.og).1
              og := (q.overlay_manager.apply q.g q.og).2.1
              overlay_manager := (q.overlay_manager.apply q.g q.og).2.2 } :
              FamilyPlanner σ)).g.vprop v := by
      unfold Graph.vprop; rw [e2]
    rw [h1, v4 v]
    · show (q.overlay_manager.apply q.g q.og).1.vprop v = _
      unfold Graph.vprop
      rw [m1, List.getD_eq_getElem?_getD, List.getD_eq_getElem?_getD,
        List.getElem?_append_left hv]
    · intro a ha
      show ((q.overlay_manager.apply q.g q.og).2.1.vprop a).core_vertex ≠ v
      rw [hcv a ha]
      omega
  · intro vo hvo
    have h1 : ∀ v, (overlay_apply q).g.vprop v
        = (q.og.unapplied_vertices.foldl copy_vertex_to_core
            ({ q with
              g := (q.overlay_manager.apply q.g q.og).1
              og := (q.overlay_manager.apply q.g q.og).2.1
              overlay_manager := (q.overlay_manager.apply q.g q.og).2.2 } :
              FamilyPlanner σ)).g.vprop v := by
      intro v; unfold Graph.vprop; rw [e2]
    rw [h1, hog]
    have := v5 hndv vo hvo (by
      show ((q.overlay_manager.apply q.g q.og).2.1.vprop vo).core_vertex
        < (q.overlay_manager.apply q.g q.og).1.vertices.length
      rw [hcv vo hvo, hgl]
      have := List.indexOf_lt_length.2 hvo
      omega)
    rw [this]
    exact hshared vo hvo
  · intro e he
    rw [e4 e]
    · have h1 : (q.og.unapplied_vertices.foldl copy_vertex_to_core
            ({ q with
              g := (q.overlay_manager.apply q.g q.og).1
              og := (q.overlay_manager.apply q.g q.og).2.1
              overlay_manager := (q.overlay_manager.apply q.g q.og).2.2 } :
              FamilyPlanner σ)).g.eprop e
          = (q.overlay_manager.apply q.g q.og).1.eprop e := by
        unfold Graph.eprop; rw [v2]
      rw [h1]
      unfold Graph.eprop
      rw [m2, List.getD_eq_getElem?_getD, List.getD_eq_getElem?_getD,
        List.getElem?_append_left he]
    · intro a ha
      rw [hv1og, hce a (by simpa using ha)]
      omega
  · intro eo heo
    rw [hv1og] at e5
    have hlt : (core_edge_of (q.overlay_manager.apply q.g q.og).2.1 eo).id
        < (q.og.unapplied_vertices.foldl copy_vertex_to_core
            ({ q with
              g := (q.overlay_manager.apply q.g q.og).1
              og := (q.overlay_manager.apply q.g q.og).2.1
              overlay_manager := (q.overlay_manager.apply q.g q.og).2.2 } :
              FamilyPlanner σ)).g.edges.length := by
      rw [v2, hce eo heo]
      show _ < (q.overlay_manager.apply q.g q.og).1.edges.length
      rw [hel]; omega
    obtain ⟨t1, t2, t3⟩ := e5 hnde eo (by simpa using heo) hlt
    rw [hog]
    refine ⟨?_, ?_, t3⟩
    · rw [t1, m9 eo, if_pos heo]
      rfl
    · rw [t2]
      unfold Graph.eprop
      rw [v2]
      show ((q.overlay_manager.apply q.g q.og).1.edges.getD _ _).props.index = _
      rw [hce eo heo, m2, List.getD_eq_getElem?_getD,
        List.getElem?_append_right (by omega)]
      simp [heo, applied_edge]

/-! ## The copy loops of overlay_unapply -/

theorem over_source_set_vprop (og : OverGraph) (v : Nat) (q : OverVProps) (eo : Nat) :
    (og.set_vprop v q).source eo = og.source eo := rfl

theorem over_target_set_vprop (og : OverGraph) (v : Nat) (q : OverVProps) (eo : Nat) :
    (og.set_vprop v q).target eo = og.target eo := rfl

theorem copy_vertex_to_overlay_fold (L : List Nat) :
    ∀ p : FamilyPlanner σ,
      L.foldl copy_vertex_to_overlay p = { p with og := (L.foldl copy_vertex_to_overlay p).og }
      ∧ (L.foldl copy_vertex_to_overlay p).og.edges = p.og.edges
      ∧ (L.foldl copy_vertex_to_overlay p).og.vertices.length = p.og.vertices.length
      ∧ ∀ vo, (L.foldl copy_vertex_to_overlay p).og.vprop vo
          = if vo ∈ L ∧ vo < p.og.vertices.length then
              { p.og.vprop vo with
                state := (p.g.vprop (p.og.vprop vo).core_vertex).state
                subgraph := (p.g.vprop (p.og.vprop vo).core_vertex).subgraph
                is_shadow := (p.g.vprop (p.og.vprop vo).core_vertex).is_shadow
                tag := (p.g.vprop (p.og.vprop vo).core_vertex).tag }
            else p.og.vprop vo := by
  induction L with
  | nil => intro p; simp
  | cons b L ih =>
    intro p
    rw [List.foldl_cons]
    obtain ⟨h1, h2, h3, h4⟩ := ih (copy_vertex_to_overlay p b)
    have hg : (copy_vertex_to_overlay p b).g = p.g := rfl
    have hlen : (copy_vertex_to_overlay p b).og.vertices.length = p.og.vertices.length := by
      simp [copy_vertex_to_overlay, OverGraph.set_vprop]
    have hstep : ∀ vo, (copy_vertex_to_overlay p b).og.vprop vo
        = if vo = b ∧ vo < p.og.vertices.length then
            { p.og.vprop vo with
              state := (p.g.vprop (p.og.vprop vo).core_vertex).state
              subgraph := (p.g.vprop (p.og.vprop vo).core_vertex).subgraph
              is_shadow := (p.g.vprop (p.og.vprop vo).core_vertex).is_shadow
              tag := (p.g.vprop (p.og.vprop vo).core_vertex).tag }
          else p.og.vprop vo := by
      intro vo
      by_cases hvo : vo = b
      · subst hvo
        by_cases hlt : vo < p.og.vertices.length
        · rw [if_pos ⟨rfl, hlt⟩]
          exact over_vprop_set_vprop_same _ _ _ hlt
        · rw [if_neg (fun h => hlt h.2)]
          simp [copy_vertex_to_overlay, OverGraph.set_vprop, OverGraph.vprop,
            List.set_eq_of_length_le (Nat.le_of_not_lt hlt)]
      · rw [if_neg (fun h => hvo h.1)]
        exact over_vprop_set_vprop_other _ _ _ _ hvo
    refine ⟨?_, ?_, ?_, ?_⟩
    · rw [h1]; rfl
    · rw [h2]; rfl
    · rw [h3, hlen]
    · intro vo
      rw [h4 vo, hg, hlen]
      by_cases hvo : vo = b
      · subst hvo
        by_cases hlt : vo < p.og.vertices.length
        · have hs := hstep vo
          rw [if_pos ⟨rfl, hlt⟩] at hs
          rw [if_pos (show vo ∈ vo :: L ∧ _ from ⟨List.mem_cons_self _ _, hlt⟩), hs]
          split <;> rfl
        · rw [if_neg (fun h => hlt h.2), if_neg (fun h => hlt h.2), hstep vo,
            if_neg (fun h => hlt h.2)]
      · have hs := hstep vo
        rw [if_neg (fun h => hvo h.1)] at hs
        have hmem : vo ∈ b :: L ↔ vo ∈ L := by simp [hvo]
        rw [hs]
        simp only [hmem]

theorem copy_edge_to_overlay_fold (L : List Nat) :
    ∀ p : FamilyPlanner σ,
      L.foldl copy_edge_to_overlay p = { p with og := (L.foldl copy_edge_to_overlay p).og }
      ∧ (L.foldl copy_edge_to_overlay p).og.vertices = p.og.vertices
      ∧ (L.foldl copy_edge_to_overlay p).og.edges.length = p.og.edges.length
      ∧ (∀ eo, (L.foldl copy_edge_to_overlay p).og.source eo = p.og.source eo)
      ∧ (∀ eo, (L.foldl copy_edge_to_overlay p).og.target eo = p.og.target eo)
      ∧ ∀ eo, (L.foldl copy_edge_to_overlay p).og.eprop eo
          = if eo ∈ L ∧ eo < p.og.edges.length then
              { p.og.eprop eo with
                distance := (p.g.eprop (core_edge_of p.og eo)).distance
                subgraph := (p.g.eprop (core_edge_of p.og eo)).subgraph
                edge_states := (p.g.eprop (core_edge_of p.og eo)).edge_states
                edge_tags := (p.g.eprop (core_edge_of p.og eo)).edge_tags }
            else p.og.eprop eo := by
  induction L with
  | nil => intro p; simp
  | cons b L ih =>
    intro p
    rw [List.foldl_cons]
    obtain ⟨h1, h2, h3, h4, h5, h6⟩ := ih (copy_edge_to_overlay p b)
    have hg : (copy_edge_to_overlay p b).g = p.g := rfl
    have hlen : (copy_edge_to_overlay p b).og.edges.length = p.og.edges.length :=
      over_length_set_eprop _ _ _
    have hstep : ∀ eo, (copy_edge_to_overlay p b).og.eprop eo
        = if eo = b ∧ eo < p.og.edges.length then
            { p.og.eprop eo with
              distance := (p.g.eprop (core_edge_of p.og eo)).distance
              subgraph := (p.g.eprop (core_edge_of p.og eo)).subgraph
              edge_states := (p.g.eprop (core_edge_of p.og eo)).edge_states
              edge_tags := (p.g.eprop (core_edge_of p.og eo)).edge_tags }
          else p.og.eprop eo := by
      intro eo
      by_cases heo : eo = b
      · subst heo
        by_cases hlt : eo < p.og.edges.length
        · rw [if_pos ⟨rfl, hlt⟩]
          exact over_eprop_set_eprop_same _ _ _ hlt
        · rw [if_neg (fun h => hlt h.2)]
          simp [copy_edge_to_overlay, OverGraph.set_eprop, OverGraph.eprop,
            List.getElem?_eq_none (Nat.le_of_not_lt hlt)]
      · rw [if_neg (fun h => heo h.1)]
        exact over_eprop_set_eprop_other _ _ _ _ heo
    have hce : ∀ eo, core_edge_of (copy_edge_to_overlay p b).og eo = core_edge_of p.og eo := by
      intro eo
      unfold core_edge_of
      rw [hstep eo]
      split <;> rfl
    refine ⟨?_, ?_, ?_, ?_, ?_, ?_⟩
    · rw [h1]; rfl
    · rw [h2]; rfl
    · rw [h3, hlen]
    · intro eo; rw [h4]; exact over_source_set_eprop _ _ _ _
    · intro eo; rw [h5]; exact over_target_set_eprop _ _ _ _
    · intro eo
      rw [h6 eo, hg, hlen, hce]
      by_cases heo : eo = b
      · subst heo
        by_cases hlt : eo < p.og.edges.length
        · have hs := hstep eo
          rw [if_pos ⟨rfl, hlt⟩] at hs
          rw [if_pos (show eo ∈ eo :: L ∧ _ from ⟨List.mem_cons_self _ _, hlt⟩), hs]
          split <;> rfl
        · rw [if_neg (fun h => hlt h.2), if_neg (fun h => hlt h.2), hstep eo,
            if_neg (fun h => hlt h.2)]
      · have hs := hstep eo
        rw [if_neg (fun h => heo h.1)] at hs
        have hmem : eo ∈ b :: L ↔ eo ∈ L := by simp [heo]
        rw [hs]
        simp only [hmem]

/-! ## overlay_manager::unapply, the overlay side -/

theorem unapply_edge_fold (L : List Nat) :
    ∀ s : Graph × OverGraph,
      (L.foldl unapply_edge s).1.vertices = s.1.vertices
      ∧ (L.foldl unapply_edge s).2.vertices = s.2.vertices
      ∧ (L.foldl unapply_edge s).2.edges.length = s.2.edges.length
      ∧ (∀ eo, (L.foldl unapply_edge s).2.source eo = s.2.source eo)
      ∧ (∀ eo, (L.foldl unapply_edge s).2.target eo = s.2.target eo)
      ∧ ∀ eo, (L.foldl unapply_edge s).2.eprop eo
          = if eo ∈ L ∧ eo < s.2.edges.length then { s.2.eprop eo with core_edge := none }
            else s.2.eprop eo := by
  induction L with
  | nil => intro s; simp
  | cons b L ih =>
    intro s
    rw [List.foldl_cons]
    obtain ⟨h1, h2, h3, h4, h5, h6⟩ := ih (unapply_edge s b)
    have hlen : (unapply_edge s b).2.edges.length = s.2.edges.length :=
      over_length_set_eprop _ _ _
    have hstep : ∀ eo, (unapply_edge s b).2.eprop eo
        = if eo = b ∧ eo < s.2.edges.length then { s.2.eprop eo with core_edge := none }
          else s.2.eprop eo := by
      intro eo
      by_cases heo : eo = b
      · subst heo
        by_cases hlt : eo < s.2.edges.length
        · rw [if_pos ⟨rfl, hlt⟩]
          exact over_eprop_set_eprop_same _ _ _ hlt
        · rw [if_neg (fun h => hlt h.2)]
          simp [unapply_edge, OverGraph.set_eprop, OverGraph.eprop,
            List.getElem?_eq_none (Nat.le_of_not_lt hlt)]
      · rw [if_neg (fun h => heo h.1)]
        exact over_eprop_set_eprop_other _ _ _ _ heo
    refine ⟨?_, ?_, ?_, ?_, ?_, ?_⟩
    · rw [h1]; rfl
    · rw [h2]; rfl
    · rw [h3, hlen]
    · intro eo; rw [h4]; exact over_source_set_eprop _ _ _ _
    · intro eo; rw [h5]; exact over_target_set_eprop _ _ _ _
    · intro eo
      rw [h6 eo, hlen]
      by_cases heo : eo = b
      · subst heo
        by_cases hlt : eo < s.2.edges.length
        · have hs := hstep eo
          rw [if_pos ⟨rfl, hlt⟩] at hs
          rw [if_pos (show eo ∈ eo :: L ∧ _ from ⟨List.mem_cons_self _ _, hlt⟩), hs]
          split <;> rfl
        · rw [if_neg (fun h => hlt h.2), if_neg (fun h => hlt h.2), hstep eo,
            if_neg (fun h => hlt h.2)]
      · have hs := hstep eo
        rw [if_neg (fun h => heo h.1)] at hs
        have hmem : eo ∈ b :: L ↔ eo ∈ L := by simp [heo]
        rw [hs]
        simp only [hmem]

theorem unapply_vertex_fold (L : List Nat) :
    ∀ s : Graph × OverGraph,
      (L.foldl unapply_vertex s).1.edges = s.1.edges
      ∧ (L.foldl unapply_vertex s).2.edges = s.2.edges
      ∧ (L.foldl unapply_vertex s).2.vertices.length = s.2.vertices.length
      ∧ ∀ vo, (L.foldl unapply_vertex s).2.vprop vo
          = if vo ∈ L ∧ vo < s.2.vertices.length then
              { s.2.vprop vo with core_vertex := null_vertex }
            else s.2.vprop vo := by
  induction L with
  | nil => intro s; simp
  | cons b L ih =>
    intro s
    rw [List.foldl_cons]
    obtain ⟨h1, h2, h3, h4⟩ := ih (unapply_vertex s b)
    have hlen : (unapply_vertex s b).2.vertices.length = s.2.vertices.length := by
      simp [unapply_vertex, OverGraph.set_vprop]
    have hstep : ∀ vo, (unapply_vertex s b).2.vprop vo
        = if vo = b ∧ vo < s.2.vertices.length then
            { s.2.vprop vo with core_vertex := null_vertex }
          else s.2.vprop vo := by
      intro vo
      by_cases hvo : vo = b
      · subst hvo
        by_cases hlt : vo < s.2.vertices.length
        · rw [if_pos ⟨rfl, hlt⟩]
          exact over_vprop_set_vprop_same _ _ _ hlt
        · rw [if_neg (fun h => hlt h.2)]
          simp [unapply_vertex, OverGraph.set_vprop, OverGraph.vprop,
            List.set_eq_of_length_le (Nat.le_of_not_lt hlt)]
      · rw [if_neg (fun h => hvo h.1)]
        exact over_vprop_set_vprop_other _ _ _ _ hvo
    refine ⟨?_, ?_, ?_, ?_⟩
    · rw [h1]; rfl
    · rw [h2]; rfl
    · rw [h3, hlen]
    · intro vo
      rw [h4 vo, hlen]
      by_cases hvo : vo = b
      · subst hvo
        by_cases hlt : vo < s.2.vertices.length
        · have hs := hstep vo
          rw [if_pos ⟨rfl, hlt⟩] at hs
          rw [if_pos (show vo ∈ vo :: L ∧ _ from ⟨List.mem_cons_self _ _, hlt⟩), hs]
          split <;> rfl
        · rw [if_neg (fun h => hlt h.2), if_neg (fun h => hlt h.2), hstep vo,
            if_neg (fun h => hlt h.2)]
      · have hs := hstep vo
        rw [if_neg (fun h => hvo h.1)] at hs
        have hmem : vo ∈ b :: L ↔ vo ∈ L := by simp [hvo]
        rw [hs]
        simp only [hmem]

theorem only_og_differs_trans (p P1 P2 : FamilyPlanner σ) (h1 : P1 = { p with og := P1.og })
    (h2 : P2 = { P1 with og := P2.og }) : P2 = { p with og := P2.og } := by
  rw [h2, h1]

theorem overlay_unapply_unfold (p : FamilyPlanner σ)
    (ha : p.overlay_manager.is_applied = true) :
    overlay_unapply p
      = (fun p2 : FamilyPlanner σ =>
          { p2 with
            g := (p2.overlay_manager.unapply p2.g p2.og).1
            og := (p2.overlay_manager.unapply p2.g p2.og).2.1
            overlay_manager := (p2.overlay_manager.unapply p2.g p2.og).2.2 })
        ((fun p1 : FamilyPlanner σ =>
            p1.overlay_manager.applied_edges.foldl copy_edge_to_overlay p1)
          (p.overlay_manager.applied_vertices.foldl copy_vertex_to_overlay p)) := by
  have hna : ¬ (p.overlay_manager.is_applied = false) := by rw [ha]; simp
  unfold overlay_unapply
  rw [if_neg hna]

theorem overlay_unapply_eq (p : FamilyPlanner σ) (ha : p.overlay_manager.is_applied = true) :
    overlay_unapply p = { p with
      g := (p.overlay_manager.applied_vertices.reverse.foldl unapply_vertex
        (p.overlay_manager.applied_edges.reverse.foldl unapply_edge
          (p.g, (p.overlay_manager.applied_edges.foldl copy_edge_to_overlay
            (p.overlay_manager.applied_vertices.foldl copy_vertex_to_overlay p)).og))).1
      og := (p.overlay_manager.applied_vertices.reverse.foldl unapply_vertex
        (p.overlay_manager.applied_edges.reverse.foldl unapply_edge
          (p.g, (p.overlay_manager.applied_edges.foldl copy_edge_to_overlay
            (p.overlay_manager.applied_vertices.foldl copy_vertex_to_overlay p)).og))).2
      overlay_manager := ⟨false, [], []⟩ } := by
  obtain ⟨a1, -, -, -⟩ := copy_vertex_to_overlay_fold p.overlay_manager.applied_vertices p
  obtain ⟨b1, -, -, -, -, -⟩ := copy_edge_to_overlay_fold p.overlay_manager.applied_edges
    (p.overlay_manager.applied_vertices.foldl copy_vertex_to_overlay p)
  have hna : ¬ (p.overlay_manager.is_applied = false) := by rw [ha]; simp
  have hm1 : (p.overlay_manager.applied_vertices.foldl copy_vertex_to_overlay p).overlay_manager
      = p.overlay_manager := by rw [a1]
  have hP2 : p.overlay_manager.applied_edges.foldl copy_edge_to_overlay
      (p.overlay_manager.applied_vertices.foldl copy_vertex_to_overlay p)
      = { p with og := (p.overlay_manager.applied_edges.foldl copy_edge_to_overlay
          (p.overlay_manager.applied_vertices.foldl copy_vertex_to_overlay p)).og } :=
    only_og_differs_trans p _ _ a1 b1
  rw [overlay_unapply_unfold p ha]
  simp only [hm1]
  generalize hP : p.overlay_manager.applied_edges.foldl copy_edge_to_overlay
      (p.overlay_manager.applied_vertices.foldl copy_vertex_to_overlay p) = P2 at hP2 ⊢
  rw [hP2]
  rfl

/-- What `overlay_unapply` leaves behind in the overlay when it starts from
an applied overlay. -/
theorem overlay_unapply_spec (p : FamilyPlanner σ) (ha : p.overlay_manager.is_applied = true) :
    overlay_unapply p = { p with
        g := (overlay_unapply p).g
        og := (overlay_unapply p).og
        overlay_manager := ⟨false, [], []⟩ }
    ∧ (overlay_unapply p).og.vertices.length = p.og.vertices.length
    ∧ (overlay_unapply p).og.edges.length = p.og.edges.length
    ∧ (∀ eo, (overlay_unapply p).og.source eo = p.og.source eo)
    ∧ (∀ eo, (overlay_unapply p).og.target eo = p.og.target eo)
    ∧ (∀ vo, (overlay_unapply p).og.vprop vo
        = if vo ∈ p.overlay_manager.applied_vertices ∧ vo < p.og.vertices.length then
            ⟨null_vertex, (p.g.vprop (p.og.vprop vo).core_vertex).state,
              (p.g.vprop (p.og.vprop vo).core_vertex).subgraph,
              (p.g.vprop (p.og.vprop vo).core_vertex).is_shadow,
              (p.g.vprop (p.og.vprop vo).core_vertex).tag⟩
          else p.og.vprop vo)
    ∧ ∀ eo, (overlay_unapply p).og.eprop eo
        = if eo ∈ p.overlay_manager.applied_edges ∧ eo < p.og.edges.length then
            ⟨none, (p.g.eprop (core_edge_of p.og eo)).distance,
              (p.g.eprop (core_edge_of p.og eo)).subgraph,
              (p.og.eprop eo).w_lazy,
              (p.g.eprop (core_edge_of p.og eo)).edge_states,
              (p.g.eprop (core_edge_of p.og eo)).edge_tags⟩
          else p.og.eprop eo := by
  obtain ⟨a1, a2, a3, a4⟩ := copy_vertex_to_overlay_fold p.overlay_manager.applied_vertices p
  obtain ⟨b1, b2, b3, b4, b5, b6⟩ := copy_edge_to_overlay_fold p.overlay_manager.applied_edges
    (p.overlay_manager.applied_vertices.foldl copy_vertex_to_overlay p)
  have hm1 : (p.overlay_manager.applied_vertices.foldl copy_vertex_to_overlay p).overlay_manager
      = p.overlay_manager := by rw [a1]
  have hg1 : (p.overlay_manager.applied_vertices.foldl copy_vertex_to_overlay p).g = p.g := by
    rw [a1]
  have hm2 : (p.overlay_manager.applied_edges.foldl copy_edge_to_overlay
      (p.overlay_manager.applied_vertices.foldl copy_vertex_to_overlay p)).overlay_manager
      = p.overlay_manager := by rw [b1, hm1]
  have hg2 : (p.overlay_manager.applied_edges.foldl copy_edge_to_overlay
      (p.overlay_manager.applied_vertices.foldl copy_vertex_to_overlay p)).g = p.g := by
    rw [b1, hg1]
  have hna : ¬ (p.overlay_manager.is_applied = false) := by rw [ha]; simp
  obtain ⟨c1, c2, c3, c4, c5, c6⟩ := unapply_edge_fold p.overlay_manager.applied_edges.reverse
    (p.g, (p.overlay_manager.applied_edges.foldl copy_edge_to_overlay
      (p.overlay_manager.applied_vertices.foldl copy_vertex_to_overlay p)).og)
  obtain ⟨d1, d2, d3, d4⟩ := unapply_vertex_fold p.overlay_manager.applied_vertices.reverse
    (p.overlay_manager.applied_edges.reverse.foldl unapply_edge
      (p.g, (p.overlay_manager.applied_edges.foldl copy_edge_to_overlay
        (p.overlay_manager.applied_vertices.foldl copy_vertex_to_overlay p)).og))
  have hdef := overlay_unapply_eq p ha
  have hog : (overlay_unapply p).og
      = (p.overlay_manager.applied_vertices.reverse.foldl unapply_vertex
        (p.overlay_manager.applied_edges.reverse.foldl unapply_edge
          (p.g, (p.overlay_manager.applied_edges.foldl copy_edge_to_overlay
            (p.overlay_manager.applied_vertices.foldl copy_vertex_to_overlay p)).og))).2 := by
    rw [hdef]
  have hvp2 : ∀ vo, (p.overlay_manager.applied_edges.reverse.foldl unapply_edge
      (p.g, (p.overlay_manager.applied_edges.foldl copy_edge_to_overlay
        (p.overlay_manager.applied_vertices.foldl copy_vertex_to_overlay p)).og)).2.vprop vo
      = (p.overlay_manager.applied_vertices.foldl copy_vertex_to_overlay p).og.vprop vo := by
    intro vo; unfold OverGraph.vprop; rw [c2, b2]
  have hvl2 : (p.overlay_manager.applied_edges.reverse.foldl unapply_edge
      (p.g, (p.overlay_manager.applied_edges.foldl copy_edge_to_overlay
        (p.overlay_manager.applied_vertices.foldl copy_vertex_to_overlay p)).og)).2.vertices.length
      = p.og.vertices.length := by rw [c2, b2, a3]
  refine ⟨?_, ?_, ?_, ?_, ?_, ?_, ?_⟩
  · conv => lhs; rw [hdef]
    rw [hdef]
  · rw [hog, d3, hvl2]
  · rw [hog, d2, c3, b3, a2]
  · intro eo
    rw [hog]
    unfold OverGraph.source
    rw [d2]
    have := c4 eo
    unfold OverGraph.source at this
    rw [this]
    have := b4 eo
    unfold OverGraph.source at this
    rw [this, a2]
  · intro eo
    rw [hog]
    unfold OverGraph.target
    rw [d2]
    have := c5 eo
    unfold OverGraph.target at this
    rw [this]
    have := b5 eo
    unfold OverGraph.target at this
    rw [this, a2]
  · intro vo
    rw [hog, d4 vo, hvl2, hvp2, a4 vo]
    simp only [List.mem_reverse]
    split <;> rfl
  · intro eo
    have he : (overlay_unapply p).og.eprop eo
        = (p.overlay_manager.applied_edges.reverse.foldl unapply_edge
          (p.g, (p.overlay_manager.applied_edges.foldl copy_edge_to_overlay
            (p.overlay_manager.applied_vertices.foldl copy_vertex_to_overlay p)).og)).2.eprop eo := by
      rw [hog]; unfold OverGraph.eprop; rw [d2]
    have hce : core_edge_of (p.overlay_manager.applied_vertices.foldl copy_vertex_to_overlay p).og eo
        = core_edge_of p.og eo := by
      unfold core_edge_of OverGraph.eprop; rw [a2]
    have hep : (p.overlay_manager.applied_vertices.foldl copy_vertex_to_overlay p).og.eprop eo
        = p.og.eprop eo := by
      unfold OverGraph.eprop; rw [a2]
    rw [he, c6 eo, b6 eo, b3, hg1, hce, hep, a2]
    simp only [List.mem_reverse]
    split <;> rfl

theorem overlay_unapply_manager (p : FamilyPlanner σ) (ha : p.overlay_manager.is_applied = true) :
    (overlay_unapply p).overlay_manager = ⟨false, [], []⟩ := by
  rw [(overlay_unapply_spec p ha).1]

/-- The round trip `overlay_unapply` then `overlay_apply`, from an applied
overlay whose applied vertices and edges exist. -/
theorem unapply_apply_spec (p : FamilyPlanner σ) (ha : p.overlay_manager.is_applied = true) :
    (∀ vo ∈ p.overlay_manager.applied_vertices, vo < p.og.vertices.length →
      vo ∈ (overlay_apply (overlay_unapply p)).overlay_manager.applied_vertices
      ∧ (overlay_apply (overlay_unapply p)).g.vprop
          ((overlay_apply (overlay_unapply p)).og.vprop vo).core_vertex
        = p.g.vprop (p.og.vprop vo).core_vertex)
    ∧ ∀ eo ∈ p.overlay_manager.applied_edges, eo < p.og.edges.length →
      eo ∈ (overlay_apply (overlay_unapply p)).overlay_manager.applied_edges
      ∧ ((overlay_apply (overlay_unapply p)).g.eprop
          (core_edge_of (overlay_apply (overlay_unapply p)).og eo)).shared
        = (p.g.eprop (core_edge_of p.og eo)).shared
      ∧ ((overlay_apply (overlay_unapply p)).g.eprop
          (core_edge_of (overlay_apply (overlay_unapply p)).og eo)).w_lazy
        = w_lazy_value (overlay_apply (overlay_unapply p))
            (core_edge_of (overlay_apply (overlay_unapply p)).og eo) := by
  obtain ⟨u1, u2, u3, u4, u5, u6, u7⟩ := overlay_unapply_spec p ha
  obtain ⟨a1, a2, a3, a4, a5, a6⟩ := overlay_apply_spec (overlay_unapply p)
    (overlay_unapply_manager p ha)
  have hman : (overlay_apply (overlay_unapply p)).overlay_manager
      = ⟨true, (overlay_unapply p).og.unapplied_vertices,
          List.range (overlay_unapply p).og.edges.length⟩ := by
    rw [a1]
  refine ⟨?_, ?_⟩
  · intro vo hvo hlt
    have hq : (overlay_unapply p).og.vprop vo
        = ⟨null_vertex, (p.g.vprop (p.og.vprop vo).core_vertex).state,
            (p.g.vprop (p.og.vprop vo).core_vertex).subgraph,
            (p.g.vprop (p.og.vprop vo).core_vertex).is_shadow,
            (p.g.vprop (p.og.vprop vo).core_vertex).tag⟩ := by
      rw [u6 vo, if_pos ⟨hvo, hlt⟩]
    have hmem : vo ∈ (overlay_unapply p).og.unapplied_vertices := by
      rw [mem_unapplied_vertices, u2, hq]
      exact ⟨hlt, rfl⟩
    refine ⟨by rw [hman]; exact hmem, ?_⟩
    rw [a4 vo hmem, hq]
    rfl
  · intro eo heo hlt
    have hq : (overlay_unapply p).og.eprop eo
        = ⟨none, (p.g.eprop (core_edge_of p.og eo)).distance,
            (p.g.eprop (core_edge_of p.og eo)).subgraph,
            (p.og.eprop eo).w_lazy,
            (p.g.eprop (core_edge_of p.og eo)).edge_states,
            (p.g.eprop (core_edge_of p.og eo)).edge_tags⟩ := by
      rw [u7 eo, if_pos ⟨heo, hlt⟩]
    obtain ⟨t1, _, t3⟩ := a6 eo (by rw [u3]; exact hlt)
    refine ⟨?_, ?_, t3⟩
    · rw [hman]
      simp only [List.mem_range, u3]
      exact hlt
    · rw [t1, hq]
      rfl

/-- The round trip `overlay_apply` then `overlay_unapply`, from an overlay
that is not applied and a manager that records nothing. -/
theorem apply_unapply_spec (q : FamilyPlanner σ) (hm : q.overlay_manager = ⟨false, [], []⟩) :
    (overlay_unapply (overlay_apply q)).og.vertices.length = q.og.vertices.length
    ∧ (overlay_unapply (overlay_apply q)).og.edges.length = q.og.edges.length
    ∧ (∀ vo, (overlay_unapply (overlay_apply q)).og.vprop vo = q.og.vprop vo)
    ∧ ∀ eo, ((overlay_unapply (overlay_apply q)).og.eprop eo).shared = (q.og.eprop eo).shared
        ∧ ((overlay_unapply (overlay_apply q)).og.eprop eo).w_lazy = (q.og.eprop eo).w_lazy := by
  obtain ⟨a1, a2, a3, a4, a5, a6⟩ := overlay_apply_spec q hm
  obtain ⟨m1, m2, m3, m4, m5, m6, m7, m8, m9⟩ := manager_apply_spec q.g q.og q.overlay_manager
  have hog : (overlay_apply q).og = (q.overlay_manager.apply q.g q.og).2.1 := by rw [a1]
  have hman : (overlay_apply q).overlay_manager
      = ⟨true, q.og.unapplied_vertices, List.range q.og.edges.length⟩ := by rw [a1]
  have hap : (overlay_apply q).overlay_manager.is_applied = true := by rw [hman]
  obtain ⟨u1, u2, u3, u4, u5, u6, u7⟩ := overlay_unapply_spec (overlay_apply q) hap
  refine ⟨?_, ?_, ?_, ?_⟩
  · rw [u2, hog, m3]
  · rw [u3, hog, m4]
  · intro vo
    rw [u6 vo, hman]
    by_cases hvo : vo ∈ q.og.unapplied_vertices
    · have hlt := ((mem_unapplied_vertices _ _).1 hvo).1
      have hnull := ((mem_unapplied_vertices _ _).1 hvo).2
      rw [if_pos ⟨hvo, by rw [hog, m3]; exact hlt⟩, a4 vo hvo]
      show (⟨null_vertex, _, _, _, _⟩ : OverVProps) = q.og.vprop vo
      rw [← hnull]
      rfl
    · rw [if_neg (fun h => hvo h.1), hog, m8 vo, if_neg hvo]
  · intro eo
    rw [u7 eo, hman]
    by_cases hlt : eo < q.og.edges.length
    · obtain ⟨t1, _, _⟩ := a6 eo hlt
      rw [if_pos ⟨by simpa using hlt, by rw [hog, m4]; exact hlt⟩]
      refine ⟨?_, ?_⟩
      · show ((overlay_apply q).g.eprop (core_edge_of (overlay_apply q).og eo)).shared = _
        exact t1
      · show ((overlay_apply q).og.eprop eo).w_lazy = _
        rw [hog, m9 eo, if_pos hlt]
    · rw [if_neg (fun h => hlt (by simpa using h.1)), hog, m9 eo, if_neg hlt]
      exact ⟨rfl, rfl⟩

/-! ## setProblemDefinition: roots and anchors -/

theorem over_vprop_append_left (vs ws : List OverVProps) (es : List OverStoredEdge) (v : Nat)
    (h : v < vs.length) :
    (⟨vs ++ ws, es⟩ : OverGraph).vprop v = (⟨vs, es⟩ : OverGraph).vprop v := by
  simp [OverGraph.vprop, List.getD_eq_getElem?_getD, List.getElem?_append_left h]

theorem modify_length_append {α : Type} (f : α → α) (l : List α) (x : α) :
    (l ++ [x]).modify f l.length = l ++ [f x] := by
  induction l with
  | nil => rfl
  | cons a l ih => simp [ih]

theorem connect_anchor_from_far (fresh : OverVProps) (root : Nat) (p : FamilyPlanner σ)
    (vi : Nat) (h : within_anchor_radius p (p.og.vprop root).state vi = false) :
    connect_anchor_from fresh root p vi = p := by
  unfold within_anchor_radius at h
  simp only [decide_eq_false_iff_not, not_not] at h
  unfold connect_anchor_from
  simp only
  rw [if_pos h]

theorem connect_anchor_from_near (fresh : OverVProps) (root : Nat) (p : FamilyPlanner σ)
    (vi : Nat) (hroot : root < p.og.vertices.length)
    (h : within_anchor_radius p (p.og.vprop root).state vi = true) :
    connect_anchor_from fresh root p vi
      = { p with
          og := ⟨p.og.vertices ++ [{ fresh with core_vertex := vi }],
            p.og.edges ++ [⟨root, p.og.vertices.length,
              anchor_edge_props p (p.og.vprop root).state vi⟩]⟩ } := by
  unfold within_anchor_radius at h
  simp only [decide_eq_true_eq] at h
  unfold connect_anchor_from
  simp only
  rw [if_neg h]
  have hv : ((OverGraph.add_vertex_from fresh p.og).1.set_vprop
        (OverGraph.add_vertex_from fresh p.og).2
        { (OverGraph.add_vertex_from fresh p.og).1.vprop (OverGraph.add_vertex_from fresh p.og).2
          with core_vertex := vi })
      = ⟨p.og.vertices ++ [{ fresh with core_vertex := vi }], p.og.edges⟩ := by
    simp [OverGraph.add_vertex_from, OverGraph.set_vprop, OverGraph.vprop]
  rw [hv]
  have hst : ((⟨p.og.vertices ++ [{ fresh with core_vertex := vi }], p.og.edges⟩ :
      OverGraph).vprop root).state = (p.og.vprop root).state := by
    rw [over_vprop_append_left _ _ _ _ hroot]
  rw [hst]
  simp [OverGraph.add_edge, OverGraph.set_eprop, OverGraph.eprop, anchor_edge_props,
    modify_length_append, OverGraph.add_vertex_from]

theorem connect_anchor_from_fold (fresh : OverVProps) (root : Nat) (L : List Nat) :
    ∀ p : FamilyPlanner σ, root < p.og.vertices.length →
      L.foldl (connect_anchor_from fresh root) p
        = { p with
            og := ⟨p.og.vertices
                ++ (L.filter (within_anchor_radius p (p.og.vprop root).state)).map
                    (fun vi => { fresh with core_vertex := vi }),
              p.og.edges
                ++ ((L.filter (within_anchor_radius p (p.og.vprop root).state)).enumFrom
                    p.og.vertices.length).map
                    (fun kv => ⟨root, kv.1,
                      anchor_edge_props p (p.og.vprop root).state kv.2⟩)⟩ } := by
  induction L with
  | nil => intro p _; simp
  | cons vi L ih =>
    intro p hroot
    rw [List.foldl_cons]
    by_cases h : within_anchor_radius p (p.og.vprop root).state vi = true
    · rw [connect_anchor_from_near fresh root p vi hroot h]
      rw [ih _ (by simp; omega)]
      have hst : (({ p with
          og := ⟨p.og.vertices ++ [{ fresh with core_vertex := vi }],
            p.og.edges ++ [⟨root, p.og.vertices.length,
              anchor_edge_props p (p.og.vprop root).state vi⟩]⟩ } :
            FamilyPlanner σ).og.vprop root).state = (p.og.vprop root).state := by
        show ((⟨_, _⟩ : OverGraph).vprop root).state = _
        rw [over_vprop_append_left _ _ _ _ hroot]
        rfl
      rw [hst, List.filter_cons_of_pos h]
      have hw : within_anchor_radius ({ p with
          og := ⟨p.og.vertices ++ [{ fresh with core_vertex := vi }],
            p.og.edges ++ [⟨root, p.og.vertices.length,
              anchor_edge_props p (p.og.vprop root).state vi⟩]⟩ } : FamilyPlanner σ)
          (p.og.vprop root).state = within_anchor_radius p (p.og.vprop root).state := rfl
      rw [hw]
      simp only [List.map_cons, List.enumFrom_cons, List.length_append, List.length_singleton,
        List.append_assoc, List.singleton_append]
      rfl
    · have h' : within_anchor_radius p (p.og.vprop root).state vi = false := by
        simpa using h
      rw [connect_anchor_from_far fresh root p vi h', ih p hroot,
        List.filter_cons_of_neg (by simpa using h')]

theorem add_roots_from_eq (fresh : OverVProps) (q : FamilyPlanner σ) (pdef : ProblemDefinition) :
    add_roots_from fresh q pdef
      = { q with
          og := ⟨[start_root fresh pdef, goal_root fresh pdef], []⟩
          ov_start := 0
          ov_goal := 1 } := by
  simp [add_roots_from, OverGraph.add_vertex_from, OverGraph.set_vprop, OverGraph.vprop,
    start_root, goal_root]

theorem connect_root_from_eq (fresh : OverVProps) (p : FamilyPlanner σ) (root : Nat)
    (hroot : root < p.og.vertices.length) :
    connect_root_from fresh p root
      = { p with
          og := ⟨p.og.vertices
              ++ (anchored_vertices p (p.og.vprop root).state).map
                  (fun vi => { fresh with core_vertex := vi }),
            p.og.edges
              ++ ((anchored_vertices p (p.og.vprop root).state).enumFrom
                  p.og.vertices.length).map
                  (fun kv => ⟨root, kv.1,
                    anchor_edge_props p (p.og.vprop root).state kv.2⟩)⟩ } :=
  connect_anchor_from_fold fresh root _ p hroot

theorem populate_overlay_from_eq (fresh : OverVProps) (p : FamilyPlanner σ)
    (pdef : ProblemDefinition) :
    populate_overlay_from fresh p pdef
      = { overlay_unapply (retarget p pdef) with
          og := populated_overlay fresh (overlay_unapply (retarget p pdef)) pdef
          ov_start := 0
          ov_goal := 1 } := by
  have h0 : connect_root_from fresh
      ({ overlay_unapply (retarget p pdef) with
          og := ⟨[start_root fresh pdef, goal_root fresh pdef], []⟩
          ov_start := 0
          ov_goal := 1 } : FamilyPlanner σ) 0
      = { overlay_unapply (retarget p pdef) with
          og := ⟨[start_root fresh pdef, goal_root fresh pdef]
              ++ (anchored_vertices (overlay_unapply (retarget p pdef)) pdef.start).map
                  (fun vi => { fresh with core_vertex := vi }),
            ((anchored_vertices (overlay_unapply (retarget p pdef)) pdef.start).enumFrom 2).map
              (fun kv => ⟨0, kv.1,
                anchor_edge_props (overlay_unapply (retarget p pdef)) pdef.start kv.2⟩)⟩
          ov_start := 0
          ov_goal := 1 } := by
    rw [connect_root_from_eq _ _ 0 (by simp)]
    rfl
  have h1 : connect_root_from fresh
      ({ overlay_unapply (retarget p pdef) with
          og := ⟨[start_root fresh pdef, goal_root fresh pdef]
              ++ (anchored_vertices (overlay_unapply (retarget p pdef)) pdef.start).map
                  (fun vi => { fresh with core_vertex := vi }),
            ((anchored_vertices (overlay_unapply (retarget p pdef)) pdef.start).enumFrom 2).map
              (fun kv => ⟨0, kv.1,
                anchor_edge_props (overlay_unapply (retarget p pdef)) pdef.start kv.2⟩)⟩
          ov_start := 0
          ov_goal := 1 } : FamilyPlanner σ) 1
      = { overlay_unapply (retarget p pdef) with
          og := populated_overlay fresh (overlay_unapply (retarget p pdef)) pdef
          ov_start := 0
          ov_goal := 1 } := by
    rw [connect_root_from_eq _ _ 1 (by simp)]
    have hlen : ([start_root fresh pdef, goal_root fresh pdef]
        ++ (anchored_vertices (overlay_unapply (retarget p pdef)) pdef.start).map
            (fun vi => ({ fresh with core_vertex := vi } : OverVProps))).length
        = 2 + (anchored_vertices (overlay_unapply (retarget p pdef)) pdef.start).length := by
      simp only [List.length_append, List.length_cons, List.length_nil, List.length_map]
    simp only [hlen]
    rfl
  unfold populate_overlay_from
  simp only [add_roots_from_eq, List.foldl_cons, List.foldl_nil]
  rw [h0, h1]

theorem mem_anchored_vertices (q : FamilyPlanner σ) (s : State) (vi : Nat) :
    vi ∈ anchored_vertices q s
      ↔ vi < q.g.vertices.length ∧ ¬ anchor_radius < q.space.distance s (q.g.vprop vi).state := by
  simp [anchored_vertices, within_anchor_radius]

theorem nodup_anchored_vertices (q : FamilyPlanner σ) (s : State) :
    (anchored_vertices q s).Nodup :=
  List.Nodup.filter _ (List.nodup_range _)

theorem length_anchor_triples (q : FamilyPlanner σ) (pdef : ProblemDefinition) :
    (anchor_triples q pdef).length
      = (anchored_vertices q pdef.start).length + (anchored_vertices q pdef.goal).length := by
  simp [anchor_triples]

theorem mem_anchor_triples (q : FamilyPlanner σ) (pdef : ProblemDefinition)
    (t : Nat × State × Nat) (h : t ∈ anchor_triples q pdef) :
    ((t.1 = 0 ∧ t.2.1 = pdef.start) ∨ (t.1 = 1 ∧ t.2.1 = pdef.goal))
    ∧ t.2.2 < q.g.vertices.length
    ∧ ¬ anchor_radius < q.space.distance t.2.1 (q.g.vprop t.2.2).state := by
  unfold anchor_triples at h
  rcases List.mem_append.1 h with h1 | h1
  · obtain ⟨vi, hvi, rfl⟩ := List.mem_map.1 h1
    exact ⟨Or.inl ⟨rfl, rfl⟩, (mem_anchored_vertices _ _ _).1 hvi⟩
  · obtain ⟨vi, hvi, rfl⟩ := List.mem_map.1 h1
    exact ⟨Or.inr ⟨rfl, rfl⟩, (mem_anchored_vertices _ _ _).1 hvi⟩

theorem populated_overlay_vertices (fresh : OverVProps) (q : FamilyPlanner σ)
    (pdef : ProblemDefinition) :
    (populated_overlay fresh q pdef).vertices
      = [start_root fresh pdef, goal_root fresh pdef]
        ++ (anchor_triples q pdef).map (fun t => { fresh with core_vertex := t.2.2 }) := by
  simp only [populated_overlay, anchor_triples, List.map_append, List.map_map, List.append_assoc]
  rfl

theorem populated_overlay_edges (fresh : OverVProps) (q : FamilyPlanner σ)
    (pdef : ProblemDefinition) :
    (populated_overlay fresh q pdef).edges
      = ((anchor_triples q pdef).enumFrom 2).map
          (fun kt => ⟨kt.2.1, kt.1, anchor_edge_props q kt.2.2.1 kt.2.2.2⟩) := by
  simp only [populated_overlay, anchor_triples, List.enumFrom_append, List.map_append,
    List.enumFrom_map, List.map_map, List.length_map]
  rfl

theorem populated_overlay_vprop_anchor (fresh : OverVProps) (q : FamilyPlanner σ)
    (pdef : ProblemDefinition) (eo : Nat) (h : eo < (anchor_triples q pdef).length) :
    (populated_overlay fresh q pdef).vprop (2 + eo)
      = { fresh with core_vertex := ((anchor_triples q pdef).getD eo (0, [], 0)).2.2 } := by
  unfold OverGraph.vprop
  rw [populated_overlay_vertices, List.getD_eq_getElem?_getD, List.getD_eq_getElem?_getD,
    List.getElem?_append_right (by simp)]
  simp [h]

theorem populated_overlay_edge (fresh : OverVProps) (q : FamilyPlanner σ)
    (pdef : ProblemDefinition) (eo : Nat) (h : eo < (anchor_triples q pdef).length) :
    (populated_overlay fresh q pdef).edges.getD eo ⟨0, 0, OverEProps.init⟩
      = ⟨((anchor_triples q pdef).getD eo (0, [], 0)).1, 2 + eo,
          anchor_edge_props q ((anchor_triples q pdef).getD eo (0, [], 0)).2.1
            ((anchor_triples q pdef).getD eo (0, [], 0)).2.2⟩ := by
  rw [populated_overlay_edges, List.getD_eq_getElem?_getD, List.getD_eq_getElem?_getD,
    List.getElem?_map, List.getElem?_enumFrom]
  simp [h]

theorem populated_overlay_lengths (fresh : OverVProps) (q : FamilyPlanner σ)
    (pdef : ProblemDefinition) :
    (populated_overlay fresh q pdef).vertices.length = 2 + (anchor_triples q pdef).length
    ∧ (populated_overlay fresh q pdef).edges.length = (anchor_triples q pdef).length := by
  rw [populated_overlay_vertices, populated_overlay_edges]
  simp only [List.length_append, List.length_cons, List.length_nil, List.length_map,
    List.enumFrom_length]
  exact ⟨trivial, trivial⟩

theorem unapplied_vertices_roots (r0 r1 : OverVProps) (rest : List OverVProps)
    (es : List OverStoredEdge) (h0 : r0.core_vertex = null_vertex)
    (h1 : r1.core_vertex = null_vertex) (hr : ∀ x ∈ rest, x.core_vertex ≠ null_vertex) :
    (⟨r0 :: r1 :: rest, es⟩ : OverGraph).unapplied_vertices = [0, 1] := by
  unfold OverGraph.unapplied_vertices
  simp only [List.length_cons]
  rw [List.range_succ_eq_map, List.range_succ_eq_map, List.map_cons, List.map_map]
  rw [List.filter_cons_of_pos (by simp [OverGraph.vprop, h0]),
    List.filter_cons_of_pos (by simp [OverGraph.vprop, h1])]
  have : List.filter (fun vo => decide (((⟨r0 :: r1 :: rest, es⟩ : OverGraph).vprop vo).core_vertex
      = null_vertex)) (List.map (Nat.succ ∘ Nat.succ) (List.range rest.length)) = [] := by
    rw [List.filter_eq_nil_iff]
    intro a ha
    obtain ⟨i, hi, rfl⟩ := List.mem_map.1 ha
    have hi' : i < rest.length := by simpa using hi
    simp only [decide_eq_true_eq, Function.comp]
    have : (⟨r0 :: r1 :: rest, es⟩ : OverGraph).vprop (i.succ.succ) = rest[i] := by
      simp [OverGraph.vprop, List.getD_eq_getElem?_getD, hi']
    rw [this]
    exact hr _ (List.getElem_mem _)
  rw [this]

theorem unapplied_vertices_populated (fresh : OverVProps) (q : FamilyPlanner σ)
    (pdef : ProblemDefinition) (hV : q.g.vertices.length ≤ null_vertex) :
    (populated_overlay fresh q pdef).unapplied_vertices = [0, 1] := by
  have hv := populated_overlay_vertices fresh q pdef
  have : populated_overlay fresh q pdef
      = ⟨start_root fresh pdef :: goal_root fresh pdef
          :: (anchor_triples q pdef).map (fun t => { fresh with core_vertex := t.2.2 }),
        (populated_overlay fresh q pdef).edges⟩ := by
    conv => lhs; rw [show populated_overlay fresh q pdef
      = ⟨(populated_overlay fresh q pdef).vertices, (populated_overlay fresh q pdef).edges⟩
      from rfl]
    rw [hv]
    rfl
  rw [this]
  apply unapplied_vertices_roots _ _ _ _ rfl rfl
  intro x hx
  obtain ⟨t, ht, rfl⟩ := List.mem_map.1 hx
  have := (mem_anchor_triples q pdef t ht).2.1
  show t.2.2 ≠ null_vertex
  omega

theorem retarget_frame (p : FamilyPlanner σ) (pdef : ProblemDefinition) :
    (retarget p pdef).g.skeleton = p.g.skeleton
    ∧ (retarget p pdef).overlay_manager = p.overlay_manager
    ∧ (retarget p pdef).og = p.og
    ∧ (retarget p pdef).space = p.space := by
  unfold retarget
  split
  · exact foldl_preserves
      (fun r : FamilyPlanner σ => r.g.skeleton = p.g.skeleton
        ∧ r.overlay_manager = p.overlay_manager ∧ r.og = p.og ∧ r.space = p.space)
      calculate_w_lazy
      (fun a b h => ⟨(skeleton_set_eprop _ _ _).trans h.1, h.2.1, h.2.2.1, h.2.2.2⟩)
      _ _ ⟨rfl, rfl, rfl, rfl⟩
  · exact ⟨rfl, rfl, rfl, rfl⟩

theorem overlay_unapply_clean (p : FamilyPlanner σ)
    (hm : p.overlay_manager.is_applied = false → p.overlay_manager = ⟨false, [], []⟩) :
    (overlay_unapply p).overlay_manager = ⟨false, [], []⟩ := by
  by_cases ha : p.overlay_manager.is_applied = true
  · exact overlay_unapply_manager p ha
  · have hf : p.overlay_manager.is_applied = false := by simpa using ha
    unfold overlay_unapply
    rw [if_pos hf]
    exact hm hf

theorem overlay_unapply_vertices_le (p : FamilyPlanner σ) :
    (overlay_unapply p).g.vertices.length ≤ p.g.vertices.length := by
  by_cases ha : p.overlay_manager.is_applied = true
  · rw [overlay_unapply_eq p ha]
    show (List.foldl unapply_vertex _ _).1.vertices.length ≤ _
    apply foldl_preserves (fun s : Graph × OverGraph => s.1.vertices.length ≤ p.g.vertices.length)
    · intro s vo hs
      show (s.1.vertices.eraseIdx _).length ≤ _
      exact Nat.le_trans (List.length_eraseIdx_le _ _) hs
    · rw [(unapply_edge_fold _ _).1]
  · have hf : p.overlay_manager.is_applied = false := by simpa using ha
    unfold overlay_unapply
    rw [if_pos hf]

/-- What `setProblemDefinition` leaves behind, in terms of the planner
`q = overlay_unapply (retarget p pdef)` over which the overlay is rebuilt. -/
theorem setProblemDefinition_from_spec (fresh : OverVProps) (p : FamilyPlanner σ)
    (pdef : ProblemDefinition)
    (hm : p.overlay_manager.is_applied = false → p.overlay_manager = ⟨false, [], []⟩)
    (hV : p.g.vertices.length ≤ null_vertex) :
    (setProblemDefinition_from fresh p pdef).ov_start = 0
    ∧ (setProblemDefinition_from fresh p pdef).ov_goal = 1
    ∧ (setProblemDefinition_from fresh p pdef).space = (overlay_unapply (retarget p pdef)).space
    ∧ (setProblemDefinition_from fresh p pdef).overlay_manager
        = ⟨true, [0, 1],
            List.range (anchor_triples (overlay_unapply (retarget p pdef)) pdef).length⟩
    ∧ (setProblemDefinition_from fresh p pdef).g.vertices.length
        = (overlay_unapply (retarget p pdef)).g.vertices.length + 2
    ∧ (∀ v, v < (overlay_unapply (retarget p pdef)).g.vertices.length →
        (setProblemDefinition_from fresh p pdef).g.vprop v
          = (overlay_unapply (retarget p pdef)).g.vprop v)
    ∧ (setProblemDefinition_from fresh p pdef).og.vertices.length
        = 2 + (anchor_triples (overlay_unapply (retarget p pdef)) pdef).length
    ∧ (setProblemDefinition_from fresh p pdef).og.edges.length
        = (anchor_triples (overlay_unapply (retarget p pdef)) pdef).length
    ∧ (setProblemDefinition_from fresh p pdef).og.vprop 0
        = { start_root fresh pdef with
            core_vertex := (overlay_unapply (retarget p pdef)).g.vertices.length }
    ∧ (setProblemDefinition_from fresh p pdef).og.vprop 1
        = { goal_root fresh pdef with
            core_vertex := (overlay_unapply (retarget p pdef)).g.vertices.length + 1 }
    ∧ ∀ eo, eo < (anchor_triples (overlay_unapply (retarget p pdef)) pdef).length →
        (setProblemDefinition_from fresh p pdef).og.source eo
          = ((anchor_triples (overlay_unapply (retarget p pdef)) pdef).getD eo (0, [], 0)).1
        ∧ (setProblemDefinition_from fresh p pdef).og.target eo = 2 + eo
        ∧ (setProblemDefinition_from fresh p pdef).og.vprop (2 + eo)
          = { fresh with
              core_vertex :=
                ((anchor_triples (overlay_unapply (retarget p pdef)) pdef).getD eo (0, [], 0)).2.2 }
        ∧ ((setProblemDefinition_from fresh p pdef).og.eprop eo).shared
          = (anchor_edge_props (overlay_unapply (retarget p pdef))
              ((anchor_triples (overlay_unapply (retarget p pdef)) pdef).getD eo (0, [], 0)).2.1
              ((anchor_triples (overlay_unapply (retarget p pdef)) pdef).getD eo (0, [], 0)).2.2).shared := by
  have hclean : (overlay_unapply (retarget p pdef)).overlay_manager = ⟨false, [], []⟩ :=
    overlay_unapply_clean _ (by rw [(retarget_frame p pdef).2.1]; exact hm)
  have hVq : (overlay_unapply (retarget p pdef)).g.vertices.length ≤ null_vertex := by
    have h1 := overlay_unapply_vertices_le (retarget p pdef)
    have h2 := vertices_length_of_skeleton _ _ (retarget_frame p pdef).1
    omega
  have hpop := populate_overlay_from_eq fresh p pdef
  have hdef : setProblemDefinition_from fresh p pdef
      = overlay_apply ({ overlay_unapply (retarget p pdef) with
          og := populated_overlay fresh (overlay_unapply (retarget p pdef)) pdef
          ov_start := 0
          ov_goal := 1 } : FamilyPlanner σ) := by
    unfold setProblemDefinition_from
    rw [hpop]
  obtain ⟨a1, a2, a3, a4, a5, a6⟩ := overlay_apply_spec
    ({ overlay_unapply (retarget p pdef) with
        og := populated_overlay fresh (overlay_unapply (retarget p pdef)) pdef
        ov_start := 0
        ov_goal := 1 } : FamilyPlanner σ) hclean
  obtain ⟨m1, m2, m3, m4, m5, m6, m7, m8, m9⟩ := manager_apply_spec
    (overlay_unapply (retarget p pdef)).g
    (populated_overlay fresh (overlay_unapply (retarget p pdef)) pdef)
    (overlay_unapply (retarget p pdef)).overlay_manager
  rw [← hdef] at a1 a2 a3 a4 a5 a6
  have hroots := unapplied_vertices_populated fresh (overlay_unapply (retarget p pdef)) pdef hVq
  have hlen := populated_overlay_lengths fresh (overlay_unapply (retarget p pdef)) pdef
  simp only [hroots] at a1 a2 a4 m8
  have hog : (setProblemDefinition_from fresh p pdef).og
      = ((overlay_unapply (retarget p pdef)).overlay_manager.apply
          (overlay_unapply (retarget p pdef)).g
          (populated_overlay fresh (overlay_unapply (retarget p pdef)) pdef)).2.1 := by
    rw [a1]
  refine ⟨by rw [a1], by rw [a1], by rw [a1], ?_, ?_, a3, ?_, ?_, ?_, ?_, ?_⟩
  · rw [a1]
    simp only [hlen.2]
  · have h2 := congrArg Prod.fst a2
    simpa [Graph.skeleton] using h2
  · rw [hog, m3, hlen.1]
  · rw [hog, m4, hlen.2]
  · rw [hog, m8 0, if_pos (by simp)]
    simp only [List.indexOf_cons_self, Nat.add_zero]
    rfl
  · rw [hog, m8 1, if_pos (by simp)]
    have : List.indexOf 1 [0, 1] = 1 := by decide
    rw [this]
    rfl
  · intro eo heo
    have he := populated_overlay_edge fresh (overlay_unapply (retarget p pdef)) pdef eo heo
    have hv := populated_overlay_vprop_anchor fresh (overlay_unapply (retarget p pdef)) pdef eo heo
    refine ⟨?_, ?_, ?_, ?_⟩
    · rw [hog, m5]
      unfold OverGraph.source
      rw [he]
    · rw [hog, m6]
      unfold OverGraph.target
      rw [he]
    · rw [hog, m8 (2 + eo), if_neg (by simp; omega), hv]
    · rw [hog, m9 eo, if_pos (by rw [hlen.2]; exact heo)]
      unfold OverGraph.eprop
      rw [he]
      rfl

theorem length_filter_eq_nodup (A : List Nat) (h : A.Nodup) (v : Nat) :
    (A.filter (fun a => decide (a = v))).length = if v ∈ A then 1 else 0 := by
  induction A with
  | nil => simp
  | cons a A ih =>
    obtain ⟨ha, hA⟩ := List.nodup_cons.1 h
    by_cases hav : a = v
    · subst hav
      have hnil : A.filter (fun b => decide (b = a)) = [] := by
        rw [List.filter_eq_nil_iff]
        intro b hb
        simp only [decide_eq_true_eq]
        exact fun hba => ha (hba ▸ hb)
      simp [List.filter_cons, hnil]
    · have hva : ¬ v = a := fun h => hav h.symm
      simp [List.filter_cons, hav, ih hA, hva]

theorem length_filter_pairs (A0 A1 : List Nat) (h0 : A0.Nodup) (h1 : A1.Nodup) (v : Nat) :
    ((A0.map (fun vi => ((0 : Nat), vi)) ++ A1.map (fun vi => ((1 : Nat), vi))).filter
        (fun x => decide (x.1 = 0 ∧ x.2 = v))).length = (if v ∈ A0 then 1 else 0)
    ∧ ((A0.map (fun vi => ((0 : Nat), vi)) ++ A1.map (fun vi => ((1 : Nat), vi))).filter
        (fun x => decide (x.1 = 1 ∧ x.2 = v))).length = (if v ∈ A1 then 1 else 0) := by
  constructor
  · rw [List.filter_append, List.filter_map, List.filter_map, List.length_append,
      List.length_map, List.length_map]
    have e0 : ((fun x : Nat × Nat => decide (x.1 = 0 ∧ x.2 = v)) ∘ fun vi => ((0 : Nat), vi))
        = fun a => decide (a = v) := by funext a; simp
    have e1 : ((fun x : Nat × Nat => decide (x.1 = 0 ∧ x.2 = v)) ∘ fun vi => ((1 : Nat), vi))
        = fun _ => false := by funext a; simp
    rw [e0, e1, length_filter_eq_nodup A0 h0]
    simp
  · rw [List.filter_append, List.filter_map, List.filter_map, List.length_append,
      List.length_map, List.length_map]
    have e0 : ((fun x : Nat × Nat => decide (x.1 = 1 ∧ x.2 = v)) ∘ fun vi => ((0 : Nat), vi))
        = fun _ => false := by funext a; simp
    have e1 : ((fun x : Nat × Nat => decide (x.1 = 1 ∧ x.2 = v)) ∘ fun vi => ((1 : Nat), vi))
        = fun a => decide (a = v) := by funext a; simp
    rw [e0, e1, length_filter_eq_nodup A1 h1]
    simp

theorem resize_nil_zero (n : Nat) : ∀ t ∈ resize [] n 0, t = 0 := by
  intro t ht
  simp only [resize, List.take_nil, List.nil_append, List.length_nil, Nat.sub_zero] at ht
  exact (List.mem_replicate.1 ht).2

theorem anchor_pairs_eq (fresh : OverVProps) (p : FamilyPlanner σ) (pdef : ProblemDefinition)
    (hm : p.overlay_manager.is_applied = false → p.overlay_manager = ⟨false, [], []⟩)
    (hV : p.g.vertices.length ≤ null_vertex) :
    (List.range (setProblemDefinition_from fresh p pdef).og.edges.length).map
        (fun eo => ((setProblemDefinition_from fresh p pdef).og.source eo,
          ((setProblemDefinition_from fresh p pdef).og.vprop
            ((setProblemDefinition_from fresh p pdef).og.target eo)).core_vertex))
      = (anchored_vertices (overlay_unapply (retarget p pdef)) pdef.start).map (fun vi => (0, vi))
        ++ (anchored_vertices (overlay_unapply (retarget p pdef)) pdef.goal).map
            (fun vi => (1, vi)) := by
  obtain ⟨_, _, _, _, _, _, _, s8, _, _, s11⟩ := setProblemDefinition_from_spec fresh p pdef hm hV
  have hT : (anchored_vertices (overlay_unapply (retarget p pdef)) pdef.start).map
        (fun vi => ((0 : Nat), vi))
      ++ (anchored_vertices (overlay_unapply (retarget p pdef)) pdef.goal).map
        (fun vi => ((1 : Nat), vi))
      = (anchor_triples (overlay_unapply (retarget p pdef)) pdef).map (fun t => (t.1, t.2.2)) := by
    simp only [anchor_triples, List.map_append, List.map_map]
    rfl
  rw [hT, s8]
  apply List.ext_getElem?
  intro i
  simp only [List.getElem?_map]
  by_cases hi : i < (anchor_triples (overlay_unapply (retarget p pdef)) pdef).length
  · obtain ⟨t1, t2, t3, _⟩ := s11 i hi
    rw [List.getElem?_range hi, List.getElem?_eq_getElem hi]
    simp only [Option.map_some']
    rw [t1, t2, t3]
    simp [List.getD_eq_getElem?_getD, List.getElem?_eq_getElem hi]
  · rw [List.getElem?_eq_none (by simpa using hi), List.getElem?_eq_none (by simpa using hi)]
    rfl

theorem anchored_vertices_eq_filter (q P : FamilyPlanner σ) (s : State)
    (hs : P.space = q.space)
    (hv : ∀ v, v < q.g.vertices.length → P.g.vprop v = q.g.vprop v) :
    anchored_vertices q s
      = (List.range q.g.vertices.length).filter
          (fun v => decide (P.space.distance s (P.g.vprop v).state ≤ 12 / 100)) := by
  unfold anchored_vertices
  apply List.filter_congr
  intro v hv'
  have hlt : v < q.g.vertices.length := by simpa using hv'
  unfold within_anchor_radius anchor_radius
  rw [hs, hv v hlt]
  simp only [not_lt]

/-! ## RoadmapGenRGG -/

theorem rgg_connect_far (gen : RoadmapGenRGG) (v : Nat) (g : Graph) (c i : Nat)
    (h : gen.near (g.vprop v).state (g.vprop i).state = false) :
    gen.connect v (g, c) i = (g, c) := by
  unfold RoadmapGenRGG.near at h
  simp only [decide_eq_false_iff_not, not_not] at h
  unfold RoadmapGenRGG.connect
  simp only
  rw [if_pos h]

theorem rgg_connect_near (gen : RoadmapGenRGG) (v : Nat) (g : Graph) (c i : Nat)
    (h : gen.near (g.vprop v).state (g.vprop i).state = true) :
    gen.connect v (g, c) i
      = (⟨g.vertices, g.edges ++ [gen.new_edge (fun w => (g.vprop w).state) c (v, i)]⟩,
          c + 1) := by
  unfold RoadmapGenRGG.near at h
  simp only [decide_eq_true_eq] at h
  unfold RoadmapGenRGG.connect
  simp only
  rw [if_neg h]
  simp [Graph.add_edge_plain, Graph.set_eprop, Graph.eprop, modify_length_append,
    RoadmapGenRGG.new_edge, EProps.init]

theorem rgg_connect_fold (gen : RoadmapGenRGG) (v : Nat) (L : List Nat) :
    ∀ (g : Graph) (c : Nat),
      L.foldl (gen.connect v) (g, c)
        = (⟨g.vertices, g.edges
            ++ (((L.filter (fun i => gen.near (g.vprop v).state (g.vprop i).state)).map
                (fun i => (v, i))).enumFrom c).map
                (fun kp => gen.new_edge (fun w => (g.vprop w).state) kp.1 kp.2)⟩,
          c + (L.filter (fun i => gen.near (g.vprop v).state (g.vprop i).state)).length) := by
  induction L with
  | nil => intro g c; simp
  | cons i L ih =>
    intro g c
    rw [List.foldl_cons]
    by_cases h : gen.near (g.vprop v).state (g.vprop i).state = true
    · rw [rgg_connect_near gen v g c i h, ih]
      have hv : ∀ w, (⟨g.vertices, g.edges
          ++ [gen.new_edge (fun w => (g.vprop w).state) c (v, i)]⟩ : Graph).vprop w
          = g.vprop w := fun _ => rfl
      simp only [hv]
      have hf : (i :: L).filter (fun i => gen.near (g.vprop v).state (g.vprop i).state)
          = i :: L.filter (fun i => gen.near (g.vprop v).state (g.vprop i).state) := by
        simp [List.filter_cons, h]
      rw [hf]
      simp only [List.map_cons, List.enumFrom_cons, List.append_assoc, List.singleton_append,
        List.length_cons]
      rw [Nat.add_assoc, Nat.add_comm 1]
    · have h' : gen.near (g.vprop v).state (g.vprop i).state = false := by simpa using h
      have hf : (i :: L).filter (fun i => gen.near (g.vprop v).state (g.vprop i).state)
          = L.filter (fun i => gen.near (g.vprop v).state (g.vprop i).state) := by
        simp [List.filter_cons, h']
      rw [rgg_connect_far gen v g c i h', ih, hf]

theorem set_length_append {α : Type} (l : List α) (x y : α) :
    (l ++ [x]).set l.length y = l ++ [y] := by
  induction l with
  | nil => rfl
  | cons a l ih => simp [ih]

theorem after_rounds_vprop (gen : RoadmapGenRGG) (k i : Nat) (h : i < k) :
    (gen.after_rounds k).1.vprop i = ⟨gen.drawn i, 0, false, 0⟩ := by
  simp [RoadmapGenRGG.after_rounds, Graph.vprop, List.getD_eq_getElem?_getD, h]

theorem rgg_add_sample (gen : RoadmapGenRGG) (k : Nat) :
    RoadmapGenRGG.add_sample (gen.after_rounds k) = gen.after_rounds (k + 1) := by
  have hlen : (gen.after_rounds k).1.vertices.length = k := by
    simp [RoadmapGenRGG.after_rounds]
  -- the graph with the new vertex
  have hg3 : (((gen.after_rounds k).1.add_vertex.1.set_vprop (gen.after_rounds k).1.add_vertex.2
        { (gen.after_rounds k).1.add_vertex.1.vprop (gen.after_rounds k).1.add_vertex.2 with
          subgraph := 0 }).set_vprop (gen.after_rounds k).1.add_vertex.2
        { ((gen.after_rounds k).1.add_vertex.1.set_vprop (gen.after_rounds k).1.add_vertex.2
            { (gen.after_rounds k).1.add_vertex.1.vprop (gen.after_rounds k).1.add_vertex.2 with
              subgraph := 0 }).vprop (gen.after_rounds k).1.add_vertex.2 with
          is_shadow := false }).set_vprop (gen.after_rounds k).1.add_vertex.2
        { (((gen.after_rounds k).1.add_vertex.1.set_vprop (gen.after_rounds k).1.add_vertex.2
            { (gen.after_rounds k).1.add_vertex.1.vprop (gen.after_rounds k).1.add_vertex.2 with
              subgraph := 0 }).set_vprop (gen.after_rounds k).1.add_vertex.2
            { ((gen.after_rounds k).1.add_vertex.1.set_vprop
                (gen.after_rounds k).1.add_vertex.2
                { (gen.after_rounds k).1.add_vertex.1.vprop
                    (gen.after_rounds k).1.add_vertex.2 with
                  subgraph := 0 }).vprop (gen.after_rounds k).1.add_vertex.2 with
              is_shadow := false }).vprop (gen.after_rounds k).1.add_vertex.2 with
          state := (gen.after_rounds k).2.sampler (gen.after_rounds k).2.samples_drawn }
      = ⟨(List.range (k + 1)).map (fun i => ⟨gen.drawn i, 0, false, 0⟩),
          (gen.after_rounds k).1.edges⟩ := by
    simp only [Graph.add_vertex, Graph.set_vprop, Graph.vprop, set_length_append,
      List.getD_eq_getElem?_getD]
    simp [RoadmapGenRGG.after_rounds, List.range_succ, RoadmapGenRGG.drawn, VProps.init]
  unfold RoadmapGenRGG.add_sample
  simp only
  rw [hg3]
  have hl : (⟨(List.range (k + 1)).map (fun i => (⟨gen.drawn i, 0, false, 0⟩ : VProps)),
      (gen.after_rounds k).1.edges⟩ : Graph).vertices.length - 1 = k := by
    simp
  rw [hl, rgg_connect_fold]
  have hnear : (gen.after_rounds k).2.near = gen.near := rfl
  have hne : (gen.after_rounds k).2.new_edge = gen.new_edge := rfl
  simp only [hnear, hne]
  have hvp : ∀ i, i < k + 1 →
      ((⟨(List.range (k + 1)).map (fun i => (⟨gen.drawn i, 0, false, 0⟩ : VProps)),
        (gen.after_rounds k).1.edges⟩ : Graph).vprop i).state = gen.drawn i := by
    intro i hi
    simp [Graph.vprop, List.getD_eq_getElem?_getD, hi]
  have hfilter : (List.range k).filter (fun i => gen.near
        ((⟨(List.range (k + 1)).map (fun i => (⟨gen.drawn i, 0, false, 0⟩ : VProps)),
          (gen.after_rounds k).1.edges⟩ : Graph).vprop (gen.after_rounds k).1.add_vertex.2).state
        ((⟨(List.range (k + 1)).map (fun i => (⟨gen.drawn i, 0, false, 0⟩ : VProps)),
          (gen.after_rounds k).1.edges⟩ : Graph).vprop i).state)
      = (List.range k).filter (fun i => gen.near (gen.drawn k) (gen.drawn i)) := by
    apply List.filter_congr
    intro i hi
    have hik : i < k := by simpa using hi
    have hk : (gen.after_rounds k).1.add_vertex.2 = k := hlen
    rw [hk, hvp k (by omega), hvp i (by omega)]
  rw [hfilter]
  have hk : (gen.after_rounds k).1.add_vertex.2 = k := hlen
  rw [hk]
  have hmap : ((((List.range k).filter (fun i => gen.near (gen.drawn k) (gen.drawn i))).map
        (fun i => (k, i))).enumFrom (gen.after_rounds k).2.edges_generated).map
        (fun kp => gen.new_edge
          (fun w => ((⟨(List.range (k + 1)).map (fun i => (⟨gen.drawn i, 0, false, 0⟩ : VProps)),
            (gen.after_rounds k).1.edges⟩ : Graph).vprop w).state) kp.1 kp.2)
      = ((((List.range k).filter (fun i => gen.near (gen.drawn k) (gen.drawn i))).map
        (fun i => (k, i))).enumFrom (gen.after_rounds k).2.edges_generated).map
        (fun kp => gen.new_edge gen.drawn kp.1 kp.2) := by
    apply List.map_congr_left
    intro kp hkp
    obtain ⟨_, _, hx⟩ := List.mem_enumFrom hkp
    have hmem : kp.2 ∈ ((List.range k).filter
        (fun i => gen.near (gen.drawn k) (gen.drawn i))).map (fun i => (k, i)) := by
      rw [hx]; exact List.getElem_mem _
    obtain ⟨i, hi, hkpi⟩ := List.mem_map.1 hmem
    have hik : i < k := by
      have := (List.mem_filter.1 hi).1
      simpa using this
    unfold RoadmapGenRGG.new_edge
    rw [← hkpi]
    simp only
    rw [hvp k (by omega), hvp i (by omega)]
  rw [hmap]
  simp only [RoadmapGenRGG.after_rounds, rgg_pairs, List.enumFrom_append, List.map_append,
    List.length_append, List.length_map, List.append_assoc, Nat.add_assoc]

theorem length_filter_eq_of_nodup {α : Type} [DecidableEq α] (A : List α) (h : A.Nodup)
    (v : α) : (A.filter (fun a => decide (a = v))).length = if v ∈ A then 1 else 0 := by
  induction A with
  | nil => simp
  | cons a A ih =>
    obtain ⟨ha, hA⟩ := List.nodup_cons.1 h
    by_cases hav : a = v
    · subst hav
      have hnil : A.filter (fun b => decide (b = a)) = [] := by
        rw [List.filter_eq_nil_iff]
        intro b hb
        simp only [decide_eq_true_eq]
        exact fun hba => ha (hba ▸ hb)
      simp [List.filter_cons, hnil]
    · have hva : ¬ v = a := fun h => hav h.symm
      simp [List.filter_cons, hav, ih hA, hva]

theorem mem_rgg_pairs (near : Nat → Nat → Bool) (n : Nat) (x : Nat × Nat) :
    x ∈ rgg_pairs near n ↔ x.2 < x.1 ∧ x.1 < n ∧ near x.1 x.2 = true := by
  induction n with
  | zero => simp [rgg_pairs]
  | succ k ih =>
    simp only [rgg_pairs, List.mem_append, ih, List.mem_map, List.mem_filter, List.mem_range]
    constructor
    · rintro (⟨h1, h2, h3⟩ | ⟨i, ⟨hi, hn⟩, rfl⟩)
      · exact ⟨h1, by omega, h3⟩
      · exact ⟨hi, by simp, hn⟩
    · rintro ⟨h1, h2, h3⟩
      by_cases hk : x.1 = k
      · right
        refine ⟨x.2, ⟨by omega, by rw [← hk]; exact h3⟩, ?_⟩
        rw [← hk]
      · left
        exact ⟨h1, by omega, h3⟩

theorem nodup_rgg_pairs (near : Nat → Nat → Bool) (n : Nat) : (rgg_pairs near n).Nodup := by
  induction n with
  | zero => simp [rgg_pairs]
  | succ k ih =>
    simp only [rgg_pairs]
    rw [List.nodup_append]
    refine ⟨ih, ?_, ?_⟩
    · apply List.Nodup.map
      · intro a b h; simpa using h
      · exact List.Nodup.filter _ (List.nodup_range _)
    · intro x hx hx'
      have h1 := (mem_rgg_pairs near k x).1 hx
      obtain ⟨i, _, rfl⟩ := List.mem_map.1 hx'
      simp at h1

theorem rgg_generate_loop (gen : RoadmapGenRGG) (fuel : Nat) :
    ∀ k, k + fuel = gen.n →
      RoadmapGenRGG.generate_loop fuel (gen.after_rounds k) = gen.after_rounds gen.n := by
  induction fuel with
  | zero =>
    intro k hk
    have : k = gen.n := by omega
    subst this
    rfl
  | succ fuel ih =>
    intro k hk
    have hlen : (gen.after_rounds k).1.vertices.length = k := by
      simp [RoadmapGenRGG.after_rounds]
    have hn : (gen.after_rounds k).2.n = gen.n := rfl
    unfold RoadmapGenRGG.generate_loop
    rw [hlen, hn, if_pos (by omega), rgg_add_sample]
    exact ih (k + 1) (by omega)

theorem rgg_generate_eq (gen : RoadmapGenRGG) (hcap : 1 ≤ gen.num_subgraphs)
    (hfresh : gen.num_subgraphs_generated = 0) :
    gen.generate ⟨[], []⟩ 1 = some (gen.after_rounds gen.n) := by
  unfold RoadmapGenRGG.generate
  rw [if_neg (by omega), if_neg (by simp [hfresh])]
  have h0 : ((⟨[], []⟩ : Graph), gen) = gen.after_rounds 0 := rfl
  rw [h0, rgg_generate_loop gen gen.n 0 (by omega)]

theorem after_rounds_ends (gen : RoadmapGenRGG) (k : Nat) :
    (gen.after_rounds k).1.edges.map (fun se => (se.src, se.tgt))
      = rgg_pairs (fun j i => gen.near (gen.drawn j) (gen.drawn i)) k := by
  simp only [RoadmapGenRGG.after_rounds, List.map_map]
  have : ((fun se : StoredEdge => (se.src, se.tgt))
      ∘ fun kp : Nat × Nat × Nat => gen.new_edge gen.drawn kp.1 kp.2) = Prod.snd := by
    funext kp; rfl
  rw [this, List.enumFrom_map_snd]

theorem after_rounds_edge (gen : RoadmapGenRGG) (n k : Nat)
    (h : k < (gen.after_rounds n).1.edges.length) :
    (gen.after_rounds n).1.edges.getD k ⟨0, 0, EProps.init⟩
      = gen.new_edge gen.drawn (gen.edges_generated + k)
          ((rgg_pairs (fun j i => gen.near (gen.drawn j) (gen.drawn i)) n).getD k (0, 0))
    ∧ (rgg_pairs (fun j i => gen.near (gen.drawn j) (gen.drawn i)) n).getD k (0, 0)
        ∈ rgg_pairs (fun j i => gen.near (gen.drawn j) (gen.drawn i)) n := by
  have hk : k < (rgg_pairs (fun j i => gen.near (gen.drawn j) (gen.drawn i)) n).length := by
    simpa [RoadmapGenRGG.after_rounds] using h
  constructor
  · simp only [RoadmapGenRGG.after_rounds, List.getD_eq_getElem?_getD, List.getElem?_map,
      List.getElem?_enumFrom, List.getElem?_eq_getElem hk]
    rfl
  · rw [List.getD_eq_getElem?_getD, List.getElem?_eq_getElem hk]
    exact List.getElem_mem _

/-! ## The roots of the overlay during solve -/

theorem walk_predecessors_nonempty (g : Graph) (pm : List Nat) (v_start : Nat) (fuel : Nat) :
    ∀ (v_walk : Nat) (path r : List Edge),
      walk_predecessors g pm v_start fuel v_walk path = .returned r →
      (v_walk ≠ v_start ∨ path ≠ []) → r ≠ [] := by
  induction fuel with
  | zero => intro v_walk path r h; simp [walk_predecessors] at h
  | succ fuel ih =>
    intro v_walk path r h hne
    unfold walk_predecessors at h
    by_cases hv : v_walk = v_start
    · rw [if_pos hv] at h
      simp only [Outcome.returned.injEq] at h
      rw [← h]
      rcases hne with h1 | h1
      · exact absurd hv h1
      · exact h1
    · rw [if_neg hv] at h
      split at h
      · simp at h
      · exact ih _ _ r h (Or.inr (List.cons_ne_nil _ _))

theorem incsp_solve_nonempty (g : Graph) (v_start v_goal : Nat) (path : List Edge)
    (w : WithTop ℚ) (r : List Edge)
    (h : lazysp_incsp_dijkstra.solve g v_start v_goal path = .returned (w, r))
    (hw : w ≠ ⊤) (hne : v_start ≠ v_goal) : r ≠ [] := by
  unfold lazysp_incsp_dijkstra.solve at h
  split at h
  · simp at h
  · split at h
    · simp only [Outcome.returned.injEq, Prod.mk.injEq] at h
      exact absurd h.1.symm hw
    · split at h
      · rename_i rev hrev
        simp only [Outcome.returned.injEq, Prod.mk.injEq] at h
        rw [← h.2]
        exact walk_predecessors_nonempty _ _ _ _ _ _ _ hrev (Or.inl (Ne.symm hne))
      · simp at h
      · simp at h

theorem lazy_shortest_path_nonempty (v_start v_goal : Nat) (hne : v_start ≠ v_goal)
    (fuel : Nat) :
    ∀ (p : FamilyPlanner σ) (epath : List Edge),
      (lazy_shortest_path v_start v_goal fuel p epath).outcome = .returned true →
      (lazy_shortest_path v_start v_goal fuel p epath).epath ≠ [] := by
  induction fuel with
  | zero => intro p epath h; simp [lazy_shortest_path] at h
  | succ fuel ih =>
    intro p epath
    unfold lazy_shortest_path
    split
    · intro h; simp at h
    · intro h; simp at h
    · rename_i w path hs
      split
      · intro h; simp at h
      · rename_i hw
        split
        · intro _
          exact incsp_solve_nonempty _ _ _ _ _ _ hs hw hne
        · split
          · intro h; simp at h
          · exact ih _ _

theorem unapplied_vertices_eq_roots (og : OverGraph) (hlen : 2 ≤ og.vertices.length)
    (h0 : (og.vprop 0).core_vertex = null_vertex) (h1 : (og.vprop 1).core_vertex = null_vertex)
    (hr : ∀ vo, 2 ≤ vo → vo < og.vertices.length → (og.vprop vo).core_vertex ≠ null_vertex) :
    og.unapplied_vertices = [0, 1] := by
  obtain ⟨vs, es⟩ := og
  match vs, hlen with
  | r0 :: r1 :: rest, _ =>
    apply unapplied_vertices_roots r0 r1 rest es h0 h1
    intro x hx
    obtain ⟨i, hi, rfl⟩ := List.getElem_of_mem hx
    have := hr (i + 2) (by omega) (by simp; omega)
    simpa [OverGraph.vprop, List.getD_eq_getElem?_getD, hi] using this

theorem roots_ready_unapply (p : FamilyPlanner σ) (h : roots_applied p) :
    roots_ready (overlay_unapply p) := by
  obtain ⟨ha, hav, hs, hg, hlen, _, hr⟩ := h
  obtain ⟨u1, u2, u3, u4, u5, u6, u7⟩ := overlay_unapply_spec p ha
  refine ⟨overlay_unapply_manager p ha, by rw [u1]; exact hs, by rw [u1]; exact hg,
    by rw [u2]; exact hlen, ?_, ?_, ?_⟩
  · rw [u6 0, hav, if_pos ⟨by simp, by omega⟩]
  · rw [u6 1, hav, if_pos ⟨by simp, by omega⟩]
  · intro vo h2 hlt
    rw [u2] at hlt
    rw [u6 vo, hav, if_neg (by simp; omega)]
    exact hr vo h2 hlt

theorem roots_applied_apply (q : FamilyPlanner σ) (h : roots_ready q) :
    roots_applied (overlay_apply q)
    ∧ ((overlay_apply q).og.vprop 0).core_vertex = q.g.vertices.length
    ∧ ((overlay_apply q).og.vprop 1).core_vertex = q.g.vertices.length + 1
    ∧ (∀ vo, 2 ≤ vo → (overlay_apply q).og.vprop vo = q.og.vprop vo) := by
  obtain ⟨hm, hs, hg, hlen, h0, h1, hr⟩ := h
  obtain ⟨a1, a2, a3, a4, a5, a6⟩ := overlay_apply_spec q hm
  obtain ⟨m1, m2, m3, m4, m5, m6, m7, m8, m9⟩ := manager_apply_spec q.g q.og q.overlay_manager
  have hN := unapplied_vertices_eq_roots q.og hlen h0 h1 hr
  have hog : (overlay_apply q).og = (q.overlay_manager.apply q.g q.og).2.1 := by rw [a1]
  rw [hN] at a1 m8
  have c0 : ((overlay_apply q).og.vprop 0).core_vertex = q.g.vertices.length := by
    rw [hog, m8 0, if_pos (by simp)]
    simp
  have c1 : ((overlay_apply q).og.vprop 1).core_vertex = q.g.vertices.length + 1 := by
    rw [hog, m8 1, if_pos (by simp)]
    have : List.indexOf 1 [0, 1] = 1 := by decide
    rw [this]
  have cr : ∀ vo, 2 ≤ vo → (overlay_apply q).og.vprop vo = q.og.vprop vo := by
    intro vo h2
    rw [hog, m8 vo, if_neg (by simp; omega)]
  refine ⟨⟨by rw [a1], by rw [a1], by rw [a1]; exact hs, by rw [a1]; exact hg,
    by rw [hog, m3]; exact hlen, by rw [c0, c1]; omega, ?_⟩, c0, c1, cr⟩
  intro vo h2 hlt
  rw [cr vo h2]
  rw [hog, m3] at hlt
  exact hr vo h2 hlt

theorem roots_applied_of_differ (p q : FamilyPlanner σ) (hd : only_properties_differ p q)
    (h : roots_applied p) : roots_applied q := by
  have e1 : q.overlay_manager = p.overlay_manager := by rw [hd.1]
  have e2 : q.og = p.og := by rw [hd.1]
  have e3 : q.ov_start = p.ov_start := by rw [hd.1]
  have e4 : q.ov_goal = p.ov_goal := by rw [hd.1]
  unfold roots_applied
  rw [e1, e2, e3, e4]
  exact h

theorem only_properties_differ_init_edge (p q : FamilyPlanner σ) (e : Edge)
    (h : only_properties_differ p q) : only_properties_differ p (init_edge q e) :=
  only_properties_differ_trans p q _ h ⟨rfl, skeleton_set_eprop _ _ _⟩

theorem only_properties_differ_init_new_edge (n : Nat) (p q : FamilyPlanner σ) (e : Edge)
    (h : only_properties_differ p q) : only_properties_differ p (init_new_edge n q e) := by
  unfold init_new_edge
  split
  · exact h
  · exact only_properties_differ_calculate_w_lazy p _ e
      (only_properties_differ_init_edge p q e h)

/-- The densification step in one piece: the generator's operations are
applied to the graph left by `overlay_unapply`, the new edges get their
properties, and the overlay is applied to the result. -/
theorem densify_eq (p : FamilyPlanner σ) (h : (densify p).1 = true) :
    ∃ (ops : List GenOp) (st : σ) (p4 : FamilyPlanner σ),
      (overlay_unapply p).roadmap_gen.generate (overlay_unapply p).roadmap_gen_state
          (overlay_unapply p).g ((overlay_unapply p).num_subgraphs + 1) = some (ops, st)
      ∧ only_properties_differ
          ({ overlay_unapply p with
            num_subgraphs := (overlay_unapply p).num_subgraphs + 1
            g := ops.foldl apply_gen_op (overlay_unapply p).g
            roadmap_gen_state := st } : FamilyPlanner σ) p4
      ∧ (densify p).2 = overlay_apply p4 := by
  cases hgen : (overlay_unapply p).roadmap_gen.generate (overlay_unapply p).roadmap_gen_state
      (overlay_unapply p).g ((overlay_unapply p).num_subgraphs + 1) with
  | none => simp [densify, hgen] at h
  | some r =>
    obtain ⟨ops, st⟩ := r
    refine ⟨ops, st,
      (ops.foldl apply_gen_op (overlay_unapply p).g).edge_list.foldl
        (init_new_edge (overlay_unapply p).g.edges.length)
        ({ overlay_unapply p with
          num_subgraphs := (overlay_unapply p).num_subgraphs + 1
          g := ops.foldl apply_gen_op (overlay_unapply p).g
          roadmap_gen_state := st } : FamilyPlanner σ), rfl, ?_, ?_⟩
    · exact foldl_preserves (only_properties_differ _) (init_new_edge _)
        (only_properties_differ_init_new_edge _ _) _ _ (only_properties_differ_refl _)
    · simp only [densify, hgen]

theorem roots_applied_densify (p : FamilyPlanner σ) (h : roots_applied p)
    (hd : (densify p).1 = true) : roots_applied (densify p).2 := by
  obtain ⟨ops, st, p4, _, hdiff, heq⟩ := densify_eq p hd
  rw [heq]
  apply (roots_applied_apply p4 _).1
  have hr := roots_ready_unapply p h
  have e1 : p4.overlay_manager = (overlay_unapply p).overlay_manager := by rw [hdiff.1]
  have e2 : p4.og = (overlay_unapply p).og := by rw [hdiff.1]
  have e3 : p4.ov_start = (overlay_unapply p).ov_start := by rw [hdiff.1]
  have e4 : p4.ov_goal = (overlay_unapply p).ov_goal := by rw [hdiff.1]
  unfold roots_ready
  rw [e1, e2, e3, e4]
  exact hr

theorem roots_applied_setProblemDefinition (fresh : OverVProps) (p : FamilyPlanner σ)
    (pdef : ProblemDefinition)
    (hm : p.overlay_manager.is_applied = false → p.overlay_manager = ⟨false, [], []⟩)
    (hV : p.g.vertices.length ≤ null_vertex) :
    roots_applied (setProblemDefinition_from fresh p pdef) := by
  obtain ⟨s1, s2, s3, s4, s5, s6, s7, s8, s9, s10, s11⟩ :=
    setProblemDefinition_from_spec fresh p pdef hm hV
  have hVq : (overlay_unapply (retarget p pdef)).g.vertices.length ≤ null_vertex := by
    have h1 := overlay_unapply_vertices_le (retarget p pdef)
    have h2 := vertices_length_of_skeleton _ _ (retarget_frame p pdef).1
    omega
  refine ⟨by rw [s4], by rw [s4], s1, s2, by rw [s7]; omega, ?_, ?_⟩
  · rw [s9, s10]
    show (overlay_unapply (retarget p pdef)).g.vertices.length
      ≠ (overlay_unapply (retarget p pdef)).g.vertices.length + 1
    omega
  · intro vo h2 hlt
    rw [s7] at hlt
    obtain ⟨_, _, t3, _⟩ := s11 (vo - 2) (by omega)
    have hvo : 2 + (vo - 2) = vo := by omega
    rw [hvo] at t3
    rw [t3]
    have hmemT := mem_anchor_triples (overlay_unapply (retarget p pdef)) pdef
      ((anchor_triples (overlay_unapply (retarget p pdef)) pdef).getD (vo - 2) (0, [], 0))
      (by rw [List.getD_eq_getElem?_getD, List.getElem?_eq_getElem (by omega)]
          exact List.getElem_mem _)
    intro hc
    have hlt2 := hmemT.2.1
    have hc2 : ((anchor_triples (overlay_unapply (retarget p pdef)) pdef).getD (vo - 2)
      (0, [], 0)).2.2 = null_vertex := hc
    omega

theorem solve_loop_nonempty (fuel : Nat) :
    ∀ (p : FamilyPlanner σ) (epath : List Edge) (o : Option (List State)),
      roots_applied p →
      (solve_loop fuel p epath).outcome = .returned (.EXACT_SOLUTION, o) →
      (solve_loop fuel p epath).epath ≠ [] := by
  induction fuel with
  | zero => intro p epath o _ h; simp [solve_loop] at h
  | succ fuel ih =>
    intro p epath o hK
    have hne : (p.og.vprop p.ov_start).core_vertex ≠ (p.og.vprop p.ov_goal).core_vertex := by
      rw [hK.2.2.1, hK.2.2.2.1]
      exact hK.2.2.2.2.2.1
    have hK1 := roots_applied_of_differ p _
      (only_properties_differ_lazy_shortest_path (p.og.vprop p.ov_start).core_vertex
        (p.og.vprop p.ov_goal).core_vertex (fuel + 1) p epath) hK
    unfold solve_loop
    simp only
    split
    · intro h; simp at h
    · intro h; simp at h
    · rename_i htrue
      intro _
      exact lazy_shortest_path_nonempty _ _ hne _ _ _ htrue
    · split
      · intro h; simp at h
      · split
        · rename_i hd
          exact ih _ _ o (roots_applied_densify _ hK1 hd)
        · intro h; simp at h

/-! ## The loop of solve when the start has no anchor -/

theorem top_fold_one (s : DijkstraState) (vs : Nat)
    (h : ∀ v, s.color.getD v 0 = 1 ↔ v = vs) (n : Nat) :
    (List.range n).foldl
      (fun best v =>
        if s.color.getD v 0 = 1 then
          match best with
          | none => some v
          | some b =>
            if s.distance_map.getD v ⊤ < s.distance_map.getD b ⊤ then some v else some b
        else best)
      none = if vs < n then some vs else none := by
  induction n with
  | zero => simp
  | succ n ih =>
    rw [List.range_succ, List.foldl_append, ih]
    simp only [List.foldl_cons, List.foldl_nil]
    by_cases hn : n = vs
    · subst hn
      rw [if_pos ((h n).2 rfl), if_neg (Nat.lt_irrefl n), if_pos (Nat.lt_succ_self n)]
    · have hc : ¬ s.color.getD n 0 = 1 := fun hc => hn ((h n).1 hc)
      have : (vs < n + 1) ↔ vs < n := by omega
      rw [if_neg hc]
      simp only [this]

theorem top_fold_none (s : DijkstraState) (h : ∀ v, s.color.getD v 0 ≠ 1) (n : Nat) :
    (List.range n).foldl
      (fun best v =>
        if s.color.getD v 0 = 1 then
          match best with
          | none => some v
          | some b =>
            if s.distance_map.getD v ⊤ < s.distance_map.getD b ⊤ then some v else some b
        else best)
      none = none := by
  induction n with
  | zero => simp
  | succ n ih =>
    rw [List.range_succ, List.foldl_append, ih]
    simp only [List.foldl_cons, List.foldl_nil]
    rw [if_neg (h n)]

theorem getD_replicate_set (n : Nat) (vs v : Nat) (hvs : vs < n) :
    ((List.replicate n 0).set vs 1).getD v 0 = 1 ↔ v = vs := by
  rw [List.getD_eq_getElem?_getD, List.getElem?_set]
  by_cases h : vs = v
  · subst h; simp [hvs]
  · simp only [h, if_false]
    constructor
    · intro hc
      by_cases hv : v < n
      · simp [List.getElem?_replicate, hv] at hc
      · simp [List.getElem?_replicate, hv] at hc
    · intro hc; exact absurd hc.symm h

theorem getD_replicate_set_two (n : Nat) (vs v : Nat) :
    (((List.replicate n 0).set vs 1).set vs 2).getD v 0 ≠ 1 := by
  rw [List.getD_eq_getElem?_getD, List.getElem?_set]
  by_cases h : vs = v
  · subst h
    by_cases hv : vs < n
    · simp [hv]
    · simp [hv]
  · simp only [h, if_false]
    rw [List.getElem?_set]
    simp only [h, if_false]
    by_cases hv : v < n
    · simp [List.getElem?_replicate, hv]
    · simp [List.getElem?_replicate, hv]

/-- The library search from a start without out-edges: the start is the only
vertex ever queued, so every other vertex keeps the distance `inf`. -/
theorem dijkstra_isolated (g : Graph) (v_start v_goal : Nat)
    (hout : g.out_edges v_start = []) (hlt : v_start < g.vertices.length)
    (hne : v_start ≠ v_goal) :
    ∃ s, dijkstra_shortest_paths g v_start v_goal = some s
      ∧ s.distance_map = (List.replicate g.vertices.length (⊤ : WithTop ℚ)).set v_start 0 := by
  unfold dijkstra_shortest_paths
  obtain ⟨n, hn⟩ : ∃ n, g.vertices.length = n + 1 := ⟨g.vertices.length - 1, by omega⟩
  rw [hn]
  have htop : DijkstraState.top
      { predecessor_map := List.range (n + 1)
        distance_map := (List.replicate (n + 1) (⊤ : WithTop ℚ)).set v_start 0
        color := (List.replicate (n + 1) 0).set v_start 1 } = some v_start :=
    (top_fold_one _ v_start (fun v => getD_replicate_set (n + 1) v_start v (by omega)) _).trans
      (if_pos (by simp; omega))
  unfold dijkstra_loop
  simp only [htop, if_neg hne, hout, List.foldlM_nil]
  show ∃ s, dijkstra_loop g v_goal n _ = some s ∧ _
  cases n with
  | zero => exact ⟨_, rfl, rfl⟩
  | succ n =>
    have htop2 : DijkstraState.top
        { predecessor_map := List.range (n + 1 + 1)
          distance_map := (List.replicate (n + 1 + 1) (⊤ : WithTop ℚ)).set v_start 0
          color := ((List.replicate (n + 1 + 1) 0).set v_start 1).set v_start 2 } = none :=
      top_fold_none _ (fun v => getD_replicate_set_two (n + 1 + 1) v_start v) _
    refine ⟨{ predecessor_map := List.range (n + 1 + 1)
              distance_map := (List.replicate (n + 1 + 1) (⊤ : WithTop ℚ)).set v_start 0
              color := ((List.replicate (n + 1 + 1) 0).set v_start 1).set v_start 2 }, ?_, rfl⟩
    unfold dijkstra_loop
    show (match DijkstraState.top
        { predecessor_map := List.range (n + 1 + 1)
          distance_map := (List.replicate (n + 1 + 1) (⊤ : WithTop ℚ)).set v_start 0
          color := ((List.replicate (n + 1 + 1) 0).set v_start 1).set v_start 2 } with
      | none => _
      | some u => _) = _
    rw [htop2]

theorem incsp_solve_isolated (g : Graph) (v_start v_goal : Nat) (path : List Edge)
    (hout : g.out_edges v_start = []) (hlt : v_start < g.vertices.length)
    (hne : v_start ≠ v_goal) :
    lazysp_incsp_dijkstra.solve g v_start v_goal path = .returned (⊤, path) := by
  obtain ⟨s, hs, hd⟩ := dijkstra_isolated g v_start v_goal hout hlt hne
  unfold lazysp_incsp_dijkstra.solve
  rw [hs]
  have : s.distance_map.getD v_goal ⊤ = ⊤ := by
    rw [hd, List.getD_eq_getElem?_getD, List.getElem?_set]
    simp only [hne, if_false]
    by_cases hv : v_goal < g.vertices.length
    · simp [List.getElem?_replicate, hv]
    · simp [List.getElem?_replicate, hv]
  simp only [this, if_true]

/-- The lazy search from a start without out-edges fails in its first round
and changes nothing. -/
theorem lazy_shortest_path_isolated (v_start v_goal : Nat) (fuel : Nat) (p : FamilyPlanner σ)
    (epath : List Edge)
    (hout : p.g.out_edges v_start = []) (hlt : v_start < p.g.vertices.length)
    (hne : v_start ≠ v_goal) :
    lazy_shortest_path v_start v_goal (fuel + 1) p epath = ⟨.returned false, p, epath⟩ := by
  unfold lazy_shortest_path
  rw [incsp_solve_isolated p.g v_start v_goal epath hout hlt hne]
  simp

theorem out_edges_nil (g : Graph) (v : Nat)
    (h : ∀ pr ∈ g.skeleton.2, pr.1 ≠ v ∧ pr.2 ≠ v) : g.out_edges v = [] := by
  unfold Graph.out_edges
  rw [List.flatMap_eq_nil_iff]
  intro i hi
  have hi2 : i < g.edges.length := List.mem_range.1 hi
  have hmem : ((g.edges.getD i ⟨0, 0, EProps.init⟩).src,
      (g.edges.getD i ⟨0, 0, EProps.init⟩).tgt) ∈ g.skeleton.2 := by
    unfold Graph.skeleton
    simp only [List.mem_map]
    refine ⟨g.edges.getD i ⟨0, 0, EProps.init⟩, ?_, rfl⟩
    rw [List.getD_eq_getElem?_getD, List.getElem?_eq_getElem hi2]
    exact List.getElem_mem _
  obtain ⟨h1, h2⟩ := h _ hmem
  simp only [h1, h2, if_false, List.append_nil]

theorem closed_iff_skeleton (g : Graph) :
    g.closed = true ↔ ∀ pr ∈ g.skeleton.2, pr.1 < g.skeleton.1 ∧ pr.2 < g.skeleton.1 := by
  unfold Graph.closed Graph.skeleton
  simp [List.all_eq_true]

theorem closed_of_skeleton (g h : Graph) (hs : h.skeleton = g.skeleton)
    (hc : g.closed = true) : h.closed = true := by
  rw [closed_iff_skeleton] at hc ⊢
  rw [hs]
  exact hc

theorem unapply_edge_fold_graph (E0 : List StoredEdge) :
    ∀ (m : Nat) (s : Graph × OverGraph) (M : List StoredEdge),
      s.1.edges = E0 ++ M → M.length = m →
      (∀ eo, eo < m → (core_edge_of s.2 eo).id = E0.length + eo) →
      ((List.range m).reverse.foldl unapply_edge s).1.edges = E0 := by
  intro m
  induction m with
  | zero =>
    intro s M h1 h2 _
    have : M = [] := List.length_eq_zero.1 h2
    simpa [this] using h1
  | succ m ih =>
    intro s M h1 h2 h3
    rw [List.range_succ, List.reverse_append, List.reverse_singleton, List.singleton_append,
      List.foldl_cons]
    apply ih (unapply_edge s m) (M.eraseIdx m)
    · show (s.1.edges.eraseIdx (core_edge_of s.2 m).id) = _
      rw [h3 m (Nat.lt_succ_self m), h1,
        List.eraseIdx_append_of_length_le (Nat.le_add_right _ _), Nat.add_sub_cancel_left]
    · rw [List.length_eraseIdx]
      simp [h2]
    · intro eo heo
      have : core_edge_of (unapply_edge s m).2 eo = core_edge_of s.2 eo := by
        show ((s.2.set_eprop m _).eprop eo).core_edge.getD _ = _
        rw [over_eprop_set_eprop_other _ _ _ _ (by omega)]
        rfl
      rw [this]
      exact h3 eo (by omega)

theorem unapply_vertex_roots (s : Graph × OverGraph) :
    ([0, 1].reverse.foldl unapply_vertex s).1.vertices
      = (s.1.vertices.eraseIdx (s.2.vprop 1).core_vertex).eraseIdx (s.2.vprop 0).core_vertex := by
  show ((s.1.remove_vertex _).remove_vertex ((s.2.set_vprop 1 _).vprop 0).core_vertex).vertices = _
  rw [over_vprop_set_vprop_other _ _ _ _ (by decide)]
  rfl

/-- The core graph that `overlay_unapply` leaves: the edges inserted for the
overlay go, last first, and then the core vertices of the two roots. -/
theorem overlay_unapply_graph (p : FamilyPlanner σ) (nE : Nat) (h : roots_applied p)
    (hedges : p.overlay_manager.applied_edges = List.range p.og.edges.length)
    (hnE : p.g.edges.length = nE + p.og.edges.length)
    (hce : ∀ eo, eo < p.og.edges.length → (core_edge_of p.og eo).id = nE + eo) :
    (overlay_unapply p).g.edges = p.g.edges.take nE
    ∧ (overlay_unapply p).g.vertices
        = (p.g.vertices.eraseIdx (p.og.vprop 1).core_vertex).eraseIdx
            (p.og.vprop 0).core_vertex := by
  obtain ⟨ha, hav, _⟩ := h
  have hg := congrArg FamilyPlanner.g (overlay_unapply_eq p ha)
  simp only at hg
  rw [hg, hav, hedges]
  obtain ⟨v1, v2, v3, v4⟩ := copy_vertex_to_overlay_fold [0, 1] p
  obtain ⟨e1, e2, e3, e4, e5, e6⟩ := copy_edge_to_overlay_fold (List.range p.og.edges.length)
    (List.foldl copy_vertex_to_overlay p [0, 1])
  generalize hog : (List.foldl copy_edge_to_overlay (List.foldl copy_vertex_to_overlay p [0, 1])
    (List.range p.og.edges.length)).og = og2 at *
  have hcv : ∀ vo, (og2.vprop vo).core_vertex = (p.og.vprop vo).core_vertex := by
    intro vo
    have : og2.vprop vo = (List.foldl copy_vertex_to_overlay p [0, 1]).og.vprop vo := by
      unfold OverGraph.vprop
      rw [e2]
    rw [this, v4 vo]
    split <;> rfl
  have hce2 : ∀ eo, eo < p.og.edges.length → (core_edge_of og2 eo).id = nE + eo := by
    intro eo heo
    have h1 : (og2.eprop eo).core_edge
        = ((List.foldl copy_vertex_to_overlay p [0, 1]).og.eprop eo).core_edge := by
      rw [e6 eo]
      split <;> rfl
    have h2 : (List.foldl copy_vertex_to_overlay p [0, 1]).og.eprop eo = p.og.eprop eo := by
      unfold OverGraph.eprop
      rw [v2]
    unfold core_edge_of
    rw [h1, h2]
    exact hce eo heo
  obtain ⟨f1, f2, f3, f4⟩ := unapply_vertex_fold [0, 1].reverse
    ((List.range p.og.edges.length).reverse.foldl unapply_edge (p.g, og2))
  obtain ⟨g1, g2, g3, g4, g5, g6⟩ := unapply_edge_fold (List.range p.og.edges.length).reverse
    (p.g, og2)
  constructor
  · rw [f1]
    apply unapply_edge_fold_graph (p.g.edges.take nE) p.og.edges.length (p.g, og2)
      (p.g.edges.drop nE)
    · exact (List.take_append_drop nE p.g.edges).symm
    · rw [List.length_drop]; omega
    · intro eo heo
      rw [hce2 eo heo, List.length_take]
      omega
  · rw [unapply_vertex_roots, g1]
    have hv : ∀ vo, ((List.range p.og.edges.length).reverse.foldl unapply_edge (p.g, og2)).2.vprop vo
        = og2.vprop vo := by
      intro vo
      unfold OverGraph.vprop
      rw [g2]
    rw [hv, hv, hcv, hcv]

theorem skeleton_edges_length (g : Graph) : g.skeleton.2.length = g.edges.length := by
  simp [Graph.skeleton]

/-- After `overlay_apply` on an overlay whose start root is alone: the roots
are the two last core vertices, and the start's core vertex has no out-edge. -/
theorem isolated_apply (q : FamilyPlanner σ) (h : start_isolated q) :
    roots_applied (overlay_apply q)
    ∧ ((overlay_apply q).og.vprop 0).core_vertex = q.g.vertices.length
    ∧ ((overlay_apply q).og.vprop 1).core_vertex = q.g.vertices.length + 1
    ∧ (overlay_apply q).g.vertices.length = q.g.vertices.length + 2
    ∧ (overlay_apply q).g.out_edges q.g.vertices.length = []
    ∧ (overlay_apply q).g.skeleton.2
        = q.g.skeleton.2 ++ (List.range q.og.edges.length).map (fun eo =>
            (((overlay_apply q).og.vprop (q.og.source eo)).core_vertex,
              ((overlay_apply q).og.vprop (q.og.target eo)).core_vertex))
    ∧ overlay_apply q = { q with
        g := (overlay_apply q).g
        og := (q.overlay_manager.apply q.g q.og).2.1
        overlay_manager := ⟨true, [0, 1], List.range q.og.edges.length⟩ } := by
  obtain ⟨hr, hc, hanch, hedge⟩ := h
  obtain ⟨hK, c0, c1, cr⟩ := roots_applied_apply q hr
  obtain ⟨hm, hs, hg, hlen, h0, h1, hrr⟩ := hr
  obtain ⟨a1, a2, a3, a4, a5, a6⟩ := overlay_apply_spec q hm
  have hN := unapplied_vertices_eq_roots q.og hlen h0 h1 hrr
  rw [hN] at a1 a2
  have hsk2 : (overlay_apply q).g.skeleton.2
      = q.g.skeleton.2 ++ (List.range q.og.edges.length).map (fun eo =>
          (((overlay_apply q).og.vprop (q.og.source eo)).core_vertex,
            ((overlay_apply q).og.vprop (q.og.target eo)).core_vertex)) := by
    rw [a2]; rfl
  have hV : (overlay_apply q).g.vertices.length = q.g.vertices.length + 2 := by
    have := congrArg (fun s => s.1) a2
    simpa [Graph.skeleton] using this
  have hcv : ∀ x, x ≠ 0 → x < q.og.vertices.length →
      ((overlay_apply q).og.vprop x).core_vertex ≠ q.g.vertices.length := by
    intro x hx0 hxl
    by_cases hx1 : x = 1
    · subst hx1; rw [c1]; omega
    · rw [cr x (by omega)]
      have := hanch x (by omega) hxl
      omega
  refine ⟨hK, c0, c1, hV, ?_, hsk2, a1⟩
  apply out_edges_nil
  intro pr hpr
  rw [hsk2] at hpr
  rcases List.mem_append.1 hpr with hp | hp
  · have := (closed_iff_skeleton q.g).1 hc pr hp
    have hsk1 : q.g.skeleton.1 = q.g.vertices.length := rfl
    rw [hsk1] at this
    omega
  · obtain ⟨eo, heo, rfl⟩ := List.mem_map.1 hp
    have heo2 := List.mem_range.1 heo
    obtain ⟨e1, e2, e3, e4⟩ := hedge eo heo2
    exact ⟨hcv _ e1 e3, hcv _ e2 e4⟩

/-- Unapplying right after applying, on an overlay whose start root is
alone: the core graph has its vertices and edges back, and the overlay is as
it was. -/
theorem isolated_round_trip (q : FamilyPlanner σ) (h : start_isolated q) :
    overlay_unapply (overlay_apply q)
      = { q with g := (overlay_unapply (overlay_apply q)).g
                 og := (overlay_unapply (overlay_apply q)).og }
    ∧ (overlay_unapply (overlay_apply q)).g.skeleton = q.g.skeleton
    ∧ start_isolated (overlay_unapply (overlay_apply q)) := by
  obtain ⟨hK, c0, c1, hV, _, hsk2, hA⟩ := isolated_apply q h
  obtain ⟨hr, hc, hanch, hedge⟩ := h
  have hm := hr.1
  obtain ⟨m1, m2, m3, m4, m5, m6, m7, m8, m9⟩ := manager_apply_spec q.g q.og q.overlay_manager
  have hog : (overlay_apply q).og = (q.overlay_manager.apply q.g q.og).2.1 := by rw [hA]
  have hman : (overlay_apply q).overlay_manager = ⟨true, [0, 1], List.range q.og.edges.length⟩ := by
    rw [hA]
  have hogE : (overlay_apply q).og.edges.length = q.og.edges.length := by rw [hog, m4]
  have hogV : (overlay_apply q).og.vertices.length = q.og.vertices.length := by rw [hog, m3]
  have hgE : (overlay_apply q).g.edges.length = q.g.edges.length + q.og.edges.length := by
    rw [← skeleton_edges_length, hsk2, List.length_append, List.length_map, List.length_range,
      skeleton_edges_length]
  obtain ⟨ge, gv⟩ := overlay_unapply_graph (overlay_apply q) q.g.edges.length hK
    (by rw [hman, hogE]) (by rw [hgE, hogE])
    (by
      intro eo heo
      rw [hogE] at heo
      unfold core_edge_of
      rw [hog, m9 eo, if_pos heo]
      rfl)
  obtain ⟨u1, u2, u3, u4, u5, u6, u7⟩ := overlay_unapply_spec (overlay_apply q) hK.1
  obtain ⟨r1, r2, r3, r4⟩ := apply_unapply_spec q hm
  have hBV : (overlay_unapply (overlay_apply q)).g.vertices.length = q.g.vertices.length := by
    rw [gv, c0, c1, List.length_eraseIdx, List.length_eraseIdx, hV]
    simp
  have hsk : (overlay_unapply (overlay_apply q)).g.skeleton = q.g.skeleton := by
    have e2 : (overlay_unapply (overlay_apply q)).g.skeleton.2 = q.g.skeleton.2 := by
      show List.map _ (overlay_unapply (overlay_apply q)).g.edges = _
      rw [ge, List.map_take]
      show List.take _ (overlay_apply q).g.skeleton.2 = _
      rw [hsk2, ← skeleton_edges_length, List.take_left]
    exact Prod.ext hBV e2
  have hB : overlay_unapply (overlay_apply q)
      = { q with g := (overlay_unapply (overlay_apply q)).g
                 og := (overlay_unapply (overlay_apply q)).og } := by
    rw [u1, hA]
    simp only [hm]
  refine ⟨hB, hsk, ?_, closed_of_skeleton _ _ hsk hc, ?_, ?_⟩
  · exact roots_ready_unapply _ hK
  · intro vo h2 hlt
    rw [r1] at hlt
    rw [r3 vo, hBV]
    exact hanch vo h2 hlt
  · intro eo heo
    rw [r2] at heo
    rw [u4, u5, hog, m5, m6, r1]
    exact hedge eo heo

theorem apply_gen_op_vertices_le (g : Graph) (op : GenOp) :
    g.vertices.length ≤ (apply_gen_op g op).vertices.length := by
  cases op <;> simp [apply_gen_op, Graph.add_vertex, Graph.add_edge, Graph.set_vprop,
    Graph.set_eprop]

theorem apply_gen_ops_vertices_le (ops : List GenOp) :
    ∀ g : Graph, g.vertices.length ≤ (ops.foldl apply_gen_op g).vertices.length := by
  induction ops with
  | nil => intro g; exact Nat.le_refl _
  | cons op ops ih =>
    intro g
    exact Nat.le_trans (apply_gen_op_vertices_le g op) (ih _)

theorem densify_of_generate (p : FamilyPlanner σ) (ops : List GenOp) (st : σ)
    (hgen : (overlay_unapply p).roadmap_gen.generate (overlay_unapply p).roadmap_gen_state
      (overlay_unapply p).g ((overlay_unapply p).num_subgraphs + 1) = some (ops, st)) :
    densify p = (true, overlay_apply
      ((ops.foldl apply_gen_op (overlay_unapply p).g).edge_list.foldl
        (init_new_edge (overlay_unapply p).g.edges.length)
        ({ overlay_unapply p with
          num_subgraphs := (overlay_unapply p).num_subgraphs + 1
          g := ops.foldl apply_gen_op (overlay_unapply p).g
          roadmap_gen_state := st } : FamilyPlanner σ))) := by
  simp only [densify, hgen]

/-- One densification on an overlay whose start root is alone: the
generator is asked for one more batch, and the start root is alone again. -/
theorem densify_isolated (q : FamilyPlanner σ) (h : start_isolated q)
    (hrel : q.roadmap_gen.reliable (q.num_subgraphs + 1)) :
    ∃ q2 : FamilyPlanner σ, densify (overlay_apply q) = (true, overlay_apply q2)
      ∧ start_isolated q2
      ∧ q2.roadmap_gen = q.roadmap_gen
      ∧ q2.num_subgraphs = q.num_subgraphs + 1 := by
  obtain ⟨hB, hsk, hiso⟩ := isolated_round_trip q h
  have hgenB : (overlay_unapply (overlay_apply q)).roadmap_gen = q.roadmap_gen := by rw [hB]
  have hnB : (overlay_unapply (overlay_apply q)).num_subgraphs = q.num_subgraphs := by rw [hB]
  obtain ⟨ops, st, hgen, hcl⟩ := hrel (overlay_unapply (overlay_apply q)).roadmap_gen_state
    (overlay_unapply (overlay_apply q)).g hiso.2.1
  rw [← hgenB, ← hnB] at hgen
  refine ⟨_, densify_of_generate _ ops st hgen, ?_, ?_, ?_⟩
  · have hd := foldl_preserves
      (only_properties_differ ({ overlay_unapply (overlay_apply q) with
          num_subgraphs := (overlay_unapply (overlay_apply q)).num_subgraphs + 1
          g := ops.foldl apply_gen_op (overlay_unapply (overlay_apply q)).g
          roadmap_gen_state := st } : FamilyPlanner σ))
      (init_new_edge (overlay_unapply (overlay_apply q)).g.edges.length)
      (only_properties_differ_init_new_edge _ _)
      (ops.foldl apply_gen_op (overlay_unapply (overlay_apply q)).g).edge_list _
      (only_properties_differ_refl _)
    generalize (List.foldl (init_new_edge (overlay_unapply (overlay_apply q)).g.edges.length)
      ({ overlay_unapply (overlay_apply q) with
          num_subgraphs := (overlay_unapply (overlay_apply q)).num_subgraphs + 1
          g := ops.foldl apply_gen_op (overlay_unapply (overlay_apply q)).g
          roadmap_gen_state := st } : FamilyPlanner σ)
      (ops.foldl apply_gen_op (overlay_unapply (overlay_apply q)).g).edge_list) = p4 at hd
    obtain ⟨hd1, hd2⟩ := hd
    have e1 : p4.overlay_manager = (overlay_unapply (overlay_apply q)).overlay_manager := by
      rw [hd1]
    have e2 : p4.og = (overlay_unapply (overlay_apply q)).og := by rw [hd1]
    have e3 : p4.ov_start = (overlay_unapply (overlay_apply q)).ov_start := by rw [hd1]
    have e4 : p4.ov_goal = (overlay_unapply (overlay_apply q)).ov_goal := by rw [hd1]
    have hsk4 : p4.g.skeleton
        = (ops.foldl apply_gen_op (overlay_unapply (overlay_apply q)).g).skeleton := hd2
    have hV4 : (overlay_unapply (overlay_apply q)).g.vertices.length ≤ p4.g.vertices.length := by
      rw [vertices_length_of_skeleton _ _ hsk4]
      exact apply_gen_ops_vertices_le ops _
    obtain ⟨i1, i2, i3, i4⟩ := hiso
    refine ⟨?_, closed_of_skeleton _ _ hsk4 hcl, ?_, ?_⟩
    · unfold roots_ready
      rw [e1, e2, e3, e4]
      exact i1
    · intro vo h2 hlt
      rw [e2] at hlt ⊢
      exact Nat.lt_of_lt_of_le (i3 vo h2 hlt) hV4
    · intro eo heo
      rw [e2] at heo ⊢
      exact i4 eo heo
  · have hd := foldl_preserves
      (only_properties_differ ({ overlay_unapply (overlay_apply q) with
          num_subgraphs := (overlay_unapply (overlay_apply q)).num_subgraphs + 1
          g := ops.foldl apply_gen_op (overlay_unapply (overlay_apply q)).g
          roadmap_gen_state := st } : FamilyPlanner σ))
      (init_new_edge (overlay_unapply (overlay_apply q)).g.edges.length)
      (only_properties_differ_init_new_edge _ _)
      (ops.foldl apply_gen_op (overlay_unapply (overlay_apply q)).g).edge_list _
      (only_properties_differ_refl _)
    rw [hd.1]
    exact hgenB
  · have hd := foldl_preserves
      (only_properties_differ ({ overlay_unapply (overlay_apply q) with
          num_subgraphs := (overlay_unapply (overlay_apply q)).num_subgraphs + 1
          g := ops.foldl apply_gen_op (overlay_unapply (overlay_apply q)).g
          roadmap_gen_state := st } : FamilyPlanner σ))
      (init_new_edge (overlay_unapply (overlay_apply q)).g.edges.length)
      (only_properties_differ_init_new_edge _ _)
      (ops.foldl apply_gen_op (overlay_unapply (overlay_apply q)).g).edge_list _
      (only_properties_differ_refl _)
    rw [hd.1]
    exact congrArg (· + 1) hnB

/-- One round of the loop of `solve` on an overlay whose start root is
alone: the lazy search fails at once, and the loop stops at the cap or
densifies. -/
theorem solve_loop_isolated_step (fuel : Nat) (q : FamilyPlanner σ) (epath : List Edge)
    (h : start_isolated q) :
    solve_loop (fuel + 1) (overlay_apply q) epath
      = if q.roadmap_gen.num_subgraphs ≠ 0
            ∧ q.roadmap_gen.num_subgraphs < q.num_subgraphs + 1 then
          ⟨.returned (.TIMEOUT, none), overlay_apply q, epath⟩
        else if (densify (overlay_apply q)).1 then
          solve_loop fuel (densify (overlay_apply q)).2 epath
        else ⟨.threw, (densify (overlay_apply q)).2, epath⟩ := by
  obtain ⟨hK, c0, c1, hV, hout, _, hA⟩ := isolated_apply q h
  have hlazy : lazy_shortest_path
      ((overlay_apply q).og.vprop (overlay_apply q).ov_start).core_vertex
      ((overlay_apply q).og.vprop (overlay_apply q).ov_goal).core_vertex
      (fuel + 1) (overlay_apply q) epath = ⟨.returned false, overlay_apply q, epath⟩ := by
    apply lazy_shortest_path_isolated
    · rw [hK.2.2.1, c0]; exact hout
    · rw [hK.2.2.1, c0, hV]; omega
    · rw [hK.2.2.1, hK.2.2.2.1, c0, c1]; omega
  have hgen : (overlay_apply q).roadmap_gen = q.roadmap_gen := by rw [hA]
  have hnum : (overlay_apply q).num_subgraphs = q.num_subgraphs := by rw [hA]
  conv => lhs; unfold solve_loop
  simp only [hlazy, hgen, hnum]

/-- With a cap, the loop of `solve` on an overlay whose start root is alone
stops with `TIMEOUT` after as many densifications as the cap leaves. -/
theorem solve_loop_isolated_capped (d : Nat) :
    ∀ (fuel : Nat) (q : FamilyPlanner σ) (epath : List Edge),
      start_isolated q → q.roadmap_gen.num_subgraphs ≠ 0 →
      (∀ n, n ≤ q.roadmap_gen.num_subgraphs → q.roadmap_gen.reliable n) →
      q.roadmap_gen.num_subgraphs - q.num_subgraphs ≤ d → d + 1 ≤ fuel →
      (solve_loop fuel (overlay_apply q) epath).outcome = .returned (.TIMEOUT, none) := by
  induction d with
  | zero =>
    intro fuel q epath h hcap _ hd hf
    obtain ⟨f, rfl⟩ : ∃ f, fuel = f + 1 := ⟨fuel - 1, by omega⟩
    rw [solve_loop_isolated_step f q epath h, if_pos ⟨hcap, by omega⟩]
  | succ d ih =>
    intro fuel q epath h hcap hrel hd hf
    obtain ⟨f, rfl⟩ : ∃ f, fuel = f + 1 := ⟨fuel - 1, by omega⟩
    rw [solve_loop_isolated_step f q epath h]
    by_cases hc : q.roadmap_gen.num_subgraphs ≠ 0
        ∧ q.roadmap_gen.num_subgraphs < q.num_subgraphs + 1
    · rw [if_pos hc]
    · rw [if_neg hc]
      have hle : q.num_subgraphs + 1 ≤ q.roadmap_gen.num_subgraphs := by
        by_contra hlt
        exact hc ⟨hcap, by omega⟩
      obtain ⟨q2, hq2, hiso2, hg2, hn2⟩ := densify_isolated q h (hrel _ hle)
      rw [hq2]
      simp only [if_true]
      apply ih f q2 epath hiso2
      · rw [hg2]; exact hcap
      · rw [hg2]; exact hrel
      · rw [hg2, hn2]; omega
      · omega

/-- Without a cap, the loop of `solve` on an overlay whose start root is
alone densifies in every round: it never returns and never throws. -/
theorem solve_loop_isolated_uncapped (fuel : Nat) :
    ∀ (q : FamilyPlanner σ) (epath : List Edge),
      start_isolated q → q.roadmap_gen.num_subgraphs = 0 →
      (∀ n, q.roadmap_gen.reliable n) →
      (solve_loop fuel (overlay_apply q) epath).outcome = .out_of_fuel := by
  induction fuel with
  | zero => intro q epath _ _ _; rfl
  | succ f ih =>
    intro q epath h hcap hrel
    rw [solve_loop_isolated_step f q epath h, if_neg (fun hc => hc.1 hcap)]
    obtain ⟨q2, hq2, hiso2, hg2, _⟩ := densify_isolated q h (hrel _)
    rw [hq2]
    simp only [if_true]
    apply ih q2 epath hiso2
    · rw [hg2]; exact hcap
    · rw [hg2]; exact hrel

theorem retarget_gen (p : FamilyPlanner σ) (pdef : ProblemDefinition) :
    (retarget p pdef).roadmap_gen = p.roadmap_gen
    ∧ (retarget p pdef).num_subgraphs = p.num_subgraphs := by
  unfold retarget
  split
  · have hd := foldl_preserves
      (only_properties_differ
        ({ p with family_effort_model := p.set_target p.family_effort_model pdef.si } :
          FamilyPlanner σ))
      calculate_w_lazy (only_properties_differ_calculate_w_lazy _)
      ({ p with family_effort_model := p.set_target p.family_effort_model pdef.si } :
          FamilyPlanner σ).g.edge_list _ (only_properties_differ_refl _)
    constructor
    · rw [hd.1]
    · rw [hd.1]
  · exact ⟨rfl, rfl⟩

theorem overlay_unapply_gen (p : FamilyPlanner σ) :
    (overlay_unapply p).roadmap_gen = p.roadmap_gen
    ∧ (overlay_unapply p).num_subgraphs = p.num_subgraphs := by
  by_cases ha : p.overlay_manager.is_applied = true
  · have h := (overlay_unapply_spec p ha).1
    constructor
    · rw [h]
    · rw [h]
  · have : overlay_unapply p = p := by
      unfold overlay_unapply
      simp [ha]
    rw [this]
    exact ⟨rfl, rfl⟩

/-- The overlay that `setProblemDefinition` is about to apply, when no core
vertex is within the anchor radius of the start: the start root is alone. -/
theorem start_isolated_populate (fresh : OverVProps) (p : FamilyPlanner σ)
    (pdef : ProblemDefinition)
    (hm : p.overlay_manager.is_applied = false → p.overlay_manager = ⟨false, [], []⟩)
    (hV : p.g.vertices.length ≤ null_vertex)
    (hc : (overlay_unapply (retarget p pdef)).g.closed = true)
    (hfar : anchored_vertices (overlay_unapply (retarget p pdef)) pdef.start = []) :
    start_isolated (populate_overlay_from fresh p pdef)
    ∧ (populate_overlay_from fresh p pdef).roadmap_gen = p.roadmap_gen
    ∧ (populate_overlay_from fresh p pdef).num_subgraphs = p.num_subgraphs := by
  rw [populate_overlay_from_eq]
  refine ⟨?_, ?_, ?_⟩
  rotate_left
  · show (overlay_unapply (retarget p pdef)).roadmap_gen = _
    rw [(overlay_unapply_gen _).1, (retarget_gen p pdef).1]
  · show (overlay_unapply (retarget p pdef)).num_subgraphs = _
    rw [(overlay_unapply_gen _).2, (retarget_gen p pdef).2]
  have hVq : (overlay_unapply (retarget p pdef)).g.vertices.length ≤ null_vertex := by
    have h1 := overlay_unapply_vertices_le (retarget p pdef)
    have h2 := vertices_length_of_skeleton _ _ (retarget_frame p pdef).1
    omega
  have hclean : (overlay_unapply (retarget p pdef)).overlay_manager = ⟨false, [], []⟩ := by
    apply overlay_unapply_clean
    rw [(retarget_frame p pdef).2.1]
    exact hm
  generalize overlay_unapply (retarget p pdef) = q at hVq hclean hc hfar ⊢
  obtain ⟨l1, l2⟩ := populated_overlay_lengths fresh q pdef
  have hanch : ∀ vo, 2 ≤ vo → vo < (populated_overlay fresh q pdef).vertices.length →
      ((populated_overlay fresh q pdef).vprop vo).core_vertex < q.g.vertices.length := by
    intro vo h2 hlt
    rw [l1] at hlt
    have hvo : 2 + (vo - 2) = vo := by omega
    have h3 := populated_overlay_vprop_anchor fresh q pdef (vo - 2) (by omega)
    rw [hvo] at h3
    rw [h3]
    exact (mem_anchor_triples q pdef
      ((anchor_triples q pdef).getD (vo - 2) (0, [], 0))
      (by rw [List.getD_eq_getElem?_getD, List.getElem?_eq_getElem (by omega)]
          exact List.getElem_mem _)).2.1
  have hroot : ∀ t ∈ anchor_triples q pdef, t.1 = 1 := by
    intro t ht
    unfold anchor_triples at ht
    rw [hfar] at ht
    simp only [List.map_nil, List.nil_append, List.mem_map] at ht
    obtain ⟨vi, _, rfl⟩ := ht
    rfl
  refine ⟨⟨hclean, rfl, rfl, ?_, ?_, ?_, ?_⟩, hc, hanch, ?_⟩
  · show 2 ≤ (populated_overlay fresh q pdef).vertices.length
    rw [l1]; omega
  · show ((populated_overlay fresh q pdef).vprop 0).core_vertex = null_vertex
    unfold OverGraph.vprop
    rw [populated_overlay_vertices]
    rfl
  · show ((populated_overlay fresh q pdef).vprop 1).core_vertex = null_vertex
    unfold OverGraph.vprop
    rw [populated_overlay_vertices]
    rfl
  · intro vo h2 hlt
    have := hanch vo h2 hlt
    show ((populated_overlay fresh q pdef).vprop vo).core_vertex ≠ null_vertex
    omega
  · intro eo heo
    have heo2 : eo < (anchor_triples q pdef).length := by rw [← l2]; exact heo
    have he := populated_overlay_edge fresh q pdef eo heo2
    have hs : (populated_overlay fresh q pdef).source eo = 1 := by
      unfold OverGraph.source
      rw [he]
      exact hroot _ (by rw [List.getD_eq_getElem?_getD, List.getElem?_eq_getElem heo2]
                        exact List.getElem_mem _)
    have ht : (populated_overlay fresh q pdef).target eo = 2 + eo := by
      unfold OverGraph.target
      rw [he]
    show (populated_overlay fresh q pdef).source eo ≠ 0
      ∧ (populated_overlay fresh q pdef).target eo ≠ 0
      ∧ (populated_overlay fresh q pdef).source eo < (populated_overlay fresh q pdef).vertices.length
      ∧ (populated_overlay fresh q pdef).target eo < (populated_overlay fresh q pdef).vertices.length
    rw [hs, ht, l1]
    refine ⟨by omega, by omega, by omega, by omega⟩

theorem closed_apply_gen_op (g : Graph) (op : GenOp) (hc : g.closed = true)
    (hop : ∀ u v, op ≠ .add_edge u v) : (apply_gen_op g op).closed = true := by
  cases op with
  | add_vertex =>
    rw [closed_iff_skeleton] at hc ⊢
    intro pr hpr
    have := hc pr hpr
    show pr.1 < (g.vertices ++ [VProps.init]).length ∧ pr.2 < (g.vertices ++ [VProps.init]).length
    rw [List.length_append]
    exact ⟨Nat.lt_of_lt_of_le this.1 (Nat.le_add_right _ _),
      Nat.lt_of_lt_of_le this.2 (Nat.le_add_right _ _)⟩
  | add_edge u v => exact absurd rfl (hop u v)
  | put_state v s => exact closed_of_skeleton _ _ (skeleton_set_vprop _ _ _) hc
  | put_distance e d => exact closed_of_skeleton _ _ (skeleton_set_eprop _ _ _) hc
  | put_vertex_subgraph v k => exact closed_of_skeleton _ _ (skeleton_set_vprop _ _ _) hc
  | put_edge_subgraph e k => exact closed_of_skeleton _ _ (skeleton_set_eprop _ _ _) hc
  | put_is_shadow v b => exact closed_of_skeleton _ _ (skeleton_set_vprop _ _ _) hc

theorem closed_apply_gen_ops (ops : List GenOp) (hop : ∀ op ∈ ops, ∀ u v, op ≠ .add_edge u v) :
    ∀ g : Graph, g.closed = true → (ops.foldl apply_gen_op g).closed = true := by
  induction ops with
  | nil => intro g hc; exact hc
  | cons op ops ih =>
    intro g hc
    exact ih (fun o ho => hop o (List.mem_cons_of_mem _ ho)) _
      (closed_apply_gen_op g op hc (hop op (List.mem_cons_self _ _)))

theorem gen_two_reliable (n : Nat) (hn : n ≤ 2) : gen_two.reliable n := by
  intro st g hc
  refine ⟨_, _, if_neg (by omega), closed_apply_gen_ops _ ?_ g hc⟩
  intro op hop u v
  simp only [List.mem_flatMap] at hop
  obtain ⟨k, _, hk⟩ := hop
  intro he
  subst he
  simp at hk

theorem gen_free_reliable (n : Nat) : gen_free.reliable n := by
  intro st g hc
  refine ⟨_, _, rfl, closed_apply_gen_ops _ ?_ g hc⟩
  intro op hop u v
  simp only [List.mem_flatMap] at hop
  obtain ⟨k, _, hk⟩ := hop
  intro he
  subst he
  simp at hk

/-! ## Later calls of RoadmapGenRGG::generate -/

theorem rgg_add_sample_frame (s : Graph × RoadmapGenRGG) :
    (RoadmapGenRGG.add_sample s).1.vertices.length = s.1.vertices.length + 1
    ∧ (RoadmapGenRGG.add_sample s).2.n = s.2.n
    ∧ (RoadmapGenRGG.add_sample s).2.num_subgraphs = s.2.num_subgraphs
    ∧ (RoadmapGenRGG.add_sample s).2.num_subgraphs_generated = s.2.num_subgraphs_generated := by
  refine ⟨?_, rfl, rfl, rfl⟩
  unfold RoadmapGenRGG.add_sample
  simp only [rgg_connect_fold]
  simp [Graph.set_vprop, Graph.add_vertex]

theorem rgg_generate_loop_frame (fuel : Nat) :
    ∀ s : Graph × RoadmapGenRGG,
      (RoadmapGenRGG.generate_loop fuel s).2.n = s.2.n
      ∧ (RoadmapGenRGG.generate_loop fuel s).2.num_subgraphs = s.2.num_subgraphs
      ∧ (RoadmapGenRGG.generate_loop fuel s).2.num_subgraphs_generated
          = s.2.num_subgraphs_generated
      ∧ (s.2.n ≤ s.1.vertices.length + fuel →
          s.2.n ≤ (RoadmapGenRGG.generate_loop fuel s).1.vertices.length) := by
  induction fuel with
  | zero => intro s; exact ⟨rfl, rfl, rfl, fun h => h⟩
  | succ fuel ih =>
    intro s
    unfold RoadmapGenRGG.generate_loop
    split
    · obtain ⟨a1, a2, a3, a4⟩ := rgg_add_sample_frame s
      obtain ⟨i1, i2, i3, i4⟩ := ih (RoadmapGenRGG.add_sample s)
      refine ⟨i1.trans a2, i2.trans a3, i3.trans a4, ?_⟩
      intro h
      rw [← a2]
      apply i4
      rw [a1, a2]
      omega
    · rename_i hge
      exact ⟨rfl, rfl, rfl, fun _ => Nat.le_of_not_lt hge⟩

theorem rgg_generate_loop_done (fuel : Nat) (s : Graph × RoadmapGenRGG)
    (h : s.2.n ≤ s.1.vertices.length) : RoadmapGenRGG.generate_loop fuel s = s := by
  cases fuel with
  | zero => rfl
  | succ fuel =>
    unfold RoadmapGenRGG.generate_loop
    rw [if_neg (by omega)]

/-- What a returning call of `generate` leaves: the parameters and the
progress counter `num_subgraphs_generated` are as before, and a second call
for one batch returns with nothing changed. -/
theorem rgg_generate_frame (gen : RoadmapGenRGG) (g : Graph) (d : Nat) (g1 : Graph)
    (gen1 : RoadmapGenRGG) (h : gen.generate g d = some (g1, gen1)) :
    gen1.n = gen.n ∧ gen1.num_subgraphs = gen.num_subgraphs
    ∧ gen1.num_subgraphs_generated = gen.num_subgraphs_generated
    ∧ (d = 1 → gen1.generate g1 1 = some (g1, gen1)) := by
  unfold RoadmapGenRGG.generate at h
  split at h
  · exact absurd h (by simp)
  · rename_i hcap
    split at h
    · rename_i hret
      have he : (g, gen) = (g1, gen1) := Option.some.inj h
      have e1 : g = g1 := congrArg Prod.fst he
      have e2 : gen = gen1 := congrArg Prod.snd he
      subst e1; subst e2
      refine ⟨rfl, rfl, rfl, ?_⟩
      intro hd
      subst hd
      unfold RoadmapGenRGG.generate
      rw [if_neg hcap, if_pos hret]
    · rename_i hgo
      have he : RoadmapGenRGG.generate_loop gen.n (g, gen) = (g1, gen1) := Option.some.inj h
      obtain ⟨f1, f2, f3, f4⟩ := rgg_generate_loop_frame gen.n (g, gen)
      rw [he] at f1 f2 f3 f4
      refine ⟨f1, f2, f3, ?_⟩
      intro hd
      subst hd
      unfold RoadmapGenRGG.generate
      have hcap1 : ¬ gen1.num_subgraphs < 1 := by
        show ¬ gen1.num_subgraphs < 1
        rw [f2]; exact hcap
      have hgo1 : ¬ (gen1.num_subgraphs_generated ≠ 0 ∨ 1 ≠ 1) := by
        show ¬ (gen1.num_subgraphs_generated ≠ 0 ∨ 1 ≠ 1)
        rw [f3]; exact hgo
      rw [if_neg hcap1, if_neg hgo1, rgg_generate_loop_done]
      show gen1.n ≤ g1.vertices.length
      rw [f1]
      exact f4 (Nat.le_add_left _ _)

theorem rgg_call_counter (ds : List Nat) :
    ∀ s : Graph × RoadmapGenRGG,
      (ds.foldl RoadmapGenRGG.call s).2.num_subgraphs_generated = s.2.num_subgraphs_generated := by
  induction ds with
  | nil => intro s; rfl
  | cons d ds ih =>
    intro s
    rw [List.foldl_cons, ih]
    unfold RoadmapGenRGG.call
    cases hg : s.2.generate s.1 d with
    | none => rfl
    | some r =>
      obtain ⟨g1, gen1⟩ := r
      exact (rgg_generate_frame s.2 s.1 d g1 gen1 hg).2.2.1

/-! ## The walk along the predecessors -/

theorem src_of_mem_out_edges (g : Graph) (v : Nat) (e : Edge) (h : e ∈ g.out_edges v) :
    e.src = v := by
  unfold Graph.out_edges at h
  simp only [List.mem_flatMap, List.mem_range, List.mem_append] at h
  obtain ⟨i, _, hmem⟩ := h
  rcases hmem with hmem | hmem
  · split at hmem
    · simp at hmem; rw [hmem]
    · simp at hmem
  · split at hmem
    · simp at hmem; rw [hmem]
    · simp at hmem

theorem ends_of_edge (g : Graph) (u v : Nat) (e : Edge) (h : g.edge u v = some e) :
    e.src = u ∧ e.tgt = v ∧ e ∈ g.out_edges u := by
  unfold Graph.edge at h
  have hm := List.mem_of_find?_eq_some h
  have ht := List.find?_some h
  exact ⟨src_of_mem_out_edges g u e hm, by simpa using ht, hm⟩

/-- The walk along a chain of `k` predecessors returns after `k` pushes; what
it returns leads from the start to where the list passed in led from, and
every pushed edge is the edge `edge(pred, v)` from the predecessor of its
target. -/
theorem walk_predecessors_chain (g : Graph) (pm : List Nat) (v_start : Nat) (k : Nat) :
    ∀ (fuel : Nat) (v : Nat) (path : List Edge),
      pred_chain g pm v_start k v = true → k < fuel →
      ∃ pre : List Edge,
        walk_predecessors g pm v_start fuel v path = .returned (pre ++ path)
        ∧ pre.length = k
        ∧ (∀ b, oriented_from v path b → oriented_from v_start (pre ++ path) b)
        ∧ ∀ e ∈ pre, g.edge e.src e.tgt = some e ∧ pm.getD e.tgt 0 = e.src := by
  induction k with
  | zero =>
    intro fuel v path hc hf
    obtain ⟨f, rfl⟩ : ∃ f, fuel = f + 1 := ⟨fuel - 1, by omega⟩
    have hv : v = v_start := by simpa [pred_chain] using hc
    refine ⟨[], ?_, rfl, ?_, ?_⟩
    · unfold walk_predecessors
      rw [if_pos hv]
      rfl
    · intro b hb
      rw [← hv]
      exact hb
    · intro e he
      simp at he
  | succ k ih =>
    intro fuel v path hc hf
    obtain ⟨f, rfl⟩ : ∃ f, fuel = f + 1 := ⟨fuel - 1, by omega⟩
    simp only [pred_chain, Bool.and_eq_true, decide_eq_true_eq] at hc
    obtain ⟨⟨hv, he⟩, hrest⟩ := hc
    obtain ⟨e, hee⟩ := Option.isSome_iff_exists.1 he
    obtain ⟨e1, e2, _⟩ := ends_of_edge g _ _ e hee
    obtain ⟨pre, hw, hl, ho, hp⟩ := ih f (pm.getD v 0) (e :: path) hrest (by omega)
    refine ⟨pre ++ [e], ?_, ?_, ?_, ?_⟩
    · unfold walk_predecessors
      rw [if_neg hv]
      simp only [hee]
      rw [hw]
      simp
    · simp [hl]
    · intro b hb
      have := ho b ⟨e1, by rw [e2]; exact hb⟩
      simpa using this
    · intro x hx
      rcases List.mem_append.1 hx with h1 | h1
      · exact hp x h1
      · have : x = e := by simpa using h1
        subst this
        rw [e1, e2]
        exact ⟨hee, rfl⟩

theorem oriented_from_head (a b : Nat) (r : List Edge) (h : oriented_from a r b) :
    ∀ e, r.head? = some e → e.src = a := by
  intro e he
  cases r with
  | nil => simp at he
  | cons x r =>
    simp only [List.head?_cons, Option.some.injEq] at he
    subst he
    exact h.1

theorem oriented_from_last (r : List Edge) :
    ∀ (a b : Nat), oriented_from a r b → ∀ e, r.getLast? = some e → e.tgt = b := by
  induction r with
  | nil => intro a b _ e he; simp at he
  | cons x r ih =>
    intro a b h e he
    cases r with
    | nil =>
      simp only [List.getLast?_singleton, Option.some.injEq] at he
      subst he
      exact h.2
    | cons y r =>
      rw [List.getLast?_cons_cons] at he
      exact ih x.tgt b h.2 e he

theorem oriented_from_succ (r : List Edge) :
    ∀ (a b : Nat), oriented_from a r b → ∀ i, i + 1 < r.length →
      (r.getD i ⟨0, 0, 0⟩).tgt = (r.getD (i + 1) ⟨0, 0, 0⟩).src := by
  induction r with
  | nil => intro a b _ i hi; simp at hi
  | cons x r ih =>
    intro a b h i hi
    cases i with
    | zero =>
      cases r with
      | nil => simp at hi
      | cons y r => exact h.2.1.symm
    | succ i =>
      have := ih x.tgt b h.2 i (by simpa using hi)
      simpa using this

theorem pred_chain_unique (g : Graph) (pm : List Nat) (v_start : Nat) (k : Nat) :
    ∀ (k2 v : Nat), pred_chain g pm v_start k v = true →
      pred_chain g pm v_start k2 v = true → k = k2 := by
  induction k with
  | zero =>
    intro k2 v h1 h2
    cases k2 with
    | zero => rfl
    | succ k2 =>
      simp only [pred_chain, Bool.and_eq_true, decide_eq_true_eq] at h1 h2
      exact absurd h1 h2.1.1
  | succ k ih =>
    intro k2 v h1 h2
    cases k2 with
    | zero =>
      simp only [pred_chain, Bool.and_eq_true, decide_eq_true_eq] at h1 h2
      exact absurd h2 h1.1.1
    | succ k2 =>
      simp only [pred_chain, Bool.and_eq_true, decide_eq_true_eq] at h1 h2
      rw [ih k2 _ h1.2 h2.2]

theorem pred_chain_iterate (g : Graph) (pm : List Nat) (v_start : Nat) (i : Nat) :
    ∀ (k v : Nat), pred_chain g pm v_start (i + k) v = true →
      pred_chain g pm v_start k ((fun x => pm.getD x 0)^[i] v) = true := by
  induction i with
  | zero => intro k v h; simpa using h
  | succ i ih =>
    intro k v h
    have h2 : pred_chain g pm v_start (i + k + 1) v = true := by
      have e : i + 1 + k = i + k + 1 := by omega
      rw [e] at h; exact h
    simp only [pred_chain, Bool.and_eq_true, decide_eq_true_eq] at h2
    rw [Function.iterate_succ_apply]
    exact ih k _ h2.2

theorem out_edges_closed (g : Graph) (hc : g.closed = true) (u : Nat) (e : Edge)
    (h : e ∈ g.out_edges u) : e.src < g.vertices.length ∧ e.tgt < g.vertices.length := by
  obtain ⟨se, hse, hends⟩ := ends_of_mem_out_edges g u e h
  have hmem : se ∈ g.edges := List.getElem?_mem hse
  unfold Graph.closed at hc
  rw [List.all_eq_true] at hc
  have := hc se hmem
  simp only [Bool.and_eq_true, decide_eq_true_eq] at this
  rcases hends with ⟨h1, h2⟩ | ⟨h1, h2⟩
  · rw [← h1, ← h2]; exact this
  · rw [← h1, ← h2]; exact ⟨this.2, this.1⟩

theorem pred_chain_vertex (g : Graph) (hc : g.closed = true) (pm : List Nat) (v_start : Nat)
    (k v : Nat) (h : pred_chain g pm v_start (k + 1) v = true) :
    v < g.vertices.length ∧ pm.getD v 0 < g.vertices.length := by
  simp only [pred_chain, Bool.and_eq_true, decide_eq_true_eq] at h
  obtain ⟨e, hee⟩ := Option.isSome_iff_exists.1 h.1.2
  obtain ⟨e1, e2, hm⟩ := ends_of_edge g _ _ e hee
  have := out_edges_closed g hc _ e hm
  rw [e1, e2] at this
  exact ⟨this.2, this.1⟩

/-- A chain of predecessors through the edges of a closed graph has no more
steps than the graph has vertices: its vertices are distinct. -/
theorem pred_chain_length_le (g : Graph) (hc : g.closed = true) (pm : List Nat)
    (v_start k v : Nat) (h : pred_chain g pm v_start k v = true) :
    k ≤ g.vertices.length := by
  cases k with
  | zero => exact Nat.zero_le _
  | succ k =>
    have hit : ∀ i, i ≤ k + 1 →
        pred_chain g pm v_start (k + 1 - i) ((fun x => pm.getD x 0)^[i] v) = true := by
      intro i hi
      apply pred_chain_iterate
      have : i + (k + 1 - i) = k + 1 := by omega
      rw [this]; exact h
    have hlt : ∀ i, i ≤ k + 1 → (fun x => pm.getD x 0)^[i] v < g.vertices.length := by
      intro i hi
      by_cases hik : i = k + 1
      · subst hik
        have h1 := hit k (by omega)
        have e : k + 1 - k = 0 + 1 := by omega
        rw [e] at h1
        have := (pred_chain_vertex g hc pm v_start 0 _ h1).2
        rw [Function.iterate_succ_apply']
        exact this
      · have h1 := hit i hi
        have e : k + 1 - i = (k - i) + 1 := by omega
        rw [e] at h1
        exact (pred_chain_vertex g hc pm v_start _ _ h1).1
    have hinj : Set.InjOn (fun i => (fun x => pm.getD x 0)^[i] v)
        (Finset.range (k + 2) : Set Nat) := by
      intro i hi j hj hij
      simp only [Finset.coe_range, Set.mem_Iio] at hi hj
      have h1 := hit i (by omega)
      have h2 := hit j (by omega)
      simp only at hij
      rw [hij] at h1
      have := pred_chain_unique g pm v_start _ _ _ h1 h2
      omega
    have hcard := Finset.card_le_card_of_injOn (fun i => (fun x => pm.getD x 0)^[i] v)
      (s := Finset.range (k + 2)) (t := Finset.range g.vertices.length)
      (by
        intro i hi
        have hi2 := Finset.mem_range.1 hi
        exact Finset.mem_range.2 (hlt i (by omega))) hinj
    simp only [Finset.card_range] at hcard
    omega

/-- `lazysp_incsp_dijkstra::solve` once the library search has returned with
the maps `s`, along a chain of `k` predecessors from the goal to the start. -/
theorem incsp_solve_chain (g : Graph) (v_start v_goal : Nat) (path : List Edge)
    (s : DijkstraState) (k : Nat)
    (hs : dijkstra_shortest_paths g v_start v_goal = some s)
    (hchain : pred_chain g s.predecessor_map v_start k v_goal = true)
    (hk : k ≤ g.vertices.length) :
    (s.distance_map.getD v_goal ⊤ = ⊤ →
      lazysp_incsp_dijkstra.solve g v_start v_goal path = .returned (⊤, path))
    ∧ (s.distance_map.getD v_goal ⊤ ≠ ⊤ →
      ∃ r, lazysp_incsp_dijkstra.solve g v_start v_goal path
          = .returned (s.distance_map.getD v_goal ⊤, r)
        ∧ r.length = k ∧ oriented_from v_start r v_goal
        ∧ ∀ e ∈ r, g.edge e.src e.tgt = some e
            ∧ s.predecessor_map.getD e.tgt 0 = e.src) := by
  constructor
  · intro hinf
    unfold lazysp_incsp_dijkstra.solve
    rw [hs]
    simp only [hinf, if_true]
  · intro hfin
    obtain ⟨pre, hw, hl, ho, hp⟩ := walk_predecessors_chain g s.predecessor_map v_start k
      (g.vertices.length + 1) v_goal [] hchain (by omega)
    rw [List.append_nil] at hw ho
    refine ⟨pre, ?_, hl, ho v_goal rfl, hp⟩
    unfold lazysp_incsp_dijkstra.solve
    rw [hs]
    simp only [if_neg hfin, hw]

/-! ## RoadmapGenHaltonDens in closed form -/

theorem halton_connect_far (gen : RoadmapGenHaltonDens) (v : Nat) (g : Graph) (c i : Nat)
    (h : beyond_radius gen.radius_firstbatch gen.dim gen.num_subgraphs_generated
      (gen.space.distance (g.vprop v).state (g.vprop i).state) = true) :
    gen.connect v (g, c) i = (g, c) := by
  unfold RoadmapGenHaltonDens.connect
  simp only
  rw [if_pos h]

theorem halton_connect_near (gen : RoadmapGenHaltonDens) (v : Nat) (g : Graph) (c i : Nat)
    (h : beyond_radius gen.radius_firstbatch gen.dim gen.num_subgraphs_generated
      (gen.space.distance (g.vprop v).state (g.vprop i).state) = false) :
    gen.connect v (g, c) i
      = (⟨g.vertices, g.edges ++ [⟨v, i, ⟨g.edges.length,
            gen.space.distance (g.vprop v).state (g.vprop i).state,
            (gen.num_subgraphs_generated : ℤ), 0, [], []⟩⟩]⟩,
          c + 1) := by
  unfold RoadmapGenHaltonDens.connect
  simp only
  rw [if_neg (by rw [h]; simp)]
  simp [Graph.add_edge, Graph.set_eprop, Graph.eprop, modify_length_append, EProps.init,
    Graph.vprop]

theorem halton_connect_fold (gen : RoadmapGenHaltonDens) (v : Nat) (L : List Nat) :
    ∀ (g : Graph) (c : Nat),
      L.foldl (gen.connect v) (g, c)
        = (⟨g.vertices, g.edges
            ++ ((L.filter (fun i => !beyond_radius gen.radius_firstbatch gen.dim
                    gen.num_subgraphs_generated
                    (gen.space.distance (g.vprop v).state (g.vprop i).state))).enumFrom
                  g.edges.length).map
                (fun ki => ⟨v, ki.2, ⟨ki.1,
                  gen.space.distance (g.vprop v).state (g.vprop ki.2).state,
                  (gen.num_subgraphs_generated : ℤ), 0, [], []⟩⟩)⟩,
          c + (L.filter (fun i => !beyond_radius gen.radius_firstbatch gen.dim
                    gen.num_subgraphs_generated
                    (gen.space.distance (g.vprop v).state (g.vprop i).state))).length) := by
  induction L with
  | nil => intro g c; simp
  | cons i L ih =>
    intro g c
    rw [List.foldl_cons]
    by_cases h : beyond_radius gen.radius_firstbatch gen.dim gen.num_subgraphs_generated
        (gen.space.distance (g.vprop v).state (g.vprop i).state) = true
    · have hf : (i :: L).filter (fun i => !beyond_radius gen.radius_firstbatch gen.dim
            gen.num_subgraphs_generated
            (gen.space.distance (g.vprop v).state (g.vprop i).state))
          = L.filter (fun i => !beyond_radius gen.radius_firstbatch gen.dim
            gen.num_subgraphs_generated
            (gen.space.distance (g.vprop v).state (g.vprop i).state)) := by
        simp [List.filter_cons, h]
      rw [halton_connect_far gen v g c i h, ih, hf]
    · have h' : beyond_radius gen.radius_firstbatch gen.dim gen.num_subgraphs_generated
          (gen.space.distance (g.vprop v).state (g.vprop i).state) = false := by
        simpa using h
      rw [halton_connect_near gen v g c i h', ih]
      have hv : ∀ w, (⟨g.vertices, g.edges ++ [⟨v, i, ⟨g.edges.length,
            gen.space.distance (g.vprop v).state (g.vprop i).state,
            (gen.num_subgraphs_generated : ℤ), 0, [], []⟩⟩]⟩ : Graph).vprop w
          = g.vprop w := fun _ => rfl
      simp only [hv]
      have hf : (i :: L).filter (fun i => !beyond_radius gen.radius_firstbatch gen.dim
            gen.num_subgraphs_generated
            (gen.space.distance (g.vprop v).state (g.vprop i).state))
          = i :: L.filter (fun i => !beyond_radius gen.radius_firstbatch gen.dim
            gen.num_subgraphs_generated
            (gen.space.distance (g.vprop v).state (g.vprop i).state)) := by
        simp [List.filter_cons, h']
      rw [hf]
      simp only [List.map_cons, List.enumFrom_cons, List.append_assoc, List.singleton_append,
        List.length_cons, List.length_append, List.length_singleton, List.length_nil,
        Nat.zero_add]
      rw [Nat.add_assoc, Nat.add_comm 1]

/-- The three writes to a new vertex in one piece. -/
theorem new_vertex_eq (g : Graph) (k : ℤ) (st : State) :
    ((g.add_vertex.1.set_vprop g.add_vertex.2
        { g.add_vertex.1.vprop g.add_vertex.2 with subgraph := k }).set_vprop g.add_vertex.2
        { (g.add_vertex.1.set_vprop g.add_vertex.2
            { g.add_vertex.1.vprop g.add_vertex.2 with subgraph := k }).vprop
              g.add_vertex.2 with
          is_shadow := false }).set_vprop g.add_vertex.2
        { ((g.add_vertex.1.set_vprop g.add_vertex.2
            { g.add_vertex.1.vprop g.add_vertex.2 with subgraph := k }).set_vprop
              g.add_vertex.2
            { (g.add_vertex.1.set_vprop g.add_vertex.2
                { g.add_vertex.1.vprop g.add_vertex.2 with subgraph := k }).vprop
                  g.add_vertex.2 with
              is_shadow := false }).vprop g.add_vertex.2 with
          state := st }
      = ⟨g.vertices ++ [⟨st, k, false, 0⟩], g.edges⟩ := by
  simp only [Graph.add_vertex, Graph.set_vprop, Graph.vprop, set_length_append,
    List.getD_eq_getElem?_getD]
  simp [VProps.init]

/-- One round of the inner loop on any graph, in one piece. -/
theorem halton_add_vertex_eq (s : Graph × RoadmapGenHaltonDens) :
    RoadmapGenHaltonDens.add_vertex s
      = (⟨s.1.vertices ++ [⟨s.2.halton_state s.2.vertices_generated,
              (s.2.num_subgraphs_generated : ℤ), false, 0⟩],
          s.1.edges
            ++ (((List.range s.1.vertices.length).filter (fun i =>
                  !beyond_radius s.2.radius_firstbatch s.2.dim s.2.num_subgraphs_generated
                    (s.2.space.distance (s.2.halton_state s.2.vertices_generated)
                      (s.1.vprop i).state))).enumFrom s.1.edges.length).map
                (fun ki => ⟨s.1.vertices.length, ki.2, ⟨ki.1,
                  s.2.space.distance (s.2.halton_state s.2.vertices_generated)
                    (s.1.vprop ki.2).state,
                  (s.2.num_subgraphs_generated : ℤ), 0, [], []⟩⟩)⟩,
        { s.2 with
          edges_generated := s.2.edges_generated
            + ((List.range s.1.vertices.length).filter (fun i =>
                  !beyond_radius s.2.radius_firstbatch s.2.dim s.2.num_subgraphs_generated
                    (s.2.space.distance (s.2.halton_state s.2.vertices_generated)
                      (s.1.vprop i).state))).length
          vertices_generated := s.2.vertices_generated + 1 }) := by
  unfold RoadmapGenHaltonDens.add_vertex
  simp only
  rw [new_vertex_eq, halton_connect_fold]
  have hl : (⟨s.1.vertices ++ [⟨s.2.halton_state s.2.vertices_generated,
      (s.2.num_subgraphs_generated : ℤ), false, 0⟩], s.1.edges⟩ : Graph).vertices.length - 1
      = s.1.vertices.length := by simp
  have hnew : ((⟨s.1.vertices ++ [⟨s.2.halton_state s.2.vertices_generated,
      (s.2.num_subgraphs_generated : ℤ), false, 0⟩], s.1.edges⟩ : Graph).vprop
        s.1.add_vertex.2).state = s.2.halton_state s.2.vertices_generated := by
    simp [Graph.vprop, Graph.add_vertex, List.getD_eq_getElem?_getD]
  have hold : ∀ i, i < s.1.vertices.length →
      (⟨s.1.vertices ++ [⟨s.2.halton_state s.2.vertices_generated,
      (s.2.num_subgraphs_generated : ℤ), false, 0⟩], s.1.edges⟩ : Graph).vprop i
        = s.1.vprop i := by
    intro i hi
    simp [Graph.vprop, List.getD_eq_getElem?_getD, List.getElem?_append_left hi]
  have hfilter : (List.range s.1.vertices.length).filter (fun i =>
        !beyond_radius s.2.radius_firstbatch s.2.dim s.2.num_subgraphs_generated
          (s.2.space.distance
            ((⟨s.1.vertices ++ [⟨s.2.halton_state s.2.vertices_generated,
              (s.2.num_subgraphs_generated : ℤ), false, 0⟩], s.1.edges⟩ : Graph).vprop
                s.1.add_vertex.2).state
            ((⟨s.1.vertices ++ [⟨s.2.halton_state s.2.vertices_generated,
              (s.2.num_subgraphs_generated : ℤ), false, 0⟩], s.1.edges⟩ : Graph).vprop i).state))
      = (List.range s.1.vertices.length).filter (fun i =>
        !beyond_radius s.2.radius_firstbatch s.2.dim s.2.num_subgraphs_generated
          (s.2.space.distance (s.2.halton_state s.2.vertices_generated)
            (s.1.vprop i).state)) := by
    apply List.filter_congr
    intro i hi
    rw [hnew, hold i (List.mem_range.1 hi)]
  rw [hl, hfilter]
  have hmap : (((List.range s.1.vertices.length).filter (fun i =>
        !beyond_radius s.2.radius_firstbatch s.2.dim s.2.num_subgraphs_generated
          (s.2.space.distance (s.2.halton_state s.2.vertices_generated)
            (s.1.vprop i).state))).enumFrom
          (⟨s.1.vertices ++ [⟨s.2.halton_state s.2.vertices_generated,
            (s.2.num_subgraphs_generated : ℤ), false, 0⟩], s.1.edges⟩ : Graph).edges.length).map
        (fun ki => (⟨s.1.add_vertex.2, ki.2, ⟨ki.1,
          s.2.space.distance
            ((⟨s.1.vertices ++ [⟨s.2.halton_state s.2.vertices_generated,
              (s.2.num_subgraphs_generated : ℤ), false, 0⟩], s.1.edges⟩ : Graph).vprop
                s.1.add_vertex.2).state
            ((⟨s.1.vertices ++ [⟨s.2.halton_state s.2.vertices_generated,
              (s.2.num_subgraphs_generated : ℤ), false, 0⟩], s.1.edges⟩ : Graph).vprop
                ki.2).state,
          (s.2.num_subgraphs_generated : ℤ), 0, [], []⟩⟩ : StoredEdge))
      = (((List.range s.1.vertices.length).filter (fun i =>
        !beyond_radius s.2.radius_firstbatch s.2.dim s.2.num_subgraphs_generated
          (s.2.space.distance (s.2.halton_state s.2.vertices_generated)
            (s.1.vprop i).state))).enumFrom s.1.edges.length).map
        (fun ki => (⟨s.1.vertices.length, ki.2, ⟨ki.1,
          s.2.space.distance (s.2.halton_state s.2.vertices_generated)
            (s.1.vprop ki.2).state,
          (s.2.num_subgraphs_generated : ℤ), 0, [], []⟩⟩ : StoredEdge)) := by
    apply List.map_congr_left
    intro ki hki
    obtain ⟨_, _, hx⟩ := List.mem_enumFrom hki
    have hmem : ki.2 ∈ (List.range s.1.vertices.length).filter (fun i =>
        !beyond_radius s.2.radius_firstbatch s.2.dim s.2.num_subgraphs_generated
          (s.2.space.distance (s.2.halton_state s.2.vertices_generated)
            (s.1.vprop i).state)) := by
      rw [hx]; exact List.getElem_mem _
    have hlt : ki.2 < s.1.vertices.length := List.mem_range.1 (List.mem_filter.1 hmem).1
    rw [hnew, hold ki.2 hlt]
    rfl
  rw [hmap]

theorem halton_after_length (gen : RoadmapGenHaltonDens) (v b : Nat) :
    (gen.after v b).1.vertices.length = v
    ∧ (gen.after v b).1.edges.length = (rgg_pairs gen.near v).length := by
  simp [RoadmapGenHaltonDens.after]

theorem halton_after_vprop (gen : RoadmapGenHaltonDens) (v b i : Nat) (h : i < v) :
    (gen.after v b).1.vprop i = ⟨gen.placed i, (gen.batch_of i : ℤ), false, 0⟩ := by
  simp [RoadmapGenHaltonDens.after, Graph.vprop, List.getD_eq_getElem?_getD, h]

/-- One round of the inner loop in closed form: the vertex `v` is added in
its batch. -/
theorem halton_add_vertex_after (gen : RoadmapGenHaltonDens) (v b : Nat)
    (hb : gen.batch_of v = b) :
    RoadmapGenHaltonDens.add_vertex (gen.after v b) = gen.after (v + 1) b := by
  rw [halton_add_vertex_eq]
  obtain ⟨hlv, hle⟩ := halton_after_length gen v b
  have hst : (gen.after v b).2.halton_state (gen.after v b).2.vertices_generated
      = gen.placed v := rfl
  have hnsg : (gen.after v b).2.num_subgraphs_generated = b := rfl
  have hr0 : (gen.after v b).2.radius_firstbatch = gen.radius_firstbatch := rfl
  have hdim : (gen.after v b).2.dim = gen.dim := rfl
  have hsp : (gen.after v b).2.space = gen.space := rfl
  have heg : (gen.after v b).2.edges_generated
      = gen.edges_generated + (rgg_pairs gen.near v).length := rfl
  have hvg : (gen.after v b).2.vertices_generated = gen.vertices_generated + v := rfl
  rw [hst, hnsg, hr0, hdim, hsp, hlv, hle, heg, hvg]
  have hfilter : (List.range v).filter (fun i =>
        !beyond_radius gen.radius_firstbatch gen.dim b
          (gen.space.distance (gen.placed v) ((gen.after v b).1.vprop i).state))
      = (List.range v).filter (gen.near v) := by
    apply List.filter_congr
    intro i hi
    rw [halton_after_vprop gen v b i (List.mem_range.1 hi)]
    unfold RoadmapGenHaltonDens.near
    rw [hb]
  rw [hfilter]
  have hmap : (((List.range v).filter (gen.near v)).enumFrom (rgg_pairs gen.near v).length).map
        (fun ki => (⟨v, ki.2, ⟨ki.1,
          gen.space.distance (gen.placed v) ((gen.after v b).1.vprop ki.2).state,
          (b : ℤ), 0, [], []⟩⟩ : StoredEdge))
      = ((((List.range v).filter (gen.near v)).map (fun i => (v, i))).enumFrom
          (0 + (rgg_pairs gen.near v).length)).map (fun kp => gen.new_edge kp.1 kp.2) := by
    rw [Nat.zero_add, List.enumFrom_map, List.map_map]
    apply List.map_congr_left
    intro ki hki
    obtain ⟨_, _, hx⟩ := List.mem_enumFrom hki
    have hmem : ki.2 ∈ (List.range v).filter (gen.near v) := by
      rw [hx]; exact List.getElem_mem _
    have hlt : ki.2 < v := List.mem_range.1 (List.mem_filter.1 hmem).1
    rw [halton_after_vprop gen v b ki.2 hlt]
    simp [RoadmapGenHaltonDens.new_edge, hb]
  rw [hmap]
  unfold RoadmapGenHaltonDens.after
  simp only [rgg_pairs, List.enumFrom_append, List.map_append, List.range_succ,
    List.length_append, List.length_map, List.map_cons, List.map_nil, hb]
  simp only [Nat.add_assoc]

/-- The inner loop in closed form: from `v` vertices within batch `b` to the
end of the batch. -/
theorem halton_batch_loop_after (gen : RoadmapGenHaltonDens) (b : Nat) (fuel : Nat) :
    ∀ v, b * gen.n_perbatch ≤ v → v ≤ (b + 1) * gen.n_perbatch →
      (b + 1) * gen.n_perbatch ≤ v + fuel →
      RoadmapGenHaltonDens.batch_loop fuel (gen.after v b)
        = gen.after ((b + 1) * gen.n_perbatch) b := by
  induction fuel with
  | zero =>
    intro v _ h1 h2
    have : v = (b + 1) * gen.n_perbatch := by omega
    rw [this]; rfl
  | succ fuel ih =>
    intro v hv h1 h2
    unfold RoadmapGenHaltonDens.batch_loop
    have hlv := (halton_after_length gen v b).1
    have hnsg : (gen.after v b).2.num_subgraphs_generated = b := rfl
    have hn : (gen.after v b).2.n_perbatch = gen.n_perbatch := rfl
    rw [hlv, hnsg, hn]
    by_cases hlt : v < (b + 1) * gen.n_perbatch
    · rw [if_pos hlt]
      have hb : gen.batch_of v = b := by
        unfold RoadmapGenHaltonDens.batch_of
        exact Nat.div_eq_of_lt_le hv hlt
      rw [halton_add_vertex_after gen v b hb]
      exact ih (v + 1) (by omega) (by omega) (by omega)
    · rw [if_neg hlt]
      have : v = (b + 1) * gen.n_perbatch := by omega
      rw [this]

theorem halton_batch_loop_done (fuel : Nat) (s : Graph × RoadmapGenHaltonDens)
    (h : (s.2.num_subgraphs_generated + 1) * s.2.n_perbatch ≤ s.1.vertices.length) :
    RoadmapGenHaltonDens.batch_loop fuel s = s := by
  cases fuel with
  | zero => rfl
  | succ fuel =>
    unfold RoadmapGenHaltonDens.batch_loop
    rw [if_neg (by omega)]

/-- The outer loop in closed form: from `b` finished batches to `m`. -/
theorem halton_generate_loop_after (gen : RoadmapGenHaltonDens) (m : Nat) (fuel : Nat) :
    ∀ b, b ≤ m → m ≤ b + fuel →
      RoadmapGenHaltonDens.generate_loop m fuel (gen.after (b * gen.n_perbatch) b)
        = gen.after (m * gen.n_perbatch) m := by
  induction fuel with
  | zero =>
    intro b h1 h2
    have : b = m := by omega
    rw [this]; rfl
  | succ fuel ih =>
    intro b h1 h2
    unfold RoadmapGenHaltonDens.generate_loop
    have hnsg : (gen.after (b * gen.n_perbatch) b).2.num_subgraphs_generated = b := rfl
    have hn : (gen.after (b * gen.n_perbatch) b).2.n_perbatch = gen.n_perbatch := rfl
    rw [hnsg, hn]
    by_cases hlt : b < m
    · rw [if_pos hlt]
      simp only
      rw [halton_batch_loop_after gen b ((b + 1) * gen.n_perbatch) (b * gen.n_perbatch)
        (Nat.le_refl _) (Nat.mul_le_mul_right _ (Nat.le_succ b)) (Nat.le_add_left _ _)]
      exact ih (b + 1) (by omega) (by omega)
    · rw [if_neg hlt]
      have : b = m := by omega
      rw [this]

theorem halton_generate_loop_done (m fuel : Nat) (s : Graph × RoadmapGenHaltonDens)
    (h : m ≤ s.2.num_subgraphs_generated) :
    RoadmapGenHaltonDens.generate_loop m fuel s = s := by
  cases fuel with
  | zero => rfl
  | succ fuel =>
    unfold RoadmapGenHaltonDens.generate_loop
    rw [if_neg (by omega)]

/-- A fresh run from the empty graph is the closed form at no vertex and no
batch. -/
theorem halton_after_zero (gen : RoadmapGenHaltonDens)
    (hfresh : gen.num_subgraphs_generated = 0) :
    gen.after 0 0 = (⟨[], []⟩, gen) := by
  cases gen
  simp only at hfresh
  subst hfresh
  rfl

/-- The closed form continues: from `b` counted batches, `generate` for `m`
batches gives the closed form at `max b m` batches. -/
theorem halton_generate_after (gen : RoadmapGenHaltonDens) (b m : Nat) :
    (gen.after (b * gen.n_perbatch) b).2.generate (gen.after (b * gen.n_perbatch) b).1 m
      = gen.after (max b m * gen.n_perbatch) (max b m) := by
  unfold RoadmapGenHaltonDens.generate
  by_cases h : b ≤ m
  · rw [Nat.max_eq_right h]
    exact halton_generate_loop_after gen m m b h (Nat.le_add_left _ _)
  · rw [Nat.max_eq_left (by omega)]
    exact halton_generate_loop_done m m _ (by show m ≤ b; omega)

theorem rpow_neg_inv_pow (c : ℝ) (hc : 0 < c) (d : ℕ) (hd : 1 ≤ d) :
    (c ^ (-(1 / (d : ℝ)))) ^ d = c⁻¹ := by
  have hd0 : (d : ℝ) ≠ 0 := by
    have : (0 : ℝ) < d := by exact_mod_cast hd
    exact ne_of_gt this
  rw [← Real.rpow_natCast, ← Real.rpow_mul hc.le]
  have : -(1 / (d : ℝ)) * (d : ℝ) = -1 := by field_simp
  rw [this, Real.rpow_neg_one]

theorem lt_mul_rpow_iff (a b c : ℝ) (ha : 0 ≤ a) (hb : 0 ≤ b) (hc : 0 < c) (d : ℕ)
    (hd : 1 ≤ d) : a * c ^ (-(1 / (d : ℝ))) < b ↔ a ^ d < b ^ d * c := by
  have hρ : 0 < c ^ (-(1 / (d : ℝ))) := Real.rpow_pos_of_pos hc _
  have h1 : a * c ^ (-(1 / (d : ℝ))) < b
      ↔ (a * c ^ (-(1 / (d : ℝ)))) ^ d < b ^ d :=
    (pow_lt_pow_iff_left₀ (mul_nonneg ha hρ.le) hb (by omega)).symm
  rw [h1, mul_pow, rpow_neg_inv_pow c hc d hd]
  rw [← div_eq_mul_inv, div_lt_iff₀ hc]

/-- The test of the model is the comparison `radius < dist` over exact
reals, with `radius = radius_firstbatch * (k+1)^(-1/dim)`. -/
theorem beyond_radius_iff (r0 : ℚ) (d k : Nat) (dist : ℚ) (hd : 1 ≤ d) :
    beyond_radius r0 d k dist = true
      ↔ (r0 : ℝ) * ((k : ℝ) + 1) ^ (-(1 / (d : ℝ))) < (dist : ℝ) := by
  have hc : (0 : ℝ) < (k : ℝ) + 1 := by positivity
  have hρ : 0 < ((k : ℝ) + 1) ^ (-(1 / (d : ℝ))) := Real.rpow_pos_of_pos hc _
  unfold beyond_radius
  rw [if_neg (by omega)]
  by_cases hr : 0 ≤ r0
  · rw [if_pos hr]
    have hrR : (0 : ℝ) ≤ (r0 : ℝ) := by exact_mod_cast hr
    by_cases hdist : 0 ≤ dist
    · have hdR : (0 : ℝ) ≤ (dist : ℝ) := by exact_mod_cast hdist
      rw [lt_mul_rpow_iff _ _ _ hrR hdR hc d hd]
      simp only [hdist, decide_True, Bool.true_and, decide_eq_true_eq]
      constructor
      · intro h
        have : ((r0 ^ d : ℚ) : ℝ) < ((dist ^ d * ((k : ℚ) + 1) : ℚ) : ℝ) := by
          exact_mod_cast h
        push_cast at this
        exact this
      · intro h
        have : ((r0 ^ d : ℚ) : ℝ) < ((dist ^ d * ((k : ℚ) + 1) : ℚ) : ℝ) := by
          push_cast
          exact h
        exact_mod_cast this
    · have hdR : (dist : ℝ) < 0 := by exact_mod_cast (not_le.1 hdist)
      simp only [hdist, decide_False, Bool.false_and]
      constructor
      · intro h; exact absurd h (by simp)
      · intro h
        have : (0 : ℝ) ≤ (r0 : ℝ) * ((k : ℝ) + 1) ^ (-(1 / (d : ℝ))) :=
          mul_nonneg hrR hρ.le
        linarith
  · rw [if_neg hr]
    have hrR : (r0 : ℝ) < 0 := by exact_mod_cast (not_le.1 hr)
    have hneg : (r0 : ℝ) * ((k : ℝ) + 1) ^ (-(1 / (d : ℝ))) < 0 :=
      mul_neg_of_neg_of_pos hrR hρ
    by_cases hdist : 0 ≤ dist
    · have hdR : (0 : ℝ) ≤ (dist : ℝ) := by exact_mod_cast hdist
      simp only [hdist, decide_True, Bool.true_or, true_iff]
      linarith
    · have hdR : (dist : ℝ) < 0 := by exact_mod_cast (not_le.1 hdist)
      simp only [hdist, decide_False, Bool.false_or, decide_eq_true_eq]
      have key := lt_mul_rpow_iff (-(dist : ℝ)) (-(r0 : ℝ)) _ (by linarith) (by linarith)
        (inv_pos.2 hc) d hd
      rw [Real.inv_rpow hc.le, ← div_eq_mul_inv, div_lt_iff₀ hρ, ← div_eq_mul_inv,
        lt_div_iff₀ hc] at key
      have h2 : (r0 : ℝ) * ((k : ℝ) + 1) ^ (-(1 / (d : ℝ))) < (dist : ℝ)
          ↔ -(dist : ℝ) < -(r0 : ℝ) * ((k : ℝ) + 1) ^ (-(1 / (d : ℝ))) := by
        constructor <;> intro h <;> linarith
      rw [h2, key]
      constructor
      · intro h
        have : (((-dist) ^ d * ((k : ℚ) + 1) : ℚ) : ℝ) < (((-r0) ^ d : ℚ) : ℝ) := by
          exact_mod_cast h
        push_cast at this
        exact this
      · intro h
        have : (((-dist) ^ d * ((k : ℚ) + 1) : ℚ) : ℝ) < (((-r0) ^ d : ℚ) : ℝ) := by
          push_cast
          exact h
        exact_mod_cast this

/-- Counting the edges between two vertices in a graph whose edges join the
pairs of `rgg_pairs`. -/
theorem count_between_pairs (near : Nat → Nat → Bool) (n : Nat) (E : List StoredEdge)
    (hE : E.map (fun se => (se.src, se.tgt)) = rgg_pairs near n) (i j : Nat) (hij : i < j)
    (hj : j < n) :
    (E.filter (fun se => decide ((se.src = i ∧ se.tgt = j) ∨ (se.src = j ∧ se.tgt = i)))).length
      = if near j i = true then 1 else 0 := by
  have h1 : E.filter (fun se => decide ((se.src = i ∧ se.tgt = j) ∨ (se.src = j ∧ se.tgt = i)))
      = E.filter ((fun x : Nat × Nat => decide ((x.1 = i ∧ x.2 = j) ∨ (x.1 = j ∧ x.2 = i)))
          ∘ fun se => (se.src, se.tgt)) := rfl
  rw [h1, ← List.length_map _ (fun se : StoredEdge => (se.src, se.tgt)), ← List.filter_map, hE]
  have h2 : (rgg_pairs near n).filter
        (fun x : Nat × Nat => decide ((x.1 = i ∧ x.2 = j) ∨ (x.1 = j ∧ x.2 = i)))
      = (rgg_pairs near n).filter (fun x => decide (x = (j, i))) := by
    apply List.filter_congr
    intro x hx
    have hlt := ((mem_rgg_pairs _ _ x).1 hx).1
    apply decide_eq_decide.2
    constructor
    · rintro (⟨h1, h2⟩ | ⟨h1, h2⟩)
      · omega
      · exact Prod.ext h1 h2
    · intro h
      rw [h]
      exact Or.inr ⟨rfl, rfl⟩
  rw [h2, length_filter_eq_of_nodup _ (nodup_rgg_pairs _ _)]
  have hiff : (j, i) ∈ rgg_pairs near n ↔ near j i = true := by
    rw [mem_rgg_pairs]
    exact ⟨fun h => h.2.2, fun h => ⟨hij, hj, h⟩⟩
  by_cases hd : near j i = true
  · rw [if_pos (hiff.2 hd), if_pos hd]
  · rw [if_neg (fun h => hd (hiff.1 h)), if_neg hd]

theorem halton_after_ends (gen : RoadmapGenHaltonDens) (v b : Nat) :
    (gen.after v b).1.edges.map (fun se => (se.src, se.tgt)) = rgg_pairs gen.near v := by
  unfold RoadmapGenHaltonDens.after
  simp only [List.map_map]
  have : ((fun se : StoredEdge => (se.src, se.tgt)) ∘ fun kp : Nat × Nat × Nat =>
      gen.new_edge kp.1 kp.2) = fun kp => kp.2 := by
    funext kp
    rfl
  rw [this]
  exact List.enumFrom_map_snd _ _

theorem halton_after_edge (gen : RoadmapGenHaltonDens) (v b k : Nat)
    (h : k < (gen.after v b).1.edges.length) :
    (gen.after v b).1.edges.getD k ⟨0, 0, EProps.init⟩
      = gen.new_edge k ((rgg_pairs gen.near v).getD k (0, 0))
    ∧ (rgg_pairs gen.near v).getD k (0, 0) ∈ rgg_pairs gen.near v := by
  have hk : k < (rgg_pairs gen.near v).length := by
    rw [← (halton_after_length gen v b).2]; exact h
  constructor
  · unfold RoadmapGenHaltonDens.after
    simp only [List.getD_eq_getElem?_getD, List.getElem?_map, List.getElem?_enumFrom,
      List.getElem?_eq_getElem hk, Option.map_some', Option.getD_some, Nat.zero_add]
  · rw [List.getD_eq_getElem?_getD, List.getElem?_eq_getElem hk]
    exact List.getElem_mem _

theorem halton_generate_fresh (gen : RoadmapGenHaltonDens)
    (hfresh : gen.num_subgraphs_generated = 0) (m : Nat) :
    gen.generate ⟨[], []⟩ m = gen.after (m * gen.n_perbatch) m := by
  have h := halton_generate_after gen 0 m
  rw [Nat.zero_mul, halton_after_zero gen hfresh, Nat.max_eq_right (Nat.zero_le m)] at h
  exact h

theorem rgg_pairs_prefix (near : Nat → Nat → Bool) (a d : Nat) :
    ∃ rest, rgg_pairs near (a + d) = rgg_pairs near a ++ rest := by
  induction d with
  | zero => exact ⟨[], by simp⟩
  | succ d ih =>
    obtain ⟨rest, hr⟩ := ih
    refine ⟨rest ++ ((List.range (a + d)).filter (near (a + d))).map (fun i => (a + d, i)), ?_⟩
    show rgg_pairs near (a + d + 1) = _
    rw [rgg_pairs, hr, List.append_assoc]

/-- The closed form at fewer vertices is the beginning of the closed form at
more vertices. -/
theorem halton_after_prefix (gen : RoadmapGenHaltonDens) (a d b b2 : Nat) :
    (gen.after a b).1.vertices = (gen.after (a + d) b2).1.vertices.take a
    ∧ (gen.after a b).1.edges
        = (gen.after (a + d) b2).1.edges.take (gen.after a b).1.edges.length := by
  obtain ⟨rest, hr⟩ := rgg_pairs_prefix gen.near a d
  constructor
  · unfold RoadmapGenHaltonDens.after
    simp only [← List.map_take]
    congr 1
    rw [List.take_range, Nat.min_eq_left (Nat.le_add_right _ _)]
  · rw [(halton_after_length gen a b).2]
    unfold RoadmapGenHaltonDens.after
    simp only [hr, List.enumFrom_append, List.map_append]
    rw [List.take_left']
    simp

theorem halton_radius_antitone (d : ℕ) (hd : 1 ≤ d) (k : ℕ) :
    ((k : ℝ) + 1 + 1) ^ (-(1 / (d : ℝ))) < ((k : ℝ) + 1) ^ (-(1 / (d : ℝ))) := by
  have hd0 : (0 : ℝ) < d := by exact_mod_cast hd
  apply Real.rpow_lt_rpow_of_exponent_neg (by positivity) (by linarith)
  have : 0 < 1 / (d : ℝ) := by positivity
  linarith

/-! ## The constructors of the generators -/

theorem rgg_construct_ok (lib : DoubleText) (space : Space)
    (sampler_of_seed : Nat → Nat → State) (args : List Char) (gen : RoadmapGenRGG)
    (h : RoadmapGenRGG.construct lib space sampler_of_seed args = .ok gen) :
    ∃ seed, RoadmapGenRGG.scan_args lib args = some (gen.n, gen.radius, seed)
      ∧ args = RoadmapGenRGG.canonical_args lib gen.n gen.radius seed
      ∧ gen.sampler = sampler_of_seed seed
      ∧ gen.num_subgraphs = 1 ∧ gen.num_subgraphs_generated = 0
      ∧ gen.vertices_generated = 0 ∧ gen.edges_generated = 0 := by
  unfold RoadmapGenRGG.construct at h
  split at h
  · cases h
  · rename_i n radius seed hscan
    split at h
    · cases h
    · rename_i hcanon
      have hc : args = RoadmapGenRGG.canonical_args lib n radius seed := by
        by_contra hne
        exact hcanon hne
      cases h
      exact ⟨seed, hscan, hc, rfl, rfl, rfl, rfl, rfl⟩

theorem halton_construct_ok (lib : DoubleText) (space : Space) (real_vector : Bool)
    (dim : Nat) (low high : List ℚ) (primes : List Nat) (args : List Char)
    (gen : RoadmapGenHaltonDens)
    (h : RoadmapGenHaltonDens.construct lib space real_vector dim low high primes args
      = .ok gen) :
    RoadmapGenHaltonDens.scan_args lib args = some (gen.n_perbatch, gen.radius_firstbatch)
    ∧ args = RoadmapGenHaltonDens.canonical_args lib gen.n_perbatch gen.radius_firstbatch
    ∧ gen.num_subgraphs_generated = 0 ∧ gen.vertices_generated = 0
    ∧ gen.edges_generated = 0 := by
  unfold RoadmapGenHaltonDens.construct at h
  split at h
  · cases h
  · split at h
    · cases h
    · split at h
      · cases h
      · rename_i n r hscan
        split at h
        · cases h
        · rename_i hcanon
          have hc : args = RoadmapGenHaltonDens.canonical_args lib n r := by
            by_contra hne
            exact hcanon hne
          cases h
          exact ⟨hscan, hc, rfl, rfl, rfl⟩


/-! ## The prepared planner through solve -/

theorem same_overlay_refl (og : OverGraph) : same_overlay og og :=
  ⟨rfl, rfl, fun _ => ⟨rfl, rfl⟩, fun _ _ => rfl⟩

theorem same_overlay_trans (a b c : OverGraph) (h1 : same_overlay a b)
    (h2 : same_overlay b c) : same_overlay a c :=
  ⟨h2.1.trans h1.1, h2.2.1.trans h1.2.1,
    fun eo => ⟨((h2.2.2.1 eo).1).trans (h1.2.2.1 eo).1, ((h2.2.2.1 eo).2).trans (h1.2.2.1 eo).2⟩,
    fun vo hvo => (h2.2.2.2 vo hvo).trans (h1.2.2.2 vo hvo)⟩

theorem applied_like_refl (a : FamilyPlanner σ) : applied_like a a :=
  ⟨rfl, rfl, rfl, rfl, rfl⟩

theorem applied_like_of_differ (a p q : FamilyPlanner σ) (h : applied_like a p)
    (hd : only_properties_differ p q) : applied_like a q := by
  obtain ⟨h1, h2, h3, h4, h5⟩ := h
  have e1 : q.og = p.og := by rw [hd.1]
  have e2 : q.overlay_manager = p.overlay_manager := by rw [hd.1]
  have e3 : q.ov_start = p.ov_start := by rw [hd.1]
  have e4 : q.ov_goal = p.ov_goal := by rw [hd.1]
  exact ⟨e1.trans h1, e2.trans h2, e3.trans h3, e4.trans h4, hd.2.trans h5⟩

theorem roots_applied_of_like (a p : FamilyPlanner σ) (h : applied_like a p)
    (ha : roots_applied a) : roots_applied p := by
  obtain ⟨h1, h2, h3, h4, _⟩ := h
  unfold roots_applied
  rw [h1, h2, h3, h4]
  exact ha

/-- After `overlay_apply` on a ready overlay: the roots are the two last core
vertices, the inserted core edges are the last edges, one for each overlay
edge in order. -/
theorem ready_apply (q : FamilyPlanner σ) (h : overlay_ready q) :
    roots_applied (overlay_apply q)
    ∧ ((overlay_apply q).og.vprop 0).core_vertex = q.g.vertices.length
    ∧ ((overlay_apply q).og.vprop 1).core_vertex = q.g.vertices.length + 1
    ∧ (∀ vo, 2 ≤ vo → (overlay_apply q).og.vprop vo = q.og.vprop vo)
    ∧ (overlay_apply q).g.vertices.length = q.g.vertices.length + 2
    ∧ (overlay_apply q).g.skeleton.2
        = q.g.skeleton.2 ++ (List.range q.og.edges.length).map (fun eo =>
            (((overlay_apply q).og.vprop (q.og.source eo)).core_vertex,
              ((overlay_apply q).og.vprop (q.og.target eo)).core_vertex))
    ∧ overlay_apply q = { q with
        g := (overlay_apply q).g
        og := (q.overlay_manager.apply q.g q.og).2.1
        overlay_manager := ⟨true, [0, 1], List.range q.og.edges.length⟩ }
    ∧ same_overlay q.og (overlay_apply q).og := by
  obtain ⟨hr, hc, hanch, hedge⟩ := h
  obtain ⟨hK, c0, c1, cr⟩ := roots_applied_apply q hr
  obtain ⟨hm, hs, hg, hlen, h0, h1, hrr⟩ := hr
  obtain ⟨a1, a2, a3, a4, a5, a6⟩ := overlay_apply_spec q hm
  obtain ⟨m1, m2, m3, m4, m5, m6, m7, m8, m9⟩ := manager_apply_spec q.g q.og q.overlay_manager
  have hN := unapplied_vertices_eq_roots q.og hlen h0 h1 hrr
  rw [hN] at a1 a2
  have hog : (overlay_apply q).og = (q.overlay_manager.apply q.g q.og).2.1 := by rw [a1]
  have hsk2 : (overlay_apply q).g.skeleton.2
      = q.g.skeleton.2 ++ (List.range q.og.edges.length).map (fun eo =>
          (((overlay_apply q).og.vprop (q.og.source eo)).core_vertex,
            ((overlay_apply q).og.vprop (q.og.target eo)).core_vertex)) := by
    rw [a2]; rfl
  have hV : (overlay_apply q).g.vertices.length = q.g.vertices.length + 2 := by
    have := congrArg (fun s => s.1) a2
    simpa [Graph.skeleton] using this
  refine ⟨hK, c0, c1, cr, hV, hsk2, a1, ?_, ?_, ?_, ?_⟩
  · rw [hog, m3]
  · rw [hog, m4]
  · intro eo
    rw [hog, m5, m6]
    exact ⟨rfl, rfl⟩
  · intro vo hvo
    rw [cr vo hvo]

theorem eraseIdx_last_two {α : Type} (l : List α) (n : Nat) (h : l.length = n + 2) :
    (l.eraseIdx (n + 1)).eraseIdx n = l.take n := by
  rw [List.eraseIdx_eq_take_drop_succ, List.eraseIdx_eq_take_drop_succ]
  have h1 : l.drop (n + 1 + 1) = [] := List.drop_eq_nil_of_le (by omega)
  rw [h1, List.append_nil, List.take_take, Nat.min_eq_left (Nat.le_succ n)]
  have h2 : (l.take (n + 1)).drop (n + 1) = [] :=
    List.drop_eq_nil_of_le (by rw [List.length_take]; omega)
  rw [h2, List.append_nil]

/-- What `overlay_unapply` leaves of a prepared planner: the core graph is
cut back to the vertices and edges from before the apply, with the property
values they have now; nothing else of the planner changes but the overlay,
whose structure stays; and the overlay is ready again. -/
theorem prepared_unapply (q p : FamilyPlanner σ) (h : overlay_ready q)
    (hl : applied_like (overlay_apply q) p) :
    overlay_unapply p
      = { p with g := (overlay_unapply p).g
                 og := (overlay_unapply p).og
                 overlay_manager := ⟨false, [], []⟩ }
    ∧ (overlay_unapply p).g.vertices = p.g.vertices.take q.g.vertices.length
    ∧ (overlay_unapply p).g.edges = p.g.edges.take q.g.edges.length
    ∧ (overlay_unapply p).g.skeleton = q.g.skeleton
    ∧ overlay_ready (overlay_unapply p)
    ∧ same_overlay q.og (overlay_unapply p).og := by
  obtain ⟨hK, c0, c1, cr, hV, hsk2, hA, hsame⟩ := ready_apply q h
  obtain ⟨l1, l2, l3, l4, l5⟩ := hl
  have hKp : roots_applied p := roots_applied_of_like _ p ⟨l1, l2, l3, l4, l5⟩ hK
  obtain ⟨hr, hc, hanch, hedge⟩ := h
  obtain ⟨m1, m2, m3, m4, m5, m6, m7, m8, m9⟩ := manager_apply_spec q.g q.og q.overlay_manager
  have hog : (overlay_apply q).og = (q.overlay_manager.apply q.g q.og).2.1 := by rw [hA]
  have hman : (overlay_apply q).overlay_manager
      = ⟨true, [0, 1], List.range q.og.edges.length⟩ := by rw [hA]
  have hogE : p.og.edges.length = q.og.edges.length := by rw [l1, hog, m4]
  have hogV : p.og.vertices.length = q.og.vertices.length := by rw [l1, hog, m3]
  have hgE : p.g.edges.length = q.g.edges.length + q.og.edges.length := by
    rw [edges_length_of_skeleton _ _ l5, ← skeleton_edges_length, hsk2, List.length_append,
      List.length_map, List.length_range, skeleton_edges_length]
  have hgV : p.g.vertices.length = q.g.vertices.length + 2 := by
    rw [vertices_length_of_skeleton _ _ l5, hV]
  obtain ⟨ge, gv⟩ := overlay_unapply_graph p q.g.edges.length hKp
    (by rw [l2, hman, hogE]) (by rw [hgE, hogE])
    (by
      intro eo heo
      rw [hogE] at heo
      unfold core_edge_of
      rw [l1, hog, m9 eo, if_pos heo]
      rfl)
  obtain ⟨u1, u2, u3, u4, u5, u6, u7⟩ := overlay_unapply_spec p hKp.1
  have hcv0 : (p.og.vprop 0).core_vertex = q.g.vertices.length := by rw [l1, c0]
  have hcv1 : (p.og.vprop 1).core_vertex = q.g.vertices.length + 1 := by rw [l1, c1]
  have gv2 : (overlay_unapply p).g.vertices = p.g.vertices.take q.g.vertices.length := by
    rw [gv, hcv0, hcv1]
    exact eraseIdx_last_two _ _ hgV
  have hBV : (overlay_unapply p).g.vertices.length = q.g.vertices.length := by
    rw [gv2, List.length_take, hgV]
    omega
  have hsk : (overlay_unapply p).g.skeleton = q.g.skeleton := by
    have e2 : (overlay_unapply p).g.skeleton.2 = q.g.skeleton.2 := by
      show List.map _ (overlay_unapply p).g.edges = _
      rw [ge, List.map_take]
      show List.take _ p.g.skeleton.2 = _
      rw [l5, hsk2, ← skeleton_edges_length, List.take_left]
    exact Prod.ext hBV e2
  have hvp : ∀ vo, 2 ≤ vo → (overlay_unapply p).og.vprop vo = q.og.vprop vo := by
    intro vo hvo
    rw [u6 vo, hKp.2.1, if_neg (by simp; omega), l1, cr vo hvo]
  have hsrc : ∀ eo, (overlay_unapply p).og.source eo = q.og.source eo
      ∧ (overlay_unapply p).og.target eo = q.og.target eo := by
    intro eo
    rw [u4, u5, l1, hog, m5, m6]
    exact ⟨rfl, rfl⟩
  refine ⟨u1, gv2, ge, hsk, ⟨roots_ready_unapply p hKp, closed_of_skeleton _ _ hsk hc, ?_, ?_⟩,
    ⟨by rw [u2, hogV], by rw [u3, hogE], hsrc, fun vo hvo => by rw [hvp vo hvo]⟩⟩
  · intro vo h2 hlt
    rw [u2, hogV] at hlt
    rw [hvp vo h2, hBV]
    exact hanch vo h2 hlt
  · intro eo heo
    rw [u3, hogE] at heo
    rw [(hsrc eo).1, (hsrc eo).2, u2, hogV]
    exact hedge eo heo

/-- The overlay that `setProblemDefinition` is about to apply is ready. -/
theorem overlay_ready_populate (fresh : OverVProps) (p : FamilyPlanner σ)
    (pdef : ProblemDefinition)
    (hm : p.overlay_manager.is_applied = false → p.overlay_manager = ⟨false, [], []⟩)
    (hV : p.g.vertices.length ≤ null_vertex)
    (hc : (overlay_unapply (retarget p pdef)).g.closed = true) :
    overlay_ready (populate_overlay_from fresh p pdef)
    ∧ (populate_overlay_from fresh p pdef).roadmap_gen = p.roadmap_gen
    ∧ (populate_overlay_from fresh p pdef).og
        = populated_overlay fresh (overlay_unapply (retarget p pdef)) pdef
    ∧ (populate_overlay_from fresh p pdef).g = (overlay_unapply (retarget p pdef)).g := by
  rw [populate_overlay_from_eq]
  refine ⟨?_, ?_, rfl, rfl⟩
  rotate_left
  · show (overlay_unapply (retarget p pdef)).roadmap_gen = _
    rw [(overlay_unapply_gen _).1, (retarget_gen p pdef).1]
  have hVq : (overlay_unapply (retarget p pdef)).g.vertices.length ≤ null_vertex := by
    have h1 := overlay_unapply_vertices_le (retarget p pdef)
    have h2 := vertices_length_of_skeleton _ _ (retarget_frame p pdef).1
    omega
  have hclean : (overlay_unapply (retarget p pdef)).overlay_manager = ⟨false, [], []⟩ := by
    apply overlay_unapply_clean
    rw [(retarget_frame p pdef).2.1]
    exact hm
  generalize overlay_unapply (retarget p pdef) = q at hVq hclean hc ⊢
  obtain ⟨l1, l2⟩ := populated_overlay_lengths fresh q pdef
  have hanch : ∀ vo, 2 ≤ vo → vo < (populated_overlay fresh q pdef).vertices.length →
      ((populated_overlay fresh q pdef).vprop vo).core_vertex < q.g.vertices.length := by
    intro vo h2 hlt
    rw [l1] at hlt
    have hvo : 2 + (vo - 2) = vo := by omega
    have h3 := populated_overlay_vprop_anchor fresh q pdef (vo - 2) (by omega)
    rw [hvo] at h3
    rw [h3]
    exact (mem_anchor_triples q pdef
      ((anchor_triples q pdef).getD (vo - 2) (0, [], 0))
      (by rw [List.getD_eq_getElem?_getD, List.getElem?_eq_getElem (by omega)]
          exact List.getElem_mem _)).2.1
  refine ⟨⟨hclean, rfl, rfl, ?_, ?_, ?_, ?_⟩, hc, hanch, ?_⟩
  · show 2 ≤ (populated_overlay fresh q pdef).vertices.length
    rw [l1]; omega
  · show ((populated_overlay fresh q pdef).vprop 0).core_vertex = null_vertex
    unfold OverGraph.vprop
    rw [populated_overlay_vertices]
    rfl
  · show ((populated_overlay fresh q pdef).vprop 1).core_vertex = null_vertex
    unfold OverGraph.vprop
    rw [populated_overlay_vertices]
    rfl
  · intro vo h2 hlt
    have := hanch vo h2 hlt
    show ((populated_overlay fresh q pdef).vprop vo).core_vertex ≠ null_vertex
    omega
  · intro eo heo
    have heo2 : eo < (anchor_triples q pdef).length := by rw [← l2]; exact heo
    have he := populated_overlay_edge fresh q pdef eo heo2
    have hmem := (mem_anchor_triples q pdef
      ((anchor_triples q pdef).getD eo (0, [], 0))
      (by rw [List.getD_eq_getElem?_getD, List.getElem?_eq_getElem heo2]
          exact List.getElem_mem _)).1
    have hs : (populated_overlay fresh q pdef).source eo
        = ((anchor_triples q pdef).getD eo (0, [], 0)).1 := by
      unfold OverGraph.source
      rw [he]
    have ht : (populated_overlay fresh q pdef).target eo = 2 + eo := by
      unfold OverGraph.target
      rw [he]
    show (populated_overlay fresh q pdef).source eo < (populated_overlay fresh q pdef).vertices.length
      ∧ (populated_overlay fresh q pdef).target eo < (populated_overlay fresh q pdef).vertices.length
    rw [hs, ht, l1]
    rcases hmem with ⟨h0, _⟩ | ⟨h1, _⟩
    · rw [h0]; exact ⟨by omega, by omega⟩
    · rw [h1]; exact ⟨by omega, by omega⟩

/-- What `densify` does when `generate` throws. -/
theorem densify_of_throw (p : FamilyPlanner σ) (h : (densify p).1 = false) :
    (densify p).2 = { overlay_unapply p with
      num_subgraphs := (overlay_unapply p).num_subgraphs + 1 } := by
  cases hgen : (overlay_unapply p).roadmap_gen.generate (overlay_unapply p).roadmap_gen_state
      (overlay_unapply p).g ((overlay_unapply p).num_subgraphs + 1) with
  | none => simp only [densify, hgen]
  | some r =>
    obtain ⟨ops, st⟩ := r
    rw [densify_of_generate p ops st hgen] at h
    simp at h

/-- One densification of a prepared planner: the overlay that is applied
again has the structure it had, whatever the generator added. -/
theorem densify_prepared (q p : FamilyPlanner σ) (h : overlay_ready q)
    (hl : applied_like (overlay_apply q) p) (hgen : p.roadmap_gen.keeps_closed) :
    ((densify p).1 = true →
      ∃ q2 : FamilyPlanner σ, overlay_ready q2 ∧ (densify p).2 = overlay_apply q2
        ∧ same_overlay q.og q2.og ∧ q2.roadmap_gen = p.roadmap_gen
        ∧ q.g.vertices.length ≤ q2.g.vertices.length)
    ∧ ((densify p).1 = false →
        overlay_ready (densify p).2 ∧ same_overlay q.og (densify p).2.og
        ∧ (densify p).2.overlay_manager.is_applied = false
        ∧ (densify p).2.roadmap_gen = p.roadmap_gen) := by
  obtain ⟨hB, hBv, hBe, hBsk, hBr, hBs⟩ := prepared_unapply q p h hl
  have hgenB : (overlay_unapply p).roadmap_gen = p.roadmap_gen := (overlay_unapply_gen p).1
  constructor
  · intro hd
    obtain ⟨ops, st, p4, hg, hd4, hp4⟩ := densify_eq p hd
    have hcl : (ops.foldl apply_gen_op (overlay_unapply p).g).closed = true := by
      rw [hgenB] at hg
      exact hgen _ _ _ _ _ hBr.2.1 hg
    obtain ⟨hd1, hd2⟩ := hd4
    have e1 : p4.overlay_manager = (overlay_unapply p).overlay_manager := by rw [hd1]
    have e2 : p4.og = (overlay_unapply p).og := by rw [hd1]
    have e3 : p4.ov_start = (overlay_unapply p).ov_start := by rw [hd1]
    have e4 : p4.ov_goal = (overlay_unapply p).ov_goal := by rw [hd1]
    have e5 : p4.roadmap_gen = (overlay_unapply p).roadmap_gen := by rw [hd1]
    have hsk4 : p4.g.skeleton = (ops.foldl apply_gen_op (overlay_unapply p).g).skeleton := hd2
    have hV4 : (overlay_unapply p).g.vertices.length ≤ p4.g.vertices.length := by
      rw [vertices_length_of_skeleton _ _ hsk4]
      exact apply_gen_ops_vertices_le ops _
    have hVq : (overlay_unapply p).g.vertices.length = q.g.vertices.length :=
      vertices_length_of_skeleton _ _ hBsk
    obtain ⟨i1, i2, i3, i4⟩ := hBr
    refine ⟨p4, ⟨?_, closed_of_skeleton _ _ hsk4 hcl, ?_, ?_⟩, hp4, ?_, ?_, ?_⟩
    · unfold roots_ready
      rw [e1, e2, e3, e4]
      exact i1
    · intro vo h2 hlt
      rw [e2] at hlt ⊢
      exact Nat.lt_of_lt_of_le (i3 vo h2 hlt) hV4
    · intro eo heo
      rw [e2] at heo ⊢
      exact i4 eo heo
    · rw [e2]; exact hBs
    · rw [e5, hgenB]
    · omega
  · intro hd
    rw [densify_of_throw p hd]
    refine ⟨?_, hBs, ?_, hgenB⟩
    · exact hBr
    · show (overlay_unapply p).overlay_manager.is_applied = false
      rw [hBr.1.1]

/-- The loop of `solve` on a prepared planner ends on a planner whose
overlay has the structure it started with: prepared again, or with the
overlay unapplied and ready when `generate` threw. -/
theorem solve_loop_prepared (og0 : OverGraph) (n0 : Nat) (fuel : Nat) :
    ∀ (p : FamilyPlanner σ) (epath : List Edge),
      (∃ q : FamilyPlanner σ, overlay_ready q ∧ applied_like (overlay_apply q) p
        ∧ same_overlay og0 q.og ∧ n0 ≤ q.g.vertices.length) →
      p.roadmap_gen.keeps_closed →
      (∃ q : FamilyPlanner σ, overlay_ready q
        ∧ applied_like (overlay_apply q) (solve_loop fuel p epath).planner
        ∧ same_overlay og0 q.og ∧ n0 ≤ q.g.vertices.length)
      ∨ (overlay_ready (solve_loop fuel p epath).planner
        ∧ same_overlay og0 (solve_loop fuel p epath).planner.og
        ∧ (solve_loop fuel p epath).planner.overlay_manager.is_applied = false) := by
  induction fuel with
  | zero => intro p epath h _; exact Or.inl h
  | succ fuel ih =>
    intro p epath h hgen
    obtain ⟨q, hq, hl, hs, hn⟩ := h
    have hdiff := only_properties_differ_lazy_shortest_path (p.og.vprop p.ov_start).core_vertex
        (p.og.vprop p.ov_goal).core_vertex (fuel + 1) p epath
    have hl1 := applied_like_of_differ _ p _ hl hdiff
    have hg1 : (lazy_shortest_path (p.og.vprop p.ov_start).core_vertex
        (p.og.vprop p.ov_goal).core_vertex (fuel + 1) p epath).planner.roadmap_gen
        = p.roadmap_gen := by rw [hdiff.1]
    unfold solve_loop
    simp only
    split
    · exact Or.inl ⟨q, hq, hl1, hs, hn⟩
    · exact Or.inl ⟨q, hq, hl1, hs, hn⟩
    · exact Or.inl ⟨q, hq, hl1, hs, hn⟩
    · split
      · exact Or.inl ⟨q, hq, hl1, hs, hn⟩
      · obtain ⟨dt, df⟩ := densify_prepared q _ hq hl1 (by rw [hg1]; exact hgen)
        split
        · rename_i hd
          obtain ⟨q2, hq2, he, hs2, hg2, hn2⟩ := dt hd
          apply ih
          · exact ⟨q2, hq2, by rw [he]; exact applied_like_refl _,
              same_overlay_trans _ _ _ hs hs2, Nat.le_trans hn hn2⟩
          · rw [he]
            have := (ready_apply q2 hq2).2.2.2.2.2.2.1
            rw [this]
            show q2.roadmap_gen.keeps_closed
            rw [hg2, hg1]; exact hgen
        · rename_i hd
          have hd2 : (densify (lazy_shortest_path (p.og.vprop p.ov_start).core_vertex
            (p.og.vprop p.ov_goal).core_vertex (fuel + 1) p epath).planner).1 = false := by
            simpa using hd
          obtain ⟨r1, r2, r3, _⟩ := df hd2
          exact Or.inr ⟨r1, same_overlay_trans _ _ _ hs r2, r3⟩

/-- An overlay graph with the structure of the one `setProblemDefinition`
builds: one edge from a root to an anchor for each anchor triple, in order. -/
theorem same_overlay_populated (fresh : OverVProps) (B : FamilyPlanner σ)
    (pdef : ProblemDefinition) (og : OverGraph)
    (hs : same_overlay (populated_overlay fresh B pdef) og) :
    og.vertices.length = 2 + (anchor_triples B pdef).length
    ∧ og.edges.length = (anchor_triples B pdef).length
    ∧ ∀ eo, eo < (anchor_triples B pdef).length →
        og.source eo = ((anchor_triples B pdef).getD eo (0, [], 0)).1
        ∧ og.target eo = 2 + eo
        ∧ (og.vprop (2 + eo)).core_vertex = ((anchor_triples B pdef).getD eo (0, [], 0)).2.2 := by
  obtain ⟨s1, s2, s3, s4⟩ := hs
  obtain ⟨l1, l2⟩ := populated_overlay_lengths fresh B pdef
  refine ⟨by rw [s1, l1], by rw [s2, l2], ?_⟩
  intro eo heo
  have he := populated_overlay_edge fresh B pdef eo heo
  have h3 := populated_overlay_vprop_anchor fresh B pdef eo heo
  refine ⟨?_, ?_, ?_⟩
  · rw [(s3 eo).1]
    unfold OverGraph.source
    rw [he]
  · rw [(s3 eo).2]
    unfold OverGraph.target
    rw [he]
  · rw [s4 (2 + eo) (by omega), h3]

/-- The core graph of a prepared planner whose overlay has the structure
`setProblemDefinition` built: the roots are the last two vertices, the last
edges are the anchor edges, one for each anchor triple in order, and no
other edge has an end at a root. -/
theorem prepared_shape (fresh : OverVProps) (B : FamilyPlanner σ) (pdef : ProblemDefinition)
    (q R : FamilyPlanner σ) (hq : overlay_ready q) (hl : applied_like (overlay_apply q) R)
    (hs : same_overlay (populated_overlay fresh B pdef) q.og)
    (hn : B.g.vertices.length ≤ q.g.vertices.length) :
    same_overlay (populated_overlay fresh B pdef) R.og
    ∧ R.overlay_manager = ⟨true, [0, 1], List.range (anchor_triples B pdef).length⟩
    ∧ B.g.vertices.length + 2 ≤ R.g.vertices.length
    ∧ (R.og.vprop 0).core_vertex = R.g.vertices.length - 2
    ∧ (R.og.vprop 1).core_vertex = R.g.vertices.length - 1
    ∧ (anchor_triples B pdef).length ≤ R.g.edges.length
    ∧ (∀ pr ∈ R.g.skeleton.2.take (R.g.edges.length - (anchor_triples B pdef).length),
        pr.1 < R.g.vertices.length - 2 ∧ pr.2 < R.g.vertices.length - 2)
    ∧ R.g.skeleton.2.drop (R.g.edges.length - (anchor_triples B pdef).length)
        = (anchor_triples B pdef).map (fun t => (R.g.vertices.length - 2 + t.1, t.2.2)) := by
  obtain ⟨hK, c0, c1, cr, hV, hsk2, hA, hsame⟩ := ready_apply q hq
  obtain ⟨l1, l2, l3, l4, l5⟩ := hl
  obtain ⟨t1, t2, t3⟩ := same_overlay_populated fresh B pdef q.og hs
  have hRV : R.g.vertices.length = q.g.vertices.length + 2 := by
    rw [vertices_length_of_skeleton _ _ l5, hV]
  have hsk : R.g.skeleton.2 = q.g.skeleton.2 ++ (List.range q.og.edges.length).map (fun eo =>
            (((overlay_apply q).og.vprop (q.og.source eo)).core_vertex,
              ((overlay_apply q).og.vprop (q.og.target eo)).core_vertex)) := by
    rw [l5, hsk2]
  have hRE : R.g.edges.length = q.g.edges.length + (anchor_triples B pdef).length := by
    rw [← skeleton_edges_length, hsk, List.length_append, List.length_map, List.length_range,
      skeleton_edges_length, t2]
  have hsub : R.g.edges.length - (anchor_triples B pdef).length = q.g.skeleton.2.length := by
    rw [skeleton_edges_length]; omega
  refine ⟨?_, ?_, by omega, ?_, ?_, by omega, ?_, ?_⟩
  · rw [l1]; exact same_overlay_trans _ _ _ hs hsame
  · rw [l2, hA, t2]
  · rw [l1, c0, hRV]; omega
  · rw [l1, c1, hRV]; omega
  · intro pr hpr
    rw [hsub, hsk, List.take_left] at hpr
    have := (closed_iff_skeleton q.g).1 hq.2.1 pr hpr
    rw [hRV]
    exact this
  · rw [hsub, hsk, List.drop_left, t2, ← map_getD_range (anchor_triples B pdef) (0, [], 0)]
    apply List.map_congr_left
    intro eo heo
    have heo2 : eo < (anchor_triples B pdef).length := List.mem_range.1 heo
    obtain ⟨u1, u2, u3⟩ := t3 eo heo2
    have hmem := (mem_anchor_triples B pdef
      ((anchor_triples B pdef).getD eo (0, [], 0))
      (by rw [List.getD_eq_getElem?_getD, List.getElem?_eq_getElem heo2]
          exact List.getElem_mem _)).1
    rw [u1, u2, cr (2 + eo) (by omega), u3, hRV]
    congr 1
    rcases hmem with ⟨h0, _⟩ | ⟨h1, _⟩
    · rw [h0, c0]; omega
    · rw [h1, c1]; omega

theorem gen_two_keeps_closed : gen_two.keeps_closed := by
  intro st g n ops st2 hc hg
  by_cases hn : 2 < n
  · have : gen_two.generate st g n = none := if_pos hn
    rw [this] at hg
    exact Option.noConfusion hg
  · have : gen_two.generate st g n = some (((List.range n).drop st).flatMap (fun k =>
        [.add_vertex, .put_state k [(1 + 18 * (k : ℚ)) / 20],
          .put_vertex_subgraph k (k : ℤ), .put_is_shadow k false]), max st n) := if_neg hn
    rw [this] at hg
    simp only [Option.some.injEq, Prod.mk.injEq] at hg
    rw [← hg.1]
    apply closed_apply_gen_ops _ ?_ g hc
    intro op hop u v
    simp only [List.mem_flatMap] at hop
    obtain ⟨k, _, hk⟩ := hop
    intro he
    subst he
    simp at hk


/-! ## Edges whose weight is current -/

theorem mem_edge_list (g : Graph) (e : Edge) :
    e ∈ g.edge_list ↔ ∃ se, g.edges[e.id]? = some se ∧ se.src = e.src ∧ se.tgt = e.tgt := by
  unfold Graph.edge_list
  simp only [List.mem_map, List.mem_range]
  constructor
  · rintro ⟨i, hi, rfl⟩
    refine ⟨g.edges.getD i ⟨0, 0, EProps.init⟩, ?_, rfl, rfl⟩
    simp [List.getD_eq_getElem?_getD, List.getElem?_eq_getElem hi]
  · rintro ⟨se, hse, h1, h2⟩
    have hlt : e.id < g.edges.length := by
      by_contra hlt
      rw [List.getElem?_eq_none (Nat.le_of_not_lt hlt)] at hse
      exact Option.noConfusion hse
    refine ⟨e.id, hlt, ?_⟩
    rw [List.getD_eq_getElem?_getD, hse]
    cases e
    simp_all

theorem stored_ends_of_skeleton (g h : Graph) (hs : h.skeleton = g.skeleton) (i : Nat) :
    (h.edges[i]?).map (fun se => (se.src, se.tgt))
      = (g.edges[i]?).map (fun se => (se.src, se.tgt)) := by
  have := congrArg (fun s => s.2[i]?) hs
  simpa [Graph.skeleton, List.getElem?_map] using this

theorem mem_edge_list_of_skeleton (g h : Graph) (hs : h.skeleton = g.skeleton) (e : Edge)
    (he : e ∈ g.edge_list) : e ∈ h.edge_list := by
  rw [mem_edge_list] at he ⊢
  obtain ⟨se, hse, h1, h2⟩ := he
  have := stored_ends_of_skeleton g h hs e.id
  rw [hse] at this
  cases hh : h.edges[e.id]? with
  | none => simp [hh] at this
  | some se2 =>
    simp [hh] at this
    exact ⟨se2, rfl, by rw [this.1, h1], by rw [this.2, h2]⟩

theorem stored_of_skeleton (g h : Graph) (hs : h.skeleton = g.skeleton) (e : Edge)
    (he : ∃ se, g.edges[e.id]? = some se ∧
      ((se.src = e.src ∧ se.tgt = e.tgt) ∨ (se.src = e.tgt ∧ se.tgt = e.src))) :
    ∃ se, h.edges[e.id]? = some se ∧
      ((se.src = e.src ∧ se.tgt = e.tgt) ∨ (se.src = e.tgt ∧ se.tgt = e.src)) := by
  obtain ⟨se, hse, hends⟩ := he
  have := stored_ends_of_skeleton g h hs e.id
  rw [hse] at this
  cases hh : h.edges[e.id]? with
  | none => simp [hh] at this
  | some se2 =>
    simp [hh] at this
    exact ⟨se2, rfl, by rw [this.1, this.2]; exact hends⟩

theorem mem_edge_list_closed (g : Graph) (hc : g.closed = true) (e : Edge)
    (he : e ∈ g.edge_list) : e.src < g.vertices.length ∧ e.tgt < g.vertices.length := by
  obtain ⟨se, hse, h1, h2⟩ := (mem_edge_list g e).1 he
  have hmem : se ∈ g.edges := List.getElem?_mem hse
  unfold Graph.closed at hc
  rw [List.all_eq_true] at hc
  have := hc se hmem
  simp only [Bool.and_eq_true, decide_eq_true_eq] at this
  rw [← h1, ← h2]
  exact this

theorem mem_edge_list_id (g : Graph) (e : Edge) (he : e ∈ g.edge_list) :
    e.id < g.edges.length := by
  obtain ⟨se, hse, _⟩ := (mem_edge_list g e).1 he
  by_contra hlt
  rw [List.getElem?_eq_none (Nat.le_of_not_lt hlt)] at hse
  exact Option.noConfusion hse

/-- Two descriptors of the same stored edge, one of them in storage
orientation, get the same weight. -/
theorem w_lazy_value_same_edge (p : FamilyPlanner σ) (e f : Edge) (hid : e.id = f.id)
    (hf : f ∈ p.g.edge_list)
    (he : ∃ se, p.g.edges[e.id]? = some se ∧
      ((se.src = e.src ∧ se.tgt = e.tgt) ∨ (se.src = e.tgt ∧ se.tgt = e.src))) :
    w_lazy_value p e = w_lazy_value p f := by
  obtain ⟨sf, hsf, f1, f2⟩ := (mem_edge_list _ f).1 hf
  obtain ⟨se, hse, hends⟩ := he
  rw [hid, hsf] at hse
  simp only [Option.some.injEq] at hse
  subst hse
  have hcases : e = f ∨ e = ⟨f.tgt, f.src, f.id⟩ := by
    cases e with
    | mk s t i =>
      simp only at hid hends
      subst hid
      rcases hends with ⟨a, b⟩ | ⟨a, b⟩
      · left; cases f; simp_all
      · right; simp_all
  rcases hcases with h | h
  · rw [h]
  · rw [h, w_lazy_value_flip]

/-- A run of `calculate_w_lazy` over a list of edges leaves an edge current
when it is in the list or was current before. -/
theorem foldl_calculate_current (f : Edge) (es : List Edge) :
    ∀ q : FamilyPlanner σ, f ∈ q.g.edge_list →
      (∀ e' ∈ es, ∃ se, q.g.edges[e'.id]? = some se ∧
        ((se.src = e'.src ∧ se.tgt = e'.tgt) ∨ (se.src = e'.tgt ∧ se.tgt = e'.src))) →
      ((∃ e' ∈ es, e'.id = f.id) ∨ (q.g.eprop f).w_lazy = w_lazy_value q f) →
      ((es.foldl calculate_w_lazy q).g.eprop f).w_lazy
        = w_lazy_value (es.foldl calculate_w_lazy q) f := by
  induction es with
  | nil =>
    intro q _ _ h
    rcases h with ⟨e', he', _⟩ | h
    · exact absurd he' (List.not_mem_nil _)
    · exact h
  | cons e' es ih =>
    intro q hf hes h
    simp only [List.foldl_cons]
    have hu : unweighted (calculate_w_lazy q e') = unweighted q := unweighted_calculate_w_lazy q e'
    have hsk : (calculate_w_lazy q e').g.skeleton = q.g.skeleton := skeleton_set_eprop _ _ _
    apply ih
    · exact mem_edge_list_of_skeleton _ _ hsk f hf
    · intro e'' he''
      exact stored_of_skeleton _ _ hsk e'' (hes e'' (List.mem_cons_of_mem _ he''))
    · by_cases hid : e'.id = f.id
      · right
        have hlen : e'.id < q.g.edges.length := by
          rw [hid]; exact mem_edge_list_id _ _ hf
        have : ((calculate_w_lazy q e').g.eprop f).w_lazy = w_lazy_value q e' := by
          simp [calculate_w_lazy, eprop_set_eprop_same _ e' f _ hid.symm hlen]
        rw [this, w_lazy_value_congr q _ f hu]
        exact w_lazy_value_same_edge q e' f hid hf (hes e' (List.mem_cons_self _ _))
      · rcases h with ⟨e'', he'', hid2⟩ | h
        · left
          rcases List.mem_cons.1 he'' with h1 | h1
          · rw [h1] at hid2; exact absurd hid2 hid
          · exact ⟨e'', h1, hid2⟩
        · right
          have : ((calculate_w_lazy q e').g.eprop f).w_lazy = (q.g.eprop f).w_lazy := by
            simp [calculate_w_lazy, eprop_set_eprop_other _ e' f _ (Ne.symm hid)]
          rw [this, w_lazy_value_congr q _ f hu]
          exact h

theorem skeleton_foldl_calculate (es : List Edge) (q : FamilyPlanner σ) :
    (es.foldl calculate_w_lazy q).g.skeleton = q.g.skeleton :=
  (foldl_preserves (only_properties_differ q) calculate_w_lazy
    (only_properties_differ_calculate_w_lazy q) es q (only_properties_differ_refl q)).2

theorem w_lazy_current_foldl (es : List Edge) (q : FamilyPlanner σ)
    (hes : ∀ e' ∈ es, ∃ se, q.g.edges[e'.id]? = some se ∧
        ((se.src = e'.src ∧ se.tgt = e'.tgt) ∨ (se.src = e'.tgt ∧ se.tgt = e'.src)))
    (h : ∀ f ∈ q.g.edge_list,
      (∃ e' ∈ es, e'.id = f.id) ∨ (q.g.eprop f).w_lazy = w_lazy_value q f) :
    w_lazy_current (es.foldl calculate_w_lazy q) := by
  intro f hf
  have hf2 : f ∈ q.g.edge_list :=
    mem_edge_list_of_skeleton _ _ (skeleton_foldl_calculate es q).symm f hf
  exact foldl_calculate_current f es q hf2 hes (h f hf2)

/-- After the first step of `setProblemDefinition` every weight is current,
when the model is retargeted or every weight was current before. -/
theorem w_lazy_current_retarget (p : FamilyPlanner σ) (pdef : ProblemDefinition)
    (h : some pdef.si ≠ p.family_effort_model.si_target ∨ w_lazy_current p) :
    w_lazy_current (retarget p pdef) := by
  unfold retarget
  split
  · apply w_lazy_current_foldl
    · intro e' he'
      obtain ⟨se, hse, h1, h2⟩ := (mem_edge_list _ e').1 he'
      exact ⟨se, hse, Or.inl ⟨h1, h2⟩⟩
    · intro f hf
      exact Or.inl ⟨f, hf, rfl⟩
  · rename_i hsi
    rcases h with h | h
    · exact absurd h hsi
    · exact h

/-- Currentness depends on the core graph, the effort model and the three
coefficients only. -/
theorem w_lazy_current_of_same (p q : FamilyPlanner σ) (hg : q.g = p.g)
    (hf : q.family_effort_model = p.family_effort_model)
    (h1 : q.coeff_checkcost = p.coeff_checkcost) (h2 : q.coeff_distance = p.coeff_distance)
    (h3 : q.coeff_subgraph = p.coeff_subgraph) (h : w_lazy_current p) : w_lazy_current q := by
  intro e he
  rw [hg] at he
  rw [w_lazy_value_local p q e hf h1 h2 h3 (by rw [hg]) (by rw [hg]) (by rw [hg]), hg]
  exact h e he

theorem stored_ends_skeleton (g : Graph) (i : Nat) :
    (g.edges.getD i ⟨0, 0, EProps.init⟩).src = (g.skeleton.2.getD i (0, 0)).1
    ∧ (g.edges.getD i ⟨0, 0, EProps.init⟩).tgt = (g.skeleton.2.getD i (0, 0)).2 := by
  unfold Graph.skeleton
  simp only [List.getD_eq_getElem?_getD, List.getElem?_map]
  cases g.edges[i]? <;> simp

theorem out_edges_of_skeleton (g h : Graph) (hs : h.skeleton = g.skeleton) (v : Nat) :
    h.out_edges v = g.out_edges v := by
  have h1 : ∀ i, (h.edges.getD i ⟨0, 0, EProps.init⟩).src
      = (g.edges.getD i ⟨0, 0, EProps.init⟩).src := fun i => by
    rw [(stored_ends_skeleton h i).1, hs, ← (stored_ends_skeleton g i).1]
  have h2 : ∀ i, (h.edges.getD i ⟨0, 0, EProps.init⟩).tgt
      = (g.edges.getD i ⟨0, 0, EProps.init⟩).tgt := fun i => by
    rw [(stored_ends_skeleton h i).2, hs, ← (stored_ends_skeleton g i).2]
  unfold Graph.out_edges
  simp only [h1, h2, edges_length_of_skeleton _ _ hs]

theorem mem_out_edges_of_end (g : Graph) (v i : Nat) (hi : i < g.edges.length)
    (h : (g.edges.getD i ⟨0, 0, EProps.init⟩).src = v
      ∨ (g.edges.getD i ⟨0, 0, EProps.init⟩).tgt = v) :
    ∃ e' ∈ g.out_edges v, e'.id = i := by
  unfold Graph.out_edges
  simp only [List.mem_flatMap, List.mem_range, List.mem_append]
  rcases h with h | h
  · exact ⟨⟨v, (g.edges.getD i ⟨0, 0, EProps.init⟩).tgt, i⟩,
      ⟨i, hi, Or.inl (by rw [if_pos h]; exact List.mem_singleton_self _)⟩, rfl⟩
  · exact ⟨⟨v, (g.edges.getD i ⟨0, 0, EProps.init⟩).src, i⟩,
      ⟨i, hi, Or.inr (by rw [if_pos h]; exact List.mem_singleton_self _)⟩, rfl⟩

/-- The tail of `wmap_get` as one run of `calculate_w_lazy`: the edge, the
out-edges of its source, the out-edges of its target. -/
theorem wmap_get_recalc_eq (q : FamilyPlanner σ) (e : Edge) :
    wmap_get_recalc q e
      = (e :: (q.g.out_edges e.src ++ q.g.out_edges e.tgt)).foldl calculate_w_lazy q := by
  unfold wmap_get_recalc
  simp only [List.foldl_cons, List.foldl_append]
  have h1 : (calculate_w_lazy q e).g.skeleton = q.g.skeleton := skeleton_set_eprop _ _ _
  have h2 : (((calculate_w_lazy q e).g.out_edges e.src).foldl calculate_w_lazy
      (calculate_w_lazy q e)).g.skeleton = q.g.skeleton := by
    rw [skeleton_foldl_calculate, h1]
  rw [out_edges_of_skeleton _ _ h2, out_edges_of_skeleton _ _ h1]

theorem check_interior_eprop_other (fem : FamilyEffortModel) (g : Graph) (e f : Edge)
    (h : f.id ≠ e.id) : (check_interior fem g e).1.eprop f = g.eprop f := by
  unfold check_interior
  exact eprop_set_eprop_other _ _ _ _ h

theorem check_edge_eprop_other (fem : FamilyEffortModel) (g : Graph) (e f : Edge)
    (h : f.id ≠ e.id) : (check_edge fem g e).1.eprop f = g.eprop f := by
  unfold check_edge
  simp only
  split
  · rfl
  · split
    · rfl
    · rw [check_interior_eprop_other _ _ _ _ h]
      rfl

theorem check_edge_vprop_other (fem : FamilyEffortModel) (g : Graph) (e : Edge) (w : Nat)
    (h1 : w ≠ e.src) (h2 : w ≠ e.tgt) : (check_edge fem g e).1.vprop w = g.vprop w := by
  unfold check_edge
  simp only
  split
  · exact check_vertex_other _ _ _ _ h1
  · split
    · rw [check_vertex_other _ _ _ _ h2, check_vertex_other _ _ _ _ h1]
    · rw [check_interior_vprop, check_vertex_other _ _ _ _ h2, check_vertex_other _ _ _ _ h1]

/-- `wmap_get` keeps every weight current: the tags it changes are those of
the edge and of its two ends, and it recomputes the edge and every edge at
either end. -/
theorem w_lazy_current_wmap_get (p : FamilyPlanner σ) (e : Edge)
    (he : p.g.has_edge e = true) (h : w_lazy_current p) :
    w_lazy_current (wmap_get p e).2.1 := by
  show w_lazy_current (wmap_get_recalc (wmap_get_checks p e).1 e)
  rw [wmap_get_recalc_eq]
  have hsk : (wmap_get_checks p e).1.g.skeleton = p.g.skeleton := skeleton_check_edge _ _ _
  have he0 : (wmap_get_checks p e).1.g.has_edge e = true :=
    (check_edge_frame p.family_effort_model p.g e he).1
  apply w_lazy_current_foldl
  · intro e' he'
    rcases List.mem_cons.1 he' with h1 | h1
    · rw [h1]; exact ends_of_has_edge _ _ he0
    · rcases List.mem_append.1 h1 with h2 | h2
      · exact ends_of_mem_out_edges _ _ _ h2
      · exact ends_of_mem_out_edges _ _ _ h2
  · intro f hf
    obtain ⟨se, hse, f1, f2⟩ := (mem_edge_list _ f).1 hf
    have hlt := mem_edge_list_id _ _ hf
    have hget : (wmap_get_checks p e).1.g.edges.getD f.id ⟨0, 0, EProps.init⟩ = se := by
      rw [List.getD_eq_getElem?_getD, hse]; rfl
    by_cases hid : f.id = e.id
    · exact Or.inl ⟨e, List.mem_cons_self _ _, hid.symm⟩
    by_cases hs : f.src = e.src ∨ f.tgt = e.src
    · obtain ⟨e', he', hid'⟩ := mem_out_edges_of_end (wmap_get_checks p e).1.g e.src f.id hlt
        (by rw [hget, f1, f2]; exact hs)
      exact Or.inl ⟨e', List.mem_cons_of_mem _ (List.mem_append_left _ he'), hid'⟩
    by_cases ht : f.src = e.tgt ∨ f.tgt = e.tgt
    · obtain ⟨e', he', hid'⟩ := mem_out_edges_of_end (wmap_get_checks p e).1.g e.tgt f.id hlt
        (by rw [hget, f1, f2]; exact ht)
      exact Or.inl ⟨e', List.mem_cons_of_mem _ (List.mem_append_right _ he'), hid'⟩
    right
    have hep : (wmap_get_checks p e).1.g.eprop f = p.g.eprop f :=
      check_edge_eprop_other _ _ _ _ hid
    have hvs : (wmap_get_checks p e).1.g.vprop f.src = p.g.vprop f.src :=
      check_edge_vprop_other _ _ _ _ (fun hc => hs (Or.inl hc)) (fun hc => ht (Or.inl hc))
    have hvt : (wmap_get_checks p e).1.g.vprop f.tgt = p.g.vprop f.tgt :=
      check_edge_vprop_other _ _ _ _ (fun hc => hs (Or.inr hc)) (fun hc => ht (Or.inr hc))
    have hval : w_lazy_value (wmap_get_checks p e).1 f = w_lazy_value p f :=
      w_lazy_value_local p (wmap_get_checks p e).1 f rfl rfl rfl rfl
        (congrArg VProps.tag hvs) (congrArg VProps.tag hvt) (congrArg EProps.shared hep)
    rw [hval, hep]
    exact h f (mem_edge_list_of_skeleton _ _ hsk.symm f hf)

theorem mem_edge_list_skeleton (g : Graph) (e : Edge) :
    e ∈ g.edge_list ↔ g.skeleton.2[e.id]? = some (e.src, e.tgt) := by
  rw [mem_edge_list]
  unfold Graph.skeleton
  simp only [List.getElem?_map]
  constructor
  · rintro ⟨se, hse, h1, h2⟩
    rw [hse, ← h1, ← h2]
    rfl
  · intro h
    cases hse : g.edges[e.id]? with
    | none => simp [hse] at h
    | some se =>
      simp [hse] at h
      exact ⟨se, rfl, h.1, h.2⟩

theorem getD_take {α : Type} (l : List α) (n i : Nat) (d : α) (h : i < n) :
    (l.take n).getD i d = l.getD i d := by
  simp [List.getD_eq_getElem?_getD, List.getElem?_take, h]

/-- `overlay_apply` on a ready overlay keeps every weight current: the
edges it inserts get their weight computed, the others keep theirs and the
tags of their ends. -/
theorem w_lazy_current_apply (q : FamilyPlanner σ) (hq : overlay_ready q)
    (h : w_lazy_current q) : w_lazy_current (overlay_apply q) := by
  obtain ⟨hK, c0, c1, cr, hV, hsk2, hA, hsame⟩ := ready_apply q hq
  obtain ⟨a1, a2, a3, a4, a5, a6⟩ := overlay_apply_spec q hq.1.1
  obtain ⟨m1, m2, m3, m4, m5, m6, m7, m8, m9⟩ := manager_apply_spec q.g q.og q.overlay_manager
  have hog : (overlay_apply q).og = (q.overlay_manager.apply q.g q.og).2.1 := by rw [hA]
  intro f hf
  have hst := (mem_edge_list_skeleton _ f).1 hf
  rw [hsk2] at hst
  by_cases hlt : f.id < q.g.edges.length
  · rw [List.getElem?_append_left (by rw [skeleton_edges_length]; exact hlt)] at hst
    have hfq : f ∈ q.g.edge_list := (mem_edge_list_skeleton _ f).2 hst
    obtain ⟨e1, e2⟩ := mem_edge_list_closed q.g hq.2.1 f hfq
    have hval : w_lazy_value (overlay_apply q) f = w_lazy_value q f :=
      w_lazy_value_local q (overlay_apply q) f (by rw [hA]) (by rw [hA]) (by rw [hA])
        (by rw [hA]) (congrArg VProps.tag (a3 _ e1)) (congrArg VProps.tag (a3 _ e2))
        (congrArg EProps.shared (a5 f hlt))
    rw [hval, a5 f hlt]
    exact h f hfq
  · have hge : q.g.skeleton.2.length ≤ f.id := by
      rw [skeleton_edges_length]; omega
    rw [List.getElem?_append_right hge, skeleton_edges_length, List.getElem?_map] at hst
    have hi : f.id - q.g.edges.length < q.og.edges.length := by
      by_contra hc
      rw [List.getElem?_eq_none (by rw [List.length_range]; omega)] at hst
      exact Option.noConfusion hst
    rw [List.getElem?_range hi] at hst
    simp only [Option.map_some', Option.some.injEq, Prod.mk.injEq] at hst
    have hce : core_edge_of (overlay_apply q).og (f.id - q.g.edges.length) = f := by
      unfold core_edge_of
      rw [hog, m9, if_pos hi]
      rw [hog] at hst
      cases f with
      | mk s t i =>
        simp only at hst hlt ⊢
        simp only [Option.getD_some, Edge.mk.injEq]
        exact ⟨hst.1, hst.2, by omega⟩
    have := (a6 _ hi).2.2
    rw [hce] at this
    exact this

/-- `overlay_unapply` on a prepared planner keeps every weight current. -/
theorem w_lazy_current_unapply (q p : FamilyPlanner σ) (hq : overlay_ready q)
    (hl : applied_like (overlay_apply q) p) (h : w_lazy_current p) :
    w_lazy_current (overlay_unapply p) := by
  obtain ⟨hB, hBv, hBe, hBsk, hBr, hBs⟩ := prepared_unapply q p hq hl
  intro f hf
  obtain ⟨e1, e2⟩ := mem_edge_list_closed _ hBr.2.1 f hf
  have hid := mem_edge_list_id _ _ hf
  have hidq : f.id < q.g.edges.length := by
    rw [edges_length_of_skeleton _ _ hBsk] at hid; exact hid
  have hVq : (overlay_unapply p).g.vertices.length = q.g.vertices.length :=
    vertices_length_of_skeleton _ _ hBsk
  rw [hVq] at e1 e2
  have hep : (overlay_unapply p).g.eprop f = p.g.eprop f := by
    unfold Graph.eprop
    rw [hBe, getD_take _ _ _ _ hidq]
  have hvp : ∀ v, v < q.g.vertices.length → (overlay_unapply p).g.vprop v = p.g.vprop v := by
    intro v hv
    unfold Graph.vprop
    rw [hBv, getD_take _ _ _ _ hv]
  have hfp : f ∈ p.g.edge_list := by
    rw [mem_edge_list] at hf ⊢
    obtain ⟨se, hse, h1, h2⟩ := hf
    refine ⟨se, ?_, h1, h2⟩
    rw [hBe, List.getElem?_take] at hse
    rw [if_pos hidq] at hse
    exact hse
  have hval : w_lazy_value (overlay_unapply p) f = w_lazy_value p f :=
    w_lazy_value_local p (overlay_unapply p) f (by rw [hB]) (by rw [hB]) (by rw [hB])
      (by rw [hB]) (congrArg VProps.tag (hvp _ e1)) (congrArg VProps.tag (hvp _ e2))
      (congrArg EProps.shared hep)
  rw [hval, hep]
  exact h f hfp

theorem retarget_eq (p : FamilyPlanner σ) (pdef : ProblemDefinition) :
    retarget p pdef = { p with
      g := (retarget p pdef).g
      family_effort_model := (retarget p pdef).family_effort_model } := by
  unfold retarget
  split
  · have hd := foldl_preserves
      (only_properties_differ
        ({ p with family_effort_model := p.set_target p.family_effort_model pdef.si } :
          FamilyPlanner σ))
      calculate_w_lazy (only_properties_differ_calculate_w_lazy _)
      ({ p with family_effort_model := p.set_target p.family_effort_model pdef.si } :
          FamilyPlanner σ).g.edge_list _ (only_properties_differ_refl _)
    have h1 := hd.1
    generalize List.foldl calculate_w_lazy
      ({ p with family_effort_model := p.set_target p.family_effort_model pdef.si } :
          FamilyPlanner σ)
      ({ p with family_effort_model := p.set_target p.family_effort_model pdef.si } :
          FamilyPlanner σ).g.edge_list = r at h1 ⊢
    rw [h1]
  · rfl

theorem applied_like_retarget (a p : FamilyPlanner σ) (pdef : ProblemDefinition)
    (h : applied_like a p) : applied_like a (retarget p pdef) := by
  obtain ⟨h1, h2, h3, h4, h5⟩ := h
  obtain ⟨r1, r2, r3, _⟩ := retarget_frame p pdef
  have e3 : (retarget p pdef).ov_start = p.ov_start := by rw [retarget_eq]
  have e4 : (retarget p pdef).ov_goal = p.ov_goal := by rw [retarget_eq]
  exact ⟨r3.trans h1, r2.trans h2, e3.trans h3, e4.trans h4, r1.trans h5⟩

/-- `setProblemDefinition` leaves a prepared planner whose weights are all
current, when it starts from a planner that is not applied or is prepared,
and retargets the model or finds every weight current. -/
theorem w_lazy_current_setProblemDefinition (fresh : OverVProps) (p : FamilyPlanner σ)
    (pdef : ProblemDefinition)
    (hp : (p.overlay_manager = ⟨false, [], []⟩ ∧ p.g.closed = true) ∨ prepared p)
    (hV : p.g.vertices.length ≤ null_vertex)
    (hw : p.family_effort_model.si_target = none ∨ w_lazy_current p) :
    prepared (setProblemDefinition_from fresh p pdef)
    ∧ w_lazy_current (setProblemDefinition_from fresh p pdef) := by
  have hR := w_lazy_current_retarget p pdef
    (hw.imp (fun h => by rw [h]; exact Option.noConfusion) id)
  have hB : w_lazy_current (overlay_unapply (retarget p pdef))
      ∧ (overlay_unapply (retarget p pdef)).g.closed = true
      ∧ (p.overlay_manager.is_applied = false → p.overlay_manager = ⟨false, [], []⟩) := by
    rcases hp with ⟨hm, hc⟩ | ⟨q, hq, hl⟩
    · have hmR : (retarget p pdef).overlay_manager = ⟨false, [], []⟩ := by
        rw [(retarget_frame p pdef).2.1, hm]
      have hid : overlay_unapply (retarget p pdef) = retarget p pdef := by
        unfold overlay_unapply
        rw [if_pos (by rw [hmR])]
      rw [hid]
      exact ⟨hR, closed_of_skeleton _ _ (retarget_frame p pdef).1 hc, fun _ => hm⟩
    · have hl2 := applied_like_retarget _ p pdef hl
      obtain ⟨_, _, _, _, hBr, _⟩ := prepared_unapply q _ hq hl2
      refine ⟨w_lazy_current_unapply q _ hq hl2 hR, hBr.2.1, ?_⟩
      intro hna
      have hK := (ready_apply q hq).1
      have : p.overlay_manager.is_applied = true := by
        rw [hl.2.1]; exact hK.1
      rw [this] at hna
      exact Bool.noConfusion hna
  obtain ⟨hBw, hBc, hm⟩ := hB
  obtain ⟨hr, _, _, hgr⟩ := overlay_ready_populate fresh p pdef hm hV hBc
  have hQ : w_lazy_current (populate_overlay_from fresh p pdef) := by
    apply w_lazy_current_of_same (overlay_unapply (retarget p pdef)) _ hgr
      (by rw [populate_overlay_from_eq]) (by rw [populate_overlay_from_eq])
      (by rw [populate_overlay_from_eq]) (by rw [populate_overlay_from_eq]) hBw
  exact ⟨⟨_, hr, applied_like_refl _⟩, w_lazy_current_apply _ hr hQ⟩

theorem extends_only_keeps_closed (gen : RoadmapGen σ) (h : gen.extends_only) :
    gen.keeps_closed :=
  fun st g n ops st2 hc hg => (h st g n ops st2 hc hg).1

theorem index_set_eprop (g : Graph) (e : Edge) (x : EProps) (hx : x.index = (g.eprop e).index)
    (i : Nat) :
    ((g.set_eprop e x).edges.getD i ⟨0, 0, EProps.init⟩).props.index
      = (g.edges.getD i ⟨0, 0, EProps.init⟩).props.index := by
  show ((g.set_eprop e x).eprop ⟨0, 0, i⟩).index = (g.eprop ⟨0, 0, i⟩).index
  by_cases hi : i = e.id
  · by_cases hlt : e.id < g.edges.length
    · rw [eprop_set_eprop_same g e ⟨0, 0, i⟩ x hi hlt, hx]
      unfold Graph.eprop
      rw [hi]
    · have : g.set_eprop e x = g := by
        unfold Graph.set_eprop
        rw [List.modify_eq_self (by omega)]
      rw [this]
  · rw [eprop_set_eprop_other g e ⟨0, 0, i⟩ x hi]

/-- An edge added by the generator has its position as index. -/
theorem apply_gen_op_index (n0 : Nat) (g : Graph) (op : GenOp)
    (h : ∀ i, n0 ≤ i → i < g.edges.length →
      (g.edges.getD i ⟨0, 0, EProps.init⟩).props.index = i) :
    ∀ i, n0 ≤ i → i < (apply_gen_op g op).edges.length →
      ((apply_gen_op g op).edges.getD i ⟨0, 0, EProps.init⟩).props.index = i := by
  have hlen : ∀ (e : Edge) (x : EProps), (g.set_eprop e x).edges.length = g.edges.length :=
    fun e x => edges_length_of_skeleton _ _ (skeleton_set_eprop g e x)
  cases op with
  | add_vertex => exact h
  | add_edge u v =>
    intro i h0 hi
    have hi2 : i < g.edges.length + 1 := by
      simpa [apply_gen_op, Graph.add_edge] using hi
    show ((g.edges ++ [_]).getD i _).props.index = i
    by_cases hlt : i < g.edges.length
    · rw [List.getD_eq_getElem?_getD, List.getElem?_append_left hlt,
        ← List.getD_eq_getElem?_getD]
      exact h i h0 hlt
    · have : i = g.edges.length := by omega
      subst this
      simp [List.getD_eq_getElem?_getD]
  | put_state v s => exact h
  | put_distance e d =>
    intro i h0 hi
    have hx := index_set_eprop g e { g.eprop e with distance := d } rfl i
    exact hx.trans (h i h0 (by rw [← hlen e { g.eprop e with distance := d }]; exact hi))
  | put_vertex_subgraph v k => exact h
  | put_edge_subgraph e k =>
    intro i h0 hi
    have hx := index_set_eprop g e { g.eprop e with subgraph := k } rfl i
    exact hx.trans (h i h0 (by rw [← hlen e { g.eprop e with subgraph := k }]; exact hi))
  | put_is_shadow v b => exact h

theorem apply_gen_ops_index (n0 : Nat) (ops : List GenOp) :
    ∀ g : Graph,
      (∀ i, n0 ≤ i → i < g.edges.length →
        (g.edges.getD i ⟨0, 0, EProps.init⟩).props.index = i) →
      ∀ i, n0 ≤ i → i < (ops.foldl apply_gen_op g).edges.length →
        ((ops.foldl apply_gen_op g).edges.getD i ⟨0, 0, EProps.init⟩).props.index = i := by
  induction ops with
  | nil => intro g h; exact h
  | cons op ops ih =>
    intro g h
    exact ih _ (apply_gen_op_index n0 g op h)

theorem eq_of_mem_edge_list (g : Graph) (e f : Edge) (he : e ∈ g.edge_list)
    (hf : f ∈ g.edge_list) (hid : e.id = f.id) : e = f := by
  obtain ⟨se, hse, e1, e2⟩ := (mem_edge_list g e).1 he
  obtain ⟨sf, hsf, f1, f2⟩ := (mem_edge_list g f).1 hf
  rw [hid, hsf] at hse
  simp only [Option.some.injEq] at hse
  subst hse
  cases e; cases f
  simp_all

theorem skeleton_init_new_edge (n : Nat) (q : FamilyPlanner σ) (e : Edge) :
    (init_new_edge n q e).g.skeleton = q.g.skeleton :=
  (only_properties_differ_init_new_edge n q q e (only_properties_differ_refl q)).2

/-- The loop `initialize NEW edges` leaves an edge current when it was
current before or is in the list with an index the loop does not skip. -/
theorem foldl_init_new_edge_current (n : Nat) (f : Edge) (es : List Edge) :
    ∀ q : FamilyPlanner σ, f ∈ q.g.edge_list → (∀ e' ∈ es, e' ∈ q.g.edge_list) →
      ((q.g.eprop f).w_lazy = w_lazy_value q f
        ∨ ((∃ e' ∈ es, e'.id = f.id) ∧ n ≤ (q.g.eprop f).index)) →
      ((es.foldl (init_new_edge n) q).g.eprop f).w_lazy
        = w_lazy_value (es.foldl (init_new_edge n) q) f := by
  induction es with
  | nil =>
    intro q _ _ h
    rcases h with h | ⟨⟨e', he', _⟩, _⟩
    · exact h
    · exact absurd he' (List.not_mem_nil _)
  | cons e' es ih =>
    intro q hf hes h
    simp only [List.foldl_cons]
    have hsk := skeleton_init_new_edge n q e'
    apply ih
    · exact mem_edge_list_of_skeleton _ _ hsk f hf
    · intro e'' he''
      exact mem_edge_list_of_skeleton _ _ hsk e'' (hes e'' (List.mem_cons_of_mem _ he''))
    · have he'q := hes e' (List.mem_cons_self _ _)
      by_cases hskip : (q.g.eprop e').index < n
      · have hq : init_new_edge n q e' = q := by
          unfold init_new_edge
          rw [if_pos hskip]
        rw [hq]
        rcases h with h | ⟨⟨e'', he'', hid2⟩, hn⟩
        · exact Or.inl h
        · right
          refine ⟨?_, hn⟩
          rcases List.mem_cons.1 he'' with h1 | h1
          · exfalso
            rw [h1] at hid2
            have : (q.g.eprop e').index = (q.g.eprop f).index := by
              unfold Graph.eprop; rw [hid2]
            omega
          · exact ⟨e'', h1, hid2⟩
      · have hq : init_new_edge n q e' = calculate_w_lazy (init_edge q e') e' := by
          unfold init_new_edge
          rw [if_neg hskip]
        rw [hq]
        by_cases hid : e'.id = f.id
        · left
          have hef : e' = f := eq_of_mem_edge_list _ _ _ he'q hf hid
          subst hef
          have hlen : e'.id < (init_edge q e').g.edges.length := by
            have hl : (init_edge q e').g.edges.length = q.g.edges.length :=
              edges_length_of_skeleton _ _
                (only_properties_differ_init_edge q q e' (only_properties_differ_refl q)).2
            rw [hl]
            exact mem_edge_list_id _ _ hf
          rw [w_lazy_after_calculate _ _ hlen,
            w_lazy_value_congr (init_edge q e') _ e' (unweighted_calculate_w_lazy _ _)]
        · have hep : (calculate_w_lazy (init_edge q e') e').g.eprop f = q.g.eprop f := by
            show ((init_edge q e').g.set_eprop e' _).eprop f = _
            rw [eprop_set_eprop_other _ e' f _ (Ne.symm hid)]
            show (q.g.set_eprop e' _).eprop f = _
            rw [eprop_set_eprop_other _ e' f _ (Ne.symm hid)]
          have hvp : ∀ v, (calculate_w_lazy (init_edge q e') e').g.vprop v = q.g.vprop v :=
            fun v => rfl
          have hval : w_lazy_value (calculate_w_lazy (init_edge q e') e') f
              = w_lazy_value q f :=
            w_lazy_value_local q _ f rfl rfl rfl rfl (congrArg VProps.tag (hvp _))
              (congrArg VProps.tag (hvp _)) (congrArg EProps.shared hep)
          rcases h with h | ⟨⟨e'', he'', hid2⟩, hn⟩
          · left
            rw [hval, hep]
            exact h
          · right
            rw [hep]
            refine ⟨?_, hn⟩
            rcases List.mem_cons.1 he'' with h1 | h1
            · rw [h1] at hid2; exact absurd hid2 hid
            · exact ⟨e'', h1, hid2⟩

theorem extended_eprop (g g2 : Graph) (h : g.extended_by g2) (e : Edge)
    (hlt : e.id < g.edges.length) : g2.eprop e = g.eprop e := by
  have h3 := h.2.2
  generalize g.edges.length = n at h3 hlt
  unfold Graph.eprop
  rw [← h3, getD_take _ _ _ _ hlt]

theorem extended_vprop (g g2 : Graph) (h : g.extended_by g2) (v : Nat)
    (hlt : v < g.vertices.length) : g2.vprop v = g.vprop v := by
  have h2 := h.2.1
  generalize g.vertices.length = n at h2 hlt
  unfold Graph.vprop
  rw [← h2, getD_take _ _ _ _ hlt]

theorem extended_mem_edge_list (g g2 : Graph) (h : g.extended_by g2) (f : Edge)
    (hf : f ∈ g2.edge_list) (hlt : f.id < g.edges.length) : f ∈ g.edge_list := by
  have h3 := h.2.2
  rw [mem_edge_list] at hf ⊢
  obtain ⟨se, hse, h1, h2⟩ := hf
  refine ⟨se, ?_, h1, h2⟩
  generalize g.edges.length = n at h3 hlt
  rw [← h3, List.getElem?_take, if_pos hlt]
  exact hse

theorem overlay_ready_grown (B p4 : FamilyPlanner σ) (hBr : overlay_ready B)
    (h1 : p4.overlay_manager = B.overlay_manager) (h2 : p4.og = B.og)
    (h3 : p4.ov_start = B.ov_start) (h4 : p4.ov_goal = B.ov_goal)
    (hcl : p4.g.closed = true) (hV : B.g.vertices.length ≤ p4.g.vertices.length) :
    overlay_ready p4 := by
  obtain ⟨i1, i2, i3, i4⟩ := hBr
  refine ⟨?_, hcl, ?_, ?_⟩
  · unfold roots_ready
    rw [h1, h2, h3, h4]
    exact i1
  · intro vo hvo hlt
    rw [h2] at hlt ⊢
    exact Nat.lt_of_lt_of_le (i3 vo hvo hlt) hV
  · intro eo heo
    rw [h2] at heo ⊢
    exact i4 eo heo

/-- The densification step of `solve` keeps every weight current, when the
generator only adds to the graph: the edges it added get their weight in
the loop over the new edges, the others keep theirs. -/
theorem w_lazy_current_densify (q p : FamilyPlanner σ) (hq : overlay_ready q)
    (hl : applied_like (overlay_apply q) p) (h : w_lazy_current p)
    (hgen : p.roadmap_gen.extends_only) :
    w_lazy_current (densify p).2 ∧ ((densify p).1 = true → prepared (densify p).2) := by
  obtain ⟨hB, hBv, hBe, hBsk, hBr, hBs⟩ := prepared_unapply q p hq hl
  have hBw := w_lazy_current_unapply q p hq hl h
  have hgenB : (overlay_unapply p).roadmap_gen = p.roadmap_gen := (overlay_unapply_gen p).1
  constructor
  · cases hg : (overlay_unapply p).roadmap_gen.generate (overlay_unapply p).roadmap_gen_state
        (overlay_unapply p).g ((overlay_unapply p).num_subgraphs + 1) with
    | none =>
      have hd : (densify p).1 = false := by simp only [densify, hg]
      rw [densify_of_throw p hd]
      exact w_lazy_current_of_same (overlay_unapply p) _ rfl rfl rfl rfl rfl hBw
    | some r =>
      obtain ⟨ops, st⟩ := r
      rw [densify_of_generate p ops st hg]
      have hext : (overlay_unapply p).g.extended_by
          (ops.foldl apply_gen_op (overlay_unapply p).g) := by
        rw [hgenB] at hg
        exact hgen _ _ _ _ _ hBr.2.1 hg
      have hd := foldl_preserves
        (only_properties_differ ({ overlay_unapply p with
            num_subgraphs := (overlay_unapply p).num_subgraphs + 1
            g := ops.foldl apply_gen_op (overlay_unapply p).g
            roadmap_gen_state := st } : FamilyPlanner σ))
        (init_new_edge (overlay_unapply p).g.edges.length)
        (only_properties_differ_init_new_edge _ _)
        (ops.foldl apply_gen_op (overlay_unapply p).g).edge_list _
        (only_properties_differ_refl _)
      have hidx := apply_gen_ops_index (overlay_unapply p).g.edges.length ops
        (overlay_unapply p).g (fun i h0 hi => absurd hi (by omega))
      have hcur : ∀ f ∈ (ops.foldl apply_gen_op (overlay_unapply p).g).edge_list,
          ((List.foldl (init_new_edge (overlay_unapply p).g.edges.length)
            ({ overlay_unapply p with
              num_subgraphs := (overlay_unapply p).num_subgraphs + 1
              g := ops.foldl apply_gen_op (overlay_unapply p).g
              roadmap_gen_state := st } : FamilyPlanner σ)
            (ops.foldl apply_gen_op (overlay_unapply p).g).edge_list).g.eprop f).w_lazy
          = w_lazy_value (List.foldl (init_new_edge (overlay_unapply p).g.edges.length)
            ({ overlay_unapply p with
              num_subgraphs := (overlay_unapply p).num_subgraphs + 1
              g := ops.foldl apply_gen_op (overlay_unapply p).g
              roadmap_gen_state := st } : FamilyPlanner σ)
            (ops.foldl apply_gen_op (overlay_unapply p).g).edge_list) f := by
        intro f hf
        apply foldl_init_new_edge_current _ f _ _ hf (fun e' he' => he')
        by_cases hlt : f.id < (overlay_unapply p).g.edges.length
        · left
          have hfB := extended_mem_edge_list _ _ hext f hf hlt
          obtain ⟨e1, e2⟩ := mem_edge_list_closed _ hBr.2.1 f hfB
          have hep := extended_eprop _ _ hext f hlt
          have hval : w_lazy_value ({ overlay_unapply p with
              num_subgraphs := (overlay_unapply p).num_subgraphs + 1
              g := ops.foldl apply_gen_op (overlay_unapply p).g
              roadmap_gen_state := st } : FamilyPlanner σ) f
              = w_lazy_value (overlay_unapply p) f :=
            w_lazy_value_local (overlay_unapply p) _ f rfl rfl rfl rfl
              (congrArg VProps.tag (extended_vprop _ _ hext _ e1))
              (congrArg VProps.tag (extended_vprop _ _ hext _ e2))
              (congrArg EProps.shared hep)
          rw [hval]
          show ((ops.foldl apply_gen_op (overlay_unapply p).g).eprop f).w_lazy = _
          rw [hep]
          exact hBw f hfB
        · right
          refine ⟨⟨f, hf, rfl⟩, ?_⟩
          have := hidx f.id (by omega) (mem_edge_list_id _ _ hf)
          show (overlay_unapply p).g.edges.length
            ≤ ((ops.foldl apply_gen_op (overlay_unapply p).g).edges.getD f.id
                ⟨0, 0, EProps.init⟩).props.index
          rw [this]
          omega
      generalize (List.foldl (init_new_edge (overlay_unapply p).g.edges.length)
        ({ overlay_unapply p with
            num_subgraphs := (overlay_unapply p).num_subgraphs + 1
            g := ops.foldl apply_gen_op (overlay_unapply p).g
            roadmap_gen_state := st } : FamilyPlanner σ)
        (ops.foldl apply_gen_op (overlay_unapply p).g).edge_list) = p4 at hd hcur
      obtain ⟨hd1, hd2⟩ := hd
      have hsk4 : p4.g.skeleton
          = (ops.foldl apply_gen_op (overlay_unapply p).g).skeleton := hd2
      show w_lazy_current (overlay_apply p4)
      apply w_lazy_current_apply
      · apply overlay_ready_grown (overlay_unapply p) p4 hBr (by rw [hd1]) (by rw [hd1])
          (by rw [hd1]) (by rw [hd1]) (closed_of_skeleton _ _ hsk4 hext.1)
        rw [vertices_length_of_skeleton _ _ hsk4]
        exact apply_gen_ops_vertices_le ops _
      · intro f hf
        exact hcur f (mem_edge_list_of_skeleton _ _ hsk4.symm f hf)
  · intro hd
    obtain ⟨q2, hq2, he, _⟩ :=
      (densify_prepared q p hq hl (extends_only_keeps_closed _ hgen)).1 hd
    exact ⟨q2, hq2, by rw [he]; exact applied_like_refl _⟩

theorem extended_by_refl (g : Graph) (hc : g.closed = true) : g.extended_by g :=
  ⟨hc, List.take_length _, List.take_length _⟩

theorem extended_by_add_vertex (g g2 : Graph) (h : g.extended_by g2) :
    g.extended_by g2.add_vertex.1 := by
  obtain ⟨h1, h2, h3⟩ := h
  have hle : g.vertices.length ≤ g2.vertices.length := by
    have := congrArg List.length h2
    rw [List.length_take] at this
    omega
  refine ⟨closed_apply_gen_op g2 .add_vertex h1 (fun u v hc => GenOp.noConfusion hc), ?_, h3⟩
  show (g2.vertices ++ [VProps.init]).take g.vertices.length = g.vertices
  rw [List.take_append_of_le_length hle]
  exact h2

theorem extended_by_set_vprop (g g2 : Graph) (h : g.extended_by g2) (v : Nat) (x : VProps)
    (hv : g.vertices.length ≤ v) : g.extended_by (g2.set_vprop v x) := by
  obtain ⟨h1, h2, h3⟩ := h
  refine ⟨closed_of_skeleton _ _ (skeleton_set_vprop _ _ _) h1, ?_, h3⟩
  show (g2.vertices.set v x).take g.vertices.length = g.vertices
  generalize g.vertices.length = n at h2 hv
  rw [← h2]
  apply List.ext_getElem?
  intro i
  rw [List.getElem?_take, List.getElem?_take]
  by_cases hi : i < n
  · rw [if_pos hi, if_pos hi, List.getElem?_set_ne (by omega)]
  · rw [if_neg hi, if_neg hi]

theorem extended_by_add_edge (g g2 : Graph) (h : g.extended_by g2) (u v : Nat)
    (hu : u < g2.vertices.length) (hv : v < g2.vertices.length) :
    g.extended_by (g2.add_edge u v).1 := by
  obtain ⟨h1, h2, h3⟩ := h
  have hle : g.edges.length ≤ g2.edges.length := by
    have := congrArg List.length h3
    rw [List.length_take] at this
    omega
  refine ⟨?_, h2, ?_⟩
  · rw [closed_iff_skeleton] at h1 ⊢
    intro pr hpr
    have hsk : (g2.add_edge u v).1.skeleton = (g2.vertices.length, g2.skeleton.2 ++ [(u, v)]) := by
      simp [Graph.skeleton, Graph.add_edge]
    rw [hsk] at hpr ⊢
    rcases List.mem_append.1 hpr with h | h
    · exact h1 pr h
    · rw [List.mem_singleton] at h
      rw [h]
      exact ⟨hu, hv⟩
  · show (g2.edges ++ [_]).take g.edges.length = g.edges
    rw [List.take_append_of_le_length hle]
    exact h3

theorem extended_by_set_eprop (g g2 : Graph) (h : g.extended_by g2) (e : Edge) (x : EProps)
    (he : g.edges.length ≤ e.id) : g.extended_by (g2.set_eprop e x) := by
  obtain ⟨h1, h2, h3⟩ := h
  refine ⟨closed_of_skeleton _ _ (skeleton_set_eprop _ _ _) h1, h2, ?_⟩
  show (g2.edges.modify _ e.id).take g.edges.length = g.edges
  generalize g.edges.length = n at h3 he
  rw [← h3]
  apply List.ext_getElem?
  intro i
  rw [List.getElem?_take, List.getElem?_take]
  by_cases hi : i < n
  · rw [if_pos hi, if_pos hi, List.getElem?_modify_ne _ _ (by omega)]
  · rw [if_neg hi, if_neg hi]

theorem gen_chain_extends_only : gen_chain.extends_only := by
  intro st g n ops st2 hc hg
  by_cases hn : 3 < n
  · have : gen_chain.generate st g n = none := if_pos hn
    rw [this] at hg
    exact Option.noConfusion hg
  · by_cases hs : st < n
    · have : gen_chain.generate st g n = some ([.add_vertex,
          .put_state g.vertices.length [(g.vertices.length : ℚ) / 10],
          .add_vertex, .put_state (g.vertices.length + 1) [((g.vertices.length : ℚ) + 1) / 10],
          .add_edge g.vertices.length (g.vertices.length + 1),
          .put_distance ⟨g.vertices.length, g.vertices.length + 1, g.edges.length⟩ (1/10)], n) := by
        show (if 3 < n then none else if st < n then _ else _) = _
        rw [if_neg hn, if_pos hs]
      rw [this] at hg
      simp only [Option.some.injEq, Prod.mk.injEq] at hg
      rw [← hg.1]
      simp only [List.foldl_cons, List.foldl_nil, apply_gen_op]
      apply extended_by_set_eprop _ _ _ _ _ (Nat.le_refl _)
      apply extended_by_add_edge
      · apply extended_by_set_vprop _ _ _ _ _ (Nat.le_succ _)
        apply extended_by_add_vertex
        apply extended_by_set_vprop _ _ _ _ _ (Nat.le_refl _)
        apply extended_by_add_vertex
        exact extended_by_refl g hc
      · simp [Graph.set_vprop, Graph.add_vertex]
      · simp [Graph.set_vprop, Graph.add_vertex]
    · have : gen_chain.generate st g n = some ([], st) := by
        show (if 3 < n then none else if st < n then _ else _) = _
        rw [if_neg hn, if_neg hs]
      rw [this] at hg
      simp only [Option.some.injEq, Prod.mk.injEq] at hg
      rw [← hg.1]
      exact extended_by_refl g hc

theorem prepared_wmap_get (p : FamilyPlanner σ) (e : Edge) (h : prepared p) :
    prepared (wmap_get p e).2.1 := by
  obtain ⟨q, hq, hl⟩ := h
  exact ⟨q, hq, applied_like_of_differ _ p _ hl (only_properties_differ_wmap_get p e)⟩

theorem wmap_get_gen (p : FamilyPlanner σ) (e : Edge) :
    (wmap_get p e).2.1.roadmap_gen = p.roadmap_gen := by
  rw [(only_properties_differ_wmap_get p e).1]

theorem overlay_apply_gen (p : FamilyPlanner σ) :
    (overlay_apply p).roadmap_gen = p.roadmap_gen := by
  unfold overlay_apply
  split
  · rfl
  · simp only
    rw [(copy_edge_to_core_fold _ _).1, (copy_vertex_to_core_fold _ _).1]

theorem setProblemDefinition_gen (p : FamilyPlanner σ) (pdef : ProblemDefinition) :
    (setProblemDefinition p pdef).roadmap_gen = p.roadmap_gen := by
  show (overlay_apply (populate_overlay_from OverVProps.init p pdef)).roadmap_gen = _
  rw [overlay_apply_gen, populate_overlay_from_eq]
  show (overlay_unapply (retarget p pdef)).roadmap_gen = _
  rw [(overlay_unapply_gen _).1, (retarget_gen p pdef).1]

theorem construct_gen (c : Config σ) :
    ((FamilyPlanner.construct c).getD (FamilyPlanner.blank c)).roadmap_gen = c.roadmap_gen := by
  unfold FamilyPlanner.construct
  split
  · rfl
  · simp only [Option.getD_some]
    rename_i ops st _
    have hd := foldl_preserves
      (only_properties_differ ({ FamilyPlanner.blank c with
          g := ops.foldl apply_gen_op (FamilyPlanner.blank c).g
          roadmap_gen_state := st } : FamilyPlanner σ))
      init_edge (only_properties_differ_init_edge _)
      ({ FamilyPlanner.blank c with
          g := ops.foldl apply_gen_op (FamilyPlanner.blank c).g
          roadmap_gen_state := st } : FamilyPlanner σ).g.edge_list _
      (only_properties_differ_refl _)
    rw [hd.1]
    rfl


/-! ## Double rounding -/

theorem pow2_eq (k : ℤ) : pow2 k = (2 : ℚ) ^ k := by
  unfold pow2
  split
  · rename_i h
    calc (2 : ℚ) ^ k.toNat = (2 : ℚ) ^ ((k.toNat : ℕ) : ℤ) := (zpow_natCast 2 _).symm
      _ = (2 : ℚ) ^ k := by rw [Int.toNat_of_nonneg h]
  · rename_i h
    have h' : 0 ≤ -k := by omega
    calc 1 / (2 : ℚ) ^ (-k).toNat = ((2 : ℚ) ^ (((-k).toNat : ℕ) : ℤ))⁻¹ := by
          rw [zpow_natCast, one_div]
      _ = ((2 : ℚ) ^ (-k))⁻¹ := by rw [Int.toNat_of_nonneg h']
      _ = (2 : ℚ) ^ k := by rw [zpow_neg, inv_inv]

theorem pow2_pos (k : ℤ) : 0 < pow2 k := by
  rw [pow2_eq]; positivity

theorem pow2_add (a b : ℤ) : pow2 (a + b) = pow2 a * pow2 b := by
  rw [pow2_eq, pow2_eq, pow2_eq, zpow_add₀ two_ne_zero]

theorem pow2_le (a b : ℤ) (h : a ≤ b) : pow2 a ≤ pow2 b := by
  rw [pow2_eq, pow2_eq]
  exact (zpow_le_zpow_iff_right₀ (by norm_num)).mpr h

theorem pow2_lt_iff (a b : ℤ) : pow2 a < pow2 b ↔ a < b := by
  rw [pow2_eq, pow2_eq]
  exact zpow_lt_zpow_iff_right₀ (by norm_num)

theorem pow2_natCast (k : ℕ) : pow2 (k : ℤ) = (2 : ℚ) ^ k := by
  rw [pow2_eq, zpow_natCast]

theorem leading_bit_bounds (fuel : Nat) :
    ∀ n : Nat, n < 2 ^ fuel → n ≠ 0 →
      2 ^ leading_bit fuel n ≤ n ∧ n < 2 ^ (leading_bit fuel n + 1) := by
  induction fuel with
  | zero =>
    intro n h h0
    simp at h
    exact absurd h h0
  | succ fuel ih =>
    intro n h h0
    unfold leading_bit
    by_cases h2 : n < 2
    · rw [if_pos h2]
      have : n = 1 := by omega
      subst this
      simp
    · rw [if_neg h2]
      have hlt : n / 2 < 2 ^ fuel := by
        rw [pow_succ] at h
        omega
      have hne : n / 2 ≠ 0 := by omega
      obtain ⟨i1, i2⟩ := ih (n / 2) hlt hne
      rw [pow_succ, pow_succ, pow_succ]
      rw [pow_succ] at i2
      constructor <;> omega

theorem leading_bit_self (n : Nat) (h0 : n ≠ 0) :
    2 ^ leading_bit n n ≤ n ∧ n < 2 ^ (leading_bit n n + 1) :=
  leading_bit_bounds n n (Nat.lt_two_pow n) h0

theorem abs_eq_natAbs_div (x : ℚ) : |x| = (x.num.natAbs : ℚ) / (x.den : ℚ) := by
  have hd : (0 : ℚ) < x.den := by exact_mod_cast x.den_pos
  conv_lhs => rw [← Rat.num_div_den x]
  rw [abs_div, abs_of_pos hd, Nat.cast_natAbs, Int.cast_abs]

/-- The binary exponent brackets the number. -/
theorem binade_bounds (x : ℚ) (hx : x ≠ 0) :
    pow2 (binade x) ≤ |x| ∧ |x| < pow2 (binade x + 1) := by
  have ha0 : x.num.natAbs ≠ 0 := by
    intro h
    exact hx (Rat.zero_of_num_zero (Int.natAbs_eq_zero.1 h))
  obtain ⟨a1, a2⟩ := leading_bit_self _ ha0
  obtain ⟨d1, d2⟩ := leading_bit_self _ x.den_nz
  have hd : (0 : ℚ) < x.den := by exact_mod_cast x.den_pos
  have a1q : (2 : ℚ) ^ leading_bit x.num.natAbs x.num.natAbs ≤ (x.num.natAbs : ℚ) := by
    exact_mod_cast a1
  have a2q : (x.num.natAbs : ℚ) < (2 : ℚ) ^ (leading_bit x.num.natAbs x.num.natAbs + 1) := by
    exact_mod_cast a2
  have d1q : (2 : ℚ) ^ leading_bit x.den x.den ≤ (x.den : ℚ) := by exact_mod_cast d1
  have d2q : (x.den : ℚ) < (2 : ℚ) ^ (leading_bit x.den x.den + 1) := by exact_mod_cast d2
  have hX : |x| * (x.den : ℚ) = (x.num.natAbs : ℚ) := by
    rw [abs_eq_natAbs_div, div_mul_cancel₀ _ hd.ne']
  have hXpos : 0 < |x| := abs_pos.2 hx
  generalize hla : leading_bit x.num.natAbs x.num.natAbs = la at a1q a2q
  generalize hld : leading_bit x.den x.den = ld at d1q d2q
  have hp : ∀ k : ℕ, (0 : ℚ) < (2 : ℚ) ^ k := fun k => by positivity
  unfold binade
  rw [hla, hld]
  by_cases hc : pow2 ((la : ℤ) - (ld : ℤ)) ≤ |x|
  · rw [if_pos hc]
    refine ⟨hc, ?_⟩
    have e : pow2 ((la : ℤ) - (ld : ℤ) + 1) = (2 : ℚ) ^ (la + 1) / (2 : ℚ) ^ ld := by
      rw [pow2_eq, show ((la : ℤ) - (ld : ℤ) + 1) = ((la + 1 : ℕ) : ℤ) - ((ld : ℕ) : ℤ) by
        push_cast; ring, zpow_sub₀ two_ne_zero, zpow_natCast, zpow_natCast]
    rw [e, lt_div_iff₀ (hp ld)]
    calc |x| * (2 : ℚ) ^ ld ≤ |x| * (x.den : ℚ) := by
          apply mul_le_mul_of_nonneg_left d1q hXpos.le
      _ = (x.num.natAbs : ℚ) := hX
      _ < _ := a2q
  · rw [if_neg hc]
    push_neg at hc
    refine ⟨?_, by rw [sub_add_cancel]; exact hc⟩
    have e : pow2 ((la : ℤ) - (ld : ℤ) - 1) = (2 : ℚ) ^ la / (2 : ℚ) ^ (ld + 1) := by
      rw [pow2_eq, show ((la : ℤ) - (ld : ℤ) - 1) = ((la : ℕ) : ℤ) - ((ld + 1 : ℕ) : ℤ) by
        push_cast; ring, zpow_sub₀ two_ne_zero, zpow_natCast, zpow_natCast]
    rw [e, div_le_iff₀ (hp (ld + 1))]
    calc (2 : ℚ) ^ la ≤ (x.num.natAbs : ℚ) := a1q
      _ = |x| * (x.den : ℚ) := hX.symm
      _ ≤ |x| * (2 : ℚ) ^ (ld + 1) := by
          apply mul_le_mul_of_nonneg_left d2q.le hXpos.le

theorem round_half_even_nearest (y : ℚ) (z : ℤ) :
    |((round_half_even y : ℤ) : ℚ) - y| ≤ |(z : ℚ) - y| := by
  have hf : ((⌊y⌋ : ℤ) : ℚ) ≤ y := Int.floor_le y
  have hf1 : y < ((⌊y⌋ : ℤ) : ℚ) + 1 := Int.lt_floor_add_one y
  have hz : (z : ℚ) ≤ ((⌊y⌋ : ℤ) : ℚ) ∨ ((⌊y⌋ : ℤ) : ℚ) + 1 ≤ (z : ℚ) := by
    rcases le_or_lt z ⌊y⌋ with h | h
    · left; exact_mod_cast h
    · right; exact_mod_cast h
  unfold round_half_even
  split_ifs with h1 h2 h3
  · rcases hz with hz | hz
    · rw [abs_of_nonpos (by linarith), abs_of_nonpos (by linarith)]; linarith
    · rw [abs_of_nonpos (by linarith), abs_of_nonneg (by linarith)]; linarith
  · push_cast
    rcases hz with hz | hz
    · rw [abs_of_nonneg (by linarith), abs_of_nonpos (by linarith)]; linarith
    · rw [abs_of_nonneg (by linarith), abs_of_nonneg (by linarith)]; linarith
  · rcases hz with hz | hz
    · rw [abs_of_nonpos (by linarith), abs_of_nonpos (by linarith)]; linarith
    · rw [abs_of_nonpos (by linarith), abs_of_nonneg (by linarith)]; linarith
  · push_cast
    rcases hz with hz | hz
    · rw [abs_of_nonneg (by linarith), abs_of_nonpos (by linarith)]; linarith
    · rw [abs_of_nonneg (by linarith), abs_of_nonneg (by linarith)]; linarith

theorem ulp_pos (x : ℚ) : 0 < ulp x := pow2_pos _

/-- The rounded value is at least as near as any multiple of the spacing. -/
theorem round_double_multiple (x : ℚ) (z : ℤ) :
    |round_double x - x| ≤ |(z : ℚ) * ulp x - x| := by
  have hu := ulp_pos x
  have h := round_half_even_nearest (x / ulp x) z
  have e1 : round_double x - x = (((round_half_even (x / ulp x) : ℤ) : ℚ) - x / ulp x) * ulp x := by
    unfold round_double
    field_simp
  have e2 : (z : ℚ) * ulp x - x = ((z : ℚ) - x / ulp x) * ulp x := by
    field_simp
  rw [e1, e2, abs_mul, abs_mul, abs_of_pos hu]
  exact mul_le_mul_of_nonneg_right h hu.le

/-- A double is a multiple of every power of two up to its own spacing. -/
theorem is_double_multiple (c : ℚ) (hc : is_double c) (j : ℤ)
    (hj : j ≤ max (binade c) (-1022) - 52) : ∃ m : ℤ, c = (m : ℚ) * pow2 j := by
  have hn : (((c / ulp c).num : ℤ) : ℚ) = c / ulp c := (Rat.den_eq_one_iff _).mp hc
  have hu := ulp_pos c
  have hc2 : c = (((c / ulp c).num : ℤ) : ℚ) * ulp c := by
    rw [hn, div_mul_cancel₀ _ hu.ne']
  have hk : 0 ≤ max (binade c) (-1022) - 52 - j := by omega
  have hsplit : ulp c = (((2 : ℤ) ^ (max (binade c) (-1022) - 52 - j).toNat : ℤ) : ℚ) * pow2 j := by
    unfold ulp
    have : max (binade c) (-1022) - 52
        = ((max (binade c) (-1022) - 52 - j).toNat : ℤ) + j := by
      rw [Int.toNat_of_nonneg hk]; ring
    conv_lhs => rw [this]
    rw [pow2_add, pow2_natCast]
    push_cast
    rfl
  obtain ⟨n, hn2⟩ : ∃ n : ℤ, c = (n : ℚ) * ulp c := ⟨_, hc2⟩
  generalize ulp c = u at hn2 hsplit
  generalize (max (binade c) (-1022) - 52 - j).toNat = k at hsplit
  refine ⟨n * (2 : ℤ) ^ k, ?_⟩
  rw [hn2, hsplit]
  push_cast
  ring

theorem round_double_zero : round_double 0 = 0 := by
  simp [round_double, round_half_even]

/-- `round_double x` is at least as near to `x` as any double. -/
theorem round_double_nearest (x c : ℚ) (hc : is_double c) :
    |round_double x - x| ≤ |c - x| := by
  by_cases hx : x = 0
  · subst hx
    rw [round_double_zero]
    simp
  by_cases hU : max (binade x) (-1022) - 52 ≤ max (binade c) (-1022) - 52
  · obtain ⟨m, hm⟩ := is_double_multiple c hc _ hU
    have := round_double_multiple x m
    unfold ulp at this
    rw [← hm] at this
    exact this
  · push_neg at hU
    have he : -1022 < binade x := by omega
    have hce : binade c < binade x := by omega
    have hUe : max (binade x) (-1022) - 52 = binade x - 52 := by omega
    obtain ⟨b1, b2⟩ := binade_bounds x hx
    have hclt : |c| < pow2 (binade x) := by
      by_cases hc0 : c = 0
      · rw [hc0, abs_zero]; exact pow2_pos _
      · exact lt_of_lt_of_le (binade_bounds c hc0).2 (pow2_le _ _ (by omega))
    have hpe : pow2 (binade x) = ((2 ^ 52 : ℤ) : ℚ) * ulp x := by
      unfold ulp
      rw [hUe]
      have : binade x = ((52 : ℕ) : ℤ) + (binade x - 52) := by push_cast; ring
      conv_lhs => rw [this]
      rw [pow2_add, pow2_natCast]
      push_cast
      rfl
    rcases lt_or_gt_of_ne hx with hneg | hpos
    · have h := round_double_multiple x (-(2 ^ 52))
      have e : ((-(2 ^ 52) : ℤ) : ℚ) * ulp x = -pow2 (binade x) := by
        rw [hpe]; push_cast; ring
      rw [e] at h
      rw [abs_of_neg hneg] at b1
      have h2 : |-pow2 (binade x) - x| = -x - pow2 (binade x) := by
        rw [abs_of_nonneg (by linarith)]; ring
      rw [h2] at h
      have h3 : -x - pow2 (binade x) < |c - x| := by
        have := neg_abs_le c
        have := le_abs_self (c - x)
        linarith
      linarith
    · have h := round_double_multiple x (2 ^ 52)
      rw [← hpe] at h
      rw [abs_of_pos hpos] at b1
      have h2 : |pow2 (binade x) - x| = x - pow2 (binade x) := by
        rw [abs_of_nonpos (by linarith)]; ring
      rw [h2] at h
      have h3 : x - pow2 (binade x) < |c - x| := by
        have := le_abs_self c
        have := neg_abs_le (c - x)
        linarith
      linarith

theorem round_double_le (x c : ℚ) (hc : is_double c) (h : x ≤ c) : round_double x ≤ c := by
  by_contra hgt
  push_neg at hgt
  have hn := round_double_nearest x c hc
  rw [abs_of_nonneg (by linarith), abs_of_nonneg (by linarith)] at hn
  linarith

theorem le_round_double (x c : ℚ) (hc : is_double c) (h : c ≤ x) : c ≤ round_double x := by
  by_contra hlt
  push_neg at hlt
  have hn := round_double_nearest x c hc
  rw [abs_of_nonpos (by linarith), abs_of_nonpos (by linarith)] at hn
  linarith

theorem is_double_zero : is_double 0 := by decide!

/-- Every integer below `2^53` in size is a double. -/
theorem is_double_int (n : ℤ) (h : |n| < 2 ^ 53) : is_double (n : ℚ) := by
  by_cases hn : n = 0
  · subst hn
    simpa using is_double_zero
  have hx : (n : ℚ) ≠ 0 := by exact_mod_cast hn
  obtain ⟨b1, b2⟩ := binade_bounds (n : ℚ) hx
  have h1 : (1 : ℚ) ≤ |(n : ℚ)| := by
    have : (1 : ℤ) ≤ |n| := Int.one_le_abs hn
    exact_mod_cast this
  have h53 : |(n : ℚ)| < pow2 53 := by
    have e : pow2 53 = ((2 ^ 53 : ℤ) : ℚ) := by
      rw [show (53 : ℤ) = ((53 : ℕ) : ℤ) by rfl, pow2_natCast]; push_cast; rfl
    rw [e]
    exact_mod_cast h
  have he0 : 0 ≤ binade (n : ℚ) := by
    have : pow2 0 < pow2 (binade (n : ℚ) + 1) := by
      have e0 : pow2 0 = 1 := by rw [pow2_eq]; simp
      rw [e0]; linarith
    have := (pow2_lt_iff _ _).1 this
    omega
  have he53 : binade (n : ℚ) < 53 := (pow2_lt_iff _ _).1 (lt_of_le_of_lt b1 h53)
  have hmax : max (binade (n : ℚ)) (-1022) - 52 = -(((52 - binade (n : ℚ)).toNat : ℕ) : ℤ) := by
    rw [Int.toNat_of_nonneg (by omega)]
    omega
  have hq : (n : ℚ) / ulp (n : ℚ) = ((n * 2 ^ (52 - binade (n : ℚ)).toNat : ℤ) : ℚ) := by
    unfold ulp
    rw [hmax, pow2_eq, zpow_neg, zpow_natCast]
    push_cast
    rw [div_eq_mul_inv, inv_inv]
  unfold is_double
  rw [hq]
  rfl

/-- Two doubles `0 ≤ L < d` have a quotient of at most `1 - 2^(-53)`, the
largest double below 1. -/
theorem double_ratio_le (L d : ℚ) (hL : is_double L) (hd : is_double d) (h0 : 0 ≤ L)
    (hlt : L < d) : L / d ≤ 1 - 1 / 2 ^ 53 := by
  have hdpos : 0 < d := lt_of_le_of_lt h0 hlt
  obtain ⟨a, ha⟩ := is_double_multiple L hL
    (min (max (binade L) (-1022) - 52) (max (binade d) (-1022) - 52)) (min_le_left _ _)
  obtain ⟨b, hb⟩ := is_double_multiple d hd
    (min (max (binade L) (-1022) - 52) (max (binade d) (-1022) - 52)) (min_le_right _ _)
  have hdlt : d < pow2 (max (binade d) (-1022) - 52 + 53) := by
    have := (binade_bounds d hdpos.ne').2
    rw [abs_of_pos hdpos] at this
    exact lt_of_lt_of_le this (pow2_le _ _ (by omega))
  have hLlt : L < pow2 (max (binade L) (-1022) - 52 + 53) := by
    by_cases hL0 : L = 0
    · rw [hL0]; exact pow2_pos _
    · have := (binade_bounds L hL0).2
      rw [abs_of_nonneg h0] at this
      exact lt_of_lt_of_le this (pow2_le _ _ (by omega))
  have h53 : ∀ k : ℤ, pow2 (k + 53) = pow2 k * 9007199254740992 := by
    intro k
    rw [pow2_add, show (53 : ℤ) = ((53 : ℕ) : ℤ) by rfl, pow2_natCast]
    norm_num
  generalize hj : min (max (binade L) (-1022) - 52) (max (binade d) (-1022) - 52) = j
    at ha hb
  have hP := pow2_pos j
  have hab : a + 1 ≤ b := by
    have : (a : ℚ) < (b : ℚ) := by
      rw [ha, hb] at hlt
      exact lt_of_mul_lt_mul_right hlt hP.le
    have : a < b := by exact_mod_cast this
    omega
  have hdiff : L + pow2 j ≤ d := by
    rw [ha, hb]
    have : ((a : ℚ) + 1) ≤ (b : ℚ) := by exact_mod_cast hab
    nlinarith
  rw [div_le_iff₀ hdpos]
  by_cases hcase : d < pow2 (j + 53)
  · rw [h53] at hcase
    norm_num
    linarith
  · push_neg at hcase
    have hjd : j ≠ max (binade d) (-1022) - 52 := by
      intro he
      rw [← he] at hdlt
      linarith
    have hjL : j = max (binade L) (-1022) - 52 := by
      rcases min_choice (max (binade L) (-1022) - 52) (max (binade d) (-1022) - 52) with h | h
      · rw [← hj, h]
      · exact absurd (by rw [← hj, h]) hjd
    rw [← hjL, h53] at hLlt
    rw [h53] at hcase
    have ha53 : a + 1 ≤ 9007199254740992 := by
      have : (a : ℚ) < 9007199254740992 := by
        rw [ha] at hLlt
        have h2 : (a : ℚ) * pow2 j < 9007199254740992 * pow2 j := by linarith
        exact lt_of_mul_lt_mul_right h2 hP.le
      have : a < 9007199254740992 := by exact_mod_cast this
      omega
    have hLle : L ≤ 9007199254740991 * pow2 j := by
      rw [ha]
      have : (a : ℚ) ≤ 9007199254740991 := by
        have : ((a + 1 : ℤ) : ℚ) ≤ ((9007199254740992 : ℤ) : ℚ) := by exact_mod_cast ha53
        push_cast at this
        linarith
      exact mul_le_mul_of_nonneg_right this hP.le
    norm_num
    linarith

/-- Flooring the rounded value gives the floor of the exact value or one
more. -/
theorem floor_round_double (x : ℚ) (h0 : 0 ≤ x) (hfit : round_double x < 2 ^ 32) :
    ⌊x⌋ ≤ ⌊round_double x⌋ ∧ ⌊round_double x⌋ ≤ ⌊x⌋ + 1 := by
  have h32 : is_double (((2 ^ 32 : ℤ) : ℤ) : ℚ) := is_double_int _ (by norm_num)
  have hx32 : x < 2 ^ 32 := by
    by_contra hge
    push_neg at hge
    have := le_round_double x _ h32 (by push_cast; exact hge)
    push_cast at this
    linarith
  have hf0 : 0 ≤ ⌊x⌋ := Int.floor_nonneg.2 h0
  have hfx : ((⌊x⌋ : ℤ) : ℚ) ≤ x := Int.floor_le x
  have hf32 : ⌊x⌋ < 2 ^ 32 := by
    have : ((⌊x⌋ : ℤ) : ℚ) < ((2 ^ 32 : ℤ) : ℚ) := by push_cast; linarith
    exact_mod_cast this
  have hd1 : is_double ((⌊x⌋ : ℤ) : ℚ) := is_double_int _ (by rw [abs_of_nonneg hf0]; omega)
  have hd2 : is_double ((⌊x⌋ + 1 : ℤ) : ℚ) :=
    is_double_int _ (by rw [abs_of_nonneg (by omega)]; omega)
  constructor
  · exact Int.le_floor.2 (le_round_double x _ hd1 hfx)
  · have h1 : x ≤ ((⌊x⌋ + 1 : ℤ) : ℚ) := by
      push_cast
      exact (Int.lt_floor_add_one x).le
    have h2 := round_double_le x _ hd2 h1
    have h3 : ((⌊round_double x⌋ : ℤ) : ℚ) ≤ ((⌊x⌋ + 1 : ℤ) : ℚ) :=
      le_trans (Int.floor_le _) h2
    exact_mod_cast h3

/-- A double is its own rounding. -/
theorem round_double_of_is_double (x : ℚ) (h : is_double x) : round_double x = x := by
  have := round_double_nearest x x h
  rw [sub_self, abs_zero] at this
  have h2 := abs_nonneg (round_double x - x)
  have h3 : |round_double x - x| = 0 := le_antisymm this h2
  exact sub_eq_zero.1 (abs_eq_zero.1 h3)

/-- A construction that succeeds returns the planner read off with `getD`. -/
theorem construct_getD {σ : Type} (c : Config σ) (h : (FamilyPlanner.construct c).isSome = true) :
    FamilyPlanner.construct c
      = some ((FamilyPlanner.construct c).getD (FamilyPlanner.blank c)) := by
  cases hc : FamilyPlanner.construct c with
  | none => rw [hc] at h; exact absurd h (by simp)
  | some p => rfl

/-! ## Current weights through `solve` -/

/-- An out-edge of a closed graph is an edge of the graph. -/
theorem has_edge_of_mem_out_edges (g : Graph) (hc : g.closed = true) (u : Nat) (e : Edge)
    (h : e ∈ g.out_edges u) : g.has_edge e = true := by
  obtain ⟨se, hse, hends⟩ := ends_of_mem_out_edges g u e h
  obtain ⟨h1, h2⟩ := out_edges_closed g hc u e h
  unfold Graph.has_edge
  rw [hse]
  rcases hends with ⟨a, b⟩ | ⟨a, b⟩ <;> simp [h1, h2, a, b]

/-- Every edge that the walk over the predecessors pushes is an edge of the
closed graph. -/
theorem walk_predecessors_has_edge (g : Graph) (hc : g.closed = true) (pm : List Nat)
    (v_start : Nat) (fuel : Nat) :
    ∀ (v_walk : Nat) (path r : List Edge),
      walk_predecessors g pm v_start fuel v_walk path = .returned r →
      (∀ e ∈ path, g.has_edge e = true) → ∀ e ∈ r, g.has_edge e = true := by
  induction fuel with
  | zero => intro v_walk path r h; simp [walk_predecessors] at h
  | succ fuel ih =>
    intro v_walk path r h hp
    unfold walk_predecessors at h
    split at h
    · cases h; exact hp
    · split at h
      · simp at h
      · rename_i e he
        refine ih _ _ r h ?_
        intro x hx
        rcases List.mem_cons.1 hx with rfl | hx
        · exact has_edge_of_mem_out_edges g hc _ _ (ends_of_edge g _ _ _ he).2.2
        · exact hp x hx

/-- A path of finite weight that the inner search returns on a closed graph
has edges of the graph only. -/
theorem incsp_solve_has_edge (g : Graph) (hc : g.closed = true) (v_start v_goal : Nat)
    (path : List Edge) (w : WithTop ℚ) (r : List Edge)
    (h : lazysp_incsp_dijkstra.solve g v_start v_goal path = .returned (w, r))
    (hw : w ≠ ⊤) : ∀ e ∈ r, g.has_edge e = true := by
  unfold lazysp_incsp_dijkstra.solve at h
  split at h
  · simp at h
  · split at h
    · cases h; exact absurd rfl hw
    · split at h
      · rename_i rev hrev
        cases h
        exact walk_predecessors_has_edge g hc _ _ _ _ _ _ hrev (by simp)
      · simp at h
      · simp at h

/-- The index that the selector's loop holds is an index of the path. -/
theorem LazySpEvalAlt_index (f : Edge → Bool) (path : List Edge) (l : List Nat) :
    ∀ best : Option Nat, (∀ i ∈ l, i < path.length) → (∀ b, best = some b → b < path.length) →
      ∀ b, l.foldl
        (fun (best : Option Nat) i =>
          if f (path.getD i ⟨0, 0, 0⟩) then best
          else
            match best with
            | none => some i
            | some b =>
              if Int.natAbs (2 * (i : ℤ) + 1 - path.length) < Int.natAbs (2 * (b : ℤ) + 1 - path.length)
              then some i else some b) best = some b → b < path.length := by
  induction l with
  | nil => intro best _ hb b h; exact hb b h
  | cons i l ih =>
    intro best hl hb b h
    rw [List.foldl_cons] at h
    refine ih _ (fun j hj => hl j (List.mem_cons_of_mem _ hj)) ?_ b h
    intro c hc
    have hi := hl i (List.mem_cons_self _ _)
    split at hc
    · exact hb c hc
    · split at hc
      · cases hc; exact hi
      · rename_i b0
        split at hc
        · cases hc; exact hi
        · cases hc; exact hb _ rfl

/-- The edge that the selector picks is an edge of the path. -/
theorem LazySpEvalAlt_mem (f : Edge → Bool) (path : List Edge) (e : Edge)
    (h : LazySpEvalAlt f path = some e) : e ∈ path := by
  unfold LazySpEvalAlt at h
  rw [Option.map_eq_some'] at h
  obtain ⟨i, hi, rfl⟩ := h
  have hlt := LazySpEvalAlt_index f path (List.range path.length) none
    (fun i hi => List.mem_range.1 hi) (fun b hb => by cases hb) i hi
  rw [List.getD_eq_getElem _ _ hlt]
  exact List.getElem_mem _

/-- The core graph of a prepared planner is closed. -/
theorem prepared_closed (p : FamilyPlanner σ) (h : prepared p) : p.g.closed = true := by
  obtain ⟨q, hq, hl⟩ := h
  obtain ⟨hK, c0, c1, cr, hV, hsk2, hA, hsame⟩ := ready_apply q hq
  obtain ⟨hr, hc, hanch, hedge⟩ := hq
  refine closed_of_skeleton _ _ hl.2.2.2.2 ?_
  rw [closed_iff_skeleton]
  have hs1 : (overlay_apply q).g.skeleton.1 = q.g.vertices.length + 2 := hV
  rw [hs1, hsk2]
  intro pr hpr
  rcases List.mem_append.1 hpr with hpr | hpr
  · have := (closed_iff_skeleton _).1 hc pr hpr
    have hq1 : q.g.skeleton.1 = q.g.vertices.length := rfl
    rw [hq1] at this
    omega
  · rw [List.mem_map] at hpr
    obtain ⟨eo, heo, rfl⟩ := hpr
    have heo2 := hedge eo (List.mem_range.1 heo)
    have key : ∀ vo, vo < q.og.vertices.length →
        ((overlay_apply q).og.vprop vo).core_vertex < q.g.vertices.length + 2 := by
      intro vo hvo
      by_cases h0 : vo = 0
      · rw [h0, c0]; omega
      · by_cases h1 : vo = 1
        · rw [h1, c1]; omega
        · rw [cr vo (by omega)]
          have := hanch vo (by omega) hvo
          omega
    exact ⟨key _ heo2.1, key _ heo2.2⟩

/-- The lazy search keeps a prepared planner prepared and its weights
current. -/
theorem lazy_shortest_path_current (v_start v_goal : Nat) (fuel : Nat) :
    ∀ (p : FamilyPlanner σ) (epath : List Edge), prepared p → w_lazy_current p →
      prepared (lazy_shortest_path v_start v_goal fuel p epath).planner
      ∧ w_lazy_current (lazy_shortest_path v_start v_goal fuel p epath).planner := by
  induction fuel with
  | zero => intro p epath h1 h2; exact ⟨h1, h2⟩
  | succ fuel ih =>
    intro p epath h1 h2
    unfold lazy_shortest_path
    split
    · exact ⟨h1, h2⟩
    · exact ⟨h1, h2⟩
    · rename_i w path hsolve
      split
      · exact ⟨h1, h2⟩
      · rename_i hw
        split
        · exact ⟨h1, h2⟩
        · split
          · exact ⟨h1, h2⟩
          · rename_i e he
            have hmem := LazySpEvalAlt_mem _ _ _ he
            have hedge := incsp_solve_has_edge p.g (prepared_closed p h1) _ _ _ _ _ hsolve hw
              e hmem
            exact ih _ _ (prepared_wmap_get p e h1) (w_lazy_current_wmap_get p e hedge h2)

/-- The loop of `solve` on a prepared planner with current weights: the
weights are current at the end, and the planner is prepared unless the call
threw. -/
theorem solve_loop_current (fuel : Nat) :
    ∀ (p : FamilyPlanner σ) (epath : List Edge), prepared p → w_lazy_current p →
      p.roadmap_gen.extends_only →
      w_lazy_current (solve_loop fuel p epath).planner
      ∧ (prepared (solve_loop fuel p epath).planner
        ∨ ((solve_loop fuel p epath).planner.overlay_manager = ⟨false, [], []⟩
          ∧ (solve_loop fuel p epath).planner.g.closed = true))
      ∧ ((solve_loop fuel p epath).outcome ≠ .threw → prepared (solve_loop fuel p epath).planner) := by
  induction fuel with
  | zero => intro p epath h1 h2 _; exact ⟨h2, Or.inl h1, fun _ => h1⟩
  | succ fuel ih =>
    intro p epath h1 h2 hgen
    obtain ⟨l1, l2⟩ := lazy_shortest_path_current (p.og.vprop p.ov_start).core_vertex
        (p.og.vprop p.ov_goal).core_vertex (fuel + 1) p epath h1 h2
    have hdiff := only_properties_differ_lazy_shortest_path (p.og.vprop p.ov_start).core_vertex
        (p.og.vprop p.ov_goal).core_vertex (fuel + 1) p epath
    have hg1 : (lazy_shortest_path (p.og.vprop p.ov_start).core_vertex
        (p.og.vprop p.ov_goal).core_vertex (fuel + 1) p epath).planner.roadmap_gen
        = p.roadmap_gen := by rw [hdiff.1]
    unfold solve_loop
    simp only
    split
    · exact ⟨l2, Or.inl l1, fun _ => l1⟩
    · exact ⟨l2, Or.inl l1, fun _ => l1⟩
    · exact ⟨l2, Or.inl l1, fun _ => l1⟩
    · split
      · exact ⟨l2, Or.inl l1, fun _ => l1⟩
      · obtain ⟨q, hq, hl⟩ := l1
        obtain ⟨d1, d2⟩ := w_lazy_current_densify q _ hq hl l2 (by rw [hg1]; exact hgen)
        obtain ⟨dt, df⟩ := densify_prepared q _ hq hl
          (extends_only_keeps_closed _ (by rw [hg1]; exact hgen))
        split
        · rename_i hd
          obtain ⟨q2, _, he, _, hg2, _⟩ := dt hd
          refine ih _ _ (d2 hd) d1 ?_
          rw [he, overlay_apply_gen, hg2, hg1]; exact hgen
        · rename_i hd
          obtain ⟨r1, _⟩ := df (by simpa using hd)
          exact ⟨d1, Or.inr ⟨r1.1.1, r1.2.1⟩, fun h => absurd rfl h⟩

/-- The constructor leaves the overlay manager empty and the effort model
without a target; the core graph is closed when the generator keeps it so. -/
theorem construct_clean (c : Config σ) (p : FamilyPlanner σ)
    (h : FamilyPlanner.construct c = some p) :
    p.overlay_manager = ⟨false, [], []⟩
    ∧ p.family_effort_model.si_target = none
    ∧ (c.roadmap_gen.keeps_closed → p.g.closed = true) := by
  unfold FamilyPlanner.construct at h
  split at h
  · simp at h
  · rename_i ops st hgen
    simp only [Option.some.injEq] at h
    have hd := foldl_preserves
      (only_properties_differ ({ FamilyPlanner.blank c with
          g := ops.foldl apply_gen_op (FamilyPlanner.blank c).g
          roadmap_gen_state := st } : FamilyPlanner σ))
      init_edge (only_properties_differ_init_edge _)
      ({ FamilyPlanner.blank c with
          g := ops.foldl apply_gen_op (FamilyPlanner.blank c).g
          roadmap_gen_state := st } : FamilyPlanner σ).g.edge_list _
      (only_properties_differ_refl _)
    rw [h] at hd
    refine ⟨by rw [hd.1]; rfl, by rw [hd.1]; rfl, ?_⟩
    intro hk
    refine closed_of_skeleton _ _ hd.2 ?_
    exact hk _ _ _ _ _ (by rfl) hgen

/-! ## The calls of `wmap_get` -/

theorem single_pass_cons_evaled (fem : FamilyEffortModel) (t : Tag) (s : State)
    (r : List (Tag × State)) (h : fem.is_evaled t = true) :
    single_pass fem ((t, s) :: r) = single_pass fem r := by
  simp only [single_pass, h, if_true]

theorem single_pass_cons_true (fem : FamilyEffortModel) (t : Tag) (s : State)
    (r : List (Tag × State)) (h : fem.is_evaled t = false)
    (h2 : ( fem.eval_partial t s).1 = true) :
    single_pass fem ((t, s) :: r) = ⟨t, s, true⟩ :: single_pass fem r := by
  simp only [single_pass, h, h2, if_true]
  rfl

theorem single_pass_cons_false (fem : FamilyEffortModel) (t : Tag) (s : State)
    (r : List (Tag × State)) (h : fem.is_evaled t = false)
    (h2 : ( fem.eval_partial t s).1 = false) :
    single_pass fem ((t, s) :: r) = [⟨t, s, false⟩] := by
  simp only [single_pass, h, h2]
  rfl

theorem single_pass_append (fem : FamilyEffortModel) (l1 l2 : List (Tag × State)) :
    single_pass fem (l1 ++ l2)
      = if (single_pass fem l1).all (fun c => c.result) then
          single_pass fem l1 ++ single_pass fem l2
        else single_pass fem l1 := by
  induction l1 with
  | nil => simp [single_pass]
  | cons pt rest ih =>
    obtain ⟨t, s⟩ := pt
    show single_pass fem ((t, s) :: (rest ++ l2)) = _
    cases h1 : fem.is_evaled t with
    | true =>
      rw [single_pass_cons_evaled _ _ _ _ h1, single_pass_cons_evaled _ _ _ _ h1, ih]
    | false =>
      cases h2 : ( fem.eval_partial t s).1 with
      | true =>
        rw [single_pass_cons_true _ _ _ _ h1 h2, single_pass_cons_true _ _ _ _ h1 h2, ih]
        simp only [List.all_cons, Bool.true_and]
        split <;> rfl
      | false =>
        rw [single_pass_cons_false _ _ _ _ h1 h2, single_pass_cons_false _ _ _ _ h1 h2]
        simp

theorem check_tag_single_pass (fem : FamilyEffortModel) (t : Tag) (s : State) :
    (check_tag fem t s).2.1 = single_pass fem [(t, s)]
    ∧ (check_tag fem t s).2.2 = (single_pass fem [(t, s)]).all (fun c => c.result) := by
  unfold check_tag
  simp only [single_pass]
  by_cases h1 : fem.is_evaled t = true
  · simp [h1]
  · simp only [h1]
    by_cases h2 : ( fem.eval_partial t s).1 = true
    · simp [h2]
    · simp at h2
      simp [h2]

theorem range_succ_map {α : Type} (n : Nat) (f : Nat → α) :
    (List.range (n + 1)).map f = f 0 :: (List.range n).map (fun i => f (i + 1)) := by
  rw [List.range_succ_eq_map, List.map_cons, List.map_map]
  rfl

theorem check_edge_tags_cons (fem : FamilyEffortModel) (states : List State) (ui : Nat)
    (t : Tag) (ts : List Tag) :
    check_edge_tags fem states ui (t :: ts)
      = if (check_tag fem t (states.getD ui [])).2.2 then
          ((check_tag fem t (states.getD ui [])).1 :: (check_edge_tags fem states (ui + 1) ts).1,
            (check_tag fem t (states.getD ui [])).2.1
              ++ (check_edge_tags fem states (ui + 1) ts).2.1,
            (check_edge_tags fem states (ui + 1) ts).2.2)
        else
          ((check_tag fem t (states.getD ui [])).1 :: ts,
            (check_tag fem t (states.getD ui [])).2.1, false) := rfl

theorem check_edge_tags_single_pass (fem : FamilyEffortModel) (states : List State)
    (tags : List Tag) :
    ∀ ui, (check_edge_tags fem states ui tags).2.1
        = single_pass fem ((List.range tags.length).map (fun i =>
            (tags.getD i 0, states.getD (ui + i) [])))
      ∧ (check_edge_tags fem states ui tags).2.2
        = (single_pass fem ((List.range tags.length).map (fun i =>
            (tags.getD i 0, states.getD (ui + i) [])))).all (fun c => c.result) := by
  induction tags with
  | nil => intro ui; simp [check_edge_tags, single_pass]
  | cons t ts ih =>
    intro ui
    obtain ⟨c1, c2⟩ := check_tag_single_pass fem t (states.getD ui [])
    obtain ⟨i1, i2⟩ := ih (ui + 1)
    have hpts : (List.range (t :: ts).length).map (fun i =>
          ((t :: ts).getD i 0, states.getD (ui + i) []))
        = [(t, states.getD ui [])] ++ (List.range ts.length).map (fun i =>
          (ts.getD i 0, states.getD (ui + 1 + i) [])) := by
      rw [List.length_cons, range_succ_map]
      simp only [List.getD_cons_zero, Nat.add_zero, List.getD_cons_succ, List.singleton_append,
        List.cons.injEq, true_and]
      apply List.map_congr_left
      intro i _
      rw [Nat.add_assoc, Nat.add_comm 1]
    rw [check_edge_tags_cons, hpts, single_pass_append, ← c2, ← c1]
    cases hgo : (check_tag fem t (states.getD ui [])).2.2 with
    | true =>
      simp only [if_true]
      refine ⟨by rw [i1], ?_⟩
      rw [List.all_append, c1, ← c2, hgo, Bool.true_and, ← i2]
    | false =>
      simp only [Bool.false_eq_true, if_false, true_and]
      rw [c1, ← c2, hgo]

theorem check_vertex_single_pass (fem : FamilyEffortModel) (g : Graph) (v : Nat) :
    (check_vertex fem g v).2.1 = single_pass fem [((g.vprop v).tag, (g.vprop v).state)]
    ∧ (check_vertex fem g v).2.2
      = (single_pass fem [((g.vprop v).tag, (g.vprop v).state)]).all (fun c => c.result) :=
  check_tag_single_pass fem _ _

/-- The calls of the block of `wmap_get` are those of one pass over the
points of the edge. -/
theorem check_edge_single_pass (fem : FamilyEffortModel) (g : Graph) (e : Edge) :
    (check_edge fem g e).2 = single_pass fem (edge_points fem g e) := by
  obtain ⟨a1, a2⟩ := check_vertex_single_pass fem g e.src
  obtain ⟨b1, b2⟩ := check_vertex_single_pass fem (check_vertex fem g e.src).1 e.tgt
  obtain ⟨c1, c2⟩ := check_edge_tags_single_pass fem
    ((check_vertex fem (check_vertex fem g e.src).1 e.tgt).1.eprop e).edge_states
    ((check_vertex fem (check_vertex fem g e.src).1 e.tgt).1.eprop e).edge_tags 0
  have hpts : edge_points fem g e
      = [((g.vprop e.src).tag, (g.vprop e.src).state)]
        ++ ([(((check_vertex fem g e.src).1.vprop e.tgt).tag,
              ((check_vertex fem g e.src).1.vprop e.tgt).state)]
          ++ (List.range (g.eprop e).edge_tags.length).map (fun ui =>
              ((g.eprop e).edge_tags.getD ui 0, (g.eprop e).edge_states.getD ui []))) := rfl
  rw [hpts, single_pass_append, single_pass_append, ← a2, ← a1, ← b2, ← b1]
  simp only [Nat.zero_add] at c1
  have hc : (check_interior fem (check_vertex fem (check_vertex fem g e.src).1 e.tgt).1 e).2.1
      = single_pass fem ((List.range (g.eprop e).edge_tags.length).map (fun ui =>
              ((g.eprop e).edge_tags.getD ui 0, (g.eprop e).edge_states.getD ui []))) := c1
  rw [← hc]
  unfold check_edge
  simp only
  cases ha : (check_vertex fem g e.src).2.2 with
  | false => simp
  | true =>
    cases hb : (check_vertex fem (check_vertex fem g e.src).1 e.tgt).2.2 with
    | false => simp
    | true => simp [List.append_assoc]

theorem single_pass_undecided (fem : FamilyEffortModel) (l : List (Tag × State)) :
    ∀ c ∈ single_pass fem l,
      fem.is_evaled c.tag = false ∧ c.result = ( fem.eval_partial c.tag c.state).1 := by
  induction l with
  | nil => intro c hc; simp [single_pass] at hc
  | cons pt rest ih =>
    obtain ⟨t, s⟩ := pt
    intro c hc
    cases h1 : fem.is_evaled t with
    | true =>
      rw [single_pass_cons_evaled _ _ _ _ h1] at hc
      exact ih c hc
    | false =>
      cases h2 : ( fem.eval_partial t s).1 with
      | true =>
        rw [single_pass_cons_true _ _ _ _ h1 h2, List.mem_cons] at hc
        rcases hc with rfl | hc
        · exact ⟨h1, h2.symm⟩
        · exact ih c hc
      | false =>
        rw [single_pass_cons_false _ _ _ _ h1 h2, List.mem_singleton] at hc
        subst hc
        exact ⟨h1, h2.symm⟩

theorem single_pass_sublist (fem : FamilyEffortModel) (l : List (Tag × State)) :
    ((single_pass fem l).map (fun c => (c.tag, c.state))).Sublist l := by
  induction l with
  | nil => simp [single_pass]
  | cons pt rest ih =>
    obtain ⟨t, s⟩ := pt
    cases h1 : fem.is_evaled t with
    | true =>
      rw [single_pass_cons_evaled _ _ _ _ h1]
      exact ih.cons _
    | false =>
      cases h2 : ( fem.eval_partial t s).1 with
      | true =>
        rw [single_pass_cons_true _ _ _ _ h1 h2, List.map_cons]
        exact ih.cons₂ _
      | false =>
        rw [single_pass_cons_false _ _ _ _ h1 h2, List.map_cons, List.map_nil]
        exact (List.nil_sublist _).cons₂ _

/-- In one pass a call that returned false is the last call. -/
theorem single_pass_stops (fem : FamilyEffortModel) (l : List (Tag × State)) :
    ∀ (l1 : List EvalCall) (c : EvalCall) (l2 : List EvalCall),
      single_pass fem l = l1 ++ c :: l2 → c.result = false → l2 = [] := by
  induction l with
  | nil =>
    intro l1 c l2 h
    simp [single_pass] at h
  | cons pt rest ih =>
    obtain ⟨t, s⟩ := pt
    intro l1 c l2 h hc
    cases h1 : fem.is_evaled t with
    | true =>
      rw [single_pass_cons_evaled _ _ _ _ h1] at h
      exact ih l1 c l2 h hc
    | false =>
      cases h2 : ( fem.eval_partial t s).1 with
      | true =>
        rw [single_pass_cons_true _ _ _ _ h1 h2] at h
        cases l1 with
        | nil =>
          simp only [List.nil_append, List.cons.injEq] at h
          rw [← h.1] at hc
          exact absurd hc (by simp)
        | cons d l1 =>
          simp only [List.cons_append, List.cons.injEq] at h
          exact ih l1 c l2 h.2 hc
      | false =>
        rw [single_pass_cons_false _ _ _ _ h1 h2] at h
        cases l1 with
        | nil =>
          simp only [List.nil_append, List.cons.injEq] at h
          exact h.2.symm
        | cons d l1 =>
          simp only [List.cons_append, List.cons.injEq] at h
          have := h.2
          simp at this

/-- When no call of a pass returned false, every point whose tag was not
decided got its call. -/
theorem single_pass_complete (fem : FamilyEffortModel) (l : List (Tag × State))
    (hok : ∀ c ∈ single_pass fem l, c.result = true) :
    ∀ pt ∈ l, fem.is_evaled pt.1 = false → ⟨pt.1, pt.2, true⟩ ∈ single_pass fem l := by
  induction l with
  | nil => intro pt hpt; simp at hpt
  | cons q rest ih =>
    obtain ⟨t, s⟩ := q
    intro pt hpt hun
    cases h1 : fem.is_evaled t with
    | true =>
      rw [single_pass_cons_evaled _ _ _ _ h1] at hok ⊢
      rcases List.mem_cons.1 hpt with rfl | hmem
      · rw [h1] at hun; exact absurd hun (by simp)
      · exact ih hok pt hmem hun
    | false =>
      cases h2 : ( fem.eval_partial t s).1 with
      | true =>
        rw [single_pass_cons_true _ _ _ _ h1 h2] at hok ⊢
        rcases List.mem_cons.1 hpt with rfl | hmem
        · exact List.mem_cons_self _ _
        · exact List.mem_cons_of_mem _
            (ih (fun c hc => hok c (List.mem_cons_of_mem _ hc)) pt hmem hun)
      | false =>
        rw [single_pass_cons_false _ _ _ _ h1 h2] at hok
        have := hok _ (List.mem_singleton_self _)
        simp at this

/-! ## The claims -/

/-- C2: `isevaledmap_get` looks at the interior tags only.  On the edge of
`g_short`, which has no interior point and whose two end points are both
undecided, it answers `true`. -/
theorem isevaledmap_get_ignores_endpoints :
    (ex_planner fem_pass g_short).g.has_edge ⟨0, 1, 0⟩ = true
    ∧ isevaledmap_get (ex_planner fem_pass g_short) ⟨0, 1, 0⟩ = true
    ∧ fem_pass.is_evaled ((ex_planner fem_pass g_short).g.vprop 0).tag = false
    ∧ fem_pass.is_evaled ((ex_planner fem_pass g_short).g.vprop 1).tag = false := by
  decide

/-- C3: for an edge of the graph with as many interior states as interior
tags, `calculate_w_lazy` leaves `w_lazy = +infinity` whenever `x_hat` is
infinite for the source tag, the target tag or some interior tag. -/
theorem calculate_w_lazy_infinite (p : FamilyPlanner σ) (e : Edge)
    (he : p.g.has_edge e = true)
    (hlen : (p.g.eprop e).edge_states.length = (p.g.eprop e).edge_tags.length)
    (hinf : p.family_effort_model.x_hat (p.g.vprop e.src).tag = ⊤
      ∨ p.family_effort_model.x_hat (p.g.vprop e.tgt).tag = ⊤
      ∨ ∃ t ∈ (p.g.eprop e).edge_tags, p.family_effort_model.x_hat t = ⊤) :
    ((calculate_w_lazy p e).g.eprop e).w_lazy = ⊤ := by
  rw [w_lazy_after_calculate p e (has_edge_id _ _ he)]
  exact w_lazy_value_top p e hlen hinf

theorem calculate_w_lazy_infinite_witness :
    ((calculate_w_lazy (ex_planner fem_wall g_blocked) ⟨0, 1, 0⟩).g.eprop ⟨0, 1, 0⟩).w_lazy = ⊤ :=
  calculate_w_lazy_infinite (ex_planner fem_wall g_blocked) ⟨0, 1, 0⟩ (by decide) (by decide)
    (Or.inr (Or.inl (by decide)))

/-- C4: for an edge of the graph none of whose end point or interior tags
has an infinite `x_hat`, `calculate_w_lazy` sets `w_lazy` to
`coeff_distance*distance + coeff_subgraph*distance*subgraph +
coeff_checkcost*(sum of p_hat over the interior tags + p_hat(source tag)/2 +
p_hat(target tag)/2)`.  The edge has at most as many interior states as
interior tags, as every edge of the planner has: the two lists have the same
length at all times (`bookkeeping`). -/
theorem calculate_w_lazy_finite (p : FamilyPlanner σ) (e : Edge)
    (he : p.g.has_edge e = true)
    (hlen : (p.g.eprop e).edge_states.length ≤ (p.g.eprop e).edge_tags.length)
    (hs : p.family_effort_model.x_hat (p.g.vprop e.src).tag ≠ ⊤)
    (ht : p.family_effort_model.x_hat (p.g.vprop e.tgt).tag ≠ ⊤)
    (hi : ∀ t ∈ (p.g.eprop e).edge_tags, p.family_effort_model.x_hat t ≠ ⊤) :
    ((calculate_w_lazy p e).g.eprop e).w_lazy =
      ((p.coeff_distance * (p.g.eprop e).distance
        + p.coeff_subgraph * (p.g.eprop e).distance * (p.g.eprop e).subgraph
        + p.coeff_checkcost *
            (((p.g.eprop e).edge_tags.map p.family_effort_model.p_hat).sum
              + (1/2) * p.family_effort_model.p_hat (p.g.vprop e.src).tag
              + (1/2) * p.family_effort_model.p_hat (p.g.vprop e.tgt).tag) : ℚ) : WithTop ℚ) := by
  rw [w_lazy_after_calculate p e (has_edge_id _ _ he)]
  unfold w_lazy_value
  have hno : ¬ (first_inf p.family_effort_model (p.g.eprop e).edge_tags
      < (p.g.eprop e).edge_states.length) := by
    intro hlt
    have := (first_inf_lt_iff _ _).1 (Nat.lt_of_lt_of_le hlt hlen)
    obtain ⟨t, ht1, ht2⟩ := this
    exact hi t ht1 ht2
  rw [if_neg (by tauto), w_lazy_sum_eq]

theorem calculate_w_lazy_finite_witness :
    ((calculate_w_lazy (ex_planner fem_wall g_long) ⟨0, 1, 0⟩).g.eprop ⟨0, 1, 0⟩).w_lazy =
      (((ex_planner fem_wall g_long).coeff_distance
          * ((ex_planner fem_wall g_long).g.eprop ⟨0, 1, 0⟩).distance
        + (ex_planner fem_wall g_long).coeff_subgraph
          * ((ex_planner fem_wall g_long).g.eprop ⟨0, 1, 0⟩).distance
          * ((ex_planner fem_wall g_long).g.eprop ⟨0, 1, 0⟩).subgraph
        + (ex_planner fem_wall g_long).coeff_checkcost *
            ((((ex_planner fem_wall g_long).g.eprop ⟨0, 1, 0⟩).edge_tags.map
                (ex_planner fem_wall g_long).family_effort_model.p_hat).sum
              + (1/2) * (ex_planner fem_wall g_long).family_effort_model.p_hat
                  (((ex_planner fem_wall g_long).g.vprop 0).tag)
              + (1/2) * (ex_planner fem_wall g_long).family_effort_model.p_hat
                  (((ex_planner fem_wall g_long).g.vprop 1).tag)) : ℚ) : WithTop ℚ) :=
  calculate_w_lazy_finite (ex_planner fem_wall g_long) ⟨0, 1, 0⟩ (by decide) (by decide)
    (by decide) (by decide) (by decide)

/-- C5 (amended): `wmap_get(e)` on an edge of the graph makes one pass over
the points of `e`: the source, the target, then the interior points in stored
order.  Its calls of `eval_partial` are exactly those of `single_pass`: a
point whose tag is decided gets no call, any other point gets one call on its
tag and state (so at most one call per point, at most `2 + |edge_tags|` in
all, in the order of the points, each on an undecided tag, and the logged
result is what `eval_partial` returned), and the first call that returns
false is the last call made.  When no call returned false every point with an
undecided tag was called; if moreover a passing call always yields a decided
tag, `is_evaled` holds afterwards for both end point tags and every interior
tag of the edge. -/
theorem wmap_get_single_step (p : FamilyPlanner σ) (e : Edge) (he : p.g.has_edge e = true) :
    (wmap_get p e).2.2
      = single_pass p.family_effort_model (edge_points p.family_effort_model p.g e)
    ∧ (e.src ≠ e.tgt → edge_points p.family_effort_model p.g e
        = ((p.g.vprop e.src).tag, (p.g.vprop e.src).state)
          :: ((p.g.vprop e.tgt).tag, (p.g.vprop e.tgt).state)
          :: (List.range (p.g.eprop e).edge_tags.length).map (fun ui =>
              ((p.g.eprop e).edge_tags.getD ui 0, (p.g.eprop e).edge_states.getD ui [])))
    ∧ ((wmap_get p e).2.2.map (fun c => (c.tag, c.state))).Sublist
        (edge_points p.family_effort_model p.g e)
    ∧ (wmap_get p e).2.2.length ≤ 2 + (p.g.eprop e).edge_tags.length
    ∧ (∀ c ∈ (wmap_get p e).2.2,
        p.family_effort_model.is_evaled c.tag = false
        ∧ c.result = ( p.family_effort_model.eval_partial c.tag c.state).1)
    ∧ (∀ (l1 : List EvalCall) (c : EvalCall) (l2 : List EvalCall),
        (wmap_get p e).2.2 = l1 ++ c :: l2 → c.result = false → l2 = [])
    ∧ ((∀ c ∈ (wmap_get p e).2.2, c.result = true) →
        ∀ pt ∈ edge_points p.family_effort_model p.g e,
          p.family_effort_model.is_evaled pt.1 = false →
          (⟨pt.1, pt.2, true⟩ : EvalCall) ∈ (wmap_get p e).2.2)
    ∧ ((∀ t s, p.family_effort_model.is_evaled t = false →
          ( p.family_effort_model.eval_partial t s).1 = true →
          p.family_effort_model.is_evaled ( p.family_effort_model.eval_partial t s).2 = true) →
        (∀ c ∈ (wmap_get p e).2.2, c.result = true) →
        p.family_effort_model.is_evaled ((wmap_get p e).2.1.g.vprop e.src).tag = true
        ∧ p.family_effort_model.is_evaled ((wmap_get p e).2.1.g.vprop e.tgt).tag = true
        ∧ ∀ t ∈ ((wmap_get p e).2.1.g.eprop e).edge_tags,
            p.family_effort_model.is_evaled t = true) := by
  have hlog : (wmap_get p e).2.2
      = single_pass p.family_effort_model (edge_points p.family_effort_model p.g e) :=
    check_edge_single_pass p.family_effort_model p.g e
  refine ⟨hlog, ?_, ?_, check_edge_calls_length _ _ _, ?_, ?_, ?_, ?_⟩
  · intro hne
    unfold edge_points
    rw [check_vertex_other _ _ _ _ (Ne.symm hne)]
  · rw [hlog]; exact single_pass_sublist _ _
  · rw [hlog]; exact single_pass_undecided _ _
  · rw [hlog]; exact single_pass_stops _ _
  · rw [hlog]; exact single_pass_complete _ _
  · intro hone hok
    have hu := wmap_get_unweighted p e he
    have ht := check_edge_true p.family_effort_model p.g e he hone hok
    refine ⟨?_, ?_, ?_⟩
    · rw [vprop_unweighted _ _ hu]; exact ht.1
    · rw [vprop_unweighted _ _ hu]; exact ht.2.1
    · rw [(eprop_unweighted _ _ hu e).1]; exact ht.2.2

theorem wmap_get_single_step_witness :
    (wmap_get (ex_planner fem_pass g_long) ⟨0, 1, 0⟩).2.2
        = [⟨0, [0], true⟩, ⟨0, [1], true⟩, ⟨0, [1/2], true⟩]
    ∧ (wmap_get (ex_planner fem_never g_long) ⟨0, 1, 0⟩).2.2 = [⟨0, [0], false⟩]
    ∧ edge_points fem_never (ex_planner fem_never g_long).g ⟨0, 1, 0⟩
        = [(0, [0]), (0, [1]), (0, [1/2])]
    ∧ (wmap_get (ex_planner fem_never g_long) ⟨0, 1, 0⟩).2.2
        = single_pass fem_never (edge_points fem_never (ex_planner fem_never g_long).g ⟨0, 1, 0⟩)
    ∧ fem_pass.is_evaled ((wmap_get (ex_planner fem_pass g_long) ⟨0, 1, 0⟩).2.1.g.vprop 0).tag = true
    ∧ fem_pass.is_evaled ((wmap_get (ex_planner fem_pass g_long) ⟨0, 1, 0⟩).2.1.g.vprop 1).tag = true
    ∧ ∀ t ∈ ((wmap_get (ex_planner fem_pass g_long) ⟨0, 1, 0⟩).2.1.g.eprop ⟨0, 1, 0⟩).edge_tags,
        fem_pass.is_evaled t = true :=
  ⟨by decide!, by decide!, by decide!,
    (wmap_get_single_step (ex_planner fem_never g_long) ⟨0, 1, 0⟩ (by decide)).1,
    (wmap_get_single_step (ex_planner fem_pass g_long) ⟨0, 1, 0⟩ (by decide)).2.2.2.2.2.2.2
      (fun _ _ _ _ => rfl) (by decide!)⟩

/-- C5, as stated, fails when a tag needs two evaluations: with `fem_two`
on the edge of `g_short`, `wmap_get` calls `eval_partial` once for each end
point, both calls return true, and afterwards neither end point tag is
decided. -/
theorem wmap_get_leaves_undecided :
    (ex_planner fem_two g_short).g.has_edge ⟨0, 1, 0⟩ = true
    ∧ (wmap_get (ex_planner fem_two g_short) ⟨0, 1, 0⟩).2.2
        = [⟨0, [0], true⟩, ⟨0, [1/2], true⟩]
    ∧ fem_two.is_evaled
        ((wmap_get (ex_planner fem_two g_short) ⟨0, 1, 0⟩).2.1.g.vprop 0).tag = false
    ∧ fem_two.is_evaled
        ((wmap_get (ex_planner fem_two g_short) ⟨0, 1, 0⟩).2.1.g.vprop 1).tag = false := by
  decide!

/-- C6: for an edge of the graph with as many interior states as interior
tags, and an effort model in which a failed `eval_partial` leaves a tag with
infinite `x_hat`: `wmap_get` returns the weight `calculate_w_lazy` computes
from the tags as they are after the checks, that weight is what `g[e].w_lazy`
holds afterwards, and when one of its `eval_partial` calls returned false
both are `+infinity`. -/
theorem wmap_get_weight (p : FamilyPlanner σ) (e : Edge) (he : p.g.has_edge e = true)
    (hlen : (p.g.eprop e).edge_states.length = (p.g.eprop e).edge_tags.length)
    (hfalse : ∀ t s, ( p.family_effort_model.eval_partial t s).1 = false →
      p.family_effort_model.x_hat ( p.family_effort_model.eval_partial t s).2 = ⊤) :
    (wmap_get p e).1 = w_lazy_value (wmap_get_checks p e).1 e
    ∧ ((wmap_get p e).2.1.g.eprop e).w_lazy = (wmap_get p e).1
    ∧ ((∃ c ∈ (wmap_get p e).2.2, c.result = false) →
        (wmap_get p e).1 = ⊤ ∧ ((wmap_get p e).2.1.g.eprop e).w_lazy = ⊤) := by
  have h1 := wmap_get_fst p e he
  refine ⟨h1, rfl, ?_⟩
  intro hcall
  have hf := check_edge_frame p.family_effort_model p.g e he
  have hinf := check_edge_false p.family_effort_model p.g e he hfalse hcall
  have htop : w_lazy_value (wmap_get_checks p e).1 e = ⊤ := by
    apply w_lazy_value_top
    · show ((check_edge p.family_effort_model p.g e).1.eprop e).edge_states.length
        = ((check_edge p.family_effort_model p.g e).1.eprop e).edge_tags.length
      rw [hf.2.1, hf.2.2, hlen]
    · exact hinf
  rw [h1, htop]
  exact ⟨rfl, h1.trans htop⟩

theorem wmap_get_weight_witness :
    (wmap_get (ex_planner fem_wall g_long) ⟨0, 1, 0⟩).1
      = w_lazy_value (wmap_get_checks (ex_planner fem_wall g_long) ⟨0, 1, 0⟩).1 ⟨0, 1, 0⟩
    ∧ ((wmap_get (ex_planner fem_wall g_long) ⟨0, 1, 0⟩).2.1.g.eprop ⟨0, 1, 0⟩).w_lazy
      = (wmap_get (ex_planner fem_wall g_long) ⟨0, 1, 0⟩).1
    ∧ (⟨0, [1], false⟩ : EvalCall) ∈ (wmap_get (ex_planner fem_wall g_long) ⟨0, 1, 0⟩).2.2
    ∧ (wmap_get (ex_planner fem_wall g_long) ⟨0, 1, 0⟩).1 = ⊤
    ∧ ((wmap_get (ex_planner fem_wall g_long) ⟨0, 1, 0⟩).2.1.g.eprop ⟨0, 1, 0⟩).w_lazy = ⊤ :=
  have h := wmap_get_weight (ex_planner fem_wall g_long) ⟨0, 1, 0⟩ (by decide) (by decide)
    (by
      intro t s h
      have hdef : (ex_planner fem_wall g_long).family_effort_model.eval_partial t s
          = if s.headD 0 < 1 then (true, 1) else (false, 2) := rfl
      by_cases hlt : s.headD 0 < 1
      · rw [hdef, if_pos hlt] at h
        exact Bool.noConfusion h
      · rw [hdef, if_neg hlt]
        rfl)
  have hmem : (⟨0, [1], false⟩ : EvalCall)
      ∈ (wmap_get (ex_planner fem_wall g_long) ⟨0, 1, 0⟩).2.2 := by decide!
  ⟨h.1, h.2.1, hmem, h.2.2 ⟨_, hmem, rfl⟩⟩

/-- C7: every call of `eval_partial` that `wmap_get` makes is on a tag value
for which `is_evaled` is false. -/
theorem wmap_get_calls_undecided (p : FamilyPlanner σ) (e : Edge) :
    ∀ c ∈ (wmap_get p e).2.2, p.family_effort_model.is_evaled c.tag = false :=
  check_edge_calls p.family_effort_model p.g e


theorem wmap_get_calls_undecided_witness :
    (⟨0, [0], true⟩ : EvalCall) ∈ (wmap_get (ex_planner fem_two g_short) ⟨0, 1, 0⟩).2.2
    ∧ fem_two.is_evaled (EvalCall.tag ⟨0, [0], true⟩) = false :=
  ⟨by decide!,
    wmap_get_calls_undecided (ex_planner fem_two g_short) ⟨0, 1, 0⟩ ⟨0, [0], true⟩ (by decide!)⟩

/-- C9 (amended): with a positive check radius equal to half the longest
valid segment length, and a double quotient `q = L / (2.0*check_radius)` (the
exact quotient rounded to the nearest double) below `2^32`,
`edge_init_points` on an edge of length `L >= 0` leaves exactly `floor(q)`
interior states.  That number is `floor(L / (2*check_radius))` or one more;
it is `floor(L / (2*check_radius))` whenever the division does not round up,
in particular when it is exact; and there is no interior state when the
doubles `L` and `2*check_radius` satisfy `L < 2*check_radius`. -/
theorem edge_init_points_count (p : FamilyPlanner σ) (a b : State) (L : ℚ)
    (hrad : p.check_radius = (1/2) * p.space.longest_valid_segment_length)
    (hr : 0 < p.check_radius) (hL : 0 ≤ L)
    (hfit : round_double (L / (2 * p.check_radius)) < 2 ^ 32) :
    2 * p.check_radius = p.space.longest_valid_segment_length
    ∧ ((edge_init_points p a b L).length : ℤ) = ⌊round_double (L / (2 * p.check_radius))⌋
    ∧ ⌊L / (2 * p.check_radius)⌋ ≤ ((edge_init_points p a b L).length : ℤ)
    ∧ ((edge_init_points p a b L).length : ℤ) ≤ ⌊L / (2 * p.check_radius)⌋ + 1
    ∧ (round_double (L / (2 * p.check_radius)) ≤ L / (2 * p.check_radius) →
        ((edge_init_points p a b L).length : ℤ) = ⌊L / (2 * p.check_radius)⌋)
    ∧ (is_double (L / (2 * p.check_radius)) →
        ((edge_init_points p a b L).length : ℤ) = ⌊L / (2 * p.check_radius)⌋)
    ∧ (is_double L → is_double (2 * p.check_radius) → L < 2 * p.check_radius →
        edge_init_points p a b L = []) := by
  have h2 : 0 < 2 * p.check_radius := by linarith
  have hx : 0 ≤ L / (2 * p.check_radius) := div_nonneg hL h2.le
  have hrd0 : 0 ≤ round_double (L / (2 * p.check_radius)) :=
    le_round_double _ 0 is_double_zero hx
  have hf0 : 0 ≤ ⌊round_double (L / (2 * p.check_radius))⌋ := Int.floor_nonneg.2 hrd0
  have hf32 : ⌊round_double (L / (2 * p.check_radius))⌋ < 2 ^ 32 := by
    have : ((⌊round_double (L / (2 * p.check_radius))⌋ : ℤ) : ℚ) < ((2 ^ 32 : ℤ) : ℚ) := by
      push_cast
      exact lt_of_le_of_lt (Int.floor_le _) hfit
    exact_mod_cast this
  have hlen : ((edge_init_points p a b L).length : ℤ)
      = ⌊round_double (L / (2 * p.check_radius))⌋ := by
    rw [edge_init_points_length_eq, num_interior_eq, Nat.mod_eq_of_lt (by omega),
      Int.toNat_of_nonneg hf0]
  obtain ⟨fl1, fl2⟩ := floor_round_double _ hx hfit
  have hdown : round_double (L / (2 * p.check_radius)) ≤ L / (2 * p.check_radius) →
      ((edge_init_points p a b L).length : ℤ) = ⌊L / (2 * p.check_radius)⌋ := by
    intro hle
    rw [hlen]
    exact le_antisymm (Int.floor_mono hle) fl1
  refine ⟨by rw [hrad]; ring, hlen, by rw [hlen]; exact fl1, by rw [hlen]; exact fl2, hdown,
    fun hd => hdown (le_of_eq (round_double_of_is_double _ hd)), ?_⟩
  intro hdL hdr hlt
  have hratio := double_ratio_le L _ hdL hdr hL hlt
  have hone : is_double (1 - 1 / 2 ^ 53) := by decide!
  have hle := round_double_le _ _ hone hratio
  have hz : ⌊round_double (L / (2 * p.check_radius))⌋ = 0 := by
    rw [Int.floor_eq_zero_iff]
    refine ⟨hrd0, lt_of_le_of_lt hle (by norm_num)⟩
  have hlen0 : (edge_init_points p a b L).length = 0 := by
    have := hlen
    rw [hz] at this
    exact_mod_cast this
  exact List.length_eq_zero.1 hlen0

theorem edge_init_points_count_witness :
    (edge_init_points (ex_planner fem_pass g_long) [0] [1] (7/2)).length = 3
    ∧ ⌊(7/2 : ℚ) / (2 * (ex_planner fem_pass g_long).check_radius)⌋ = 3
    ∧ ((edge_init_points (ex_planner fem_pass g_long) [0] [1] (7/2)).length : ℤ)
        = ⌊(7/2 : ℚ) / (2 * (ex_planner fem_pass g_long).check_radius)⌋
    ∧ edge_init_points (ex_planner fem_pass g_long) [0] [1] (1/2) = [] :=
  ⟨by decide!, by decide!,
    (edge_init_points_count (ex_planner fem_pass g_long) [0] [1] (7/2) (by decide!) (by decide!)
      (by decide!) (by decide!)).2.2.2.2.2.1 (by decide!),
    (edge_init_points_count (ex_planner fem_pass g_long) [0] [1] (1/2) (by decide!) (by decide!)
      (by decide!) (by decide!)).2.2.2.2.2.2 (by decide!) (by decide!) (by decide!)⟩

/-- C9, as stated, fails where the division rounds up to an integer: with
the longest valid segment length the double nearest to 0.1 (so that
`2*check_radius` is that double, a little above 1/10) and the edge length
`L = 1`, the exact quotient is below 10 and its floor is 9, but the double
quotient is 10 and `edge_init_points` leaves 10 interior states. -/
theorem edge_init_points_rounds_up :
    round_double (1/10) = ex_planner_tenth.space.longest_valid_segment_length
    ∧ ex_planner_tenth.check_radius
        = (1/2) * ex_planner_tenth.space.longest_valid_segment_length
    ∧ 0 < ex_planner_tenth.check_radius
    ∧ is_double ex_planner_tenth.check_radius
    ∧ is_double (2 * ex_planner_tenth.check_radius)
    ∧ is_double (1 : ℚ)
    ∧ (1 : ℚ) / (2 * ex_planner_tenth.check_radius) < 10
    ∧ ⌊(1 : ℚ) / (2 * ex_planner_tenth.check_radius)⌋ = 9
    ∧ round_double ((1 : ℚ) / (2 * ex_planner_tenth.check_radius)) = 10
    ∧ (edge_init_points ex_planner_tenth [0] [1] 1).length = 10
    ∧ ((edge_init_points ex_planner_tenth [0] [1] 1).length : ℤ)
        ≠ ⌊(1 : ℚ) / (2 * ex_planner_tenth.check_radius)⌋ := by
  decide!

/-- C10: when the bisection order of `n` interior points is a permutation
of `0..n-1`, `edge_init_points` fills interior state `i` by interpolating
between the end points at `(1 + order[i]) / (n + 1)`; these `n` parameters
are pairwise distinct, lie strictly between 0 and 1, and are a rearrangement
of `k/(n+1)` for `k = 1..n`. -/
theorem edge_init_points_params (p : FamilyPlanner σ) (a b : State) (L : ℚ) (n : Nat)
    (hn : num_interior p L = n)
    (hperm : ((p.bisect_perm n).map Prod.fst).Perm ((List.range n).map (fun k : ℕ => (k : ℤ)))) :
    edge_init_points p a b L
      = (List.range n).map (fun i => p.space.interpolate a b
          (((1 + ((p.bisect_perm n).getD i (0, 0)).1 : ℤ) : ℚ) / ((n : ℚ) + 1)))
    ∧ ((List.range n).map (fun i =>
          ((1 + ((p.bisect_perm n).getD i (0, 0)).1 : ℤ) : ℚ) / ((n : ℚ) + 1))).Nodup
    ∧ (∀ t ∈ (List.range n).map (fun i =>
          ((1 + ((p.bisect_perm n).getD i (0, 0)).1 : ℤ) : ℚ) / ((n : ℚ) + 1)), 0 < t ∧ t < 1)
    ∧ ((List.range n).map (fun i =>
          ((1 + ((p.bisect_perm n).getD i (0, 0)).1 : ℤ) : ℚ) / ((n : ℚ) + 1))).Perm
        ((List.range n).map (fun k : ℕ => ((k : ℚ) + 1) / ((n : ℚ) + 1))) := by
  have hlen : (p.bisect_perm n).length = n := by
    have := hperm.length_eq
    simpa using this
  have hpos : (0 : ℚ) < (n : ℚ) + 1 := by positivity
  have hparams : (List.range n).map (fun i =>
        ((1 + ((p.bisect_perm n).getD i (0, 0)).1 : ℤ) : ℚ) / ((n : ℚ) + 1))
      = (List.range n).map (interior_param (p.bisect_perm n) n) := by
    apply List.map_congr_left
    intro i _
    rw [interior_param_eq]
  have htarget : ((List.range n).map (fun k : ℕ => (k : ℤ))).map
        (fun z : ℤ => ((1 + z : ℤ) : ℚ) / ((n : ℚ) + 1))
      = (List.range n).map (fun k : ℕ => ((k : ℚ) + 1) / ((n : ℚ) + 1)) := by
    rw [List.map_map]
    apply List.map_congr_left
    intro k _
    simp only [Function.comp]
    push_cast
    ring
  have hP : ((List.range n).map (fun i =>
        ((1 + ((p.bisect_perm n).getD i (0, 0)).1 : ℤ) : ℚ) / ((n : ℚ) + 1))).Perm
      ((List.range n).map (fun k : ℕ => ((k : ℚ) + 1) / ((n : ℚ) + 1))) := by
    rw [hparams, interior_params_eq _ _ hlen, ← htarget]
    exact hperm.map _
  have hnd : ((List.range n).map (fun k : ℕ => ((k : ℚ) + 1) / ((n : ℚ) + 1))).Nodup := by
    apply List.Nodup.map _ (List.nodup_range n)
    intro x y hxy
    simp only at hxy
    have h3 : (x : ℚ) + 1 = (y : ℚ) + 1 := by
      have := congrArg (fun q : ℚ => q * ((n : ℚ) + 1)) hxy
      simpa [div_mul_cancel₀ _ hpos.ne'] using this
    exact_mod_cast add_right_cancel h3
  refine ⟨?_, hP.nodup_iff.2 hnd, ?_, hP⟩
  · simp only [edge_init_points, hn]
    apply List.map_congr_left
    intro i _
    rw [interior_param_eq]
  · intro t ht
    have ht' := hP.mem_iff.1 ht
    simp only [List.mem_map, List.mem_range] at ht'
    obtain ⟨k, hk, rfl⟩ := ht'
    have hk' : (k : ℚ) < (n : ℚ) := by exact_mod_cast hk
    constructor
    · positivity
    · rw [div_lt_one hpos]; linarith

theorem edge_init_points_params_witness :
    edge_init_points (ex_planner_bisect g_long) [0] [4] (7/2)
      = (List.range 3).map (fun i => (ex_planner_bisect g_long).space.interpolate [0] [4]
          (((1 + (((ex_planner_bisect g_long).bisect_perm 3).getD i (0, 0)).1 : ℤ) : ℚ)
            / (((3 : ℕ) : ℚ) + 1)))
    ∧ ((List.range 3).map (fun i =>
          ((1 + (((ex_planner_bisect g_long).bisect_perm 3).getD i (0, 0)).1 : ℤ) : ℚ)
            / (((3 : ℕ) : ℚ) + 1))).Nodup
    ∧ (∀ t ∈ (List.range 3).map (fun i =>
          ((1 + (((ex_planner_bisect g_long).bisect_perm 3).getD i (0, 0)).1 : ℤ) : ℚ)
            / (((3 : ℕ) : ℚ) + 1)), 0 < t ∧ t < 1)
    ∧ ((List.range 3).map (fun i =>
          ((1 + (((ex_planner_bisect g_long).bisect_perm 3).getD i (0, 0)).1 : ℤ) : ℚ)
            / (((3 : ℕ) : ℚ) + 1))).Perm
        ((List.range 3).map (fun k : ℕ => ((k : ℚ) + 1) / (((3 : ℕ) : ℚ) + 1))) :=
  edge_init_points_params (ex_planner_bisect g_long) [0] [4] (7/2) 3 (by decide!) (by decide)

/-- C8: edge bookkeeping, `|edge_states| = |edge_tags|` for every core edge
and every overlay edge, holds after the constructor and is preserved by
`setProblemDefinition`, by `solve` (whatever the number of rounds run, and
however the call ends), by its densification step, by `overlay_apply`, by
`overlay_unapply` and by `wmap_get`. -/
theorem bookkeeping_invariant :
    (∀ (c : Config σ) (p : FamilyPlanner σ), FamilyPlanner.construct c = some p → bookkeeping p)
    ∧ (∀ (p : FamilyPlanner σ) (pdef : ProblemDefinition),
        bookkeeping p → bookkeeping (setProblemDefinition p pdef))
    ∧ (∀ (ptc : PlannerTerminationCondition) (fuel : Nat) (p : FamilyPlanner σ),
        bookkeeping p → bookkeeping (solve ptc fuel p).planner)
    ∧ (∀ p : FamilyPlanner σ, bookkeeping p → bookkeeping (densify p).2)
    ∧ (∀ p : FamilyPlanner σ, bookkeeping p → bookkeeping (overlay_apply p))
    ∧ (∀ p : FamilyPlanner σ, bookkeeping p → bookkeeping (overlay_unapply p))
    ∧ (∀ (p : FamilyPlanner σ) (e : Edge), bookkeeping p → bookkeeping (wmap_get p e).2.1) :=
  ⟨bookkeeping_construct, bookkeeping_setProblemDefinition,
    fun _ fuel p h => bookkeeping_solve_loop fuel p [] h, bookkeeping_densify,
    bookkeeping_overlay_apply, bookkeeping_overlay_unapply, bookkeeping_wmap_get⟩

theorem bookkeeping_invariant_witness :
    ((FamilyPlanner.construct (cfg_fine fem_pass)).getD
        (FamilyPlanner.blank (cfg_fine fem_pass))).g.edges.map
        (fun se => (se.props.edge_states, se.props.edge_tags))
      = [([[1/30], [1/15]], [0, 0])]
    ∧ (prepared_fine fem_pass).g.edges.map
        (fun se => (se.props.edge_states.length, se.props.edge_tags.length))
      = [(2, 2), (0, 0), (2, 2), (2, 2), (0, 0)]
    ∧ (overlay_unapply (prepared_fine fem_pass)).og.edges.map
        (fun se => (se.props.edge_states.length, se.props.edge_tags.length))
      = [(0, 0), (2, 2), (2, 2), (0, 0)]
    ∧ (wmap_get (prepared_fine fem_pass) ⟨0, 1, 0⟩).2.1.g.edges.map
        (fun se => (se.props.edge_states.length, se.props.edge_tags))
      = [(2, [1, 1]), (0, []), (2, [0, 0]), (2, [0, 0]), (0, [])]
    ∧ (densify (prepared_fine fem_pass)).2.g.edges.map
        (fun se => (se.props.edge_states.length, se.props.edge_tags.length))
      = [(2, 2), (2, 2), (0, 0), (2, 2), (2, 2), (0, 0)]
    ∧ (solve ptc_never 5 (prepared_fine fem_pass)).planner.g.edges.map
        (fun se => (se.props.edge_states.length, se.props.edge_tags))
      = [(2, [0, 0]), (0, []), (2, [0, 0]), (2, [1, 1]), (0, [])]
    ∧ bookkeeping ((FamilyPlanner.construct (cfg_fine fem_pass)).getD
        (FamilyPlanner.blank (cfg_fine fem_pass)))
    ∧ bookkeeping (prepared_fine fem_pass)
    ∧ bookkeeping (solve ptc_never 5 (prepared_fine fem_pass)).planner
    ∧ bookkeeping (densify (prepared_fine fem_pass)).2
    ∧ bookkeeping (overlay_unapply (prepared_fine fem_pass))
    ∧ bookkeeping (overlay_apply (overlay_unapply (prepared_fine fem_pass)))
    ∧ bookkeeping (wmap_get (prepared_fine fem_pass) ⟨0, 1, 0⟩).2.1 :=
  have h0 : bookkeeping ((FamilyPlanner.construct (cfg_fine fem_pass)).getD
      (FamilyPlanner.blank (cfg_fine fem_pass))) :=
    (@bookkeeping_invariant Nat).1 (cfg_fine fem_pass) _ (construct_getD _ (by decide!))
  have h1 : bookkeeping (prepared_fine fem_pass) :=
    (@bookkeeping_invariant Nat).2.1 _ ⟨1, [0], [1/10]⟩ h0
  have h2 : bookkeeping (overlay_unapply (prepared_fine fem_pass)) :=
    (@bookkeeping_invariant Nat).2.2.2.2.2.1 _ h1
  ⟨by decide!, by decide!, by decide!, by decide!, by decide!, by decide!, h0, h1,
    (@bookkeeping_invariant Nat).2.2.1 ptc_never 5 _ h1,
    (@bookkeeping_invariant Nat).2.2.2.1 _ h1, h2,
    (@bookkeeping_invariant Nat).2.2.2.2.1 _ h2,
    (@bookkeeping_invariant Nat).2.2.2.2.2.2 _ ⟨0, 1, 0⟩ h1⟩

/-- C1: `solve` can return `EXACT_SOLUTION` for a path none of whose end
point tags is decided.  The planner of `prepared_one fem_never` has one
roadmap vertex at 1/20 between the start 0 and the goal 1/10, its two edges
have no interior point, and every check would fail; `solve` returns the path
start, roadmap vertex, goal without a single evaluation. -/
theorem solve_returns_unchecked_path :
    (solve ptc_never 5 (prepared_one fem_never)).outcome
      = .returned (.EXACT_SOLUTION, some [[0], [1/20], [1/10]])
    ∧ (solve ptc_never 5 (prepared_one fem_never)).epath = [⟨1, 0, 0⟩, ⟨0, 2, 1⟩]
    ∧ fem_never.is_evaled ((solve ptc_never 5 (prepared_one fem_never)).planner.g.vprop 1).tag = false
    ∧ fem_never.is_evaled ((solve ptc_never 5 (prepared_one fem_never)).planner.g.vprop 0).tag = false
    ∧ fem_never.is_evaled ((solve ptc_never 5 (prepared_one fem_never)).planner.g.vprop 2).tag = false
    ∧ ( fem_never.eval_partial ((solve ptc_never 5 (prepared_one fem_never)).planner.g.vprop 0).tag
          ((solve ptc_never 5 (prepared_one fem_never)).planner.g.vprop 0).state).1 = false := by
  decide!

/-- C19: when `solve` returns `EXACT_SOLUTION` a solution path is added, and
with the edge path `e_1..e_k` of the lazy search it has exactly `k+1`
states: first the state of the start's core vertex, then at position `i` the
state of the target of `e_i`; so when the last edge ends at the goal's core
vertex the last state is the state stored at the goal's core vertex. -/
theorem solve_solution_path (ptc : PlannerTerminationCondition) (fuel : Nat)
    (p : FamilyPlanner σ) (o : Option (List State))
    (h : (solve ptc fuel p).outcome = .returned (.EXACT_SOLUTION, o)) :
    ∃ path : List State, o = some path
      ∧ path.length = (solve ptc fuel p).epath.length + 1
      ∧ path[0]? = some ((solve ptc fuel p).planner.g.vprop
          ((solve ptc fuel p).planner.og.vprop (solve ptc fuel p).planner.ov_start).core_vertex).state
      ∧ (∀ i, i < (solve ptc fuel p).epath.length →
          path[i + 1]? = some ((solve ptc fuel p).planner.g.vprop
            ((solve ptc fuel p).epath.getD i ⟨0, 0, 0⟩).tgt).state)
      ∧ (∀ e, (solve ptc fuel p).epath.getLast? = some e →
          e.tgt = ((solve ptc fuel p).planner.og.vprop (solve ptc fuel p).planner.ov_goal).core_vertex →
          path.getLast? = some ((solve ptc fuel p).planner.g.vprop
            ((solve ptc fuel p).planner.og.vprop (solve ptc fuel p).planner.ov_goal).core_vertex).state) := by
  refine ⟨_, solve_loop_exact fuel p [] o h, solution_path_length _ _, ?_, ?_, ?_⟩
  · simp [solution_path, solve]
  · intro i hi
    exact solution_path_succ _ _ i hi
  · intro e he ht
    rw [← ht]
    exact solution_path_last _ _ e he

theorem solve_solution_path_witness :
    ∃ path : List State, some [[0], [1/20], [1/10]] = some path
      ∧ path.length = (solve ptc_never 5 (prepared_one fem_never)).epath.length + 1
      ∧ path[0]? = some ((solve ptc_never 5 (prepared_one fem_never)).planner.g.vprop
          ((solve ptc_never 5 (prepared_one fem_never)).planner.og.vprop
            (solve ptc_never 5 (prepared_one fem_never)).planner.ov_start).core_vertex).state
      ∧ (∀ i, i < (solve ptc_never 5 (prepared_one fem_never)).epath.length →
          path[i + 1]? = some ((solve ptc_never 5 (prepared_one fem_never)).planner.g.vprop
            ((solve ptc_never 5 (prepared_one fem_never)).epath.getD i ⟨0, 0, 0⟩).tgt).state)
      ∧ (∀ e, (solve ptc_never 5 (prepared_one fem_never)).epath.getLast? = some e →
          e.tgt = ((solve ptc_never 5 (prepared_one fem_never)).planner.og.vprop
            (solve ptc_never 5 (prepared_one fem_never)).planner.ov_goal).core_vertex →
          path.getLast? = some ((solve ptc_never 5 (prepared_one fem_never)).planner.g.vprop
            ((solve ptc_never 5 (prepared_one fem_never)).planner.og.vprop
              (solve ptc_never 5 (prepared_one fem_never)).planner.ov_goal).core_vertex).state) :=
  solve_solution_path ptc_never 5 (prepared_one fem_never) (some [[0], [1/20], [1/10]])
    (by decide!)

/-- C18: with a non-zero batch cap that is at most `num_subgraphs`, when the
lazy search fails `solve` returns `TIMEOUT` and adds no path; the planner is
left exactly as the lazy search left it (no `generate`, no
`overlay_unapply`), so that only property values of the core graph can
differ from before: same vertices and edges, same overlay and overlay
manager, same `num_subgraphs`, same generator progress.  The same then holds
of a later call of `solve` on the planner so left. -/
theorem solve_at_cap (ptc : PlannerTerminationCondition) (fuel : Nat) (p : FamilyPlanner σ)
    (hcap0 : p.roadmap_gen.num_subgraphs ≠ 0)
    (hcap : p.roadmap_gen.num_subgraphs ≤ p.num_subgraphs)
    (hfail : (lazy_shortest_path (p.og.vprop p.ov_start).core_vertex
      (p.og.vprop p.ov_goal).core_vertex (fuel + 1) p []).outcome = .returned false) :
    (solve ptc (fuel + 1) p).outcome = .returned (.TIMEOUT, none)
    ∧ (solve ptc (fuel + 1) p).planner
      = (lazy_shortest_path (p.og.vprop p.ov_start).core_vertex
          (p.og.vprop p.ov_goal).core_vertex (fuel + 1) p []).planner
    ∧ only_properties_differ p (solve ptc (fuel + 1) p).planner
    ∧ ∀ (ptc2 : PlannerTerminationCondition) (fuel2 : Nat),
        (lazy_shortest_path
          ((solve ptc (fuel + 1) p).planner.og.vprop (solve ptc (fuel + 1) p).planner.ov_start).core_vertex
          ((solve ptc (fuel + 1) p).planner.og.vprop (solve ptc (fuel + 1) p).planner.ov_goal).core_vertex
          (fuel2 + 1) (solve ptc (fuel + 1) p).planner []).outcome = .returned false →
        (solve ptc2 (fuel2 + 1) (solve ptc (fuel + 1) p).planner).outcome
          = .returned (.TIMEOUT, none)
        ∧ only_properties_differ p
            (solve ptc2 (fuel2 + 1) (solve ptc (fuel + 1) p).planner).planner := by
  have h1 := solve_loop_at_cap fuel p [] hcap0 hcap hfail
  have hd : only_properties_differ p (solve ptc (fuel + 1) p).planner := by
    show only_properties_differ p (solve_loop (fuel + 1) p []).planner
    rw [h1.2]
    exact only_properties_differ_lazy_shortest_path _ _ _ _ _
  refine ⟨h1.1, h1.2, hd, ?_⟩
  intro ptc2 fuel2 hfail2
  have hg : (solve ptc (fuel + 1) p).planner.roadmap_gen = p.roadmap_gen := by rw [hd.1]
  have hn : (solve ptc (fuel + 1) p).planner.num_subgraphs = p.num_subgraphs := by rw [hd.1]
  have h2 := solve_loop_at_cap fuel2 (solve ptc (fuel + 1) p).planner []
    (by rw [hg]; exact hcap0) (by rw [hg, hn]; exact hcap) hfail2
  refine ⟨h2.1, ?_⟩
  show only_properties_differ p (solve_loop (fuel2 + 1) (solve ptc (fuel + 1) p).planner []).planner
  rw [h2.2]
  exact only_properties_differ_trans _ _ _ hd (only_properties_differ_lazy_shortest_path _ _ _ _ _)

theorem solve_at_cap_witness :
    (solve ptc_never 5 (prepared_far fem_never)).outcome = .returned (.TIMEOUT, none)
    ∧ only_properties_differ (prepared_far fem_never)
        (solve ptc_never 5 (prepared_far fem_never)).planner :=
  have h := solve_at_cap ptc_never 4 (prepared_far fem_never) (by decide!) (by decide!) (by decide!)
  ⟨h.1, h.2.2.1⟩

/-- C16, as the code has it: `solve` never reads the termination condition,
so its result is the same for every termination condition; when it returns
`TIMEOUT` no path is added and the generator's batch cap is non-zero and at
most `num_subgraphs` (the exit taken after a failed lazy search). -/
theorem solve_timeout_only_at_cap (ptc : PlannerTerminationCondition) (fuel : Nat)
    (p : FamilyPlanner σ) (o : Option (List State))
    (h : (solve ptc fuel p).outcome = .returned (.TIMEOUT, o)) :
    (∀ ptc2 : PlannerTerminationCondition, solve ptc2 fuel p = solve ptc fuel p)
    ∧ o = none
    ∧ (solve ptc fuel p).planner.roadmap_gen.num_subgraphs ≠ 0
    ∧ (solve ptc fuel p).planner.roadmap_gen.num_subgraphs
        ≤ (solve ptc fuel p).planner.num_subgraphs :=
  ⟨fun _ => rfl, solve_loop_timeout fuel p [] o h⟩

theorem solve_timeout_only_at_cap_witness :
    (∀ ptc2 : PlannerTerminationCondition,
        solve ptc2 5 (prepared_far fem_never) = solve ptc_never 5 (prepared_far fem_never))
    ∧ (none : Option (List State)) = none
    ∧ (solve ptc_never 5 (prepared_far fem_never)).planner.roadmap_gen.num_subgraphs ≠ 0
    ∧ (solve ptc_never 5 (prepared_far fem_never)).planner.roadmap_gen.num_subgraphs
        ≤ (solve ptc_never 5 (prepared_far fem_never)).planner.num_subgraphs :=
  solve_timeout_only_at_cap ptc_never 5 (prepared_far fem_never) none (by decide!)

/-- C16 fails: with a termination condition that is tripped from the start,
`solve` on `prepared_one fem_never` returns `EXACT_SOLUTION`, and `solve` on
`prepared_two fem_never` (one batch generated, cap two) requests a further
batch: `num_subgraphs` and the generator's progress go from 1 to 2 and the
roadmap gains a vertex. -/
theorem solve_with_tripped_condition :
    ptc_tripped.call 0 = true
    ∧ (solve ptc_tripped 5 (prepared_one fem_never)).outcome
        = .returned (.EXACT_SOLUTION, some [[0], [1/20], [1/10]])
    ∧ (prepared_two fem_never).num_subgraphs = 1
    ∧ (prepared_two fem_never).roadmap_gen_state = 1
    ∧ (prepared_two fem_never).g.vertices.length = 3
    ∧ (solve ptc_tripped 5 (prepared_two fem_never)).outcome = .returned (.TIMEOUT, none)
    ∧ (solve ptc_tripped 5 (prepared_two fem_never)).planner.num_subgraphs = 2
    ∧ (solve ptc_tripped 5 (prepared_two fem_never)).planner.roadmap_gen_state = 2
    ∧ (solve ptc_tripped 5 (prepared_two fem_never)).planner.g.vertices.length = 4 := by
  decide!

/-- C12: from an applied overlay whose applied vertices and edges exist,
`overlay_unapply` followed by `overlay_apply` applies them again and gives
the re-inserted core vertex of each the state, subgraph, is_shadow and tag,
and the re-inserted core edge of each the distance, subgraph, edge_states
and edge_tags, that its core counterpart had before the unapply (so a tag
changed while applied survives); and from an overlay that is not applied,
`overlay_apply` followed by `overlay_unapply` leaves every overlay vertex as
it was (state, subgraph, is_shadow, tag, and the empty slot) and every
overlay edge's distance, subgraph, edge_states and edge_tags as they were. -/
theorem overlay_round_trip (p q : FamilyPlanner σ)
    (ha : p.overlay_manager.is_applied = true)
    (hv : ∀ vo ∈ p.overlay_manager.applied_vertices, vo < p.og.vertices.length)
    (he : ∀ eo ∈ p.overlay_manager.applied_edges, eo < p.og.edges.length)
    (hq : q.overlay_manager = ⟨false, [], []⟩) :
    (∀ vo ∈ p.overlay_manager.applied_vertices,
      vo ∈ (overlay_apply (overlay_unapply p)).overlay_manager.applied_vertices
      ∧ (overlay_apply (overlay_unapply p)).g.vprop
          ((overlay_apply (overlay_unapply p)).og.vprop vo).core_vertex
        = p.g.vprop (p.og.vprop vo).core_vertex)
    ∧ (∀ eo ∈ p.overlay_manager.applied_edges,
      eo ∈ (overlay_apply (overlay_unapply p)).overlay_manager.applied_edges
      ∧ ((overlay_apply (overlay_unapply p)).g.eprop
          (core_edge_of (overlay_apply (overlay_unapply p)).og eo)).shared
        = (p.g.eprop (core_edge_of p.og eo)).shared)
    ∧ (∀ vo, (overlay_unapply (overlay_apply q)).og.vprop vo = q.og.vprop vo)
    ∧ (∀ eo, ((overlay_unapply (overlay_apply q)).og.eprop eo).shared
        = (q.og.eprop eo).shared) :=
  ⟨fun vo hvo => (unapply_apply_spec p ha).1 vo hvo (hv vo hvo),
    fun eo heo => ⟨((unapply_apply_spec p ha).2 eo heo (he eo heo)).1,
      ((unapply_apply_spec p ha).2 eo heo (he eo heo)).2.1⟩,
    (apply_unapply_spec q hq).2.2.1,
    fun eo => ((apply_unapply_spec q hq).2.2.2 eo).1⟩

theorem overlay_round_trip_witness :
    (∀ vo ∈ (prepared_one fem_never).overlay_manager.applied_vertices,
      vo ∈ (overlay_apply (overlay_unapply (prepared_one fem_never))).overlay_manager.applied_vertices
      ∧ (overlay_apply (overlay_unapply (prepared_one fem_never))).g.vprop
          ((overlay_apply (overlay_unapply (prepared_one fem_never))).og.vprop vo).core_vertex
        = (prepared_one fem_never).g.vprop ((prepared_one fem_never).og.vprop vo).core_vertex)
    ∧ (∀ vo, (overlay_unapply (overlay_apply (overlay_unapply (prepared_one fem_never)))).og.vprop vo
        = (overlay_unapply (prepared_one fem_never)).og.vprop vo) :=
  have h := overlay_round_trip (prepared_one fem_never) (overlay_unapply (prepared_one fem_never))
    (by decide!) (by decide!) (by decide!) (by decide!)
  ⟨h.1, h.2.2.1⟩

/-- C11, as the code has it: from an applied overlay, whatever weight `w`
is written into the core edge of an applied overlay edge, after
`overlay_unapply` followed by `overlay_apply` the re-inserted core edge has
the weight that `calculate_w_lazy` computes from its distance, subgraph and
tags, not `w`; the overlay edge's own `w_lazy` is left as it was by the
unapply. -/
theorem overlay_round_trip_w_lazy (p : FamilyPlanner σ) (eo : Nat) (w : WithTop ℚ)
    (ha : p.overlay_manager.is_applied = true)
    (heo : eo ∈ p.overlay_manager.applied_edges) (hlt : eo < p.og.edges.length) :
    ((overlay_apply (overlay_unapply (with_w_lazy p (core_edge_of p.og eo) w))).g.eprop
        (core_edge_of
          (overlay_apply (overlay_unapply (with_w_lazy p (core_edge_of p.og eo) w))).og eo)).w_lazy
      = w_lazy_value (overlay_apply (overlay_unapply (with_w_lazy p (core_edge_of p.og eo) w)))
          (core_edge_of
            (overlay_apply (overlay_unapply (with_w_lazy p (core_edge_of p.og eo) w))).og eo)
    ∧ ((overlay_unapply (with_w_lazy p (core_edge_of p.og eo) w)).og.eprop eo).w_lazy
      = (p.og.eprop eo).w_lazy := by
  have ha2 : (with_w_lazy p (core_edge_of p.og eo) w).overlay_manager.is_applied = true := ha
  refine ⟨((unapply_apply_spec _ ha2).2 eo heo hlt).2.2, ?_⟩
  rw [(overlay_unapply_spec _ ha2).2.2.2.2.2.2 eo, if_pos ⟨heo, hlt⟩]
  rfl

theorem overlay_round_trip_w_lazy_witness :
    ((overlay_apply (overlay_unapply (with_w_lazy (prepared_one fem_never)
        (core_edge_of (prepared_one fem_never).og 0) 7))).g.eprop
        (core_edge_of
          (overlay_apply (overlay_unapply (with_w_lazy (prepared_one fem_never)
            (core_edge_of (prepared_one fem_never).og 0) 7))).og 0)).w_lazy
      = w_lazy_value (overlay_apply (overlay_unapply (with_w_lazy (prepared_one fem_never)
            (core_edge_of (prepared_one fem_never).og 0) 7)))
          (core_edge_of
            (overlay_apply (overlay_unapply (with_w_lazy (prepared_one fem_never)
              (core_edge_of (prepared_one fem_never).og 0) 7))).og 0)
    ∧ ((overlay_unapply (with_w_lazy (prepared_one fem_never)
        (core_edge_of (prepared_one fem_never).og 0) 7)).og.eprop 0).w_lazy
      = ((prepared_one fem_never).og.eprop 0).w_lazy :=
  overlay_round_trip_w_lazy (prepared_one fem_never) 0 7 (by decide!) (by decide!) (by decide!)

/-- C11 fails: on the applied planner `prepared_one fem_never`, write 7 into
the weight of the core edge of overlay edge 0 (from the start to the roadmap
vertex at 1/20); after `overlay_unapply` and `overlay_apply` the re-inserted
core edge has weight 1/20, its length, and the overlay edge's own `w_lazy`
is 0 throughout. -/
theorem overlay_round_trip_loses_w_lazy :
    ((with_w_lazy (prepared_one fem_never) (core_edge_of (prepared_one fem_never).og 0) 7).g.eprop
        (core_edge_of (prepared_one fem_never).og 0)).w_lazy = 7
    ∧ ((overlay_apply (overlay_unapply (with_w_lazy (prepared_one fem_never)
        (core_edge_of (prepared_one fem_never).og 0) 7))).g.eprop
        (core_edge_of
          (overlay_apply (overlay_unapply (with_w_lazy (prepared_one fem_never)
            (core_edge_of (prepared_one fem_never).og 0) 7))).og 0)).w_lazy
      = ((1/20 : ℚ) : WithTop ℚ)
    ∧ ((overlay_unapply (with_w_lazy (prepared_one fem_never)
        (core_edge_of (prepared_one fem_never).og 0) 7)).og.eprop 0).w_lazy = 0
    ∧ ((overlay_apply (overlay_unapply (with_w_lazy (prepared_one fem_never)
        (core_edge_of (prepared_one fem_never).og 0) 7))).og.eprop 0).w_lazy = 0 := by
  decide!

/-- C13: after `setProblemDefinition` the roots are overlay vertices 0 and 1
with the start and the goal state; for each root and each core roadmap
vertex `v` the number of overlay edges from that root to an anchor referring
to `v` is one when `distance(root state, v state) <= 0.12` and zero
otherwise; the overlay has two vertices more than there are such pairs and
as many edges as anchors, edge `eo` joining a root to anchor `2 + eo`, which
refers to a roadmap vertex; and each edge stores that distance, subgraph 0
and all-zero edge_tags. -/
theorem setProblemDefinition_anchors (p : FamilyPlanner σ) (pdef : ProblemDefinition)
    (hm : p.overlay_manager.is_applied = false → p.overlay_manager = ⟨false, [], []⟩)
    (hV : p.g.vertices.length ≤ null_vertex) :
    (setProblemDefinition p pdef).ov_start ≠ (setProblemDefinition p pdef).ov_goal
    ∧ ((setProblemDefinition p pdef).og.vprop (setProblemDefinition p pdef).ov_start).state
        = pdef.start
    ∧ ((setProblemDefinition p pdef).og.vprop (setProblemDefinition p pdef).ov_goal).state
        = pdef.goal
    ∧ (∀ root ∈ [(setProblemDefinition p pdef).ov_start, (setProblemDefinition p pdef).ov_goal],
        ∀ v, v < (setProblemDefinition p pdef).g.vertices.length - 2 →
          ((List.range (setProblemDefinition p pdef).og.edges.length).filter
            (fun eo => decide ((setProblemDefinition p pdef).og.source eo = root
              ∧ ((setProblemDefinition p pdef).og.vprop
                  ((setProblemDefinition p pdef).og.target eo)).core_vertex = v))).length
            = if (setProblemDefinition p pdef).space.distance
                  ((setProblemDefinition p pdef).og.vprop root).state
                  ((setProblemDefinition p pdef).g.vprop v).state ≤ 12 / 100
              then 1 else 0)
    ∧ (setProblemDefinition p pdef).og.vertices.length
        = 2 + ((List.range ((setProblemDefinition p pdef).g.vertices.length - 2)).filter
              (fun v => decide ((setProblemDefinition p pdef).space.distance pdef.start
                ((setProblemDefinition p pdef).g.vprop v).state ≤ 12 / 100))).length
            + ((List.range ((setProblemDefinition p pdef).g.vertices.length - 2)).filter
              (fun v => decide ((setProblemDefinition p pdef).space.distance pdef.goal
                ((setProblemDefinition p pdef).g.vprop v).state ≤ 12 / 100))).length
    ∧ (setProblemDefinition p pdef).og.edges.length
        = (setProblemDefinition p pdef).og.vertices.length - 2
    ∧ (∀ eo, eo < (setProblemDefinition p pdef).og.edges.length →
        ((setProblemDefinition p pdef).og.source eo = (setProblemDefinition p pdef).ov_start
          ∨ (setProblemDefinition p pdef).og.source eo = (setProblemDefinition p pdef).ov_goal)
        ∧ (setProblemDefinition p pdef).og.target eo = 2 + eo
        ∧ ((setProblemDefinition p pdef).og.vprop
            ((setProblemDefinition p pdef).og.target eo)).core_vertex
            < (setProblemDefinition p pdef).g.vertices.length - 2)
    ∧ ∀ eo, eo < (setProblemDefinition p pdef).og.edges.length →
        ((setProblemDefinition p pdef).og.eprop eo).distance
          = (setProblemDefinition p pdef).space.distance
              ((setProblemDefinition p pdef).og.vprop
                ((setProblemDefinition p pdef).og.source eo)).state
              ((setProblemDefinition p pdef).g.vprop
                ((setProblemDefinition p pdef).og.vprop
                  ((setProblemDefinition p pdef).og.target eo)).core_vertex).state
        ∧ ((setProblemDefinition p pdef).og.eprop eo).subgraph = 0
        ∧ ∀ t ∈ ((setProblemDefinition p pdef).og.eprop eo).edge_tags, t = 0 := by
  obtain ⟨s1, s2, s3, s4, s5, s6, s7, s8, s9, s10, s11⟩ :=
    setProblemDefinition_from_spec OverVProps.init p pdef hm hV
  have hP : setProblemDefinition p pdef = setProblemDefinition_from OverVProps.init p pdef := rfl
  rw [← hP] at s1 s2 s3 s4 s5 s6 s7 s8 s9 s10 s11
  have hpairs := anchor_pairs_eq OverVProps.init p pdef hm hV
  rw [← hP] at hpairs
  have hn : (setProblemDefinition p pdef).g.vertices.length - 2
      = (overlay_unapply (retarget p pdef)).g.vertices.length := by omega
  have hst0 : ((setProblemDefinition p pdef).og.vprop 0).state = pdef.start := by rw [s9]; rfl
  have hst1 : ((setProblemDefinition p pdef).og.vprop 1).state = pdef.goal := by rw [s10]; rfl
  have hA0 := anchored_vertices_eq_filter (overlay_unapply (retarget p pdef))
    (setProblemDefinition p pdef) pdef.start s3 s6
  have hA1 := anchored_vertices_eq_filter (overlay_unapply (retarget p pdef))
    (setProblemDefinition p pdef) pdef.goal s3 s6
  have hcount : ∀ (r v : Nat),
      ((List.range (setProblemDefinition p pdef).og.edges.length).filter
        (fun eo => decide ((setProblemDefinition p pdef).og.source eo = r
          ∧ ((setProblemDefinition p pdef).og.vprop
              ((setProblemDefinition p pdef).og.target eo)).core_vertex = v))).length
      = (((anchored_vertices (overlay_unapply (retarget p pdef)) pdef.start).map
            (fun vi => ((0 : Nat), vi))
          ++ (anchored_vertices (overlay_unapply (retarget p pdef)) pdef.goal).map
            (fun vi => ((1 : Nat), vi))).filter
          (fun x => decide (x.1 = r ∧ x.2 = v))).length := by
    intro r v
    rw [← hpairs, List.filter_map, List.length_map]
    rfl
  have hmem : ∀ (s : State) (v : Nat), v < (overlay_unapply (retarget p pdef)).g.vertices.length →
      (v ∈ anchored_vertices (overlay_unapply (retarget p pdef)) s
        ↔ (setProblemDefinition p pdef).space.distance s
            ((setProblemDefinition p pdef).g.vprop v).state ≤ 12 / 100) := by
    intro s v hv
    rw [anchored_vertices_eq_filter (overlay_unapply (retarget p pdef))
      (setProblemDefinition p pdef) s s3 s6]
    simp [hv]
  refine ⟨by rw [s1, s2]; decide, by rw [s1]; exact hst0, by rw [s2]; exact hst1, ?_, ?_, ?_,
    ?_, ?_⟩
  · intro root hroot v hv
    rw [hn] at hv
    rw [s1, s2] at hroot
    have hl := length_filter_pairs
      (anchored_vertices (overlay_unapply (retarget p pdef)) pdef.start)
      (anchored_vertices (overlay_unapply (retarget p pdef)) pdef.goal)
      (nodup_anchored_vertices _ _) (nodup_anchored_vertices _ _) v
    rcases List.mem_cons.1 hroot with h0 | h1
    · subst h0
      rw [hcount, hl.1, hst0]
      simp only [hmem pdef.start v hv]
    · have h1' : root = 1 := by simpa using h1
      subst h1'
      rw [hcount, hl.2, hst1]
      simp only [hmem pdef.goal v hv]
  · rw [s7, length_anchor_triples, hn, ← hA0, ← hA1]
    omega
  · rw [s7, s8]
    omega
  · intro eo heo
    rw [s8] at heo
    obtain ⟨t1, t2, t3, _⟩ := s11 eo heo
    have hmemT := mem_anchor_triples (overlay_unapply (retarget p pdef)) pdef
      ((anchor_triples (overlay_unapply (retarget p pdef)) pdef).getD eo (0, [], 0))
      (by rw [List.getD_eq_getElem?_getD, List.getElem?_eq_getElem heo]
          exact List.getElem_mem _)
    refine ⟨?_, t2, ?_⟩
    · rw [t1, s1, s2]
      rcases hmemT.1 with h | h
      · exact Or.inl h.1
      · exact Or.inr h.1
    · rw [t2, t3, hn]
      exact hmemT.2.1
  · intro eo heo
    rw [s8] at heo
    obtain ⟨t1, t2, t3, t4⟩ := s11 eo heo
    have hmemT := mem_anchor_triples (overlay_unapply (retarget p pdef)) pdef
      ((anchor_triples (overlay_unapply (retarget p pdef)) pdef).getD eo (0, [], 0))
      (by rw [List.getD_eq_getElem?_getD, List.getElem?_eq_getElem heo]
          exact List.getElem_mem _)
    simp only [OverEProps.shared, Prod.mk.injEq] at t4
    obtain ⟨d1, d2, _, d4⟩ := t4
    have hroot : ((setProblemDefinition p pdef).og.vprop
        ((setProblemDefinition p pdef).og.source eo)).state
        = ((anchor_triples (overlay_unapply (retarget p pdef)) pdef).getD eo (0, [], 0)).2.1 := by
      rw [t1]
      rcases hmemT.1 with h | h
      · rw [h.1, h.2]; exact hst0
      · rw [h.1, h.2]; exact hst1
    refine ⟨?_, ?_, ?_⟩
    · rw [d1, hroot, t2, t3, s3, s6 _ hmemT.2.1]
      rfl
    · rw [d2]; rfl
    · rw [d4]
      exact resize_nil_zero _

theorem setProblemDefinition_anchors_witness :
    (prepared_one fem_never).ov_start ≠ (prepared_one fem_never).ov_goal
    ∧ ((prepared_one fem_never).og.vprop (prepared_one fem_never).ov_start).state = [0]
    ∧ ((prepared_one fem_never).og.vprop (prepared_one fem_never).ov_goal).state = [1/10]
    ∧ (prepared_one fem_never).og.edges.length = (prepared_one fem_never).og.vertices.length - 2 :=
  have h := setProblemDefinition_anchors
    ((FamilyPlanner.construct (cfg_one fem_never)).getD (FamilyPlanner.blank (cfg_one fem_never)))
    ⟨0, [0], [1/10]⟩ (by decide!) (by decide!)
  ⟨h.1, h.2.1, h.2.2.1, h.2.2.2.2.2.1⟩

/-- C14: at the moment `setProblemDefinition` applies the overlay, both
roots have tag 0, subgraph 0 and is_shadow false.  The source assigns the tag
of the start root and the subgraph and is_shadow of both roots: these hold
whatever a new overlay vertex starts out as.  It never assigns the tag of
the goal root (`og[ov_start].tag` is assigned twice), which is therefore the
tag a new overlay vertex starts out with: 0, a new vertex being
value-initialised. -/
theorem setProblemDefinition_root_tags :
    (∀ (p : FamilyPlanner σ) (pdef : ProblemDefinition),
      setProblemDefinition p pdef
        = overlay_apply (populate_overlay_from OverVProps.init p pdef)
      ∧ ((populate_overlay_from OverVProps.init p pdef).og.vprop
          (populate_overlay_from OverVProps.init p pdef).ov_start).tag = 0
      ∧ ((populate_overlay_from OverVProps.init p pdef).og.vprop
          (populate_overlay_from OverVProps.init p pdef).ov_goal).tag = 0
      ∧ ((populate_overlay_from OverVProps.init p pdef).og.vprop
          (populate_overlay_from OverVProps.init p pdef).ov_start).subgraph = 0
      ∧ ((populate_overlay_from OverVProps.init p pdef).og.vprop
          (populate_overlay_from OverVProps.init p pdef).ov_goal).subgraph = 0
      ∧ ((populate_overlay_from OverVProps.init p pdef).og.vprop
          (populate_overlay_from OverVProps.init p pdef).ov_start).is_shadow = false
      ∧ ((populate_overlay_from OverVProps.init p pdef).og.vprop
          (populate_overlay_from OverVProps.init p pdef).ov_goal).is_shadow = false)
    ∧ (∀ (fresh : OverVProps) (p : FamilyPlanner σ) (pdef : ProblemDefinition),
      ((populate_overlay_from fresh p pdef).og.vprop
          (populate_overlay_from fresh p pdef).ov_start).tag = 0
      ∧ ((populate_overlay_from fresh p pdef).og.vprop
          (populate_overlay_from fresh p pdef).ov_goal).tag = fresh.tag
      ∧ ((populate_overlay_from fresh p pdef).og.vprop
          (populate_overlay_from fresh p pdef).ov_start).subgraph = 0
      ∧ ((populate_overlay_from fresh p pdef).og.vprop
          (populate_overlay_from fresh p pdef).ov_goal).subgraph = 0
      ∧ ((populate_overlay_from fresh p pdef).og.vprop
          (populate_overlay_from fresh p pdef).ov_start).is_shadow = false
      ∧ ((populate_overlay_from fresh p pdef).og.vprop
          (populate_overlay_from fresh p pdef).ov_goal).is_shadow = false) := by
  have key : ∀ (fresh : OverVProps) (p : FamilyPlanner σ) (pdef : ProblemDefinition),
      ((populate_overlay_from fresh p pdef).og.vprop
          (populate_overlay_from fresh p pdef).ov_start).tag = 0
      ∧ ((populate_overlay_from fresh p pdef).og.vprop
          (populate_overlay_from fresh p pdef).ov_goal).tag = fresh.tag
      ∧ ((populate_overlay_from fresh p pdef).og.vprop
          (populate_overlay_from fresh p pdef).ov_start).subgraph = 0
      ∧ ((populate_overlay_from fresh p pdef).og.vprop
          (populate_overlay_from fresh p pdef).ov_goal).subgraph = 0
      ∧ ((populate_overlay_from fresh p pdef).og.vprop
          (populate_overlay_from fresh p pdef).ov_start).is_shadow = false
      ∧ ((populate_overlay_from fresh p pdef).og.vprop
          (populate_overlay_from fresh p pdef).ov_goal).is_shadow = false := by
    intro fresh p pdef
    rw [populate_overlay_from_eq]
    have h0 : (populated_overlay fresh (overlay_unapply (retarget p pdef)) pdef).vprop 0
        = start_root fresh pdef := by
      unfold OverGraph.vprop; rw [populated_overlay_vertices]; rfl
    have h1 : (populated_overlay fresh (overlay_unapply (retarget p pdef)) pdef).vprop 1
        = goal_root fresh pdef := by
      unfold OverGraph.vprop; rw [populated_overlay_vertices]; rfl
    simp only [h0, h1]
    exact ⟨rfl, rfl, rfl, rfl, rfl, rfl⟩
  exact ⟨fun p pdef => ⟨rfl, key OverVProps.init p pdef⟩, key⟩

/-- C20: on the empty graph, the first `generate` with one batch wanted
returns; the graph then has exactly `n` vertices, vertex `i` with the
`i`-th sampled state, subgraph 0 and not a shadow; every edge joins a vertex
to an earlier one (no self-loop); for `i < j < n` the number of edges
between `i` and `j` is one when `distance(state_j, state_i) <= radius` (the
distance as the code computes it, new vertex first) and zero otherwise, so
also in the order `distance(state_i, state_j)` when the distance is
symmetric; and the `k`-th edge stores that distance, subgraph 0, and as its
index the number of edges generated before it, `edges_generated + k`, which
is `k` for a generator that has generated no edge yet. -/
theorem RoadmapGenRGG_generate_first (gen : RoadmapGenRGG) (hcap : 1 ≤ gen.num_subgraphs)
    (hfresh : gen.num_subgraphs_generated = 0) :
    ∃ (g : Graph) (gen1 : RoadmapGenRGG), gen.generate ⟨[], []⟩ 1 = some (g, gen1)
      ∧ g.vertices.length = gen.n
      ∧ (∀ i, i < gen.n →
          g.vprop i = ⟨gen.sampler (gen.samples_drawn + i), 0, false, 0⟩)
      ∧ (∀ se ∈ g.edges, se.tgt < se.src ∧ se.src < gen.n)
      ∧ (∀ i j, i < j → j < gen.n →
          (g.edges.filter (fun se => decide ((se.src = i ∧ se.tgt = j)
              ∨ (se.src = j ∧ se.tgt = i)))).length
            = if gen.space.distance (g.vprop j).state (g.vprop i).state ≤ gen.radius
              then 1 else 0)
      ∧ ((∀ a b, gen.space.distance a b = gen.space.distance b a) →
          ∀ i j, i < j → j < gen.n →
            (g.edges.filter (fun se => decide ((se.src = i ∧ se.tgt = j)
                ∨ (se.src = j ∧ se.tgt = i)))).length
              = if gen.space.distance (g.vprop i).state (g.vprop j).state ≤ gen.radius
                then 1 else 0)
      ∧ (∀ k, k < g.edges.length →
          (g.edges.getD k ⟨0, 0, EProps.init⟩).props.index = gen.edges_generated + k
          ∧ (g.edges.getD k ⟨0, 0, EProps.init⟩).props.distance
              = gen.space.distance (g.vprop (g.edges.getD k ⟨0, 0, EProps.init⟩).src).state
                  (g.vprop (g.edges.getD k ⟨0, 0, EProps.init⟩).tgt).state
          ∧ (g.edges.getD k ⟨0, 0, EProps.init⟩).props.subgraph = 0)
      ∧ (gen.edges_generated = 0 → ∀ k, k < g.edges.length →
          (g.edges.getD k ⟨0, 0, EProps.init⟩).props.index = k)
      ∧ gen1.edges_generated = gen.edges_generated + g.edges.length := by
  have hcount : ∀ i j, i < j → j < gen.n →
      ((gen.after_rounds gen.n).1.edges.filter (fun se => decide ((se.src = i ∧ se.tgt = j)
          ∨ (se.src = j ∧ se.tgt = i)))).length
        = if gen.space.distance ((gen.after_rounds gen.n).1.vprop j).state
              ((gen.after_rounds gen.n).1.vprop i).state ≤ gen.radius
          then 1 else 0 := by
    intro i j hij hj
    have h1 : (gen.after_rounds gen.n).1.edges.filter
          (fun se => decide ((se.src = i ∧ se.tgt = j) ∨ (se.src = j ∧ se.tgt = i)))
        = (gen.after_rounds gen.n).1.edges.filter
          ((fun x : Nat × Nat => decide ((x.1 = i ∧ x.2 = j) ∨ (x.1 = j ∧ x.2 = i)))
            ∘ fun se => (se.src, se.tgt)) := rfl
    rw [h1, ← List.length_map _ (fun se : StoredEdge => (se.src, se.tgt)), ← List.filter_map,
      after_rounds_ends]
    have h2 : (rgg_pairs (fun j i => gen.near (gen.drawn j) (gen.drawn i)) gen.n).filter
          (fun x : Nat × Nat => decide ((x.1 = i ∧ x.2 = j) ∨ (x.1 = j ∧ x.2 = i)))
        = (rgg_pairs (fun j i => gen.near (gen.drawn j) (gen.drawn i)) gen.n).filter
          (fun x => decide (x = (j, i))) := by
      apply List.filter_congr
      intro x hx
      have hlt := ((mem_rgg_pairs _ _ x).1 hx).1
      apply decide_eq_decide.2
      constructor
      · rintro (⟨h1, h2⟩ | ⟨h1, h2⟩)
        · omega
        · exact Prod.ext h1 h2
      · intro h
        rw [h]
        exact Or.inr ⟨rfl, rfl⟩
    rw [h2, length_filter_eq_of_nodup _ (nodup_rgg_pairs _ _),
      after_rounds_vprop gen gen.n j hj, after_rounds_vprop gen gen.n i (by omega)]
    have hiff : (j, i) ∈ rgg_pairs (fun j i => gen.near (gen.drawn j) (gen.drawn i)) gen.n
        ↔ gen.space.distance (gen.drawn j) (gen.drawn i) ≤ gen.radius := by
      rw [mem_rgg_pairs]
      simp only [RoadmapGenRGG.near, decide_eq_true_eq, not_lt]
      exact ⟨fun h => h.2.2, fun h => ⟨hij, hj, h⟩⟩
    by_cases hd : gen.space.distance (gen.drawn j) (gen.drawn i) ≤ gen.radius
    · rw [if_pos (hiff.2 hd), if_pos hd]
    · rw [if_neg (fun h => hd (hiff.1 h)), if_neg hd]
  refine ⟨(gen.after_rounds gen.n).1, (gen.after_rounds gen.n).2,
    rgg_generate_eq gen hcap hfresh, ?_, ?_, ?_, hcount, ?_, ?_, ?_, ?_⟩
  · simp [RoadmapGenRGG.after_rounds]
  · intro i hi
    exact after_rounds_vprop gen gen.n i hi
  · intro se hse
    have hmem : (se.src, se.tgt) ∈ rgg_pairs (fun j i => gen.near (gen.drawn j) (gen.drawn i))
        gen.n := by
      rw [← after_rounds_ends]
      exact List.mem_map.2 ⟨se, hse, rfl⟩
    have := (mem_rgg_pairs _ _ _).1 hmem
    exact ⟨this.1, this.2.1⟩
  · intro hsym i j hij hj
    rw [hcount i j hij hj, hsym]
  · intro k hk
    obtain ⟨h1, h2⟩ := after_rounds_edge gen gen.n k hk
    have h3 := (mem_rgg_pairs _ _ _).1 h2
    rw [h1]
    refine ⟨rfl, ?_, rfl⟩
    simp only [RoadmapGenRGG.new_edge]
    rw [after_rounds_vprop gen gen.n _ h3.2.1, after_rounds_vprop gen gen.n _ (by omega)]
  · intro he k hk
    obtain ⟨h1, _⟩ := after_rounds_edge gen gen.n k hk
    rw [h1]
    show gen.edges_generated + k = k
    omega
  · simp [RoadmapGenRGG.after_rounds]

theorem RoadmapGenRGG_generate_first_witness :
    ∃ (g : Graph) (gen1 : RoadmapGenRGG), ex_rgg.generate ⟨[], []⟩ 1 = some (g, gen1)
      ∧ g.vertices.length = ex_rgg.n
      ∧ gen1.edges_generated = ex_rgg.edges_generated + g.edges.length :=
  have ⟨g, gen1, h⟩ := RoadmapGenRGG_generate_first ex_rgg (by decide) (by decide)
  ⟨g, gen1, h.1, h.2.1, h.2.2.2.2.2.2.2.2⟩

/-- C15 (amended): the planner has no case for a start that equals the
goal.  `setProblemDefinition` always inserts the start and the goal as two
different core vertices, so every `solve` after it that returns
`EXACT_SOLUTION`, whatever the start and the goal, returns a lazy-search edge
path with at least one edge and a solution path of at least two states. -/
theorem solve_exact_has_edges (ptc : PlannerTerminationCondition) (fuel : Nat)
    (p : FamilyPlanner σ) (pdef : ProblemDefinition) (o : Option (List State))
    (hm : p.overlay_manager.is_applied = false → p.overlay_manager = ⟨false, [], []⟩)
    (hV : p.g.vertices.length ≤ null_vertex)
    (h : (solve ptc fuel (setProblemDefinition p pdef)).outcome
      = .returned (.EXACT_SOLUTION, o)) :
    (solve ptc fuel (setProblemDefinition p pdef)).epath ≠ []
    ∧ ∃ path : List State, o = some path
        ∧ path.length = (solve ptc fuel (setProblemDefinition p pdef)).epath.length + 1
        ∧ 2 ≤ path.length := by
  have hK := roots_applied_setProblemDefinition OverVProps.init p pdef hm hV
  have hne := solve_loop_nonempty fuel (setProblemDefinition p pdef) [] o hK h
  refine ⟨hne, _, solve_loop_exact fuel _ [] o h, solution_path_length _ _, ?_⟩
  rw [solution_path_length]
  have : 0 < (solve ptc fuel (setProblemDefinition p pdef)).epath.length :=
    List.length_pos.2 hne
  exact Nat.succ_le_succ this

theorem solve_exact_has_edges_witness :
    (solve ptc_never 5 (setProblemDefinition
      ((FamilyPlanner.construct (cfg_one fem_never)).getD (FamilyPlanner.blank (cfg_one fem_never)))
      ⟨0, [0], [0]⟩)).epath ≠ []
    ∧ ∃ path : List State, some [[0], [1/20], [0]] = some path
        ∧ path.length = (solve ptc_never 5 (setProblemDefinition
            ((FamilyPlanner.construct (cfg_one fem_never)).getD
              (FamilyPlanner.blank (cfg_one fem_never)))
            ⟨0, [0], [0]⟩)).epath.length + 1
        ∧ 2 ≤ path.length :=
  solve_exact_has_edges ptc_never 5
    ((FamilyPlanner.construct (cfg_one fem_never)).getD (FamilyPlanner.blank (cfg_one fem_never)))
    ⟨0, [0], [0]⟩ (some [[0], [1/20], [0]]) (by decide!) (by decide!) (by decide!)

/-- C15 fails: for the problem whose start and goal are both the state 0,
on a roadmap whose one vertex (at 1/20) is within the anchor radius of it,
`solve` returns `EXACT_SOLUTION` with an edge path of two edges (start root
to the roadmap vertex, roadmap vertex to goal root) and a solution path of
three states. -/
theorem solve_start_equals_goal :
    (⟨0, [0], [0]⟩ : ProblemDefinition).start = (⟨0, [0], [0]⟩ : ProblemDefinition).goal
    ∧ (solve ptc_never 5 (setProblemDefinition
        ((FamilyPlanner.construct (cfg_one fem_never)).getD
          (FamilyPlanner.blank (cfg_one fem_never)))
        ⟨0, [0], [0]⟩)).outcome = .returned (.EXACT_SOLUTION, some [[0], [1/20], [0]])
    ∧ (solve ptc_never 5 (setProblemDefinition
        ((FamilyPlanner.construct (cfg_one fem_never)).getD
          (FamilyPlanner.blank (cfg_one fem_never)))
        ⟨0, [0], [0]⟩)).epath = [⟨1, 0, 0⟩, ⟨0, 2, 1⟩] := by
  decide!

/-- C17 (amended): termination needs a capped generator.  When no core
vertex is within the anchor radius of the start at `setProblemDefinition`
(the scan of the core graph finds no anchor for the start), the core graph is
closed, and the generator has a non-zero batch cap and does its batches up to
the cap without throwing, then `solve` returns `TIMEOUT` and adds no path,
after at most `cap - num_subgraphs` densifications; it raises no exception.
The start is never anchored again, whatever the new batches hold. -/
theorem solve_isolated_start_timeout (ptc : PlannerTerminationCondition) (fuel : Nat)
    (p : FamilyPlanner σ) (pdef : ProblemDefinition)
    (hm : p.overlay_manager.is_applied = false → p.overlay_manager = ⟨false, [], []⟩)
    (hV : p.g.vertices.length ≤ null_vertex)
    (hc : (overlay_unapply (retarget p pdef)).g.closed = true)
    (hfar : anchored_vertices (overlay_unapply (retarget p pdef)) pdef.start = [])
    (hcap : p.roadmap_gen.num_subgraphs ≠ 0)
    (hrel : ∀ n, n ≤ p.roadmap_gen.num_subgraphs → p.roadmap_gen.reliable n)
    (hfuel : p.roadmap_gen.num_subgraphs - p.num_subgraphs + 1 ≤ fuel) :
    (solve ptc fuel (setProblemDefinition p pdef)).outcome = .returned (.TIMEOUT, none) := by
  obtain ⟨hiso, hg, hn⟩ := start_isolated_populate OverVProps.init p pdef hm hV hc hfar
  show (solve_loop fuel (overlay_apply (populate_overlay_from OverVProps.init p pdef)) []).outcome
    = _
  apply solve_loop_isolated_capped (p.roadmap_gen.num_subgraphs - p.num_subgraphs) fuel _ []
    hiso
  · rw [hg]; exact hcap
  · rw [hg]; exact hrel
  · rw [hg, hn]
  · exact hfuel

theorem solve_isolated_start_timeout_witness :
    (solve ptc_never 2 (setProblemDefinition
      ((FamilyPlanner.construct (cfg_two fem_never)).getD (FamilyPlanner.blank (cfg_two fem_never)))
      ⟨0, [1], [0]⟩)).outcome = .returned (.TIMEOUT, none) :=
  solve_isolated_start_timeout ptc_never 2
    ((FamilyPlanner.construct (cfg_two fem_never)).getD (FamilyPlanner.blank (cfg_two fem_never)))
    ⟨0, [1], [0]⟩ (by decide!) (by decide!) (by decide!) (by decide!) (by decide!)
    (fun n hn => gen_two_reliable n hn) (by decide!)

/-- C17 fails for an uncapped generator: with `gen_free` (no cap, one new
vertex per batch, never throwing), the one roadmap vertex at state 2, start 0
and goal 2, no core vertex is within the anchor radius of the start, and
`solve` never returns: every round the lazy search fails and the planner
densifies again (after three rounds it has asked for four batches), so the
rounds run out whatever their number, and `TIMEOUT` is never returned. -/
theorem solve_uncapped_never_returns :
    (cfg_free fem_never).roadmap_gen.num_subgraphs = 0
    ∧ anchored_vertices (overlay_unapply (retarget
        ((FamilyPlanner.construct (cfg_free fem_never)).getD
          (FamilyPlanner.blank (cfg_free fem_never))) ⟨0, [0], [2]⟩)) [0] = []
    ∧ (solve ptc_never 3 (setProblemDefinition
        ((FamilyPlanner.construct (cfg_free fem_never)).getD
          (FamilyPlanner.blank (cfg_free fem_never))) ⟨0, [0], [2]⟩)).planner.num_subgraphs = 4
    ∧ (∀ fuel, (solve ptc_never fuel (setProblemDefinition
        ((FamilyPlanner.construct (cfg_free fem_never)).getD
          (FamilyPlanner.blank (cfg_free fem_never))) ⟨0, [0], [2]⟩)).outcome = .out_of_fuel)
    ∧ ¬ ∃ fuel, (solve ptc_never fuel (setProblemDefinition
        ((FamilyPlanner.construct (cfg_free fem_never)).getD
          (FamilyPlanner.blank (cfg_free fem_never))) ⟨0, [0], [2]⟩)).outcome
        = .returned (.TIMEOUT, none) := by
  have hiso := start_isolated_populate OverVProps.init
    ((FamilyPlanner.construct (cfg_free fem_never)).getD
      (FamilyPlanner.blank (cfg_free fem_never))) ⟨0, [0], [2]⟩
    (by decide!) (by decide!) (by decide!) (by decide!)
  have hall : ∀ fuel, (solve ptc_never fuel (setProblemDefinition
      ((FamilyPlanner.construct (cfg_free fem_never)).getD
        (FamilyPlanner.blank (cfg_free fem_never))) ⟨0, [0], [2]⟩)).outcome = .out_of_fuel := by
    intro fuel
    apply solve_loop_isolated_uncapped fuel _ [] hiso.1
    · rw [hiso.2.1]; rfl
    · rw [hiso.2.1]; exact gen_free_reliable
  refine ⟨rfl, by decide!, by decide!, hall, ?_⟩
  rintro ⟨fuel, hf⟩
  rw [hall fuel] at hf
  cases hf

/-- C21: a generator as the constructor makes it has the batch cap 1, so on
every graph a `generate` for more than one batch throws, before it touches
the graph or a counter (the call leaves both as they were); and after a
`generate` for one batch has returned, a second `generate` for one batch on
the graph it produced returns the same graph and the same generator: no
vertex and no edge is added, and no counter moves. -/
theorem RoadmapGenRGG_generate_idempotent (gen : RoadmapGenRGG) (g : Graph)
    (hcap : gen.num_subgraphs = 1) :
    (∀ d, 1 < d → gen.generate g d = none ∧ RoadmapGenRGG.call (g, gen) d = (g, gen))
    ∧ ∀ g1 gen1, gen.generate g 1 = some (g1, gen1) →
        gen1.generate g1 1 = some (g1, gen1)
        ∧ RoadmapGenRGG.call (g1, gen1) 1 = (g1, gen1) := by
  constructor
  · intro d hd
    have h : gen.generate g d = none := by
      unfold RoadmapGenRGG.generate
      rw [if_pos (by omega)]
    refine ⟨h, ?_⟩
    unfold RoadmapGenRGG.call
    rw [h]
    rfl
  · intro g1 gen1 h
    have h2 := (rgg_generate_frame gen g 1 g1 gen1 h).2.2.2 rfl
    refine ⟨h2, ?_⟩
    unfold RoadmapGenRGG.call
    rw [h2]
    rfl

theorem RoadmapGenRGG_generate_idempotent_witness :
    ex_rgg.generate ⟨[], []⟩ 2 = none
    ∧ (ex_rgg.after_rounds 3).2.generate (ex_rgg.after_rounds 3).1 1
        = some (ex_rgg.after_rounds 3) :=
  have h := RoadmapGenRGG_generate_idempotent ex_rgg ⟨[], []⟩ rfl
  ⟨(h.1 2 (by decide)).1,
    (h.2 (ex_rgg.after_rounds 3).1 (ex_rgg.after_rounds 3).2
      (rgg_generate_eq ex_rgg (by decide) rfl)).1⟩

/-- C29: `generate` never writes `num_subgraphs_generated`.  For a generator
whose counter is 0, as the constructor leaves it, `get_num_subgraphs_generated`
is still 0 after any sequence of `generate` calls (a call that throws leaves
everything as it was), also right after the `generate` for one batch on the
empty graph that returned and added `n` vertices. -/
theorem RoadmapGenRGG_counter_never_advances (gen : RoadmapGenRGG) (g : Graph) (ds : List Nat)
    (hfresh : gen.num_subgraphs_generated = 0) :
    (ds.foldl RoadmapGenRGG.call (g, gen)).2.get_num_subgraphs_generated = 0
    ∧ (1 ≤ gen.num_subgraphs →
        ∃ g1 gen1, gen.generate ⟨[], []⟩ 1 = some (g1, gen1)
          ∧ g1.vertices.length = gen.n
          ∧ gen1.get_num_subgraphs_generated = 0
          ∧ ∀ ds2 : List Nat,
              (ds2.foldl RoadmapGenRGG.call (g1, gen1)).2.get_num_subgraphs_generated = 0) := by
  constructor
  · show (ds.foldl RoadmapGenRGG.call (g, gen)).2.num_subgraphs_generated = 0
    rw [rgg_call_counter]
    exact hfresh
  · intro hcap
    refine ⟨_, _, rgg_generate_eq gen hcap hfresh, ?_, hfresh, ?_⟩
    · simp [RoadmapGenRGG.after_rounds]
    · intro ds2
      show (ds2.foldl RoadmapGenRGG.call (gen.after_rounds gen.n)).2.num_subgraphs_generated = 0
      rw [rgg_call_counter]
      exact hfresh

theorem RoadmapGenRGG_counter_never_advances_witness :
    ([1, 2, 1].foldl RoadmapGenRGG.call (⟨[], []⟩, ex_rgg)).2.get_num_subgraphs_generated = 0
    ∧ ([1, 2, 1].foldl RoadmapGenRGG.call (⟨[], []⟩, ex_rgg)).1.vertices.length = 3 :=
  ⟨(RoadmapGenRGG_counter_never_advances ex_rgg ⟨[], []⟩ [1, 2, 1] rfl).1, by decide!⟩

/-- C27: once the library search has returned with its maps, and the chain
of predecessors from the goal reaches the start in `k` steps through existing
edges of a closed graph, `lazysp_incsp_dijkstra::solve` returns; it returns
`inf` exactly when the goal's distance is `inf`, and otherwise the goal's
distance, with `path` set to the `k` edges of the chain, each the edge from
the predecessor of its target, oriented from the start: the first edge starts
at `v_start`, the last ends at `v_goal`, every edge ends where the next one
starts, and the path is empty when `v_start = v_goal`. -/
theorem incsp_solve_oriented_path (g : Graph) (v_start v_goal : Nat) (path : List Edge)
    (s : DijkstraState) (k : Nat)
    (hc : g.closed = true)
    (hs : dijkstra_shortest_paths g v_start v_goal = some s)
    (hchain : pred_chain g s.predecessor_map v_start k v_goal = true) :
    ∃ w r, lazysp_incsp_dijkstra.solve g v_start v_goal path = .returned (w, r)
      ∧ (w = ⊤ ↔ s.distance_map.getD v_goal ⊤ = ⊤)
      ∧ (w ≠ ⊤ →
          w = s.distance_map.getD v_goal ⊤
          ∧ r.length = k
          ∧ (∀ e, r.head? = some e → e.src = v_start)
          ∧ (∀ e, r.getLast? = some e → e.tgt = v_goal)
          ∧ (∀ i, i + 1 < r.length →
              (r.getD i ⟨0, 0, 0⟩).tgt = (r.getD (i + 1) ⟨0, 0, 0⟩).src)
          ∧ (∀ e ∈ r, g.edge e.src e.tgt = some e
              ∧ s.predecessor_map.getD e.tgt 0 = e.src)
          ∧ (v_start = v_goal → r = [])) := by
  obtain ⟨hinf, hfin⟩ := incsp_solve_chain g v_start v_goal path s k hs hchain
    (pred_chain_length_le g hc _ _ _ _ hchain)
  by_cases hd : s.distance_map.getD v_goal ⊤ = ⊤
  · exact ⟨⊤, path, hinf hd, ⟨fun _ => hd, fun _ => rfl⟩, fun h => absurd rfl h⟩
  · obtain ⟨r, hr, hl, ho, hp⟩ := hfin hd
    refine ⟨_, r, hr, ⟨fun h => h, fun h => h⟩, fun _ => ⟨rfl, hl,
      oriented_from_head _ _ r ho, oriented_from_last r _ _ ho, oriented_from_succ r _ _ ho,
      hp, ?_⟩⟩
    intro he
    have h0 : pred_chain g s.predecessor_map v_start 0 v_goal = true := by
      simp [pred_chain, he]
    have hk0 := pred_chain_unique g _ _ _ _ _ hchain h0
    rw [hk0] at hl
    exact List.length_eq_zero.1 hl

theorem incsp_solve_oriented_path_witness :
    lazysp_incsp_dijkstra.solve g_row 0 2 [] = .returned (2, [⟨0, 1, 0⟩, ⟨1, 2, 1⟩])
    ∧ ∃ w r, lazysp_incsp_dijkstra.solve g_row 0 2 [] = .returned (w, r)
      ∧ (w = ⊤ ↔ ((dijkstra_shortest_paths g_row 0 2).getD ⟨[], [], []⟩).distance_map.getD 2 ⊤
          = ⊤)
      ∧ (w ≠ ⊤ →
          w = ((dijkstra_shortest_paths g_row 0 2).getD ⟨[], [], []⟩).distance_map.getD 2 ⊤
          ∧ r.length = 2
          ∧ (∀ e, r.head? = some e → e.src = 0)
          ∧ (∀ e, r.getLast? = some e → e.tgt = 2)
          ∧ (∀ i, i + 1 < r.length →
              (r.getD i ⟨0, 0, 0⟩).tgt = (r.getD (i + 1) ⟨0, 0, 0⟩).src)
          ∧ (∀ e ∈ r, g_row.edge e.src e.tgt = some e
              ∧ ((dijkstra_shortest_paths g_row 0 2).getD ⟨[], [], []⟩).predecessor_map.getD
                  e.tgt 0 = e.src)
          ∧ ((0 : Nat) = 2 → r = [])) :=
  ⟨by decide!,
    incsp_solve_oriented_path g_row 0 2 []
      ((dijkstra_shortest_paths g_row 0 2).getD ⟨[], [], []⟩) 2
      (by decide!) (by decide!) (by decide!)⟩

/-- C28: when `lazysp_incsp_dijkstra::solve` returns `inf`, the goal's
distance after the search is `inf` and `path` is exactly the list that was
passed in: the return comes before `path.clear()`, so a path left by an
earlier search is still there. -/
theorem incsp_solve_inf_keeps_path (g : Graph) (v_start v_goal : Nat) (path r : List Edge)
    (h : lazysp_incsp_dijkstra.solve g v_start v_goal path = .returned (⊤, r)) :
    r = path
    ∧ ∃ s, dijkstra_shortest_paths g v_start v_goal = some s
        ∧ s.distance_map.getD v_goal ⊤ = ⊤ := by
  unfold lazysp_incsp_dijkstra.solve at h
  split at h
  · simp at h
  · rename_i s hs
    split at h
    · rename_i hinf
      simp only [Outcome.returned.injEq, Prod.mk.injEq, true_and] at h
      exact ⟨h.symm, s, hs, hinf⟩
    · rename_i hfin
      split at h
      · simp only [Outcome.returned.injEq, Prod.mk.injEq] at h
        exact absurd h.1 hfin
      · simp at h
      · simp at h

theorem incsp_solve_inf_keeps_path_witness :
    lazysp_incsp_dijkstra.solve g_apart 0 1 [⟨0, 1, 0⟩] = .returned (⊤, [⟨0, 1, 0⟩])
    ∧ ([⟨0, 1, 0⟩] : List Edge) = [⟨0, 1, 0⟩]
    ∧ ∃ s, dijkstra_shortest_paths g_apart 0 1 = some s
        ∧ s.distance_map.getD 1 ⊤ = ⊤ :=
  ⟨by decide!, incsp_solve_inf_keeps_path g_apart 0 1 [⟨0, 1, 0⟩] [⟨0, 1, 0⟩] (by decide!)⟩

/-- C22: for every `n_perbatch` and every `m`, `generate` for `m` batches on
the empty graph, from a generator that has counted no batch, leaves exactly
`m * n_perbatch` vertices and `get_num_subgraphs_generated() = m`; vertex `i`
carries the subgraph `i / n_perbatch` (rounded down) and is not a shadow; and
a later `generate` for at most `m` batches changes neither the graph nor the
generator. -/
theorem RoadmapGenHaltonDens_generate_counts (gen : RoadmapGenHaltonDens) (m : Nat)
    (hfresh : gen.num_subgraphs_generated = 0) :
    (gen.generate ⟨[], []⟩ m).1.vertices.length = m * gen.n_perbatch
    ∧ (gen.generate ⟨[], []⟩ m).2.get_num_subgraphs_generated = m
    ∧ (∀ i, i < m * gen.n_perbatch →
        ((gen.generate ⟨[], []⟩ m).1.vprop i).subgraph = ((i / gen.n_perbatch : Nat) : ℤ)
        ∧ ((gen.generate ⟨[], []⟩ m).1.vprop i).is_shadow = false)
    ∧ ∀ m2, m2 ≤ m →
        (gen.generate ⟨[], []⟩ m).2.generate (gen.generate ⟨[], []⟩ m).1 m2
          = gen.generate ⟨[], []⟩ m := by
  rw [halton_generate_fresh gen hfresh m]
  refine ⟨(halton_after_length gen _ _).1, rfl, ?_, ?_⟩
  · intro i hi
    rw [halton_after_vprop gen _ _ i hi]
    exact ⟨rfl, rfl⟩
  · intro m2 hm2
    rw [halton_generate_after gen m m2, Nat.max_eq_left hm2]

theorem RoadmapGenHaltonDens_generate_counts_witness :
    (ex_halton.generate ⟨[], []⟩ 2).1.vertices.length = 4
    ∧ (ex_halton.generate ⟨[], []⟩ 2).2.get_num_subgraphs_generated = 2
    ∧ ((ex_halton.generate ⟨[], []⟩ 2).1.vprop 3).subgraph = 1
    ∧ (ex_halton.generate ⟨[], []⟩ 2).2.generate (ex_halton.generate ⟨[], []⟩ 2).1 1
        = ex_halton.generate ⟨[], []⟩ 2 :=
  have h := RoadmapGenHaltonDens_generate_counts ex_halton 2 rfl
  ⟨h.1, h.2.1, (h.2.2.1 3 (by decide)).1, h.2.2.2 1 (by decide)⟩

/-- C24: for every `k`, `generate` for `k` batches and then for `k + 1`
batches on the same graph gives the same graph (vertices with their states
and subgraph labels, edges with their ends, distance and subgraph) and the
same counters as one `generate` for `k + 1` batches from the empty graph; the
second call leaves what the first produced in place, the vertices and edges
of the first call being the beginning of the vertex list and of the edge
list; and from a generator that has placed no vertex, coordinate `j` of
vertex `i` is `low[j] + (high[j] - low[j]) * halton(get_prime(j), i)` with
`i` the global number of the vertex. -/
theorem RoadmapGenHaltonDens_generate_extends (gen : RoadmapGenHaltonDens) (k : Nat)
    (hfresh : gen.num_subgraphs_generated = 0) (hplaced : gen.vertices_generated = 0) :
    (gen.generate ⟨[], []⟩ k).2.generate (gen.generate ⟨[], []⟩ k).1 (k + 1)
      = gen.generate ⟨[], []⟩ (k + 1)
    ∧ (gen.generate ⟨[], []⟩ k).1.vertices
        = (gen.generate ⟨[], []⟩ (k + 1)).1.vertices.take
            (gen.generate ⟨[], []⟩ k).1.vertices.length
    ∧ (gen.generate ⟨[], []⟩ k).1.edges
        = (gen.generate ⟨[], []⟩ (k + 1)).1.edges.take
            (gen.generate ⟨[], []⟩ k).1.edges.length
    ∧ ∀ i, i < (k + 1) * gen.n_perbatch →
        ((gen.generate ⟨[], []⟩ (k + 1)).1.vprop i).state.length = gen.dim
        ∧ ∀ j, j < gen.dim →
          ((gen.generate ⟨[], []⟩ (k + 1)).1.vprop i).state.getD j 0
            = gen.low.getD j 0
              + (gen.high.getD j 0 - gen.low.getD j 0) * halton (get_prime gen.primes j) i := by
  rw [halton_generate_fresh gen hfresh k, halton_generate_fresh gen hfresh (k + 1)]
  have hmul : (k + 1) * gen.n_perbatch = k * gen.n_perbatch + gen.n_perbatch := by
    rw [Nat.add_mul, Nat.one_mul]
  obtain ⟨p1, p2⟩ := halton_after_prefix gen (k * gen.n_perbatch) gen.n_perbatch k (k + 1)
  rw [← hmul] at p1 p2
  refine ⟨?_, ?_, p2, ?_⟩
  · rw [halton_generate_after gen k (k + 1), Nat.max_eq_right (Nat.le_succ k)]
  · rw [(halton_after_length gen _ _).1]
    exact p1
  · intro i hi
    rw [halton_after_vprop gen _ _ i hi]
    constructor
    · simp [RoadmapGenHaltonDens.placed, RoadmapGenHaltonDens.halton_state]
    · intro j hj
      simp [RoadmapGenHaltonDens.placed, RoadmapGenHaltonDens.halton_state, hplaced,
        List.getD_eq_getElem?_getD, hj]

theorem RoadmapGenHaltonDens_generate_extends_witness :
    (ex_halton.generate ⟨[], []⟩ 1).2.generate (ex_halton.generate ⟨[], []⟩ 1).1 2
      = ex_halton.generate ⟨[], []⟩ 2
    ∧ (ex_halton.generate ⟨[], []⟩ 1).1.vertices
        = (ex_halton.generate ⟨[], []⟩ 2).1.vertices.take
            (ex_halton.generate ⟨[], []⟩ 1).1.vertices.length
    ∧ ((ex_halton.generate ⟨[], []⟩ 2).1.vprop 3).state = [3/4] :=
  have h := RoadmapGenHaltonDens_generate_extends ex_halton 1 rfl rfl
  ⟨h.1, h.2.1, by decide!⟩

/-- C23 (amended): in a run for `m` batches from the empty graph, from a
generator that has counted no batch, with dimension at least 1: between two
vertices `i < j` there is exactly one edge when the distance, as the code
computes it with the later vertex first, is at most
`radius_firstbatch * (k+1)^(-1/d)` over exact reals, `k = j / n_perbatch`
being the batch of the later vertex, and no edge otherwise (so also with the
distance in the order of the claim when the distance is symmetric); every
edge runs from the later vertex to the earlier one; the radius of batch 0 is
`radius_firstbatch`; and the batch radius never increases with `k` when
`radius_firstbatch` is not negative, while for a negative
`radius_firstbatch` it increases with every batch. -/
theorem RoadmapGenHaltonDens_radius (gen : RoadmapGenHaltonDens) (m : Nat)
    (hfresh : gen.num_subgraphs_generated = 0) (hdim : 1 ≤ gen.dim) :
    (∀ i j, i < j → j < m * gen.n_perbatch →
      ((((gen.generate ⟨[], []⟩ m).1.edges.filter (fun se =>
            decide ((se.src = i ∧ se.tgt = j) ∨ (se.src = j ∧ se.tgt = i)))).length = 1
          ∧ ((gen.space.distance ((gen.generate ⟨[], []⟩ m).1.vprop j).state
                ((gen.generate ⟨[], []⟩ m).1.vprop i).state : ℚ) : ℝ)
              ≤ (gen.radius_firstbatch : ℝ)
                  * (((j / gen.n_perbatch : Nat) : ℝ) + 1) ^ (-(1 / (gen.dim : ℝ))))
        ∨ (((gen.generate ⟨[], []⟩ m).1.edges.filter (fun se =>
            decide ((se.src = i ∧ se.tgt = j) ∨ (se.src = j ∧ se.tgt = i)))).length = 0
          ∧ (gen.radius_firstbatch : ℝ)
                * (((j / gen.n_perbatch : Nat) : ℝ) + 1) ^ (-(1 / (gen.dim : ℝ)))
              < ((gen.space.distance ((gen.generate ⟨[], []⟩ m).1.vprop j).state
                ((gen.generate ⟨[], []⟩ m).1.vprop i).state : ℚ) : ℝ))))
    ∧ ((∀ a b, gen.space.distance a b = gen.space.distance b a) →
        ∀ i j, i < j → j < m * gen.n_perbatch →
          ((((gen.generate ⟨[], []⟩ m).1.edges.filter (fun se =>
                decide ((se.src = i ∧ se.tgt = j) ∨ (se.src = j ∧ se.tgt = i)))).length = 1
              ∧ ((gen.space.distance ((gen.generate ⟨[], []⟩ m).1.vprop i).state
                    ((gen.generate ⟨[], []⟩ m).1.vprop j).state : ℚ) : ℝ)
                  ≤ (gen.radius_firstbatch : ℝ)
                      * (((j / gen.n_perbatch : Nat) : ℝ) + 1) ^ (-(1 / (gen.dim : ℝ))))
            ∨ (((gen.generate ⟨[], []⟩ m).1.edges.filter (fun se =>
                decide ((se.src = i ∧ se.tgt = j) ∨ (se.src = j ∧ se.tgt = i)))).length = 0
              ∧ (gen.radius_firstbatch : ℝ)
                    * (((j / gen.n_perbatch : Nat) : ℝ) + 1) ^ (-(1 / (gen.dim : ℝ)))
                  < ((gen.space.distance ((gen.generate ⟨[], []⟩ m).1.vprop i).state
                    ((gen.generate ⟨[], []⟩ m).1.vprop j).state : ℚ) : ℝ))))
    ∧ (∀ se ∈ (gen.generate ⟨[], []⟩ m).1.edges,
        se.tgt < se.src ∧ se.src < m * gen.n_perbatch)
    ∧ (gen.radius_firstbatch : ℝ) * (((0 : Nat) : ℝ) + 1) ^ (-(1 / (gen.dim : ℝ)))
        = gen.radius_firstbatch
    ∧ (0 ≤ gen.radius_firstbatch → ∀ k : Nat,
        (gen.radius_firstbatch : ℝ) * (((k + 1 : Nat) : ℝ) + 1) ^ (-(1 / (gen.dim : ℝ)))
          ≤ (gen.radius_firstbatch : ℝ) * ((k : ℝ) + 1) ^ (-(1 / (gen.dim : ℝ))))
    ∧ (gen.radius_firstbatch < 0 → ∀ k : Nat,
        (gen.radius_firstbatch : ℝ) * ((k : ℝ) + 1) ^ (-(1 / (gen.dim : ℝ)))
          < (gen.radius_firstbatch : ℝ)
              * (((k + 1 : Nat) : ℝ) + 1) ^ (-(1 / (gen.dim : ℝ)))) := by
  rw [halton_generate_fresh gen hfresh m]
  have hcount : ∀ i j, i < j → j < m * gen.n_perbatch →
      ((((gen.after (m * gen.n_perbatch) m).1.edges.filter (fun se =>
            decide ((se.src = i ∧ se.tgt = j) ∨ (se.src = j ∧ se.tgt = i)))).length = 1
          ∧ ((gen.space.distance ((gen.after (m * gen.n_perbatch) m).1.vprop j).state
                ((gen.after (m * gen.n_perbatch) m).1.vprop i).state : ℚ) : ℝ)
              ≤ (gen.radius_firstbatch : ℝ)
                  * (((j / gen.n_perbatch : Nat) : ℝ) + 1) ^ (-(1 / (gen.dim : ℝ))))
        ∨ (((gen.after (m * gen.n_perbatch) m).1.edges.filter (fun se =>
            decide ((se.src = i ∧ se.tgt = j) ∨ (se.src = j ∧ se.tgt = i)))).length = 0
          ∧ (gen.radius_firstbatch : ℝ)
                * (((j / gen.n_perbatch : Nat) : ℝ) + 1) ^ (-(1 / (gen.dim : ℝ)))
              < ((gen.space.distance ((gen.after (m * gen.n_perbatch) m).1.vprop j).state
                ((gen.after (m * gen.n_perbatch) m).1.vprop i).state : ℚ) : ℝ))) := by
    intro i j hij hj
    rw [count_between_pairs gen.near _ _ (halton_after_ends gen _ _) i j hij hj,
      halton_after_vprop gen _ _ j hj, halton_after_vprop gen _ _ i (by omega)]
    have hb := beyond_radius_iff gen.radius_firstbatch gen.dim (j / gen.n_perbatch)
      (gen.space.distance (gen.placed j) (gen.placed i)) hdim
    by_cases hn : gen.near j i = true
    · left
      rw [if_pos hn]
      refine ⟨rfl, ?_⟩
      have hnb : ¬ beyond_radius gen.radius_firstbatch gen.dim (j / gen.n_perbatch)
          (gen.space.distance (gen.placed j) (gen.placed i)) = true := by
        unfold RoadmapGenHaltonDens.near RoadmapGenHaltonDens.batch_of at hn
        simpa using hn
      exact not_lt.1 (fun h => hnb (hb.2 h))
    · right
      rw [if_neg hn]
      refine ⟨rfl, ?_⟩
      apply hb.1
      unfold RoadmapGenHaltonDens.near RoadmapGenHaltonDens.batch_of at hn
      simpa using hn
  refine ⟨hcount, ?_, ?_, ?_, ?_, ?_⟩
  · intro hsym i j hij hj
    have := hcount i j hij hj
    rw [hsym] at this
    exact this
  · intro se hse
    have hmem : (se.src, se.tgt) ∈ rgg_pairs gen.near (m * gen.n_perbatch) := by
      rw [← halton_after_ends gen _ m]
      exact List.mem_map.2 ⟨se, hse, rfl⟩
    have := (mem_rgg_pairs _ _ _).1 hmem
    exact ⟨this.1, this.2.1⟩
  · simp
  · intro hr k
    have hr' : (0 : ℝ) ≤ (gen.radius_firstbatch : ℝ) := by exact_mod_cast hr
    have := halton_radius_antitone gen.dim hdim k
    push_cast
    exact mul_le_mul_of_nonneg_left this.le hr'
  · intro hr k
    have hr' : (gen.radius_firstbatch : ℝ) < 0 := by exact_mod_cast hr
    have := halton_radius_antitone gen.dim hdim k
    push_cast
    exact mul_lt_mul_of_neg_left this hr'

theorem RoadmapGenHaltonDens_radius_witness :
    (ex_halton.generate ⟨[], []⟩ 2).1.edges.map (fun se => (se.src, se.tgt))
      = [(1, 0), (2, 0), (2, 1), (3, 1)]
    ∧ (∀ se ∈ (ex_halton.generate ⟨[], []⟩ 2).1.edges,
        se.tgt < se.src ∧ se.src < 2 * ex_halton.n_perbatch)
    ∧ (ex_halton.radius_firstbatch : ℝ)
          * (((0 : Nat) : ℝ) + 1) ^ (-(1 / (ex_halton.dim : ℝ)))
        = ex_halton.radius_firstbatch :=
  have h := RoadmapGenHaltonDens_radius ex_halton 2 rfl (by decide)
  ⟨by decide!, h.2.2.1, h.2.2.2.1⟩

/-- C23 fails in its last part for a negative `radius_firstbatch`: with
`radius_firstbatch = -1` in one dimension the radius of batch 0 is -1 and the
radius of batch 1 is -1/2, which is larger (the test `radius < dist` lets
-3/4 pass in batch 1 and not in batch 0); no edge is created in either
batch. -/
theorem RoadmapGenHaltonDens_negative_radius_increases :
    (ex_halton_negative.radius_firstbatch : ℝ)
        * (((0 : Nat) : ℝ) + 1) ^ (-(1 / (ex_halton_negative.dim : ℝ)))
      < (ex_halton_negative.radius_firstbatch : ℝ)
        * (((1 : Nat) : ℝ) + 1) ^ (-(1 / (ex_halton_negative.dim : ℝ)))
    ∧ beyond_radius ex_halton_negative.radius_firstbatch ex_halton_negative.dim 0 (-3/4) = true
    ∧ beyond_radius ex_halton_negative.radius_firstbatch ex_halton_negative.dim 1 (-3/4) = false
    ∧ (ex_halton_negative.generate ⟨[], []⟩ 2).1.edges = [] := by
  refine ⟨?_, by decide!, by decide!, by decide!⟩
  have h1 : (ex_halton_negative.radius_firstbatch : ℝ) = -1 := by
    simp [ex_halton_negative]
  have h2 : (ex_halton_negative.dim : ℝ) = 1 := by
    simp [ex_halton_negative, ex_halton]
  rw [h1, h2]
  norm_num

/-- C25: for every argument string and every conversion between doubles and
text: when the constructor of `RoadmapGenRGG` or of `RoadmapGenHaltonDens`
returns, all fields were scanned from the string and the string is, character
for character, the canonical text of the scanned values; a string from which
not all fields are scanned ends the constructor with `bad args`, in the
Halton constructor once the space has passed its two checks, and a string
that is scanned but is not the canonical text of its values ends it with
`args not in canonical form`.  With the example conversion: the canonical
strings construct; leading zeros, a sign, a second blank, a trailing blank or
trailing characters are scanned and rejected as not canonical; a missing
field is rejected as bad args. -/
theorem generator_args_canonical (lib : DoubleText) (args : List Char) :
    (∀ space sampler_of_seed gen,
      RoadmapGenRGG.construct lib space sampler_of_seed args = .ok gen →
      ∃ seed, RoadmapGenRGG.scan_args lib args = some (gen.n, gen.radius, seed)
        ∧ args = RoadmapGenRGG.canonical_args lib gen.n gen.radius seed)
    ∧ (∀ space sampler_of_seed, RoadmapGenRGG.scan_args lib args = none →
        (RoadmapGenRGG.construct lib space sampler_of_seed args).ending = 1)
    ∧ (∀ space sampler_of_seed n radius seed,
        RoadmapGenRGG.scan_args lib args = some (n, radius, seed) →
        args ≠ RoadmapGenRGG.canonical_args lib n radius seed →
        (RoadmapGenRGG.construct lib space sampler_of_seed args).ending = 2)
    ∧ (∀ space real_vector dim low high primes gen,
        RoadmapGenHaltonDens.construct lib space real_vector dim low high primes args
          = .ok gen →
        RoadmapGenHaltonDens.scan_args lib args = some (gen.n_perbatch, gen.radius_firstbatch)
        ∧ args = RoadmapGenHaltonDens.canonical_args lib gen.n_perbatch gen.radius_firstbatch)
    ∧ (∀ space real_vector dim low high primes,
        RoadmapGenHaltonDens.scan_args lib args = none →
        (RoadmapGenHaltonDens.construct lib space real_vector dim low high primes args).ending
          ≠ 0
        ∧ (real_vector = true → get_prime primes ((dim + (2 ^ 32 - 1)) % 2 ^ 32) ≠ 0 →
            (RoadmapGenHaltonDens.construct lib space real_vector dim low high primes
              args).ending = 1))
    ∧ (∀ space real_vector dim low high primes n_perbatch radius_firstbatch,
        RoadmapGenHaltonDens.scan_args lib args = some (n_perbatch, radius_firstbatch) →
        args ≠ RoadmapGenHaltonDens.canonical_args lib n_perbatch radius_firstbatch →
        (RoadmapGenHaltonDens.construct lib space real_vector dim low high primes args).ending
          ≠ 0
        ∧ (real_vector = true → get_prime primes ((dim + (2 ^ 32 - 1)) % 2 ^ 32) ≠ 0 →
            (RoadmapGenHaltonDens.construct lib space real_vector dim low high primes
              args).ending = 2))
    ∧ ((RoadmapGenRGG.construct ex_double_text ex_space ex_sampler_of_seed
          "n=7 radius=1.5 seed=5".toList).ending = 0
      ∧ (RoadmapGenRGG.construct ex_double_text ex_space ex_sampler_of_seed
          "n=007 radius=1.5 seed=5".toList).ending = 2
      ∧ (RoadmapGenRGG.construct ex_double_text ex_space ex_sampler_of_seed
          "n=+7 radius=1.5 seed=5".toList).ending = 2
      ∧ (RoadmapGenRGG.construct ex_double_text ex_space ex_sampler_of_seed
          "n=7  radius=1.5 seed=5".toList).ending = 2
      ∧ (RoadmapGenRGG.construct ex_double_text ex_space ex_sampler_of_seed
          "n=7 radius=1.5 seed=5 ".toList).ending = 2
      ∧ (RoadmapGenRGG.construct ex_double_text ex_space ex_sampler_of_seed
          "n=7 radius=1.5 seed=5x".toList).ending = 2
      ∧ (RoadmapGenRGG.construct ex_double_text ex_space ex_sampler_of_seed
          "n=7 radius=1.5".toList).ending = 1
      ∧ (RoadmapGenRGG.construct ex_double_text ex_space ex_sampler_of_seed
          " n=7 radius=1.5 seed=5".toList).ending = 1
      ∧ (RoadmapGenHaltonDens.construct ex_double_text ex_space true 1 [0] [1] [2, 3]
          "n_perbatch=2 radius_firstbatch=0.5".toList).ending = 0
      ∧ (RoadmapGenHaltonDens.construct ex_double_text ex_space true 1 [0] [1] [2, 3]
          "n_perbatch=02 radius_firstbatch=0.5".toList).ending = 2
      ∧ (RoadmapGenHaltonDens.construct ex_double_text ex_space true 1 [0] [1] [2, 3]
          "n_perbatch=2 radius_firstbatch=0.5 ".toList).ending = 2
      ∧ (RoadmapGenHaltonDens.construct ex_double_text ex_space true 1 [0] [1] [2, 3]
          "n_perbatch=2".toList).ending = 1) := by
  refine ⟨?_, ?_, ?_, ?_, ?_, ?_, ?_⟩
  · intro space sos gen h
    obtain ⟨seed, h1, h2, _⟩ := rgg_construct_ok lib space sos args gen h
    exact ⟨seed, h1, h2⟩
  · intro space sos h
    unfold RoadmapGenRGG.construct
    rw [h]
    rfl
  · intro space sos n radius seed h hne
    unfold RoadmapGenRGG.construct
    rw [h]
    simp only
    rw [if_pos hne]
    rfl
  · intro space rv dim low high primes gen h
    obtain ⟨h1, h2, _⟩ := halton_construct_ok lib space rv dim low high primes args gen h
    exact ⟨h1, h2⟩
  · intro space rv dim low high primes h
    unfold RoadmapGenHaltonDens.construct
    rw [h]
    constructor
    · split
      · simp [Constructed.ending]
      · split <;> simp [Constructed.ending]
    · intro hrv hp
      rw [if_neg (by simp [hrv]), if_neg hp]
      rfl
  · intro space rv dim low high primes n r h hne
    unfold RoadmapGenHaltonDens.construct
    rw [h]
    simp only
    constructor
    · split
      · simp [Constructed.ending]
      · split
        · simp [Constructed.ending]
        · simp [Constructed.ending]
    · intro hrv hp
      rw [if_neg (by simp [hrv]), if_neg hp, if_pos hne]
      rfl
  · decide!


/-! ## The overlay through solve -/

/-- C30: `solve` leaves the overlay graph as `setProblemDefinition` built it.
For a planner whose core graph is closed and a generator that keeps it
closed, the planner after `solve` (however the call ends, after any number
of densifications) has an overlay graph with the same structure as right
after `setProblemDefinition`: two roots and one anchor and one edge for each
anchor triple found then, edge `eo` from its root to anchor `2 + eo`, the
anchor on the core vertex found then, which is a vertex that was in the
graph at `setProblemDefinition`.  When the overlay is applied at the end
(it is unless `generate` threw), the two roots are the last two core
vertices, the last core edges are exactly the anchor edges, one for each
anchor triple in order, from the root's core vertex to the anchored core
vertex, and no other core edge has an end at a root: a vertex added by a
densification is never joined to the start or the goal. -/
theorem solve_keeps_overlay (ptc : PlannerTerminationCondition) (fuel : Nat)
    (p : FamilyPlanner σ) (pdef : ProblemDefinition)
    (hm : p.overlay_manager.is_applied = false → p.overlay_manager = ⟨false, [], []⟩)
    (hV : p.g.vertices.length ≤ null_vertex)
    (hc : (overlay_unapply (retarget p pdef)).g.closed = true)
    (hgen : p.roadmap_gen.keeps_closed) :
    same_overlay (setProblemDefinition p pdef).og
      (solve ptc fuel (setProblemDefinition p pdef)).planner.og
    ∧ (solve ptc fuel (setProblemDefinition p pdef)).planner.og.vertices.length
        = 2 + (anchor_triples (overlay_unapply (retarget p pdef)) pdef).length
    ∧ (solve ptc fuel (setProblemDefinition p pdef)).planner.og.edges.length
        = (anchor_triples (overlay_unapply (retarget p pdef)) pdef).length
    ∧ (∀ eo, eo < (anchor_triples (overlay_unapply (retarget p pdef)) pdef).length →
        (solve ptc fuel (setProblemDefinition p pdef)).planner.og.source eo
          = ((anchor_triples (overlay_unapply (retarget p pdef)) pdef).getD eo (0, [], 0)).1
        ∧ (solve ptc fuel (setProblemDefinition p pdef)).planner.og.target eo = 2 + eo
        ∧ ((solve ptc fuel (setProblemDefinition p pdef)).planner.og.vprop (2 + eo)).core_vertex
          = ((anchor_triples (overlay_unapply (retarget p pdef)) pdef).getD eo (0, [], 0)).2.2)
    ∧ (∀ t ∈ anchor_triples (overlay_unapply (retarget p pdef)) pdef,
        t.1 ≤ 1 ∧ t.2.2 < (overlay_unapply (retarget p pdef)).g.vertices.length)
    ∧ ((solve ptc fuel (setProblemDefinition p pdef)).planner.overlay_manager.is_applied = true →
        (solve ptc fuel (setProblemDefinition p pdef)).planner.overlay_manager
          = ⟨true, [0, 1],
              List.range (anchor_triples (overlay_unapply (retarget p pdef)) pdef).length⟩
        ∧ (overlay_unapply (retarget p pdef)).g.vertices.length + 2
            ≤ (solve ptc fuel (setProblemDefinition p pdef)).planner.g.vertices.length
        ∧ ((solve ptc fuel (setProblemDefinition p pdef)).planner.og.vprop 0).core_vertex
            = (solve ptc fuel (setProblemDefinition p pdef)).planner.g.vertices.length - 2
        ∧ ((solve ptc fuel (setProblemDefinition p pdef)).planner.og.vprop 1).core_vertex
            = (solve ptc fuel (setProblemDefinition p pdef)).planner.g.vertices.length - 1
        ∧ (anchor_triples (overlay_unapply (retarget p pdef)) pdef).length
            ≤ (solve ptc fuel (setProblemDefinition p pdef)).planner.g.edges.length
        ∧ (∀ pr ∈ (solve ptc fuel (setProblemDefinition p pdef)).planner.g.skeleton.2.take
              ((solve ptc fuel (setProblemDefinition p pdef)).planner.g.edges.length
                - (anchor_triples (overlay_unapply (retarget p pdef)) pdef).length),
            pr.1 < (solve ptc fuel (setProblemDefinition p pdef)).planner.g.vertices.length - 2
            ∧ pr.2 < (solve ptc fuel (setProblemDefinition p pdef)).planner.g.vertices.length - 2)
        ∧ (solve ptc fuel (setProblemDefinition p pdef)).planner.g.skeleton.2.drop
              ((solve ptc fuel (setProblemDefinition p pdef)).planner.g.edges.length
                - (anchor_triples (overlay_unapply (retarget p pdef)) pdef).length)
            = (anchor_triples (overlay_unapply (retarget p pdef)) pdef).map (fun t =>
                ((solve ptc fuel (setProblemDefinition p pdef)).planner.g.vertices.length - 2 + t.1,
                  t.2.2))) := by
  obtain ⟨hr, hg, hog, hgr⟩ := overlay_ready_populate OverVProps.init p pdef hm hV hc
  have hP : setProblemDefinition p pdef
      = overlay_apply (populate_overlay_from OverVProps.init p pdef) := rfl
  have hPg : (setProblemDefinition p pdef).roadmap_gen = p.roadmap_gen := by
    rw [hP, (ready_apply _ hr).2.2.2.2.2.2.1]
    exact hg
  have hs0 : same_overlay (populated_overlay OverVProps.init (overlay_unapply (retarget p pdef)) pdef)
      (populate_overlay_from OverVProps.init p pdef).og := by
    rw [hog]; exact same_overlay_refl _
  have hPs : same_overlay (populated_overlay OverVProps.init (overlay_unapply (retarget p pdef)) pdef)
      (setProblemDefinition p pdef).og := by
    rw [hP]
    exact same_overlay_trans _ _ _ hs0 (ready_apply _ hr).2.2.2.2.2.2.2
  have hmain := solve_loop_prepared
    (populated_overlay OverVProps.init (overlay_unapply (retarget p pdef)) pdef)
    (overlay_unapply (retarget p pdef)).g.vertices.length fuel
    (setProblemDefinition p pdef) []
    ⟨_, hr, by rw [hP]; exact applied_like_refl _, hs0, by rw [hgr]⟩
    (by rw [hPg]; exact hgen)
  have hR : (solve ptc fuel (setProblemDefinition p pdef)).planner
      = (solve_loop fuel (setProblemDefinition p pdef) []).planner := rfl
  rw [hR]
  generalize (solve_loop fuel (setProblemDefinition p pdef) []).planner = R at hmain
  have hRs : same_overlay
      (populated_overlay OverVProps.init (overlay_unapply (retarget p pdef)) pdef) R.og := by
    rcases hmain with ⟨q, hq, hl, hs, hn⟩ | ⟨_, hs, _⟩
    · exact (prepared_shape _ _ pdef q R hq hl hs hn).1
    · exact hs
  obtain ⟨t1, t2, t3⟩ := same_overlay_populated _ _ pdef R.og hRs
  refine ⟨?_, t1, t2, t3, ?_, ?_⟩
  · obtain ⟨a1, a2, a3, a4⟩ := hPs
    obtain ⟨b1, b2, b3, b4⟩ := hRs
    exact ⟨b1.trans a1.symm, b2.trans a2.symm,
      fun eo => ⟨(b3 eo).1.trans (a3 eo).1.symm, (b3 eo).2.trans (a3 eo).2.symm⟩,
      fun vo hvo => (b4 vo hvo).trans (a4 vo hvo).symm⟩
  · intro t ht
    obtain ⟨m1, m2, _⟩ := mem_anchor_triples _ pdef t ht
    refine ⟨?_, m2⟩
    rcases m1 with ⟨h0, _⟩ | ⟨h1, _⟩ <;> omega
  · intro happ
    rcases hmain with ⟨q, hq, hl, hs, hn⟩ | ⟨_, _, hna⟩
    · exact (prepared_shape _ _ pdef q R hq hl hs hn).2
    · rw [hna] at happ
      exact Bool.noConfusion happ

/-- The frozen overlay at work: with `gen_two`, start 1 and goal 0, the one
roadmap vertex (at 1/20) anchors the goal only; the densification adds a
vertex at 19/20, within the anchor radius of the start, and the only core
edge at a root is still the goal's anchor edge. -/
theorem solve_keeps_overlay_witness :
    anchor_triples (overlay_unapply (retarget
        ((FamilyPlanner.construct (cfg_two fem_never)).getD (FamilyPlanner.blank (cfg_two fem_never)))
        ⟨0, [1], [0]⟩)) ⟨0, [1], [0]⟩ = [(1, [0], 0)]
    ∧ (solve ptc_never 2 (setProblemDefinition
        ((FamilyPlanner.construct (cfg_two fem_never)).getD (FamilyPlanner.blank (cfg_two fem_never)))
        ⟨0, [1], [0]⟩)).planner.num_subgraphs = 2
    ∧ (solve ptc_never 2 (setProblemDefinition
        ((FamilyPlanner.construct (cfg_two fem_never)).getD (FamilyPlanner.blank (cfg_two fem_never)))
        ⟨0, [1], [0]⟩)).planner.g.vertices.map (fun v => v.state) = [[1/20], [19/20], [1], [0]]
    ∧ ¬ anchor_radius < ex_space.distance [1] [19/20]
    ∧ (solve ptc_never 2 (setProblemDefinition
        ((FamilyPlanner.construct (cfg_two fem_never)).getD (FamilyPlanner.blank (cfg_two fem_never)))
        ⟨0, [1], [0]⟩)).planner.g.skeleton.2 = [(3, 0)]
    ∧ same_overlay (setProblemDefinition
        ((FamilyPlanner.construct (cfg_two fem_never)).getD (FamilyPlanner.blank (cfg_two fem_never)))
        ⟨0, [1], [0]⟩).og
      (solve ptc_never 2 (setProblemDefinition
        ((FamilyPlanner.construct (cfg_two fem_never)).getD (FamilyPlanner.blank (cfg_two fem_never)))
        ⟨0, [1], [0]⟩)).planner.og :=
  ⟨by decide!, by decide!, by decide!, by decide!, by decide!,
    (solve_keeps_overlay ptc_never 2
      ((FamilyPlanner.construct (cfg_two fem_never)).getD (FamilyPlanner.blank (cfg_two fem_never)))
      ⟨0, [1], [0]⟩ (by decide!) (by decide!) (by decide!) gen_two_keeps_closed).1⟩

/-! ## Current weights -/

/-- C26: every edge of the core graph has the `w_lazy` that
`calculate_w_lazy` computes from the tags now.  The constructor leaves a
planner that is not applied and whose effort model has no target, so that
the first `setProblemDefinition` retargets and recomputes every weight.
After `setProblemDefinition` on a planner that is not applied (as
constructed, or as `solve` leaves it when `generate` throws) or is prepared,
and that has no target yet or has current weights, the planner is prepared
and its weights are current.  On a prepared planner whose weights are
current, `wmap_get(e)` for an edge `e` of the graph leaves a prepared planner
whose weights are current, and so does the densification step of `solve`
with a generator that only adds to the graph (when `generate` throws, the
weights are current on the unapplied graph).  `solve` as a whole, whatever
the number of rounds run, leaves the weights current and the planner
prepared, or not applied when `generate` threw: every state the planner
reaches by these calls meets the conditions of the next
`setProblemDefinition`. -/
theorem w_lazy_current_invariant (p : FamilyPlanner σ) (pdef : ProblemDefinition)
    (hp : (p.overlay_manager = ⟨false, [], []⟩ ∧ p.g.closed = true) ∨ prepared p)
    (hV : p.g.vertices.length ≤ null_vertex)
    (hw : p.family_effort_model.si_target = none ∨ w_lazy_current p) :
    (prepared (setProblemDefinition p pdef) ∧ w_lazy_current (setProblemDefinition p pdef))
    ∧ (∀ P : FamilyPlanner σ, prepared P → w_lazy_current P →
        ∀ e : Edge, P.g.has_edge e = true →
          prepared (wmap_get P e).2.1 ∧ w_lazy_current (wmap_get P e).2.1)
    ∧ (∀ P : FamilyPlanner σ, prepared P → w_lazy_current P → P.roadmap_gen.extends_only →
        w_lazy_current (densify P).2 ∧ ((densify P).1 = true → prepared (densify P).2))
    ∧ (∀ (c : Config σ) (P : FamilyPlanner σ), FamilyPlanner.construct c = some P →
        P.overlay_manager = ⟨false, [], []⟩
        ∧ P.family_effort_model.si_target = none
        ∧ (c.roadmap_gen.keeps_closed → P.g.closed = true))
    ∧ (∀ (ptc : PlannerTerminationCondition) (fuel : Nat) (P : FamilyPlanner σ),
        prepared P → w_lazy_current P → P.roadmap_gen.extends_only →
        w_lazy_current (solve ptc fuel P).planner
        ∧ (prepared (solve ptc fuel P).planner
          ∨ ((solve ptc fuel P).planner.overlay_manager = ⟨false, [], []⟩
            ∧ (solve ptc fuel P).planner.g.closed = true))
        ∧ ((solve ptc fuel P).outcome ≠ .threw → prepared (solve ptc fuel P).planner)) := by
  refine ⟨w_lazy_current_setProblemDefinition OverVProps.init p pdef hp hV hw, ?_, ?_,
    construct_clean, ?_⟩
  · intro P hP hPw e he
    exact ⟨prepared_wmap_get P e hP, w_lazy_current_wmap_get P e he hPw⟩
  · intro P hP hPw hgen
    obtain ⟨q, hq, hl⟩ := hP
    exact w_lazy_current_densify q P hq hl hPw hgen
  · intro ptc fuel P hP hPw hgen
    exact solve_loop_current fuel P [] hP hPw hgen

/-- The invariant at work on the planner of `cfg_chain`.  As constructed it
has no target, and the weight stored on its edge is not current; the first
`setProblemDefinition`, for the problem from 0 to 1/10 in space 0, makes
every weight current, and a second call for the same space keeps them so.
`wmap_get` on the roadmap edge finds vertex 0 invalid, and the three edges at
vertex 0 become infinite. -/
theorem w_lazy_current_invariant_witness :
    ((FamilyPlanner.construct (cfg_chain fem_never)).getD
        (FamilyPlanner.blank (cfg_chain fem_never))).family_effort_model.si_target = none
    ∧ ((FamilyPlanner.construct (cfg_chain fem_never)).getD
        (FamilyPlanner.blank (cfg_chain fem_never))).g.edges.map (fun se => se.props.w_lazy)
      = [0]
    ∧ (setProblemDefinition
        ((FamilyPlanner.construct (cfg_chain fem_never)).getD
          (FamilyPlanner.blank (cfg_chain fem_never))) ⟨0, [0], [1/10]⟩).g.skeleton
      = (4, [(0, 1), (2, 0), (2, 1), (3, 0), (3, 1)])
    ∧ (setProblemDefinition
        ((FamilyPlanner.construct (cfg_chain fem_never)).getD
          (FamilyPlanner.blank (cfg_chain fem_never))) ⟨0, [0], [1/10]⟩).g.edges.map
        (fun se => se.props.w_lazy)
      = [((1/10 : ℚ) : WithTop ℚ), 0, ((1/10 : ℚ) : WithTop ℚ), ((1/10 : ℚ) : WithTop ℚ), 0]
    ∧ (wmap_get (setProblemDefinition
        ((FamilyPlanner.construct (cfg_chain fem_never)).getD
          (FamilyPlanner.blank (cfg_chain fem_never))) ⟨0, [0], [1/10]⟩)
        ⟨0, 1, 0⟩).2.1.g.edges.map (fun se => se.props.w_lazy)
      = [⊤, ⊤, ((1/10 : ℚ) : WithTop ℚ), ⊤, 0]
    ∧ w_lazy_current (setProblemDefinition
        ((FamilyPlanner.construct (cfg_chain fem_never)).getD
          (FamilyPlanner.blank (cfg_chain fem_never))) ⟨0, [0], [1/10]⟩)
    ∧ w_lazy_current (setProblemDefinition (setProblemDefinition
        ((FamilyPlanner.construct (cfg_chain fem_never)).getD
          (FamilyPlanner.blank (cfg_chain fem_never))) ⟨0, [0], [1/10]⟩) ⟨0, [0], [1/10]⟩)
    ∧ w_lazy_current (wmap_get (setProblemDefinition
        ((FamilyPlanner.construct (cfg_chain fem_never)).getD
          (FamilyPlanner.blank (cfg_chain fem_never))) ⟨0, [0], [1/10]⟩) ⟨0, 1, 0⟩).2.1
    ∧ w_lazy_current (densify (wmap_get (setProblemDefinition
        ((FamilyPlanner.construct (cfg_chain fem_never)).getD
          (FamilyPlanner.blank (cfg_chain fem_never))) ⟨0, [0], [1/10]⟩) ⟨0, 1, 0⟩).2.1).2
    ∧ w_lazy_current (solve ptc_never 5 (setProblemDefinition
        ((FamilyPlanner.construct (cfg_chain fem_never)).getD
          (FamilyPlanner.blank (cfg_chain fem_never))) ⟨0, [0], [1/10]⟩)).planner := by
  have h := w_lazy_current_invariant
    ((FamilyPlanner.construct (cfg_chain fem_never)).getD
      (FamilyPlanner.blank (cfg_chain fem_never))) ⟨0, [0], [1/10]⟩
    (Or.inl ⟨by decide!, by decide!⟩) (by decide!) (Or.inl (by decide!))
  have hgen : (setProblemDefinition
        ((FamilyPlanner.construct (cfg_chain fem_never)).getD
          (FamilyPlanner.blank (cfg_chain fem_never))) ⟨0, [0], [1/10]⟩).roadmap_gen.extends_only := by
    rw [setProblemDefinition_gen, construct_gen]
    exact gen_chain_extends_only
  have h2 := h.2.1 _ h.1.1 h.1.2 ⟨0, 1, 0⟩ (by decide!)
  have h3 := w_lazy_current_invariant _ ⟨0, [0], [1/10]⟩ (Or.inr h.1.1) (by decide!)
    (Or.inr h.1.2)
  exact ⟨by decide!, by decide!, by decide!, by decide!, by decide!, h.1.2, h3.1.2, h2.2,
    (h.2.2.1 _ h2.1 h2.2 (by rw [wmap_get_gen]; exact hgen)).1,
    (h.2.2.2.2 ptc_never 5 _ h.1.1 h.1.2 hgen).1⟩


end MultisetPlanning
